import Mathlib

/-!
# compileDFA: a shallow embedding of the DFA compiler

The definitions below are translated from `src/src/*.c` and `src/include/*.h`.

Modelling conventions.

* A C string is the list of its bytes before the terminating NUL (`CStr`), a byte is a
  natural number. `strlen` is `List.length`, `strcmp(a, b) == 0` is `a = b`, and
  `strchr(s, c)` with `c != 0` is `c ∈ s`. Where a `char` is used as an array index
  (`transitions[s][(int)c]`) it is taken with its byte value: this is exact for the bytes
  1..127 under every ABI, and the theorems about the effect of a write to the table are
  stated for these bytes. Where a `char` is added to a number (`hash`) it is taken as the
  signed `char` that it is for gcc on x86-64 (`charAt`).
* The parser copies a run of bytes to its array first and checks the length afterwards.
  The definitions give the result of the check; they are the code where the run fits the
  array (`metaFits`, `attributeFits`, `contentFits`), and the theorems about the end of a
  run of the parser are stated there.
* Every `errorIf` / `errorUnless` / `ASSERT_*` that fires ends the process (`exit(1)` in
  `logging.c`). A function that can end the process returns `Except Fatal _`; the error
  value names the diagnostic that was printed. `say` and `warning` only write to the log
  and are left out.
* An array with a separate element count whose cells past the count are never read is a
  list (`children`/`nChildren`, `attributes->array`/`size`, `tree->nodes`/`size`, one
  row of the name table with its `nSameHashes` entry, `states->array`/`nStates`).
* The buffer of an automaton belongs to the caller and `initialize_dfa` clears neither
  the state array nor the transition matrix, while `toC_dfa` reads cells that the builder
  never wrote. A `DeterministicFiniteAutomaton` therefore records what was written since
  `initialize_dfa`, and a `Memory` holds the contents of the other cells; the functions
  that read such cells take the `Memory` as an argument.
* A pointer to an `XmlNode` is the index of the node in `tree->nodes`; following an index
  that is not in the tree is reported as the null-pointer diagnostic.
* `fromPattern(buf, cap, fmt, ...)` is modelled on the formatted text: it yields the text
  when it is shorter than `cap` and ends the process otherwise.
-/

namespace CompileDFA

/-! ## Strings and diagnostics -/

/-- C string: the bytes before the terminating NUL. -/
abbrev CStr := List Nat

/-- The bytes of a string literal of the source. -/
def bytes (s : String) : CStr := s.toList.map Char.toNat

/-- The diagnostics that end the process (`constants.h`, `MSG_ERROR_*`). -/
inductive Fatal where
  /-- `MSG_ERROR_NULL` -/
  | null
  /-- `MSG_ERROR_EMPTY` -/
  | empty
  /-- `MSG_ERROR_NOT_EMPTY` -/
  | notEmpty
  /-- `MSG_ERROR_ZERO` -/
  | zero
  /-- `MSG_NOT_EQUAL` -/
  | notEqual
  /-- `MSG_ERROR_STR_TOO_LONG` -/
  | tooLong
  /-- `MSG_ERROR_OUT_OF_BOUNDS` -/
  | outOfBounds
  /-- `MSG_ERROR_SYNTAX(msg)` -/
  | syntaxError (msg : String)
  /-- Not a diagnostic of the program: a loop counter of the model ran out. The parser
  is run with a counter that exceeds the length of its input, and every iteration of its
  loops consumes input. -/
  | outOfFuel
  deriving DecidableEq, Repr

instance instDecidableEqExcept {ε α : Type} [DecidableEq ε] [DecidableEq α] :
    DecidableEq (Except ε α)
  | .ok a, .ok b =>
    if h : a = b then isTrue (by rw [h]) else isFalse (by intro h2; cases h2; exact h rfl)
  | .error a, .error b =>
    if h : a = b then isTrue (by rw [h]) else isFalse (by intro h2; cases h2; exact h rfl)
  | .ok _, .error _ => isFalse (by intro h; cases h)
  | .error _, .ok _ => isFalse (by intro h; cases h)

/-! ## Build-time constants (`constants.h`, `dfa.h`, `hashtable.h`) -/

def BUFFER_LARGE_SIZE : Nat := 131072
def LOG_SAY_MAX : Nat := 8192
def BUFFER_SIZE : Nat := LOG_SAY_MAX
def XML_MAX_TAG_SIZE : Nat := 32
def XML_MAX_CONTENT_SIZE : Nat := 256
def XML_MAX_CHILDREN : Nat := 32
def XML_MAX_NODES : Nat := 1024
def XML_MAX_ATTRIBUTES : Nat := 32
def XML_MAX_ATTRIBUTE_NAME_SIZE : Nat := 32
def XML_MAX_ATTRIBUTE_VAL_SIZE : Nat := 256
def XML_META_MAX_SIZE : Nat := 250
def DFA_MAX_NAME_SIZE : Nat := 30
def DFA_MAX_STATES : Nat := 100
def DFA_MAX_SYMBOLS : Nat := 256
def DFA_DEFAULT_ACCEPT : Int := 0
def DFA_DEFAULT_INITIAL_STATE_ID : Nat := 0
def HT_ROW_COUNT : Nat := 16000
def HT_MAX_KEYS : Nat := 2000
def HT_MAX_KEY_SIZE : Nat := DFA_MAX_NAME_SIZE
def HT_MAX_SAME_HASHES : Nat := 15

/-! ## Assertions (`debug.h`) -/

/-- `ASSERT_NOT_EMPTY(str)`: `errorIf(!strcmp(str,""), MSG_ERROR_EMPTY(str))`. -/
def ASSERT_NOT_EMPTY (str : CStr) : Except Fatal Unit :=
  if str = [] then .error .empty else .ok ()

/-- `ASSERT_EMPTY(str)`: `errorUnless(!strcmp(str,""), MSG_ERROR_NOT_EMPTY(str))`. -/
def ASSERT_EMPTY (str : CStr) : Except Fatal Unit :=
  if str = [] then .ok () else .error .notEmpty

/-- `ASSERT_NOT_TOO_LONG(str,maxlen)`: `errorUnless(strlen(str) < maxlen, ...)`. -/
def ASSERT_NOT_TOO_LONG (str : CStr) (maxlen : Nat) : Except Fatal Unit :=
  if str.length < maxlen then .ok () else .error .tooLong

/-- `ASSERT_FITS_IN_BOUND(index,bound)`: `errorUnless((long)index < (long)bound, ...)`. -/
def ASSERT_FITS_IN_BOUND (index bound : Nat) : Except Fatal Unit :=
  if index < bound then .ok () else .error .outOfBounds

/-- `ASSERT_NOT_ZERO(var)`: `errorIf(!var, MSG_ERROR_ZERO(var))`. -/
def ASSERT_NOT_ZERO (var : Nat) : Except Fatal Unit :=
  if var = 0 then .error .zero else .ok ()

/-- `errorIf(errorCondition, ...)` (`logging.c`): ends the process with the given
diagnostic when the condition holds. -/
def errorIf (errorCondition : Prop) [Decidable errorCondition] (e : Fatal) : Except Fatal Unit :=
  if errorCondition then .error e else .ok ()

/-- `errorUnless(noErrorCondition, ...)` (`logging.c`). -/
def errorUnless (noErrorCondition : Prop) [Decidable noErrorCondition] (e : Fatal) :
    Except Fatal Unit :=
  if noErrorCondition then .ok () else .error e

/-- `ASSERT_EQUAL_STR(s1,s2)`: `errorUnless(!strcmp(s1,s2), MSG_NOT_EQUAL(s1,s2))`. -/
def ASSERT_EQUAL_STR (s1 s2 : CStr) : Except Fatal Unit :=
  if s1 = s2 then .ok () else .error .notEqual

/-! ## `stringplus.c` -/

/-- `fromPattern(string, capacity, pattern, ...)` on the text `formatted` that the
pattern and its arguments spell: the checks on `capacity`, then `vsnprintf`, then
`ASSERT_NOT_TOO_LONG(string, capacity)`. -/
def fromPattern (capacity : Nat) (formatted : CStr) : Except Fatal CStr := do
  ASSERT_NOT_ZERO capacity
  ASSERT_FITS_IN_BOUND capacity (BUFFER_LARGE_SIZE + 1)
  ASSERT_NOT_TOO_LONG formatted capacity
  return formatted

/-- Decimal digits of `n`, most significant first, onto `acc`. -/
def fmtUIntAux : Nat → Nat → CStr → CStr
  | 0, _, acc => acc
  | fuel + 1, n, acc =>
    if n < 10 then (48 + n) :: acc else fmtUIntAux fuel (n / 10) ((48 + n % 10) :: acc)

/-- What `%u` prints. -/
def fmtUInt (n : Nat) : CStr := fmtUIntAux (n + 1) n []

/-- What `%d` prints. -/
def fmtInt (i : Int) : CStr :=
  if i < 0 then 45 :: fmtUInt (-i).toNat else fmtUInt i.toNat

/-! ## `hash.c`, `hashtable.c` -/

/-- The `unsigned long` of `w` bits that the `int c` of `hash` converts to when it is
added: `c = *str++` reads a `char`, which is signed (as it is for gcc on x86-64), so the
byte `b` above 127 is the `int` `b - 256`, and the conversion gives `b - 256` modulo
`2 ^ w`. -/
def charAt (w b : Nat) : Nat := if b < 128 then b else (2 ^ w * 256 + b - 256) % 2 ^ w

/-- One step of the loop of `hash`: `hash = ((hash << 5) + hash) + c` on a 64-bit
`unsigned long`, `c` being the `int` read from a `char`. -/
def hashStep (h c : Nat) : Nat :=
  (((h * 32) % 2 ^ 64 + h) % 2 ^ 64 + charAt 64 c) % 2 ^ 64

/-- `hash(str)`: `for (hash = 5381; (c = *str++); hash = ((hash << 5) + hash) + c);`. -/
def hash (str : CStr) : Nat := str.foldl hashStep 5381

/-- `Mapping` (`mapping.h`); the `Object` value is read and written as `asUInt` only. -/
structure Mapping where
  key : CStr
  value : Nat
  deriving DecidableEq, Repr

/-- `HashTable` (`hashtable.h`): `map r` is row `r` up to its count `nSameHashes[r]`. The
key pool `keys` is only written, each mapping keeps the key it points to. -/
structure HashTable where
  nKeys : Nat
  map : Nat → List Mapping

/-- `ASSERT_HASHTABLE(ht)`. -/
def ASSERT_HASHTABLE (ht : HashTable) : Except Fatal Unit :=
  ASSERT_FITS_IN_BOUND ht.nKeys HT_MAX_KEYS

/-- `initialize_ht(NULL)`: all counts zero. -/
def initialize_ht : HashTable := { nKeys := 0, map := fun _ => [] }

/-- The scan of one row in `insert_ht`: replace the value of the first mapping whose
key is `key`; `none` when the row has no such mapping. -/
def replaceInRow (key : CStr) (value : Nat) : List Mapping → Option (List Mapping)
  | [] => none
  | m :: ms =>
    if m.key = key then some ({ m with value := value } :: ms)
    else (replaceInRow key value ms).map (m :: ·)

/-- The scan of one row in `get_ht`: the value of the first mapping whose key is `key`. -/
def findInRow (key : CStr) : List Mapping → Option Nat
  | [] => none
  | m :: ms => if m.key = key then some m.value else findInRow key ms

/-- `insert_ht(ht, key, value)`. -/
def insert_ht (ht : HashTable) (key : CStr) (value : Nat) : Except Fatal HashTable := do
  ASSERT_HASHTABLE ht
  ASSERT_NOT_TOO_LONG key HT_MAX_KEY_SIZE
  let hashValue := hash key % HT_ROW_COUNT
  match replaceInRow key value (ht.map hashValue) with
  | some row => return { ht with map := Function.update ht.map hashValue row }
  | none =>
    ASSERT_FITS_IN_BOUND ((ht.map hashValue).length + 1) HT_MAX_SAME_HASHES
    let k ← fromPattern HT_MAX_KEY_SIZE key
    let ht1 : HashTable :=
      { nKeys := ht.nKeys + 1
        map := Function.update ht.map hashValue (ht.map hashValue ++ [⟨k, value⟩]) }
    ASSERT_HASHTABLE ht1
    return ht1

/-- `get_ht(ht, key)`: `none` is the NULL result. -/
def get_ht (ht : HashTable) (key : CStr) : Except Fatal (Option Nat) := do
  ASSERT_HASHTABLE ht
  ASSERT_NOT_TOO_LONG key HT_MAX_KEY_SIZE
  return findInRow key (ht.map (hash key % HT_ROW_COUNT))

/-! ## `dfa.h`, `dfa.c`: the automaton model -/

/-- `DFAState` (`dfa.h`). -/
structure DFAState where
  id : Nat
  name : CStr
  isAccept : Int
  deriving DecidableEq, Repr

/-- What the caller's buffer held in the cells of `states->array` and of `transitions`
before it was handed to `initialize_dfa`, which clears neither. -/
structure Memory where
  array : Nat → DFAState
  transitions : Nat → Nat → Nat

/-- `DeterministicFiniteAutomaton` (`dfa.h`). `states` is `states->array` up to
`states->nStates`. `transitions s c` is `some k` when `transitions[s][c]` holds `k`, and
`none` when the cell was not written since `initialize_dfa`: such a cell, like a cell
of the state array past `nStates`, holds what the `Memory` holds. -/
structure DeterministicFiniteAutomaton where
  name : CStr
  alphabet : CStr
  states : List DFAState
  initialStateId : Nat
  transitions : Nat → Nat → Option Nat

abbrev DFA := DeterministicFiniteAutomaton

/-- `dfa->states->nStates`. -/
def DeterministicFiniteAutomaton.nStates (dfa : DFA) : Nat := dfa.states.length

/-- The cell `dfa->states->array[i]`. -/
def stateAt (mem : Memory) (dfa : DFA) (i : Nat) : DFAState :=
  (dfa.states[i]?).getD (mem.array i)

/-- The cell `dfa->transitions[s][c]`. -/
def cellAt (mem : Memory) (dfa : DFA) (s c : Nat) : Nat :=
  (dfa.transitions s c).getD (mem.transitions s c)

/-- `ASSERT_NOT_NULL(ptr)` on a pointer that may be NULL. -/
def ASSERT_NOT_NULL {α : Type} (ptr : Option α) : Except Fatal α :=
  match ptr with
  | some a => .ok a
  | none => .error .null

/-- `ASSERT_DFASTATE(state)` on a state that is not NULL. -/
def ASSERT_DFASTATE (state : DFAState) : Except Fatal Unit := do
  ASSERT_NOT_EMPTY state.name
  ASSERT_NOT_TOO_LONG state.name DFA_MAX_NAME_SIZE
  ASSERT_FITS_IN_BOUND state.id DFA_MAX_STATES

/-- `ASSERT_DFA(dfa)`. -/
def ASSERT_DFA (dfa : DFA) : Except Fatal Unit := do
  ASSERT_NOT_EMPTY dfa.name
  ASSERT_NOT_TOO_LONG dfa.name DFA_MAX_NAME_SIZE
  ASSERT_NOT_EMPTY dfa.alphabet
  ASSERT_NOT_TOO_LONG dfa.alphabet DFA_MAX_SYMBOLS
  ASSERT_FITS_IN_BOUND dfa.nStates DFA_MAX_STATES
  ASSERT_FITS_IN_BOUND dfa.initialStateId DFA_MAX_STATES

/-- `initialize_dfa(dfa)`: name `DFA_DEFAULT_NAME`, alphabet `DFA_DEFAULT_ALPHABET`, no
state, initial id 0, no cell written. -/
def initialize_dfa : Except Fatal DFA := do
  let name ← fromPattern DFA_MAX_NAME_SIZE (bytes "DFA")
  ASSERT_NOT_EMPTY name
  let alphabet ← fromPattern DFA_MAX_SYMBOLS (bytes "ABC")
  ASSERT_NOT_EMPTY alphabet
  let dfa : DFA :=
    { name := name, alphabet := alphabet, states := [],
      initialStateId := DFA_DEFAULT_INITIAL_STATE_ID, transitions := fun _ _ => none }
  ASSERT_FITS_IN_BOUND dfa.nStates DFA_MAX_STATES
  ASSERT_DFA dfa
  return dfa

/-- `insertState_dfa(dfa)`: the automaton with one more state and the index of that
state (the returned pointer `s`). `getNew_dfasa` checks the count before and after
the increment. -/
def insertState_dfa (dfa : DFA) : Except Fatal (DFA × Nat) := do
  ASSERT_DFA dfa
  ASSERT_FITS_IN_BOUND dfa.nStates DFA_MAX_STATES
  let s := dfa.nStates
  ASSERT_FITS_IN_BOUND (dfa.nStates + 1) DFA_MAX_STATES
  -- The new cell is counted before it is written; `ASSERT_DFA` does not read it.
  let blank : DFAState := { id := 0, name := [], isAccept := 0 }
  let dfa0 : DFA := { dfa with states := dfa.states ++ [blank] }
  ASSERT_DFA dfa0
  let id := dfa0.nStates - 1
  let name ← fromPattern DFA_MAX_NAME_SIZE (bytes "s" ++ fmtUInt id)
  ASSERT_NOT_EMPTY name
  let st : DFAState := { id := id, name := name, isAccept := DFA_DEFAULT_ACCEPT }
  ASSERT_DFASTATE st
  return ({ dfa with states := dfa.states ++ [st] }, s)

/-- `insertTransition_dfa(dfa, sourceId, sinkId, with)`: the automaton and the `int`
that is returned. The cell is named by the byte `with`. The C code indexes the row with
`(int)with`, and `with` is a `char`: for a byte below 128 that index is the byte, and the
definition is the code. For a byte above 127 the index is negative where `char` is
signed, and the cell that is written lies before the row: for `sourceId = 0` it is
`initialStateId` (byte 255), `nStates` (byte 254) or a cell of the state array, which
this definition leaves as they are. The theorems about the effect of the write are stated
for bytes below 128. -/
def insertTransition_dfa (dfa : DFA) (sourceId sinkId : Nat) (w : Nat) :
    Except Fatal (DFA × Nat) := do
  ASSERT_DFA dfa
  ASSERT_FITS_IN_BOUND sourceId dfa.nStates
  ASSERT_FITS_IN_BOUND sinkId dfa.nStates
  ASSERT_NOT_ZERO w
  let src ← ASSERT_NOT_NULL dfa.states[sourceId]?
  let sink ← ASSERT_NOT_NULL dfa.states[sinkId]?
  ASSERT_DFASTATE src
  ASSERT_DFASTATE sink
  if w ∈ dfa.alphabet then
    return ({ dfa with
              transitions :=
                Function.update dfa.transitions sourceId
                  (Function.update (dfa.transitions sourceId) w (some sinkId)) }, 1)
  else
    return (dfa, 0)

/-! ## `xml.h`: the document tree -/

/-- `XmlAttribute` (`xml.h`); `value` is the decoded value. -/
structure XmlAttribute where
  name : CStr
  value : CStr
  deriving DecidableEq, Repr

/-- `XmlNode` (`xml.h`). `children` are indices into `tree->nodes`, `nChildren` is
`children.length`, `attributes->size` is `attributes.length`. -/
structure XmlNode where
  parent : Option Nat
  tag : CStr
  content : List CStr
  children : List Nat
  attributes : List XmlAttribute
  deriving DecidableEq, Repr

/-- `Xml` (`xml.h`): `nodes` is `tree->nodes` up to `tree->size`. -/
structure Xml where
  meta : CStr
  nodes : List XmlNode
  deriving DecidableEq, Repr

/-- `ASSERT_XMLATTRIBUTE(attribute)`. -/
def ASSERT_XMLATTRIBUTE (attr : XmlAttribute) : Except Fatal Unit := do
  ASSERT_NOT_EMPTY attr.name
  ASSERT_NOT_TOO_LONG attr.name XML_MAX_ATTRIBUTE_NAME_SIZE
  ASSERT_NOT_TOO_LONG attr.value XML_MAX_ATTRIBUTE_VAL_SIZE

/-- `ASSERT_XMLNODE(node)` on a node that is not NULL. -/
def ASSERT_XMLNODE (node : XmlNode) : Except Fatal Unit := do
  ASSERT_NOT_EMPTY node.tag
  ASSERT_NOT_TOO_LONG node.tag XML_MAX_TAG_SIZE
  ASSERT_FITS_IN_BOUND node.children.length XML_MAX_CHILDREN
  ASSERT_FITS_IN_BOUND node.attributes.length XML_MAX_ATTRIBUTES

/-- `ASSERT_XML(xml)`. -/
def ASSERT_XML (xml : Xml) : Except Fatal Unit := do
  ASSERT_NOT_TOO_LONG xml.meta XML_META_MAX_SIZE
  ASSERT_FITS_IN_BOUND xml.nodes.length XML_MAX_NODES

/-- Following a node pointer. -/
def getNode (xml : Xml) (p : Nat) : Except Fatal XmlNode :=
  match xml.nodes[p]? with
  | some node => .ok node
  | none => .error .null

/-! ## `dfa.c`: the builder `fromXml_dfa` -/

/-- The loop over `root->attributes` in `fromXml_dfa`. The state is the automaton,
`isAlphabetPredefined` and the offset of `alphabetEnd` in `dfa->alphabet`. -/
def attributesLoop : List XmlAttribute → DFA → Bool → Nat → Except Fatal (DFA × Bool × Nat)
  | [], dfa, isAlphabetPredefined, alphabetEnd => .ok (dfa, isAlphabetPredefined, alphabetEnd)
  | attr :: rest, dfa, isAlphabetPredefined, alphabetEnd => do
    ASSERT_XMLATTRIBUTE attr
    if attr.name = bytes "name" then
      let check ← fromPattern DFA_MAX_NAME_SIZE attr.value
      ASSERT_NOT_EMPTY check
      attributesLoop rest { dfa with name := check } isAlphabetPredefined alphabetEnd
    else if attr.name = bytes "alphabet" then
      let check ← fromPattern DFA_MAX_SYMBOLS attr.value
      ASSERT_NOT_EMPTY check
      attributesLoop rest { dfa with alphabet := check } true (alphabetEnd + check.length)
    else
      attributesLoop rest dfa isAlphabetPredefined alphabetEnd

/-- The three locals `states`, `initialState`, `transitions` of `fromXml_dfa`. -/
structure RootChildren where
  states : Option XmlNode
  initialState : Option XmlNode
  transitions : Option XmlNode
  deriving DecidableEq, Repr

/-- The loop over `root->children` in `fromXml_dfa`. -/
def rootChildrenLoop (xml : Xml) : List Nat → RootChildren → Except Fatal RootChildren
  | [], rc => .ok rc
  | i :: rest, rc => do
    let node ← getNode xml i
    ASSERT_XMLNODE node
    if node.tag = bytes "states" then
      rootChildrenLoop xml rest { rc with states := some node }
    else if node.tag = bytes "initialState" then
      rootChildrenLoop xml rest { rc with initialState := some node }
    else if node.tag = bytes "transitions" then
      rootChildrenLoop xml rest { rc with transitions := some node }
    else
      rootChildrenLoop xml rest rc

/-- The loop over the children of one `accept` / `reject` element (index `j`). -/
def stateLoop (xml : Xml) (isAccept : Int) :
    List Nat → DFA → HashTable → Except Fatal (DFA × HashTable)
  | [], dfa, ht => .ok (dfa, ht)
  | j :: rest, dfa, ht => do
    let state ← getNode xml j
    ASSERT_XMLNODE state
    let (dfa1, s) ← insertState_dfa dfa
    let st0 ← ASSERT_NOT_NULL dfa1.states[s]?
    ASSERT_DFASTATE st0
    let check ← fromPattern DFA_MAX_NAME_SIZE state.tag
    ASSERT_NOT_EMPTY check
    let st : DFAState := { st0 with isAccept := isAccept, name := check }
    let dfa2 : DFA := { dfa1 with states := dfa1.states.set s st }
    -- Map the state name to the state index.
    let ht1 ← insert_ht ht st.name st.id
    ASSERT_HASHTABLE ht1
    stateLoop xml isAccept rest dfa2 ht1

/-- The loop over `states->children` (index `i`). -/
def stateGroupLoop (xml : Xml) : List Nat → DFA → HashTable → Except Fatal (DFA × HashTable)
  | [], dfa, ht => .ok (dfa, ht)
  | i :: rest, dfa, ht => do
    let node ← getNode xml i
    ASSERT_XMLNODE node
    let isAccept : Int := if node.tag = bytes "accept" then 1 else 0
    let isReject : Int := if node.tag = bytes "reject" then 1 else 0
    if isAccept = 0 ∧ isReject = 0 then
      stateGroupLoop xml rest dfa ht
    else
      let (dfa1, ht1) ← stateLoop xml isAccept node.children dfa ht
      stateGroupLoop xml rest dfa1 ht1

/-- The loop over the bytes of `to->content[0]` (pointer `with`, here `w`). -/
def symbolLoop (isAlphabetPredefined : Bool) (sourceId sinkId : Nat) :
    CStr → DFA → Nat → Except Fatal (DFA × Nat)
  | [], dfa, alphabetEnd => .ok (dfa, alphabetEnd)
  | w :: rest, dfa, alphabetEnd => do
    let (dfa1, alphabetEnd1) ←
      if w ∈ dfa.alphabet then
        (pure (dfa, alphabetEnd) : Except Fatal (DFA × Nat))
      else do
        -- The alphabet must NOT be predefined.
        errorIf (isAlphabetPredefined = true)
          (Fatal.syntaxError "Encountered symbol outside the alphabet!")
        let appended ← fromPattern 2 [w]
        ASSERT_NOT_EMPTY appended
        pure ({ dfa with alphabet := dfa.alphabet.take alphabetEnd ++ appended },
              alphabetEnd + 1)
    let (dfa2, result) ← insertTransition_dfa dfa1 sourceId sinkId w
    ASSERT_NOT_ZERO result
    symbolLoop isAlphabetPredefined sourceId sinkId rest dfa2 alphabetEnd1

/-- The loop over `from->children` (index `j`); `sink` is the local `to`. -/
def sinkLoop (xml : Xml) (ht : HashTable) (isAlphabetPredefined : Bool) (sourceId : Nat) :
    List Nat → DFA → Nat → Except Fatal (DFA × Nat)
  | [], dfa, alphabetEnd => .ok (dfa, alphabetEnd)
  | j :: rest, dfa, alphabetEnd => do
    let sink ← getNode xml j
    ASSERT_XMLNODE sink
    let obj ← get_ht ht sink.tag
    let sinkId ← ASSERT_NOT_NULL obj
    ASSERT_FITS_IN_BOUND sinkId dfa.nStates
    let (dfa1, alphabetEnd1) ←
      symbolLoop isAlphabetPredefined sourceId sinkId (sink.content.getD 0 []) dfa alphabetEnd
    sinkLoop xml ht isAlphabetPredefined sourceId rest dfa1 alphabetEnd1

/-- The loop over `transitions->children` (index `i`); `src` is the local `from`. -/
def sourceLoop (xml : Xml) (ht : HashTable) (isAlphabetPredefined : Bool) :
    List Nat → DFA → Nat → Except Fatal (DFA × Nat)
  | [], dfa, alphabetEnd => .ok (dfa, alphabetEnd)
  | i :: rest, dfa, alphabetEnd => do
    let src ← getNode xml i
    ASSERT_XMLNODE src
    let obj ← get_ht ht src.tag
    let sourceId ← ASSERT_NOT_NULL obj
    ASSERT_FITS_IN_BOUND sourceId dfa.nStates
    let (dfa1, alphabetEnd1) ←
      sinkLoop xml ht isAlphabetPredefined sourceId src.children dfa alphabetEnd
    sourceLoop xml ht isAlphabetPredefined rest dfa1 alphabetEnd1

/-- `fromXml_dfa(dfa, xml)`. -/
def fromXml_dfa (xml : Xml) : Except Fatal DFA := do
  ASSERT_XML xml
  let dfa0 ← initialize_dfa
  ASSERT_DFA dfa0
  let ht0 := initialize_ht
  ASSERT_HASHTABLE ht0
  -- Clear the alphabet.
  let dfa1 : DFA := { dfa0 with alphabet := [] }
  let root ← getNode xml 0
  ASSERT_EQUAL_STR root.tag (bytes "dfa")
  let (dfa2, isAlphabetPredefined, alphabetEnd) ← attributesLoop root.attributes dfa1 false 0
  errorUnless (root.children.length = 3) (Fatal.syntaxError
      "DFA must have exactly 3 children, <states>, <initialState>, <transitions>")
  let rc ← rootChildrenLoop xml root.children ⟨none, none, none⟩
  let states ← ASSERT_NOT_NULL rc.states
  ASSERT_XMLNODE states
  ASSERT_FITS_IN_BOUND states.children.length 3
  let (dfa3, ht) ← stateGroupLoop xml states.children dfa2 ht0
  let initialState ← ASSERT_NOT_NULL rc.initialState
  ASSERT_XMLNODE initialState
  errorUnless (initialState.children.length = 1) (Fatal.syntaxError "There has to be EXACTLY one initial state!")
  let node ← getNode xml (initialState.children.getD 0 0)
  ASSERT_XMLNODE node
  let obj ← get_ht ht node.tag
  let initialStateId ← ASSERT_NOT_NULL obj
  let dfa4 : DFA := { dfa3 with initialStateId := initialStateId }
  ASSERT_FITS_IN_BOUND dfa4.initialStateId dfa4.nStates
  let transitions ← ASSERT_NOT_NULL rc.transitions
  ASSERT_XMLNODE transitions
  let (dfa5, _) ← sourceLoop xml ht isAlphabetPredefined transitions.children dfa4 alphabetEnd
  return dfa5

/-- The locals of `fromXml_dfa` that its loop over `transitions->children` reads. -/
structure BuildState where
  dfa : DFA
  ht : HashTable
  isAlphabetPredefined : Bool
  alphabetEnd : Nat
  transitions : XmlNode

/-- The body of `fromXml_dfa` up to its loop over `transitions->children`: the root
element and its attributes, the states and the initial state (`fromXml_dfa_eq` shows
that `fromXml_dfa` is this followed by the loop). -/
def fromXml_dfa_header (xml : Xml) : Except Fatal BuildState := do
  ASSERT_XML xml
  let dfa0 ← initialize_dfa
  ASSERT_DFA dfa0
  let ht0 := initialize_ht
  ASSERT_HASHTABLE ht0
  -- Clear the alphabet.
  let dfa1 : DFA := { dfa0 with alphabet := [] }
  let root ← getNode xml 0
  ASSERT_EQUAL_STR root.tag (bytes "dfa")
  let (dfa2, isAlphabetPredefined, alphabetEnd) ← attributesLoop root.attributes dfa1 false 0
  errorUnless (root.children.length = 3) (Fatal.syntaxError
      "DFA must have exactly 3 children, <states>, <initialState>, <transitions>")
  let rc ← rootChildrenLoop xml root.children ⟨none, none, none⟩
  let states ← ASSERT_NOT_NULL rc.states
  ASSERT_XMLNODE states
  ASSERT_FITS_IN_BOUND states.children.length 3
  let (dfa3, ht) ← stateGroupLoop xml states.children dfa2 ht0
  let initialState ← ASSERT_NOT_NULL rc.initialState
  ASSERT_XMLNODE initialState
  errorUnless (initialState.children.length = 1) (Fatal.syntaxError "There has to be EXACTLY one initial state!")
  let node ← getNode xml (initialState.children.getD 0 0)
  ASSERT_XMLNODE node
  let obj ← get_ht ht node.tag
  let initialStateId ← ASSERT_NOT_NULL obj
  let dfa4 : DFA := { dfa3 with initialStateId := initialStateId }
  ASSERT_FITS_IN_BOUND dfa4.initialStateId dfa4.nStates
  let transitions ← ASSERT_NOT_NULL rc.transitions
  ASSERT_XMLNODE transitions
  return ⟨dfa4, ht, isAlphabetPredefined, alphabetEnd, transitions⟩

/-! ## `dfa.c`: the code emitter `toC_dfa` -/

/-- The loop over the alphabet in `toC_dfa` (pointer `with`, here `w`); `out` is the text
between `str` and `ptr`. -/
def toC_transitionLoop (mem : Memory) (dfa : DFA) (sourceId : Nat) :
    CStr → CStr → Except Fatal CStr
  | [], out => .ok out
  | w :: rest, out => do
    let p1 ← fromPattern BUFFER_LARGE_SIZE (bytes " else if (c == '" ++ [w] ++ bytes "') \x7b\n")
    ASSERT_NOT_EMPTY p1
    let sinkId := cellAt mem dfa sourceId w
    ASSERT_FITS_IN_BOUND sinkId DFA_MAX_STATES
    let sink := stateAt mem dfa sinkId
    ASSERT_DFASTATE sink
    let p2 ← fromPattern BUFFER_LARGE_SIZE (bytes "\t\tgoto " ++ sink.name ++ bytes ";\n\t\x7d")
    ASSERT_NOT_EMPTY p2
    toC_transitionLoop mem dfa sourceId rest (out ++ p1 ++ p2)

/-- The loop over the states in `toC_dfa` (pointer `from`, here the index `k`). -/
def toC_stateLoop (mem : Memory) (dfa : DFA) : List Nat → CStr → Except Fatal CStr
  | [], out => .ok out
  | k :: rest, out => do
    let src := stateAt mem dfa k
    ASSERT_DFASTATE src
    let sourceId := src.id
    ASSERT_FITS_IN_BOUND sourceId dfa.nStates
    let p1 ← fromPattern BUFFER_LARGE_SIZE (src.name ++ bytes ": c = *str++;\n")
    ASSERT_NOT_EMPTY p1
    let p2 ← fromPattern BUFFER_LARGE_SIZE (bytes "\tif (c == '\\0') \x7b\n")
    ASSERT_NOT_EMPTY p2
    let p3 ← fromPattern BUFFER_LARGE_SIZE
      (bytes "\t\treturn " ++ fmtInt src.isAccept ++ bytes ";\n\t\x7d")
    ASSERT_NOT_EMPTY p3
    let out1 ← toC_transitionLoop mem dfa sourceId dfa.alphabet (out ++ p1 ++ p2 ++ p3)
    let p4 ← fromPattern BUFFER_LARGE_SIZE (bytes " else \x7b\n\t\treturn 0;\n\t\x7d\n")
    ASSERT_NOT_EMPTY p4
    toC_stateLoop mem dfa rest (out1 ++ p4)

/-- `toC_dfa(str, dfa)`: the text written to `str`. -/
def toC_dfa (mem : Memory) (dfa : DFA) : Except Fatal CStr := do
  ASSERT_DFA dfa
  let p0 ← fromPattern BUFFER_LARGE_SIZE
    (bytes "int " ++ dfa.name ++
      bytes "(const char* str)\n\x7b\n\tchar c;\n\tif (!str)\n\t\treturn 0;\n")
  ASSERT_NOT_EMPTY p0
  -- Go to the initial state.
  let init := stateAt mem dfa dfa.initialStateId
  ASSERT_DFASTATE init
  let p1 ← fromPattern BUFFER_LARGE_SIZE (bytes "\tgoto " ++ init.name ++ bytes ";\n")
  ASSERT_NOT_EMPTY p1
  -- Insert every state.
  let out ← toC_stateLoop mem dfa (List.range dfa.nStates) (p0 ++ p1)
  -- Finalize the function.
  let p2 ← fromPattern BUFFER_LARGE_SIZE (bytes "\x7d")
  ASSERT_NOT_EMPTY p2
  let str := out ++ p2
  ASSERT_NOT_EMPTY str
  ASSERT_NOT_TOO_LONG str BUFFER_LARGE_SIZE
  return str

/-! ## `xml.c`: the document parser -/

/-- `isspace` in the C locale: space, `\t`, `\n`, `\v`, `\f`, `\r`. -/
def isspace (c : Nat) : Bool := c = 32 || (9 ≤ c && c ≤ 13)

/-- The loop of `private_fromXmlString`: `xmlptr` is the first argument, the second is
the text written so far. Every byte is written with `fromPattern(ptr, BUFFER_SIZE, "%c", _)`. -/
def private_fromXmlString_loop : CStr → CStr → Except Fatal CStr
  | [], out => .ok out
  | 38 :: 108 :: 116 :: 59 :: rest, out => do            -- "&lt;"
    let p ← fromPattern BUFFER_SIZE [60]
    ASSERT_NOT_EMPTY p
    private_fromXmlString_loop rest (out ++ p)
  | 38 :: 103 :: 116 :: 59 :: rest, out => do            -- "&gt;"
    let p ← fromPattern BUFFER_SIZE [62]
    ASSERT_NOT_EMPTY p
    private_fromXmlString_loop rest (out ++ p)
  | 38 :: 113 :: 117 :: 111 :: 116 :: 59 :: rest, out => do   -- "&quot;"
    let p ← fromPattern BUFFER_SIZE [34]
    ASSERT_NOT_EMPTY p
    private_fromXmlString_loop rest (out ++ p)
  | 38 :: 97 :: 112 :: 111 :: 115 :: 59 :: rest, out => do    -- "&apos;"
    let p ← fromPattern BUFFER_SIZE [39]
    ASSERT_NOT_EMPTY p
    private_fromXmlString_loop rest (out ++ p)
  | 38 :: 97 :: 109 :: 112 :: 59 :: rest, out => do           -- "&amp;"
    let p ← fromPattern BUFFER_SIZE [38]
    ASSERT_NOT_EMPTY p
    private_fromXmlString_loop rest (out ++ p)
  | c :: rest, out => do
    let p ← fromPattern BUFFER_SIZE [c]
    ASSERT_NOT_EMPTY p
    private_fromXmlString_loop rest (out ++ p)

/-- `private_fromXmlString(str, xmlstr)`: the decoded text written to `str`. -/
def private_fromXmlString (xmlstr : CStr) : Except Fatal CStr := do
  ASSERT_NOT_TOO_LONG xmlstr BUFFER_SIZE
  let str ← private_fromXmlString_loop xmlstr []
  ASSERT_FITS_IN_BOUND str.length XML_MAX_CONTENT_SIZE
  return str

/-- `initialize_xml(NULL)`. -/
def initialize_xml : Except Fatal Xml := do
  let check ← fromPattern XML_META_MAX_SIZE
    (bytes "<?xml version='1.0' encoding='UTF-8' standalone='yes'?>")
  ASSERT_NOT_EMPTY check
  let xml : Xml := { meta := check, nodes := [] }
  ASSERT_FITS_IN_BOUND xml.nodes.length XML_MAX_NODES
  return xml

/-- Write through a node pointer. -/
def updateNode (xml : Xml) (p : Nat) (f : XmlNode → XmlNode) : Xml :=
  match xml.nodes[p]? with
  | some node => { xml with nodes := xml.nodes.set p (f node) }
  | none => xml

/-- `getNew_xmlna(xml->tree)` followed by `initialize_xmln(node, parent)`: the tree with
the new node in cell `tree->size` and that cell's index. The new node is registered with
its parent, then its tag, its text fragments 0..31, its child count and its attribute
count are cleared. -/
def newNode (xml : Xml) (parent : Option Nat) : Except Fatal (Xml × Nat) := do
  ASSERT_FITS_IN_BOUND xml.nodes.length XML_MAX_NODES
  let node := xml.nodes.length
  ASSERT_FITS_IN_BOUND (xml.nodes.length + 1) XML_MAX_NODES
  let fresh : XmlNode :=
    { parent := parent, tag := [], content := List.replicate (XML_MAX_CHILDREN + 1) [],
      children := [], attributes := [] }
  match parent with
  | none => return ({ xml with nodes := xml.nodes ++ [fresh] }, node)
  | some p =>
    let xml1 := updateNode xml p (fun n => { n with children := n.children ++ [node] })
    let par ← getNode xml1 p
    ASSERT_XMLNODE par
    return ({ xml1 with nodes := xml1.nodes ++ [fresh] }, node)

/-- `for (; (*ptr) && isspace(*ptr); ptr++);` -/
def skipSpaces (ptr : CStr) : CStr := ptr.dropWhile isspace

/-- The byte `*ptr` (0 at the end of the text). -/
def peek (ptr : CStr) : Nat := ptr.headD 0

/-- The loop that skips the meta nodes in `fromString_xml`; `ptr` stands behind a `<`.
The C code writes the bytes to `xml->meta` before `ASSERT_NOT_TOO_LONG` looks at their
number; the definition gives the result of that check, and is the code where the bytes
fit (`metaFits`). -/
def metaLoop : Nat → CStr → Xml → Except Fatal (CStr × Xml)
  | 0, _, _ => .error .outOfFuel
  | fuel + 1, ptr, xml =>
    if peek ptr ≠ 63 then .ok (ptr, xml)
    else do
      -- Skip everything until XML_NODE_END.
      let body := ptr.takeWhile (· ≠ 62)
      let ptr1 := ptr.dropWhile (· ≠ 62)
      ASSERT_NOT_EMPTY ptr1
      let xml1 : Xml := { xml with meta := 60 :: body ++ [peek ptr1] }
      ASSERT_NOT_TOO_LONG xml1.meta XML_META_MAX_SIZE
      -- Skip the node end.
      let ptr2 := ptr1.drop 1
      ASSERT_NOT_EMPTY ptr2
      let ptr3 := skipSpaces ptr2
      ASSERT_NOT_EMPTY ptr3
      errorUnless (peek ptr3 = 60) (Fatal.syntaxError "Expected 'XML_NODE_BEGIN'")
      let ptr4 := ptr3.drop 1
      ASSERT_NOT_EMPTY ptr4
      metaLoop fuel ptr4 xml1

/-- The loop that fills the attributes of a node in `fromString_xml`. The C code copies
the name to `attribute->name` and the bytes between the quotes to `char
xmlValue[BUFFER_SIZE]` before it looks at their number; the definition gives the result
of the checks that follow, and is the code where the bytes fit (`attributeFits`). -/
def attributeLoop : Nat → CStr → List XmlAttribute → Except Fatal (CStr × List XmlAttribute)
  | 0, _, _ => .error .outOfFuel
  | fuel + 1, ptr, attrs =>
    if peek ptr = 47 ∨ peek ptr = 62 then .ok (ptr, attrs)
    else do
      -- getNew_xattra
      ASSERT_FITS_IN_BOUND attrs.length XML_MAX_ATTRIBUTES
      ASSERT_FITS_IN_BOUND (attrs.length + 1) XML_MAX_ATTRIBUTES
      -- Fill the attribute name.
      let name := ptr.takeWhile (· ≠ 61)
      let ptr1 := ptr.dropWhile (· ≠ 61)
      ASSERT_FITS_IN_BOUND name.length XML_MAX_ATTRIBUTE_NAME_SIZE
      ASSERT_NOT_EMPTY ptr1
      -- Skip the equal sign.
      let ptr2 := ptr1.drop 1
      ASSERT_NOT_EMPTY ptr2
      -- Must begin with a quote.
      let begin_quote := peek ptr2
      errorUnless (begin_quote = 34 ∨ begin_quote = 39) (Fatal.syntaxError "Expected 'QUOTE'")
      let ptr3 := ptr2.drop 1
      ASSERT_NOT_EMPTY ptr3
      -- Fill the attribute value.
      let xmlValue := ptr3.takeWhile (· ≠ begin_quote)
      let ptr4 := ptr3.dropWhile (· ≠ begin_quote)
      ASSERT_NOT_EMPTY ptr4
      let value ← private_fromXmlString xmlValue
      let attr : XmlAttribute := { name := name, value := value }
      ASSERT_XMLATTRIBUTE attr
      -- Skip the quote.
      let ptr5 := ptr4.drop 1
      ASSERT_NOT_EMPTY ptr5
      let ptr6 := skipSpaces ptr5
      ASSERT_NOT_EMPTY ptr6
      attributeLoop fuel ptr6 (attrs ++ [attr])

/-- A byte that the tag loop of `fromString_xml` copies: not a space, not `>`, not `/`. -/
def isTagByte (c : Nat) : Bool := !isspace c && c != 62 && c != 47

/-- The locals `ptr`, `node`, `parent` of `fromString_xml` together with the tree. -/
structure ParseState where
  ptr : CStr
  xml : Xml
  node : Option Nat
  parent : Option Nat
  deriving DecidableEq, Repr

/-- The inner `while (node)` loop of `fromString_xml`: text fragments and closing tags.
On entry `node` is the index `n`. The C code copies the bytes before the next `<` to
`char xmlContent[BUFFER_SIZE]` before `private_fromXmlString` looks at their number; the
definition gives the result of that check, and is the code where the bytes fit
(`contentFits`). -/
def contentLoop : Nat → CStr → Xml → Nat → Option Nat → Except Fatal ParseState
  | 0, _, _, _, _ => .error .outOfFuel
  | fuel + 1, ptr, xml, n, parent => do
    -- Fill the content.
    let xmlContent := ptr.takeWhile (· ≠ 60)
    let ptr1 := ptr.dropWhile (· ≠ 60)
    ASSERT_NOT_EMPTY ptr1
    let node ← getNode xml n
    let text ← private_fromXmlString xmlContent
    let xml1 := updateNode xml n
      (fun nd => { nd with content := nd.content.set nd.children.length text })
    -- Skip the node begin symbol.
    let ptr2 := ptr1.drop 1
    ASSERT_NOT_EMPTY ptr2
    if peek ptr2 ≠ 47 then
      return { ptr := ptr2, xml := xml1, node := some n, parent := parent }
    else
      -- Skip the node stop.
      let ptr3 := ptr2.drop 1
      ASSERT_NOT_EMPTY ptr3
      let len := node.tag.length
      errorUnless (ptr3.take len = node.tag) (Fatal.syntaxError "Tag Mismatch")
      -- Skip the end_tag.
      let ptr4 := ptr3.drop len
      ASSERT_NOT_EMPTY ptr4
      let ptr5 := skipSpaces ptr4
      ASSERT_NOT_EMPTY ptr5
      -- Must encounter an end symbol.
      errorUnless (peek ptr5 = 62) (Fatal.syntaxError "Expected 'XML_NODE_END'")
      let ptr6 := ptr5.drop 1
      -- Go back a step.
      match parent with
      | none => return { ptr := ptr6, xml := xml1, node := none, parent := parent }
      | some p =>
        let pnode ← getNode xml1 p
        ASSERT_NOT_EMPTY ptr6
        contentLoop fuel ptr6 xml1 p pnode.parent

/-- The outer `while (node)` loop of `fromString_xml`; `ptr` stands behind a `<`. The
result is `ptr` and the tree when the loop is left. The C code copies the tag to
`node->tag` before `ASSERT_FITS_IN_BOUND` looks at its length; the definition gives the
result of that check. -/
def elementLoop : Nat → CStr → Xml → Option Nat → Except Fatal (CStr × Xml)
  | 0, _, _, _ => .error .outOfFuel
  | fuel + 1, ptr, xml, parent => do
    -- Allocate a node from the Xml tree, initialize it.
    let (xml1, n) ← newNode xml parent
    ASSERT_FITS_IN_BOUND xml1.nodes.length XML_MAX_NODES
    -- Fill the tag information.
    let tag := ptr.takeWhile isTagByte
    let ptr1 := ptr.dropWhile isTagByte
    let xml2 := updateNode xml1 n (fun nd => { nd with tag := tag })
    ASSERT_FITS_IN_BOUND tag.length XML_MAX_TAG_SIZE
    ASSERT_NOT_EMPTY ptr1
    let ptr2 := skipSpaces ptr1
    ASSERT_NOT_EMPTY ptr2
    -- Fill the attributes.
    let (ptr3, attrs) ← attributeLoop (ptr2.length + 1) ptr2 []
    let xml3 := updateNode xml2 n (fun nd => { nd with attributes := attrs })
    let afterStop : Except Fatal (CStr × Option (Nat × Option Nat)) :=
      if peek ptr3 = 47 then do
        -- Skip the stop symbol.
        let ptr4 := ptr3.drop 1
        ASSERT_NOT_EMPTY ptr4
        -- Go back a step.
        match parent with
        | none => pure (ptr4, none)
        | some p =>
          let pnode ← getNode xml3 p
          pure (ptr4, some (p, pnode.parent))
      else pure (ptr3, some (n, parent))
    let (ptr5, cur) ← afterStop
    match cur with
    | none => return (ptr5, xml3)
    | some (node, parent1) =>
      ASSERT_NOT_EMPTY ptr5
      errorUnless (peek ptr5 = 62) (Fatal.syntaxError "Expected 'XML_NODE_END'")
      -- Skip the end symbol.
      let ptr6 := ptr5.drop 1
      ASSERT_NOT_EMPTY ptr6
      let st ← contentLoop (ptr6.length + 1) ptr6 xml3 node parent1
      match st.node with
      | none => return (st.ptr, st.xml)
      | some m => elementLoop fuel st.ptr st.xml (some m)

/-- The bytes that one turn of the prolog loop writes stay inside
`char meta[XML_META_MAX_SIZE]`: the `<`, the bytes before the next `>`, that `>` and the
final NUL. -/
def metaFits (ptr : CStr) : Bool :=
  decide ((ptr.takeWhile (· ≠ 62)).length + 2 < XML_META_MAX_SIZE)

/-- The bytes that one turn of the attribute loop copies stay inside their arrays: the
bytes before the next `=` and the final NUL inside `char name[XML_MAX_ATTRIBUTE_NAME_SIZE]`,
and the bytes between the quotes and the final NUL inside `char xmlValue[BUFFER_SIZE]`
and, decoded, which makes them no more, inside `char value[XML_MAX_ATTRIBUTE_VAL_SIZE]`. -/
def attributeFits (ptr : CStr) : Bool :=
  let ptr2 := (ptr.dropWhile (· ≠ 61)).drop 1
  decide ((ptr.takeWhile (· ≠ 61)).length < XML_MAX_ATTRIBUTE_NAME_SIZE) &&
    decide (((ptr2.drop 1).takeWhile (· ≠ peek ptr2)).length < XML_MAX_ATTRIBUTE_VAL_SIZE)

/-- The bytes that one turn of the loop over text fragments copies stay inside their
arrays: the bytes before the next `<` and the final NUL inside
`char xmlContent[BUFFER_SIZE]` and, decoded, which makes them no more, inside a row of
`char content[XML_MAX_CHILDREN+1][XML_MAX_CONTENT_SIZE]`. -/
def contentFits (ptr : CStr) : Bool :=
  decide ((ptr.takeWhile (· ≠ 60)).length < XML_MAX_CONTENT_SIZE)

/-- `fromString_xml(NULL, xmlstr)`. -/
def fromString_xml (xmlstr : CStr) : Except Fatal Xml := do
  ASSERT_NOT_EMPTY xmlstr
  ASSERT_NOT_TOO_LONG xmlstr BUFFER_LARGE_SIZE
  let xml ← initialize_xml
  ASSERT_XML xml
  -- Skip spaces.
  let ptr1 := skipSpaces xmlstr
  ASSERT_NOT_EMPTY ptr1
  -- Must begin with XML_NODE_BEGIN.
  errorUnless (peek ptr1 = 60) (Fatal.syntaxError "Expected 'XML_NODE_BEGIN'")
  let ptr2 := ptr1.drop 1
  ASSERT_NOT_EMPTY ptr2
  -- Skip all the meta nodes.
  let (ptr3, xml1) ← metaLoop (ptr2.length + 1) ptr2 xml
  let (ptr4, xml2) ← elementLoop (ptr3.length + 1) ptr3 xml1 none
  -- Skip spaces.
  let ptr5 := skipSpaces ptr4
  ASSERT_EMPTY ptr5
  return xml2

/-! ## The label-and-jump program that the emitted text spells out

The definitions of this section are not translated from the source: they give the
concrete syntax (`render`) and the meaning (`run`) of the C function that `toC_dfa`
writes, and the program that the claims say it writes (`programOf`, `programById`). -/

/-- One block of the emitted function: the label, the value returned at the end of the
string, and the branches `else if (c == 'sym') goto target;` in their order. -/
structure CBlock where
  label : CStr
  onEnd : Int
  branches : List (Nat × CStr)
  deriving DecidableEq, Repr

/-- The emitted function: its name, the target of the first `goto`, its blocks. -/
structure CProgram where
  name : CStr
  entry : CStr
  blocks : List CBlock
  deriving DecidableEq, Repr

/-- The text of one branch. -/
def renderBranch (b : Nat × CStr) : CStr :=
  bytes " else if (c == '" ++ [b.1] ++ bytes "') \x7b\n" ++
    (bytes "\t\tgoto " ++ b.2 ++ bytes ";\n\t\x7d")

/-- The text of one block: the label with `c = *str++;`, the end-of-string test, one
branch per symbol, the final `else`. -/
def renderBlock (b : CBlock) : CStr :=
  (b.label ++ bytes ": c = *str++;\n") ++ bytes "\tif (c == '\\0') \x7b\n" ++
    (bytes "\t\treturn " ++ fmtInt b.onEnd ++ bytes ";\n\t\x7d") ++
    (b.branches.map renderBranch).flatten ++
    bytes " else \x7b\n\t\treturn 0;\n\t\x7d\n"

/-- The text of the function: header with the null-pointer guard, the first `goto`, the
blocks, the closing brace. -/
def render (p : CProgram) : CStr :=
  (bytes "int " ++ p.name ++
      bytes "(const char* str)\n\x7b\n\tchar c;\n\tif (!str)\n\t\treturn 0;\n") ++
    (bytes "\tgoto " ++ p.entry ++ bytes ";\n") ++
    (p.blocks.map renderBlock).flatten ++ bytes "\x7d"

/-- The block that a `goto label` reaches. -/
def findBlock (p : CProgram) (label : CStr) : Option CBlock :=
  p.blocks.find? (fun b => b.label = label)

/-- Running the function from `goto label` on the rest of the input: `c = *str++` reads
the next byte, or NUL at the end of the string; on NUL the block returns `onEnd`, on a
symbol with a branch it jumps, on any other byte it returns 0. `none`: the label does not
exist. -/
def runFrom (p : CProgram) : CStr → CStr → Option Int
  | label, [] => (findBlock p label).map (·.onEnd)
  | label, c :: rest =>
    match findBlock p label with
    | none => none
    | some b =>
      match b.branches.find? (fun br => br.1 = c) with
      | some br => runFrom p br.2 rest
      | none => some 0

/-- The value the function returns on a string that is not NULL. -/
def run (p : CProgram) (str : CStr) : Option Int := runFrom p p.entry str

/-- The program that `toC_dfa` spells out for an automaton: entry at the state in cell
`initialStateId`; one block per state in the order of the state array, returning the
accept flag at the end of the string; in each block one branch per alphabet symbol, in
alphabet order, to the state in cell `transitions[id][sym]`. -/
def programOf (mem : Memory) (dfa : DFA) : CProgram :=
  { name := dfa.name
    entry := (stateAt mem dfa dfa.initialStateId).name
    blocks := dfa.states.map fun st =>
      { label := st.name
        onEnd := st.isAccept
        branches := dfa.alphabet.map fun sym =>
          (sym, (stateAt mem dfa (cellAt mem dfa st.id sym)).name) } }

/-- Every cell that `toC_dfa` reads was written: the initial state id and every
`transitions[id][sym]` of a state and an alphabet symbol are ids of states. -/
def closedOn (dfa : DFA) : Bool :=
  decide (dfa.initialStateId < dfa.states.length) &&
    dfa.states.all fun st => dfa.alphabet.all fun c =>
      match dfa.transitions st.id c with
      | some k => decide (k < dfa.states.length)
      | none => false


/-! ## The document as the builder reads it

The definitions of this section are not translated from the source: they name the
parts of a document that the claims speak about (the declared states, the declared
transitions, the state that a name stands for). -/

/-- The child elements of a node, in document order. -/
def childrenOf (xml : Xml) (node : XmlNode) : List XmlNode :=
  node.children.filterMap fun i => xml.nodes[i]?

/-- The last child element of `node` with the given tag. -/
def childTagged (xml : Xml) (node : XmlNode) (tag : CStr) : Option XmlNode :=
  (childrenOf xml node).reverse.find? fun n => decide (n.tag = tag)

/-- The value of the last attribute with the given name. -/
def lastAttribute (attrs : List XmlAttribute) (name : CStr) : Option CStr :=
  (attrs.reverse.find? fun a => decide (a.name = name)).map (·.value)

/-- The root element and its children `states`, `initialState`, `transitions`. -/
def rootElem (xml : Xml) : Option XmlNode := xml.nodes[0]?

def statesElem (xml : Xml) : Option XmlNode :=
  (rootElem xml).bind fun root => childTagged xml root (bytes "states")

def initialStateElem (xml : Xml) : Option XmlNode :=
  (rootElem xml).bind fun root => childTagged xml root (bytes "initialState")

def transitionsElem (xml : Xml) : Option XmlNode :=
  (rootElem xml).bind fun root => childTagged xml root (bytes "transitions")

/-- The states that one child of `states` declares: for an `accept` or `reject` group
the tag of each child element with the flag 1 or 0, for any other tag nothing. -/
def groupStates (xml : Xml) (group : XmlNode) : List (CStr × Int) :=
  if group.tag = bytes "accept" then (childrenOf xml group).map fun st => (st.tag, 1)
  else if group.tag = bytes "reject" then (childrenOf xml group).map fun st => (st.tag, 0)
  else []

/-- The declared states, in document order: name and accept flag. -/
def declaredStates (xml : Xml) : List (CStr × Int) :=
  match statesElem xml with
  | some states => (childrenOf xml states).flatMap (groupStates xml)
  | none => []

/-- The state array that holds the states `decl` from cell `k` on, with dense ids. -/
def statesFrom : Nat → List (CStr × Int) → List DFAState
  | _, [] => []
  | k, (name, flag) :: rest => { id := k, name := name, isAccept := flag } :: statesFrom (k + 1) rest

/-- A declared transition: the tags of the source and of the sink element and one byte of
the sink element's first text fragment. -/
structure Declared where
  source : CStr
  sink : CStr
  symbol : Nat
  deriving DecidableEq, Repr

/-- The transitions that one source element declares, in document order. -/
def sourceDeclared (xml : Xml) (src : XmlNode) : List Declared :=
  (childrenOf xml src).flatMap fun sink =>
    (sink.content.getD 0 []).map fun w => { source := src.tag, sink := sink.tag, symbol := w }

/-- The declared transitions, in document order. -/
def declaredTransitions (xml : Xml) : List Declared :=
  match transitionsElem xml with
  | some transitions => (childrenOf xml transitions).flatMap (sourceDeclared xml)
  | none => []

/-- The id that a state name stands for: the id of the last state with that name. -/
def stateId (states : List DFAState) (name : CStr) : Option Nat :=
  (states.reverse.find? fun st => decide (st.name = name)).map (·.id)

/-- What `get_ht` finds for a key, the checks aside. -/
def lookup_ht (ht : HashTable) (key : CStr) : Option Nat :=
  findInRow key (ht.map (hash key % HT_ROW_COUNT))

/-- One write `transitions[source][symbol] = sink`. -/
structure Write where
  source : Nat
  symbol : Nat
  sink : Nat
  deriving DecidableEq, Repr

/-- The matrix after one write. -/
def writeCell (t : Nat → Nat → Option Nat) (w : Write) : Nat → Nat → Option Nat :=
  Function.update t w.source (Function.update (t w.source) w.symbol (some w.sink))

/-- The matrix after a list of writes, first write first. -/
def applyWrites (t : Nat → Nat → Option Nat) (ws : List Write) : Nat → Nat → Option Nat :=
  ws.foldl writeCell t

/-- The write that a declared transition stands for, once its two tags resolve to ids. -/
def resolve (states : List DFAState) (d : Declared) : Option Write :=
  match stateId states d.source, stateId states d.sink with
  | some s, some k => some { source := s, symbol := d.symbol, sink := k }
  | _, _ => none

/-- The writes of a list of declared transitions, in the same order. -/
def writesOf (states : List DFAState) (ds : List Declared) : List Write :=
  ds.filterMap (resolve states)

/-- A declared transition is well-formed for an automaton: both tags resolve to ids
below the number of states and the symbol occurs in the alphabet. -/
def WellDeclared (dfa : DFA) (d : Declared) : Prop :=
  ∃ s k, stateId dfa.states d.source = some s ∧ s < dfa.states.length ∧
    stateId dfa.states d.sink = some k ∧ k < dfa.states.length ∧ d.symbol ∈ dfa.alphabet

/-- The sink element `j` is a valid element, its tag is the name of a state, and its
symbol list holds no NUL byte. -/
def sinkResolves (xml : Xml) (states : List DFAState) (j : Nat) : Bool :=
  match xml.nodes[j]? with
  | none => false
  | some sink =>
    decide (ASSERT_XMLNODE sink = .ok ()) && (stateId states sink.tag).isSome &&
      (sink.content.getD 0 []).all fun w => decide (w ≠ 0)

/-- The source element `i` is a valid element, its tag is the name of a state, and each
of its sink elements resolves. -/
def sourceResolves (xml : Xml) (states : List DFAState) (i : Nat) : Bool :=
  match xml.nodes[i]? with
  | none => false
  | some src =>
    decide (ASSERT_XMLNODE src = .ok ()) && (stateId states src.tag).isSome &&
      src.children.all (sinkResolves xml states)

/-- The bytes that the sink elements `js` list, in document order. -/
def sinkSymbols (xml : Xml) (js : List Nat) : CStr :=
  (js.filterMap fun j => xml.nodes[j]?).flatMap fun sink => sink.content.getD 0 []

/-- The bytes that the sink elements of the source elements `is` list. -/
def sourceSymbols (xml : Xml) (is : List Nat) : CStr :=
  (is.filterMap fun i => xml.nodes[i]?).flatMap fun src => sinkSymbols xml src.children

/-- Every source and sink element under `transitions` is a valid element named after a
declared state. -/
def transitionsResolve (xml : Xml) : Bool :=
  match transitionsElem xml with
  | none => false
  | some transitions =>
    transitions.children.all (sourceResolves xml (statesFrom 0 (declaredStates xml)))

/-- The last write to the cell `(s, c)` among `ws`. -/
def lastWrite (ws : List Write) (s c : Nat) : Option Write :=
  ws.reverse.find? fun w => decide (w.source = s ∧ w.symbol = c)

/-! ## Concrete documents and automata -/

/-- A memory whose cells all hold zero (used to run the emitter on concrete automata). -/
def zeroMemory : Memory :=
  { array := fun _ => { id := 0, name := [], isAccept := 0 }, transitions := fun _ _ => 0 }

/-- Scenario A of the specification: the minimal accepting automaton. -/
def scenarioA : CStr := bytes
  "<?xml version='1.0'?>\n<dfa name=\"anyA\" alphabet=\"a\">\n  <states><accept><q1/></accept><reject><q0/></reject></states>\n  <initialState><q0/></initialState>\n  <transitions>\n    <q0><q1>a</q1></q0>\n    <q1><q1>a</q1></q1>\n  </transitions>\n</dfa>\n"

/-- Scenario B of the specification: Scenario A without `alphabet="a"`. -/
def scenarioB : CStr := bytes
  "<?xml version='1.0'?>\n<dfa name=\"anyA\">\n  <states><accept><q1/></accept><reject><q0/></reject></states>\n  <initialState><q0/></initialState>\n  <transitions>\n    <q0><q1>a</q1></q0>\n    <q1><q1>a</q1></q1>\n  </transitions>\n</dfa>\n"

/-- Scenario F of the specification: `alphabet="ab"` with a transition on `c`. -/
def scenarioF : CStr := bytes
  "<dfa alphabet=\"ab\"><states><accept><q1/></accept><reject><q0/></reject></states><initialState><q0/></initialState><transitions><q0><q1>ac</q1></q0></transitions></dfa>"

/-- The automaton that the builder returns for Scenario A. -/
def anyA_dfa : DFA :=
  { name := bytes "anyA", alphabet := bytes "a"
    states := [{ id := 0, name := bytes "q1", isAccept := 1 },
               { id := 1, name := bytes "q0", isAccept := 0 }]
    initialStateId := 1
    transitions := applyWrites (fun _ _ => none) [⟨1, 97, 0⟩, ⟨0, 97, 0⟩] }

/-- The program that the emitted text for Scenario A spells out. -/
def anyA : CProgram :=
  { name := bytes "anyA", entry := bytes "q0"
    blocks := [{ label := bytes "q1", onEnd := 1, branches := [(97, bytes "q1")] },
               { label := bytes "q0", onEnd := 0, branches := [(97, bytes "q1")] }] }

/-- The text that `toC_dfa` returns for Scenario A. -/
def anyA_text : CStr := bytes
  "int anyA(const char* str)\n\x7b\n\tchar c;\n\tif (!str)\n\t\treturn 0;\n\tgoto q0;\nq1: c = *str++;\n\tif (c == '\\0') \x7b\n\t\treturn 1;\n\t\x7d else if (c == 'a') \x7b\n\t\tgoto q1;\n\t\x7d else \x7b\n\t\treturn 0;\n\t\x7d\nq0: c = *str++;\n\tif (c == '\\0') \x7b\n\t\treturn 0;\n\t\x7d else if (c == 'a') \x7b\n\t\tgoto q1;\n\t\x7d else \x7b\n\t\treturn 0;\n\t\x7d\n\x7d"

/-- A node of a parsed tree: the text fragments that were written, then empty slots. -/
def mkNode (parent : Option Nat) (tag : String) (content : List String) (children : List Nat)
    (attributes : List (String × String)) : XmlNode :=
  { parent := parent, tag := bytes tag,
    content := content.map bytes ++ List.replicate (XML_MAX_CHILDREN + 1 - content.length) [],
    children := children,
    attributes := attributes.map fun a => ⟨bytes a.1, bytes a.2⟩ }

/-- The root element of Scenario A. -/
def scenarioA_root : XmlNode :=
  mkNode none "dfa" ["\n  ", "\n  ", "\n  ", "\n"] [1, 6, 8] [("name", "anyA"), ("alphabet", "a")]

/-- The tree that `fromString_xml` returns for Scenario A. -/
def scenarioA_xml : Xml :=
  { meta := bytes "<?xml version='1.0'?>"
    nodes := [
      scenarioA_root,
      mkNode (some 0) "states" ["", "", ""] [2, 4] [],
      mkNode (some 1) "accept" ["", ""] [3] [],
      mkNode (some 2) "q1" [] [] [],
      mkNode (some 1) "reject" ["", ""] [5] [],
      mkNode (some 4) "q0" [] [] [],
      mkNode (some 0) "initialState" ["", ""] [7] [],
      mkNode (some 6) "q0" [] [] [],
      mkNode (some 0) "transitions" ["\n    ", "\n    ", "\n  "] [9, 11] [],
      mkNode (some 8) "q0" ["", ""] [10] [],
      mkNode (some 9) "q1" ["a"] [] [],
      mkNode (some 8) "q1" ["", ""] [12] [],
      mkNode (some 11) "q1" ["a"] [] []] }

/-- A document in which the pair (`q0`, `a`) is declared twice: first to `q0`, then to
`q1`. -/
def overDoc : CStr := bytes
  "<dfa alphabet=\"a\"><states><accept><q1/></accept><reject><q0/></reject></states><initialState><q0/></initialState><transitions><q0><q0>a</q0><q1>a</q1></q0></transitions></dfa>"

/-- The tree of `overDoc`. -/
def over_xml : Xml :=
  { meta := bytes "<?xml version='1.0' encoding='UTF-8' standalone='yes'?>"
    nodes := [
      mkNode none "dfa" [] [1, 6, 8] [("alphabet", "a")],
      mkNode (some 0) "states" [] [2, 4] [],
      mkNode (some 1) "accept" [] [3] [],
      mkNode (some 2) "q1" [] [] [],
      mkNode (some 1) "reject" [] [5] [],
      mkNode (some 4) "q0" [] [] [],
      mkNode (some 0) "initialState" [] [7] [],
      mkNode (some 6) "q0" [] [] [],
      mkNode (some 0) "transitions" [] [9] [],
      mkNode (some 8) "q0" [] [10, 11] [],
      mkNode (some 9) "q0" ["a"] [] [],
      mkNode (some 9) "q1" ["a"] [] []] }

/-- The automaton built from `overDoc`. -/
def over_dfa : DFA :=
  { name := bytes "DFA", alphabet := bytes "a"
    states := [{ id := 0, name := bytes "q1", isAccept := 1 },
               { id := 1, name := bytes "q0", isAccept := 0 }]
    initialStateId := 1
    transitions := applyWrites (fun _ _ => none) [⟨1, 97, 1⟩, ⟨1, 97, 0⟩] }

/-- A document whose `alphabet` attribute lists the byte `a` twice. -/
def aaDoc : CStr := bytes
  "<dfa alphabet=\"aa\"><states><accept><q0/></accept></states><initialState><q0/></initialState><transitions><q0><q0>a</q0></q0></transitions></dfa>"

/-- The root element of `aaDoc`. -/
def aa_root : XmlNode := mkNode none "dfa" [] [1, 4, 6] [("alphabet", "aa")]

/-- The tree of `aaDoc`. -/
def aa_xml : Xml :=
  { meta := bytes "<?xml version='1.0' encoding='UTF-8' standalone='yes'?>"
    nodes := [
      aa_root,
      mkNode (some 0) "states" [] [2] [],
      mkNode (some 1) "accept" [] [3] [],
      mkNode (some 2) "q0" [] [] [],
      mkNode (some 0) "initialState" [] [5] [],
      mkNode (some 4) "q0" [] [] [],
      mkNode (some 0) "transitions" [] [7] [],
      mkNode (some 6) "q0" [] [8] [],
      mkNode (some 7) "q0" ["a"] [] []] }

/-- The automaton built from `aaDoc`. -/
def aa_dfa : DFA :=
  { name := bytes "DFA", alphabet := bytes "aa"
    states := [{ id := 0, name := bytes "q0", isAccept := 1 }]
    initialStateId := 0
    transitions := applyWrites (fun _ _ => none) [⟨0, 97, 0⟩] }

/-- The root element of Scenario F. -/
def scenarioF_root : XmlNode := mkNode none "dfa" [] [1, 6, 8] [("alphabet", "ab")]

/-- The tree of Scenario F. -/
def scenarioF_xml : Xml :=
  { meta := bytes "<?xml version='1.0' encoding='UTF-8' standalone='yes'?>"
    nodes := [
      scenarioF_root,
      mkNode (some 0) "states" [] [2, 4] [],
      mkNode (some 1) "accept" [] [3] [],
      mkNode (some 2) "q1" [] [] [],
      mkNode (some 1) "reject" [] [5] [],
      mkNode (some 4) "q0" [] [] [],
      mkNode (some 0) "initialState" [] [7] [],
      mkNode (some 6) "q0" [] [] [],
      mkNode (some 0) "transitions" [] [9] [],
      mkNode (some 8) "q0" [] [10] [],
      mkNode (some 9) "q1" ["ac"] [] []] }

/-- The last declared transition among `ds` whose source tag stands for the state id `i`
and whose symbol is `c`. -/
def lastDeclared (states : List DFAState) (ds : List Declared) (i c : Nat) : Option Declared :=
  ds.reverse.find? fun d => decide (stateId states d.source = some i ∧ d.symbol = c)

instance instDecidableEqError {α : Type} (x : Except Fatal α) (e : Fatal) :
    Decidable (x = .error e) :=
  match x with
  | .ok _ => isFalse (by intro h; cases h)
  | .error e' =>
    if h : e' = e then isTrue (by rw [h]) else isFalse (by intro h2; cases h2; exact h rfl)

/-! ## Further sample documents -/

/-- Scenario E of the specification: a root element with the single child `states`. -/
def scenarioE : CStr := bytes "<dfa><states/></dfa>"

/-- Scenario A with an `initialState` element that has no child. -/
def noInitDoc : CStr := bytes
  "<dfa alphabet=\"a\"><states><accept><q1/></accept><reject><q0/></reject></states><initialState></initialState><transitions><q0><q1>a</q1></q0></transitions></dfa>"

/-- Scenario A with an `initialState` element that has two children. -/
def twoInitDoc : CStr := bytes
  "<dfa alphabet=\"a\"><states><accept><q1/></accept><reject><q0/></reject></states><initialState><q0/><q1/></initialState><transitions><q0><q1>a</q1></q0></transitions></dfa>"

/-- Scenario A with an `initialState` element whose child is no declared state. -/
def badInitDoc : CStr := bytes
  "<dfa alphabet=\"a\"><states><accept><q1/></accept><reject><q0/></reject></states><initialState><zz/></initialState><transitions><q0><q1>a</q1></q0></transitions></dfa>"

/-- The `initialState` element of Scenario A. -/
def scenarioA_initial : XmlNode := mkNode (some 0) "initialState" ["", ""] [7] []

/-- Scenario A with a source element `zz` that is no declared state. -/
def unknownSourceDoc : CStr := bytes
  "<dfa alphabet=\"a\"><states><accept><q1/></accept><reject><q0/></reject></states><initialState><q0/></initialState><transitions><zz><q1>a</q1></zz></transitions></dfa>"

/-- Scenario A with a sink element `zz` that is no declared state. -/
def unknownSinkDoc : CStr := bytes
  "<dfa alphabet=\"a\"><states><accept><q1/></accept><reject><q0/></reject></states><initialState><q0/></initialState><transitions><q0><zz>a</zz></q0></transitions></dfa>"

/-- The tree of `unknownSourceDoc`. -/
def unknownSource_xml : Xml :=
  { meta := bytes "<?xml version='1.0' encoding='UTF-8' standalone='yes'?>"
    nodes := [
      mkNode none "dfa" [] [1, 6, 8] [("alphabet", "a")],
      mkNode (some 0) "states" [] [2, 4] [],
      mkNode (some 1) "accept" [] [3] [],
      mkNode (some 2) "q1" [] [] [],
      mkNode (some 1) "reject" [] [5] [],
      mkNode (some 4) "q0" [] [] [],
      mkNode (some 0) "initialState" [] [7] [],
      mkNode (some 6) "q0" [] [] [],
      mkNode (some 0) "transitions" [] [9] [],
      mkNode (some 8) "zz" [] [10] [],
      mkNode (some 9) "q1" ["a"] [] []] }

/-- The `transitions` element of `unknownSource_xml`. -/
def unknownSource_transitions : XmlNode := mkNode (some 0) "transitions" [] [9] []

/-- The source element `zz` of `unknownSource_xml`. -/
def unknownSource_zz : XmlNode := mkNode (some 8) "zz" [] [10] []

/-! ## The decoder as the specification words it

The definitions of this section are not translated from the source: they follow the
words of the specification and are compared with `private_fromXmlString`. -/

/-- The five named references of the specification and the byte that each stands for. -/
def namedReferences : List (CStr × Nat) :=
  [(bytes "&lt;", 60), (bytes "&gt;", 62), (bytes "&quot;", 34), (bytes "&apos;", 39),
   (bytes "&amp;", 38)]

/-- The decoder as the specification words it, with a step counter: at each position of
the text, from left to right, a named reference that starts there is replaced by its byte
and the pass goes on behind the reference; any other byte is copied and the pass goes on
behind it. -/
def decodePass : Nat → CStr → CStr
  | 0, _ => []
  | _ + 1, [] => []
  | fuel + 1, c :: rest =>
    match namedReferences.find? fun r => r.1.isPrefixOf (c :: rest) with
    | some r => r.2 :: decodePass fuel ((c :: rest).drop r.1.length)
    | none => c :: decodePass fuel rest

/-- The decoder of the specification: one pass over the whole text. -/
def decodeReferences (s : CStr) : CStr := decodePass s.length s

/-- Scenario A with the alphabet `ab` and no name: no transition is declared on `b`. -/
def partialDoc : CStr := bytes
  "<dfa alphabet=\"ab\"><states><accept><q1/></accept><reject><q0/></reject></states><initialState><q0/></initialState><transitions><q0><q1>a</q1></q0><q1><q1>a</q1></q1></transitions></dfa>"

/-- The tree of `partialDoc`. -/
def partial_xml : Xml :=
  { meta := bytes "<?xml version='1.0' encoding='UTF-8' standalone='yes'?>"
    nodes := [
      mkNode none "dfa" [] [1, 6, 8] [("alphabet", "ab")],
      mkNode (some 0) "states" [] [2, 4] [],
      mkNode (some 1) "accept" [] [3] [],
      mkNode (some 2) "q1" [] [] [],
      mkNode (some 1) "reject" [] [5] [],
      mkNode (some 4) "q0" [] [] [],
      mkNode (some 0) "initialState" [] [7] [],
      mkNode (some 6) "q0" [] [] [],
      mkNode (some 0) "transitions" [] [9, 11] [],
      mkNode (some 8) "q0" [] [10] [],
      mkNode (some 9) "q1" ["a"] [] [],
      mkNode (some 8) "q1" [] [12] [],
      mkNode (some 11) "q1" ["a"] [] []] }

/-- The automaton built from `partialDoc`: the cells of the column `b` are not written. -/
def partial_dfa : DFA :=
  { name := bytes "DFA", alphabet := bytes "ab"
    states := [{ id := 0, name := bytes "q1", isAccept := 1 },
               { id := 1, name := bytes "q0", isAccept := 0 }]
    initialStateId := 1
    transitions := applyWrites (fun _ _ => none) [⟨1, 97, 0⟩, ⟨0, 97, 0⟩] }

/-- The program that `toC_dfa` spells out for `partial_dfa` when the unwritten cells hold
zero. -/
def partialProgram : CProgram :=
  { name := bytes "DFA", entry := bytes "q0"
    blocks := [{ label := bytes "q1", onEnd := 1,
                 branches := [(97, bytes "q1"), (98, bytes "q1")] },
               { label := bytes "q0", onEnd := 0,
                 branches := [(97, bytes "q1"), (98, bytes "q1")] }] }

/-- The document in which the root element lists its children as `cs` (not translated
from the source: it states the claim on the order of the children). -/
def permuteRoot (xml : Xml) (cs : List Nat) : Xml :=
  updateNode xml 0 (fun root => { root with children := cs })

/-! ## `dot.c`: the graph

The header `dot.h` is not among the sources. The record types below have the fields that
`dot.c` and `toDot_dfa` read and write; the limits, the default texts and the assertion
macros of the header are the fields of a `DotHeader`, and every function of `dot.c` takes
the header as an argument. The arrays `nodes`, `edges`, `clusters`, `members` and
`children` are lists, and so is the label of an edge, to which `toDot_dfa` appends without
a check of its own: how many cells or bytes an array of the header holds is left to the
assertion macros that follow each write. -/

/-- `Edge`: `label` and `target`. -/
structure Edge where
  label : CStr
  target : Nat
  deriving DecidableEq, Repr

/-- `Node`; `edges` is the array `edges` up to `nEdges`. -/
structure Node where
  id : Nat
  peripheries : Nat
  style : CStr
  shape : CStr
  name : CStr
  label : CStr
  edges : List Edge
  deriving DecidableEq, Repr

/-- `SubGraph`; `members` is the array `members` up to `size`, `children` the array
`children` up to `nChildren`. -/
structure SubGraph where
  id : Nat
  label : CStr
  parentId : Int
  children : List Nat
  members : List Nat
  deriving DecidableEq, Repr

/-- `Graph`; `nodes` is the array `nodes` up to `size`, `clusters` the array `clusters` up
to `nClusters`. -/
structure Graph where
  name : CStr
  nodes : List Node
  clusters : List SubGraph
  deriving DecidableEq, Repr

/-- `G->size`. -/
def Graph.size (G : Graph) : Nat := G.nodes.length

/-- What `dot.h` declares and `dot.c` uses, apart from `DOT_DEFAULT_PERIPHERIES`: the
limits, the default texts (each macro with the text that its pattern and arguments
spell) and the assertion macros. -/
structure DotHeader where
  DOT_MAX_NAME_SIZE : Nat
  DOT_MAX_LABEL_SIZE : Nat
  DOT_MAX_STYLE_SIZE : Nat
  DOT_MAX_SHAPE_SIZE : Nat
  DOT_DEFAULT_NAME : CStr
  DOT_DEFAULT_STYLE : CStr
  DOT_DEFAULT_SHAPE : CStr
  DOT_DEFAULT_NODE_NAME : Nat → CStr
  DOT_DEFAULT_NODE_LABEL : Nat → CStr
  DOT_DEFAULT_EDGE_LABEL : Edge → CStr
  ASSERT_GRAPH : Graph → Except Fatal Unit
  ASSERT_NODE : Node → Except Fatal Unit
  ASSERT_EDGE : Edge → Except Fatal Unit
  ASSERT_CLUSTER : SubGraph → Except Fatal Unit

/-- Modelled from the spec: `DOT_DEFAULT_PERIPHERIES` of the missing header `dot.h`, the
number of peripheries of a node that `insertNode_dot` has just created. The specification
gives the node of a reject state, whose peripheries `toDot_dfa` leaves as they are, one
periphery. -/
def DOT_DEFAULT_PERIPHERIES : Nat := 1

/-- What the caller's buffer held in the cells of the `edges` arrays before it was handed
to `initialize_dot`: `insertEdge_dot` reads the cell of the new edge before it writes
it. -/
structure GraphMemory where
  edge : Nat → Nat → Edge

/-- `initialize_dot(G)`. -/
def initialize_dot (h : DotHeader) : Except Fatal Graph := do
  let check ← fromPattern h.DOT_MAX_NAME_SIZE h.DOT_DEFAULT_NAME
  ASSERT_NOT_EMPTY check
  return { name := check, nodes := [], clusters := [] }

/-- `insertNode_dot(G, clusterId)`: the graph and the index of the new node. The check
`ASSERT_FITS_IN_BOUND(clusterId, G->nClusters)` compares as `long`. -/
def insertNode_dot (h : DotHeader) (G : Graph) (clusterId : Int) : Except Fatal (Graph × Nat) := do
  h.ASSERT_GRAPH G
  errorUnless (clusterId < (G.clusters.length : Int)) Fatal.outOfBounds
  let nid := G.size
  let style ← fromPattern h.DOT_MAX_STYLE_SIZE h.DOT_DEFAULT_STYLE
  let shape ← fromPattern h.DOT_MAX_SHAPE_SIZE h.DOT_DEFAULT_SHAPE
  ASSERT_NOT_EMPTY shape
  let name ← fromPattern h.DOT_MAX_NAME_SIZE (h.DOT_DEFAULT_NODE_NAME nid)
  let label ← fromPattern h.DOT_MAX_LABEL_SIZE (h.DOT_DEFAULT_NODE_LABEL nid)
  let node : Node :=
    { id := nid, peripheries := DOT_DEFAULT_PERIPHERIES, style := style, shape := shape,
      name := name, label := label, edges := [] }
  -- Register the node to the given cluster.
  let clusters ←
    if clusterId < 0 then (pure G.clusters : Except Fatal (List SubGraph))
    else do
      let cluster ← ASSERT_NOT_NULL G.clusters[clusterId.toNat]?
      h.ASSERT_CLUSTER cluster
      let cluster1 : SubGraph := { cluster with members := cluster.members ++ [nid] }
      h.ASSERT_CLUSTER cluster1
      pure (G.clusters.set clusterId.toNat cluster1)
  let G1 : Graph := { G with nodes := G.nodes ++ [node], clusters := clusters }
  h.ASSERT_GRAPH G1
  h.ASSERT_NODE node
  return (G1, nid)

/-- `insertEdge_dot(G, from, to)`: the graph and the index of the new edge among the
edges of the node `src`. -/
def insertEdge_dot (h : DotHeader) (gmem : GraphMemory) (G : Graph) (src snk : Nat) :
    Except Fatal (Graph × Nat) := do
  h.ASSERT_GRAPH G
  ASSERT_FITS_IN_BOUND src G.size
  ASSERT_FITS_IN_BOUND snk G.size
  let source ← ASSERT_NOT_NULL G.nodes[src]?
  h.ASSERT_NODE source
  let sink ← ASSERT_NOT_NULL G.nodes[snk]?
  h.ASSERT_NODE sink
  -- The cell of the new edge, as it is before it is written.
  let old := gmem.edge src source.edges.length
  h.ASSERT_EDGE old
  let check ← fromPattern h.DOT_MAX_LABEL_SIZE (h.DOT_DEFAULT_EDGE_LABEL old)
  let edge : Edge := { label := check, target := snk }
  let source1 : Node := { source with edges := source.edges ++ [edge] }
  h.ASSERT_NODE source1
  h.ASSERT_EDGE edge
  return ({ G with nodes := G.nodes.set src source1 }, source.edges.length)

/-- The loop of `getEdge_dot` over the edges of the source node, from the index `k` on. -/
def getEdge_loop (h : DotHeader) (sinkId : Nat) : List Edge → Nat → Except Fatal (Option Nat)
  | [], _ => .ok none
  | edge :: rest, k => do
    h.ASSERT_EDGE edge
    if edge.target = sinkId then return some k
    else getEdge_loop h sinkId rest (k + 1)

/-- `getEdge_dot(G, sourceId, sinkId)`: the index of the edge among the edges of the node
`sourceId`, or `none` for NULL. -/
def getEdge_dot (h : DotHeader) (G : Graph) (sourceId sinkId : Nat) :
    Except Fatal (Option Nat) := do
  h.ASSERT_GRAPH G
  if ¬ (sourceId < G.size ∧ sinkId < G.size) then return none
  else
    let src ← ASSERT_NOT_NULL G.nodes[sourceId]?
    h.ASSERT_NODE src
    let snk ← ASSERT_NOT_NULL G.nodes[sinkId]?
    h.ASSERT_NODE snk
    getEdge_loop h sinkId src.edges 0

/-! ## `dfa.c`: the graph emitter `toDot_dfa` -/

/-- The loop over the states in `toDot_dfa` that inserts the nodes. -/
def toDot_nodeLoop (h : DotHeader) : List DFAState → Graph → Except Fatal Graph
  | [], G => .ok G
  | state :: rest, G => do
    ASSERT_DFASTATE state
    let (G1, nid) ← insertNode_dot h G (-1)
    let node ← ASSERT_NOT_NULL G1.nodes[nid]?
    h.ASSERT_NODE node
    h.ASSERT_GRAPH G1
    let name ← fromPattern h.DOT_MAX_NAME_SIZE state.name
    ASSERT_NOT_EMPTY name
    let label ← fromPattern 1 []
    ASSERT_EMPTY label
    let shape ← fromPattern h.DOT_MAX_STYLE_SIZE (bytes "circle")
    ASSERT_NOT_EMPTY shape
    let node1 : Node :=
      { node with
        name := name, label := label, shape := shape
        peripheries := if state.isAccept ≠ 0 then 2 else node.peripheries }
    toDot_nodeLoop h rest { G1 with nodes := G1.nodes.set nid node1 }

/-- Write through an edge pointer: the edge `k` of the node `i`. -/
def updateEdge (G : Graph) (i k : Nat) (f : Edge → Edge) : Graph :=
  match G.nodes[i]? with
  | none => G
  | some node =>
    match node.edges[k]? with
    | none => G
    | some edge =>
      { G with nodes := G.nodes.set i { node with edges := node.edges.set k (f edge) } }

/-- Read through an edge pointer. -/
def getEdge (G : Graph) (i k : Nat) : Except Fatal Edge :=
  match G.nodes[i]? with
  | none => .error .null
  | some node =>
    match node.edges[k]? with
    | none => .error .null
    | some edge => .ok edge

/-- The loop over the alphabet in `toDot_dfa` for the state `i` (pointer `with`, here `w`). -/
def toDot_symbolLoop (h : DotHeader) (gmem : GraphMemory) (mem : Memory) (dfa : DFA) (i : Nat) :
    CStr → Graph → Except Fatal Graph
  | [], G => .ok G
  | w :: rest, G => do
    let j := cellAt mem dfa i w
    let found ← getEdge_dot h G i j
    match found with
    | some k =>
      let edge ← getEdge G i k
      h.ASSERT_EDGE edge
      let check ← fromPattern 3 [44, w]
      ASSERT_NOT_EMPTY check
      let G1 := updateEdge G i k (fun e => { e with label := e.label ++ check })
      let edge1 ← getEdge G1 i k
      h.ASSERT_EDGE edge1
      toDot_symbolLoop h gmem mem dfa i rest G1
    | none =>
      let (G0, k) ← insertEdge_dot h gmem G i j
      let edge ← getEdge G0 i k
      h.ASSERT_EDGE edge
      let check ← fromPattern 2 [w]
      ASSERT_NOT_EMPTY check
      let G1 := updateEdge G0 i k (fun e => { e with label := check })
      let edge1 ← getEdge G1 i k
      h.ASSERT_EDGE edge1
      toDot_symbolLoop h gmem mem dfa i rest G1

/-- The loop over the states in `toDot_dfa` that inserts the transitions (index `i`). -/
def toDot_stateLoop (h : DotHeader) (gmem : GraphMemory) (mem : Memory) (dfa : DFA) :
    List Nat → Graph → Except Fatal Graph
  | [], G => .ok G
  | i :: rest, G => do
    let G1 ← toDot_symbolLoop h gmem mem dfa i dfa.alphabet G
    toDot_stateLoop h gmem mem dfa rest G1

/-- `toDot_dfa(G, dfa)`. -/
def toDot_dfa (h : DotHeader) (gmem : GraphMemory) (mem : Memory) (dfa : DFA) :
    Except Fatal Graph := do
  ASSERT_DFA dfa
  let G0 ← initialize_dot h
  h.ASSERT_GRAPH G0
  -- DFA name.
  let name ← fromPattern h.DOT_MAX_NAME_SIZE dfa.name
  ASSERT_NOT_EMPTY name
  -- Insert nodes.
  let G1 ← toDot_nodeLoop h dfa.states { G0 with name := name }
  -- Mark the initial state.
  let (G2, nid) ← insertNode_dot h G1 (-1)
  let node ← ASSERT_NOT_NULL G2.nodes[nid]?
  h.ASSERT_NODE node
  h.ASSERT_GRAPH G2
  let rname ← fromPattern h.DOT_MAX_NAME_SIZE (bytes "reset")
  ASSERT_NOT_EMPTY rname
  let rlabel ← fromPattern 1 []
  ASSERT_EMPTY rlabel
  let rstyle ← fromPattern h.DOT_MAX_STYLE_SIZE (bytes "invis")
  ASSERT_NOT_EMPTY rstyle
  let rshape ← fromPattern h.DOT_MAX_STYLE_SIZE (bytes "point")
  ASSERT_NOT_EMPTY rshape
  let node1 : Node :=
    { node with name := rname, label := rlabel, style := rstyle, shape := rshape }
  let G3 : Graph := { G2 with nodes := G2.nodes.set nid node1 }
  let (G4, _) ← insertEdge_dot h gmem G3 (G3.size - 1) dfa.initialStateId
  -- Insert transitions.
  toDot_stateLoop h gmem mem dfa (List.range dfa.nStates) G4

/-- A header with which the graph emitter is run on sample automata: limits of 32 and
256 bytes, empty default label texts, and assertions in the manner of `ASSERT_DFASTATE`
(a non-empty name, texts below their limits). The theorems on `toDot_dfa` hold for every
header. -/
def sampleHeader : DotHeader :=
  { DOT_MAX_NAME_SIZE := 32, DOT_MAX_LABEL_SIZE := 256, DOT_MAX_STYLE_SIZE := 32,
    DOT_MAX_SHAPE_SIZE := 32, DOT_DEFAULT_NAME := bytes "G", DOT_DEFAULT_STYLE := [],
    DOT_DEFAULT_SHAPE := bytes "ellipse"
    DOT_DEFAULT_NODE_NAME := fun nid => bytes "n" ++ fmtUInt nid
    DOT_DEFAULT_NODE_LABEL := fun _ => [], DOT_DEFAULT_EDGE_LABEL := fun _ => []
    ASSERT_GRAPH := fun G => do
      ASSERT_NOT_EMPTY G.name
      ASSERT_NOT_TOO_LONG G.name 32
    ASSERT_NODE := fun node => do
      ASSERT_NOT_EMPTY node.name
      ASSERT_NOT_TOO_LONG node.name 32
      ASSERT_NOT_TOO_LONG node.label 256
    ASSERT_EDGE := fun _ => .ok ()
    ASSERT_CLUSTER := fun c => ASSERT_NOT_TOO_LONG c.label 256 }

/-- A buffer whose edge cells hold an empty label and the target 0. -/
def zeroGraphMemory : GraphMemory := { edge := fun _ _ => { label := [], target := 0 } }

/-- The edges of one node after one more symbol `w` with the target `t`: the label of the
edge to `t` grows by a comma and the symbol, or a new edge to `t` with the label `w` is
added behind the others. -/
def addSymbol : List Edge → Nat → Nat → List Edge
  | [], w, t => [{ label := [w], target := t }]
  | e :: es, w, t =>
    if e.target = t then { e with label := e.label ++ [44, w] } :: es
    else e :: addSymbol es w t

/-- The edges of the node of the state in row `i`: the alphabet symbols added one by one,
in alphabet order, each with the cell of the row as its target. -/
def rowEdges (mem : Memory) (dfa : DFA) (i : Nat) : List Edge :=
  dfa.alphabet.foldl (fun es w => addSymbol es w (cellAt mem dfa i w)) []

/-- The symbols `cs` separated by commas. -/
def symbolList : CStr → CStr
  | [] => []
  | [c] => [c]
  | c :: d :: rest => c :: 44 :: symbolList (d :: rest)

/-- The nodes of the states, the first of them at the index `k`. -/
def stateNodes (h : DotHeader) (mem : Memory) (dfa : DFA) : Nat → List DFAState → List Node
  | _, [] => []
  | k, st :: rest =>
    { id := k, peripheries := if st.isAccept ≠ 0 then 2 else DOT_DEFAULT_PERIPHERIES,
      style := h.DOT_DEFAULT_STYLE, shape := bytes "circle", name := st.name, label := [],
      edges := rowEdges mem dfa k } :: stateNodes h mem dfa (k + 1) rest

/-- The node that marks the initial state. -/
def resetNode (h : DotHeader) (gmem : GraphMemory) (dfa : DFA) : Node :=
  { id := dfa.nStates, peripheries := DOT_DEFAULT_PERIPHERIES, style := bytes "invis",
    shape := bytes "point", name := bytes "reset", label := [],
    edges := [{ label := h.DOT_DEFAULT_EDGE_LABEL (gmem.edge dfa.nStates 0),
                target := dfa.initialStateId }] }

/-- The graph of an automaton: the nodes of the states in the order of the state array,
then the node that marks the initial state. -/
def graphOf (h : DotHeader) (gmem : GraphMemory) (mem : Memory) (dfa : DFA) : Graph :=
  { name := dfa.name
    nodes := stateNodes h mem dfa 0 dfa.states ++ [resetNode h gmem dfa]
    clusters := [] }

/-! ## Scenario C: the tree, the automaton and the graph -/

/-- The tree of Scenario C. -/
def scenarioC_xml : Xml :=
  { meta := bytes "<?xml version='1.0' encoding='UTF-8' standalone='yes'?>"
    nodes := [
      mkNode none "dfa" [] [1, 6, 8] [("name", "C"), ("alphabet", "ab")],
      mkNode (some 0) "states" [] [2, 4] [],
      mkNode (some 1) "accept" [] [3] [],
      mkNode (some 2) "q1" [] [] [],
      mkNode (some 1) "reject" [] [5] [],
      mkNode (some 4) "q0" [] [] [],
      mkNode (some 0) "initialState" [] [7] [],
      mkNode (some 6) "q0" [] [] [],
      mkNode (some 0) "transitions" [] [9, 11] [],
      mkNode (some 8) "q0" [] [10] [],
      mkNode (some 9) "q1" ["ab"] [] [],
      mkNode (some 8) "q1" [] [12] [],
      mkNode (some 11) "q1" ["ab"] [] []] }

/-- The automaton built from Scenario C. -/
def scenarioC_dfa : DFA :=
  { name := bytes "C", alphabet := bytes "ab"
    states := [{ id := 0, name := bytes "q1", isAccept := 1 },
               { id := 1, name := bytes "q0", isAccept := 0 }]
    initialStateId := 1
    transitions :=
      applyWrites (fun _ _ => none) [⟨1, 97, 0⟩, ⟨1, 98, 0⟩, ⟨0, 97, 0⟩, ⟨0, 98, 0⟩] }

/-- The graph that `toDot_dfa` returns for Scenario C with the sample header. -/
def scenarioC_graph : Graph :=
  { name := bytes "C"
    nodes := [
      { id := 0, peripheries := 2, style := [], shape := bytes "circle", name := bytes "q1",
        label := [], edges := [{ label := bytes "a,b", target := 0 }] },
      { id := 1, peripheries := 1, style := [], shape := bytes "circle", name := bytes "q0",
        label := [], edges := [{ label := bytes "a,b", target := 0 }] },
      { id := 2, peripheries := 1, style := bytes "invis", shape := bytes "point",
        name := bytes "reset", label := [], edges := [{ label := [], target := 1 }] }]
    clusters := [] }

/-! ## `xml.c`: the encoder `private_toXmlString` and `toString_xattr` -/

/-- The text that one iteration of the loop of `private_toXmlString` writes for the byte
`c`: `XML_LT`, `XML_GT`, `XML_QUOTE`, `XML_APOSTROPHE`, `XML_AMP` for the five symbols,
the byte itself (`"%c"`) otherwise. -/
def encodeByte (c : Nat) : CStr :=
  if c = 60 then bytes "&lt;"
  else if c = 62 then bytes "&gt;"
  else if c = 34 then bytes "&quot;"
  else if c = 39 then bytes "&apos;"
  else if c = 38 then bytes "&amp;"
  else [c]

/-- The loop of `private_toXmlString`: `ptr` is the first argument, the second is the
text written so far. Every piece is written with `fromPattern(xmlptr, BUFFER_SIZE, ...)`. -/
def private_toXmlString_loop : CStr → CStr → Except Fatal CStr
  | [], out => .ok out
  | c :: rest, out => do
    let p ← fromPattern BUFFER_SIZE (encodeByte c)
    ASSERT_NOT_EMPTY p
    private_toXmlString_loop rest (out ++ p)

/-- `private_toXmlString(xmlstr, str)`: the encoded text written to `xmlstr`. -/
def private_toXmlString (str : CStr) : Except Fatal CStr := do
  let xmlstr ← private_toXmlString_loop str []
  ASSERT_FITS_IN_BOUND xmlstr.length BUFFER_SIZE
  return xmlstr

/-- `toString_xattr(str, attribute)`: `XML_ATTRIBUTE(name, value)` is the pattern
`"%s%c%c%s%c"` with the name, `=`, `"`, the encoded value and `"`. -/
def toString_xattr (attr : XmlAttribute) : Except Fatal CStr := do
  ASSERT_XMLATTRIBUTE attr
  let value ← private_toXmlString attr.value
  let str ← fromPattern BUFFER_SIZE (attr.name ++ [61, 34] ++ value ++ [34])
  ASSERT_NOT_EMPTY str
  return str

/-! ## Encoded texts

The definitions of this section are not translated from the source: they say which texts
are in the form that the encoder writes. -/

/-- A text is in the form that the encoder writes, checked with a step counter: it holds
none of the bytes `<`, `>`, `"`, `'`, and every `&` in it starts one of the five named
references. -/
def encodedPass : Nat → CStr → Bool
  | 0, _ => true
  | _ + 1, [] => true
  | fuel + 1, c :: rest =>
    if c = 60 ∨ c = 62 ∨ c = 34 ∨ c = 39 then false
    else if c = 38 then
      match namedReferences.find? fun r => r.1.isPrefixOf (c :: rest) with
      | some r => encodedPass fuel ((c :: rest).drop r.1.length)
      | none => false
    else encodedPass fuel rest

/-- A text is in the form that the encoder writes. -/
def isEncoded (s : CStr) : Bool := encodedPass s.length s

/-! ## `hashtable.c`: `empty_ht` and sequences of calls -/

/-- `empty_ht(ht)`. -/
def empty_ht (ht : HashTable) : Except Fatal HashTable := do
  ASSERT_HASHTABLE ht
  let ht1 := initialize_ht
  ASSERT_HASHTABLE ht1
  return ht1

/-- A sequence of `insert_ht` calls on one table, the first call first (a caller of
`insert_ht`, not a function of the source). -/
def insertAll : List (CStr × Nat) → HashTable → Except Fatal HashTable
  | [], ht => .ok ht
  | op :: rest, ht => do
    let ht1 ← insert_ht ht op.1 op.2
    insertAll rest ht1

/-- The value of the most recent call among `ops` whose key is `k` (not translated from
the source: the finite map that the claims compare the table with). -/
def lastInserted (ops : List (CStr × Nat)) (k : CStr) : Option Nat :=
  (ops.reverse.find? fun op => decide (op.1 = k)).map (·.2)

/-- Fifteen state names whose hash values fall into the same row, 7693, of the table. -/
def sameRowKeys : List (CStr × Nat) :=
  [(bytes "q7", 0), (bytes "q1985", 1), (bytes "q7286", 2), (bytes "q30220", 3),
   (bytes "q103685", 4), (bytes "q112838", 5), (bytes "q118139", 6), (bytes "q131864", 7),
   (bytes "q137165", 8), (bytes "q146318", 9), (bytes "q150890", 10), (bytes "q156191", 11),
   (bytes "q165344", 12), (bytes "q171149", 13), (bytes "q184370", 14)]

/-! ## Documents as the grammar of the specification writes them

The definitions of this section are not translated from the source. A `Doc` is a document
of the grammar `Document := Prolog? Element`,
`Element := "<" Tag Attribute* ("/>" | ">" Content "</" Tag ">")`,
`Content := Text (Element Text)*`, together with the whitespace that the parser skips
and, for every closing tag, the name that is written in it; `docText` is the text of the
document. -/

/-- An attribute as it is written: the name, `=`, the quote, the value text, the same
quote, and the whitespace behind it. -/
structure AttrText where
  name : CStr
  quote : Nat
  raw : CStr
  space : CStr
  deriving DecidableEq, Repr

/-- The text of an attribute. -/
def AttrText.text (a : AttrText) : CStr :=
  a.name ++ 61 :: a.quote :: a.raw ++ a.quote :: a.space

/-- The text of the attributes of an opening tag. -/
def attrsText (attrs : List AttrText) : CStr := attrs.flatMap AttrText.text

/-- The content of an element, `Text (Element Text)*`: the last text, or a text, a child
element and the rest of the content. A child element is written `<tag attrs/>` (`self`) or
`<tag attrs>inner</closeName>` (`elem`); `space` is the whitespace behind the tag and
`closeSpace` the whitespace behind the name of the closing tag. -/
inductive Items where
  | last (text : CStr)
  | self (text tag space : CStr) (attrs : List AttrText) (rest : Items)
  | elem (text tag space : CStr) (attrs : List AttrText) (inner : Items)
      (closeName closeSpace : CStr) (rest : Items)
  deriving DecidableEq, Repr

/-- The text of the content of an element, up to and including the `<` of its closing
tag. -/
def itemsText : Items → CStr
  | .last t => t ++ [60]
  | .self t tag sp attrs rest =>
    t ++ 60 :: tag ++ sp ++ attrsText attrs ++ 47 :: 62 :: itemsText rest
  | .elem t tag sp attrs inner cn cs rest =>
    t ++ 60 :: tag ++ sp ++ attrsText attrs ++ 62 :: itemsText inner ++ 47 :: cn ++ cs ++
      62 :: itemsText rest

/-- A document: whitespace, the declarations of the prolog (each the text between `<?`
and `>` and the whitespace behind it), the root element, whitespace. -/
structure Doc where
  lead : CStr
  prolog : List (CStr × CStr)
  tag : CStr
  space : CStr
  attrs : List AttrText
  inner : Items
  closeName : CStr
  closeSpace : CStr
  trail : CStr
  deriving DecidableEq, Repr

/-- The text of the prolog, each declaration with the `<` of what follows it. -/
def prologText (decls : List (CStr × CStr)) : CStr :=
  decls.flatMap fun d => 63 :: d.1 ++ 62 :: d.2 ++ [60]

/-- The text of a document. -/
def docText (D : Doc) : CStr :=
  D.lead ++ 60 :: prologText D.prolog ++ D.tag ++ D.space ++ attrsText D.attrs ++
    62 :: itemsText D.inner ++ 47 :: D.closeName ++ D.closeSpace ++ 62 :: D.trail

/-- Whitespace only. -/
def spaceOk (s : CStr) : Bool := s.all isspace

/-- A tag: not empty, no whitespace, no `>`, no `/`. -/
def tagOk (tag : CStr) : Bool := tag != [] && tag.all isTagByte

/-- An attribute is written as the grammar says: no `=` in the name, the name does not
start with whitespace, `/` or `>`, the quote is `"` or `'` and does not occur in the value
text, and only whitespace follows. -/
def attrOk (a : AttrText) : Bool :=
  a.name.all (· != 61) && !isspace (peek a.name) && peek a.name != 47 && peek a.name != 62 &&
    (a.quote == 34 || a.quote == 39) && a.raw.all (· != a.quote) && spaceOk a.space

/-- An opening tag is written as the grammar says; whitespace separates the tag from
the first attribute. -/
def headOk (tag space : CStr) (attrs : List AttrText) : Bool :=
  tagOk tag && spaceOk space && attrs.all attrOk && (attrs.isEmpty || space != [])

/-- A byte of the name in a closing tag: not a space, not `>`. -/
def isNameByte (c : Nat) : Bool := !isspace c && c != 62

/-- A closing tag: a name without whitespace and `>`, and whitespace. -/
def closeOk (closeName closeSpace : CStr) : Bool :=
  closeName.all isNameByte && spaceOk closeSpace

/-- The content of an element is written as the grammar says: no `<` in a text. -/
def Items.lexOk : Items → Bool
  | .last t => t.all (· != 60)
  | .self t tag sp attrs rest => t.all (· != 60) && headOk tag sp attrs && rest.lexOk
  | .elem t tag sp attrs inner cn cs rest =>
    t.all (· != 60) && headOk tag sp attrs && inner.lexOk && closeOk cn cs && rest.lexOk

/-- A document is written as the grammar says. -/
def Doc.lexOk (D : Doc) : Bool :=
  spaceOk D.lead && D.prolog.all (fun d => d.1.all (· != 62) && spaceOk d.2) &&
    headOk D.tag D.space D.attrs && peek D.tag != 63 && D.inner.lexOk &&
    closeOk D.closeName D.closeSpace && spaceOk D.trail

/-- Every closing tag bears the name of the element that it closes. -/
def Items.matched : Items → Bool
  | .last _ => true
  | .self _ _ _ _ rest => rest.matched
  | .elem _ tag _ _ inner cn _ rest => cn == tag && inner.matched && rest.matched

/-- Every closing tag of the document bears the name of the element that it closes. -/
def Doc.matched (D : Doc) : Bool := D.closeName == D.tag && D.inner.matched

/-! ### The tree of a document -/

/-- The parsed attributes: the names and the decoded values. -/
def attrsOf (attrs : List AttrText) : List XmlAttribute :=
  attrs.map fun a => { name := a.name, value := decodeReferences a.raw }

/-- The number of elements in a content. -/
def Items.size : Items → Nat
  | .last _ => 0
  | .self _ _ _ _ rest => 1 + rest.size
  | .elem _ _ _ _ inner _ _ rest => 1 + inner.size + rest.size

/-- The texts of a content, in document order: the text before each child and the last
text. -/
def Items.texts : Items → List CStr
  | .last t => [t]
  | .self t _ _ _ rest => t :: rest.texts
  | .elem t _ _ _ _ _ _ rest => t :: rest.texts

/-- The indices of the children of a content whose first element gets the index `base`:
the elements of a document are numbered in document order. -/
def Items.childIndices (base : Nat) : Items → List Nat
  | .last _ => []
  | .self _ _ _ _ rest => base :: rest.childIndices (base + 1)
  | .elem _ _ _ _ inner _ _ rest => base :: rest.childIndices (base + 1 + inner.size)

/-- The text fragments of a node: fragment `i` is the decoded `i`-th text of the content,
and the fragments behind the last text are empty. -/
def fragments (texts : List CStr) : List CStr :=
  (List.range (XML_MAX_CHILDREN + 1)).map fun i => ((texts[i]?).map decodeReferences).getD []

/-- The fragments `content` after the decoded `texts` are stored from the index `i` on. -/
def storeTexts : List CStr → Nat → List CStr → List CStr
  | content, _, [] => content
  | content, i, t :: ts => storeTexts (content.set i (decodeReferences t)) (i + 1) ts

/-- The nodes of the elements of a content, in document order; `base` is the index of
the first and `parent` the index of the element whose content it is. -/
def Items.nodes (base : Nat) (parent : Option Nat) : Items → List XmlNode
  | .last _ => []
  | .self _ tag _ attrs rest =>
    { parent := parent, tag := tag, content := fragments [], children := [],
      attributes := attrsOf attrs } :: rest.nodes (base + 1) parent
  | .elem _ tag _ attrs inner _ _ rest =>
    { parent := parent, tag := tag, content := fragments inner.texts,
      children := inner.childIndices (base + 1), attributes := attrsOf attrs } ::
      (inner.nodes (base + 1) (some base) ++ rest.nodes (base + 1 + inner.size) parent)

/-- The tree of a document: the root at index 0, then the nodes of its content. -/
def Doc.nodes (D : Doc) : List XmlNode :=
  { parent := none, tag := D.tag, content := fragments D.inner.texts,
    children := D.inner.childIndices 1, attributes := attrsOf D.attrs } ::
    D.inner.nodes 1 (some 0)

/-- The `meta` string of a document: the last declaration of the prolog between `<` and
`>`, and `XML_DEFAULT_META` when the prolog is empty. -/
def Doc.meta (D : Doc) : CStr :=
  match D.prolog.getLast? with
  | some d => 60 :: 63 :: d.1 ++ [62]
  | none => bytes "<?xml version='1.0' encoding='UTF-8' standalone='yes'?>"

/-! ### The work of the parser on a document

The definitions of this subsection restate the checks and the writes that
`fromString_xml` makes on a document, in their order and without the bytes of the text.
The lemma `parse_eq` shows that `fromString_xml` on `docText D` is the check of the
length of the text followed by `buildDoc D`. -/

/-- The node that `initialize_xmln` leaves. -/
def freshNode (parent : Option Nat) : XmlNode :=
  { parent := parent, tag := [], content := List.replicate (XML_MAX_CHILDREN + 1) [],
    children := [], attributes := [] }

/-- The attribute loop on the attributes of an opening tag: the checks of the loop in
their order, without the bytes. -/
def buildAttrs : List AttrText → List XmlAttribute → Except Fatal (List XmlAttribute)
  | [], acc => .ok acc
  | a :: rest, acc => do
    ASSERT_FITS_IN_BOUND acc.length XML_MAX_ATTRIBUTES
    ASSERT_FITS_IN_BOUND (acc.length + 1) XML_MAX_ATTRIBUTES
    ASSERT_FITS_IN_BOUND a.name.length XML_MAX_ATTRIBUTE_NAME_SIZE
    let value ← private_fromXmlString a.raw
    let attr : XmlAttribute := { name := a.name, value := value }
    ASSERT_XMLATTRIBUTE attr
    buildAttrs rest (acc ++ [attr])

/-- The work of the outer loop on an opening tag: the new node with its tag and its
attributes. -/
def openElement (tag : CStr) (attrs : List AttrText) (xml : Xml) (parent : Option Nat) :
    Except Fatal (Xml × Nat) := do
  let (xml1, n) ← newNode xml parent
  ASSERT_FITS_IN_BOUND xml1.nodes.length XML_MAX_NODES
  ASSERT_FITS_IN_BOUND tag.length XML_MAX_TAG_SIZE
  let parsed ← buildAttrs attrs []
  let xml2 := updateNode xml1 n (fun nd => { nd with tag := tag })
  return (updateNode xml2 n (fun nd => { nd with attributes := parsed }), n)

/-- The work of the inner loop on a text: the decoded text becomes the fragment of the
node `n` behind its present children. -/
def storeText (xml : Xml) (n : Nat) (t : CStr) : Except Fatal Xml := do
  let _ ← getNode xml n
  let text ← private_fromXmlString t
  return updateNode xml n (fun nd => { nd with content := nd.content.set nd.children.length text })

/-- The work of the inner loop on a closing tag with the name `closeName`, for the node
`n`: the first bytes of the name must be the tag, and `>` must follow the tag and the
whitespace behind it. -/
def closeTag (xml : Xml) (n : Nat) (closeName : CStr) : Except Fatal Unit := do
  let node ← getNode xml n
  errorUnless (closeName.take node.tag.length = node.tag) (Fatal.syntaxError "Tag Mismatch")
  errorUnless (closeName.drop node.tag.length = [])
    (Fatal.syntaxError "Expected 'XML_NODE_END'")

/-- The work of the parser on the content of the node `n`. -/
def buildItems : Items → Xml → Nat → Except Fatal Xml
  | .last t, xml, n => storeText xml n t
  | .self t tag _ attrs rest, xml, n => do
    let xml1 ← storeText xml n t
    let (xml2, _) ← openElement tag attrs xml1 (some n)
    buildItems rest xml2 n
  | .elem t tag _ attrs inner cn _ rest, xml, n => do
    let xml1 ← storeText xml n t
    let (xml2, m) ← openElement tag attrs xml1 (some n)
    let xml3 ← buildItems inner xml2 m
    closeTag xml3 m cn
    buildItems rest xml3 n

/-- The work of the loop over the declarations of the prolog. -/
def buildProlog : List (CStr × CStr) → Xml → Except Fatal Xml
  | [], xml => .ok xml
  | d :: rest, xml => do
    let xml1 : Xml := { xml with meta := 60 :: 63 :: d.1 ++ [62] }
    ASSERT_NOT_TOO_LONG xml1.meta XML_META_MAX_SIZE
    buildProlog rest xml1

/-- The work of the parser on a document. -/
def buildDoc (D : Doc) : Except Fatal Xml := do
  let xml0 ← initialize_xml
  let xml1 ← buildProlog D.prolog xml0
  let (xml2, n) ← openElement D.tag D.attrs xml1 none
  let xml3 ← buildItems D.inner xml2 n
  closeTag xml3 n D.closeName
  return xml3

/-- The inner loop of `fromString_xml` from the node `n` on, followed by the further
iterations of the outer loop: the end of the body of `elementLoop`. -/
def continueParse (F G : Nat) (ptr : CStr) (xml : Xml) (n : Nat) (par : Option Nat) :
    Except Fatal (CStr × Xml) := do
  let st ← contentLoop G ptr xml n par
  match st.node with
  | none => return (st.ptr, st.xml)
  | some m => elementLoop F st.ptr st.xml (some m)

/-! ### Documents that differ in the closing names, in the whitespace, in the way an empty
element is written -/

/-- The content with every closing name replaced by the tag of the element it closes. -/
def Items.closedByTag : Items → Items
  | .last t => .last t
  | .self t tag sp attrs rest => .self t tag sp attrs rest.closedByTag
  | .elem t tag sp attrs inner _ cs rest =>
    .elem t tag sp attrs inner.closedByTag tag cs rest.closedByTag

/-- The document with every closing name replaced by the tag of the element it closes. -/
def Doc.closedByTag (D : Doc) : Doc :=
  { D with inner := D.inner.closedByTag, closeName := D.tag }

/-- The attribute without the whitespace behind it. -/
def AttrText.strip (a : AttrText) : AttrText := { a with space := [] }

/-- The content without the whitespace of its tags: behind the tag, behind an attribute,
behind a closing name. -/
def Items.strip : Items → Items
  | .last t => .last t
  | .self t tag _ attrs rest => .self t tag [] (attrs.map AttrText.strip) rest.strip
  | .elem t tag _ attrs inner cn _ rest =>
    .elem t tag [] (attrs.map AttrText.strip) inner.strip cn [] rest.strip

/-- The document without the whitespace that stands outside the text fragments: before
the first `<`, behind a declaration of the prolog, behind a tag, behind an attribute,
behind a closing name, and behind the closing tag of the root. -/
def Doc.strip (D : Doc) : Doc :=
  { lead := [], prolog := D.prolog.map fun d => (d.1, []), tag := D.tag, space := [],
    attrs := D.attrs.map AttrText.strip, inner := D.inner.strip, closeName := D.closeName,
    closeSpace := [], trail := [] }

/-- The content with every self-closing element `<t .../>` written as `<t ...></t>`. -/
def Items.expanded : Items → Items
  | .last t => .last t
  | .self t tag sp attrs rest => .elem t tag sp attrs (.last []) tag [] rest.expanded
  | .elem t tag sp attrs inner cn cs rest =>
    .elem t tag sp attrs inner.expanded cn cs rest.expanded

/-- The document with every self-closing element `<t .../>` written as `<t ...></t>`. -/
def Doc.expanded (D : Doc) : Doc := { D with inner := D.inner.expanded }

/-- The text of the document whose root element is written self-closing, with the prolog,
the tag and the attributes of `D`: `<t .../>`. -/
def selfClosedText (D : Doc) : CStr :=
  D.lead ++ 60 :: prologText D.prolog ++ D.tag ++ D.space ++ attrsText D.attrs ++
    47 :: 62 :: D.trail

/-- The contents of the elements of a content, in document order; the content of a
self-closing element is one empty text. -/
def Items.contents : Items → List Items
  | .last _ => []
  | .self _ _ _ _ rest => .last [] :: rest.contents
  | .elem _ _ _ _ inner _ _ rest => inner :: (inner.contents ++ rest.contents)

/-- The contents of the elements of a document, in document order: the content of the
root, then the contents of the elements below it. -/
def Doc.contents (D : Doc) : List Items := D.inner :: D.inner.contents

/-! ## Sample texts, documents and tables for the parser, the encoder and the name table -/

/-- A text with the five symbols and with texts that look like references. -/
def mixedText : CStr := bytes "<a href=\"x\">&lt;'&amp;amp;'&</a>"

/-- A document whose root has the attribute `a` with the value text `'` between double
quotes. -/
def aposDoc : CStr := bytes "<t a=\"'\"></t>"

/-- The tree of `aposDoc`. -/
def apos_xml : Xml :=
  { meta := bytes "<?xml version='1.0' encoding='UTF-8' standalone='yes'?>"
    nodes := [mkNode none "t" [] [] [("a", "'")]] }

/-- The document `<t></t>`. -/
def plainDoc : Doc :=
  { lead := [], prolog := [], tag := bytes "t", space := [], attrs := [], inner := .last [],
    closeName := bytes "t", closeSpace := [], trail := [] }

/-- The document `<tx></t>`: the closing name is a proper prefix of the tag. -/
def shortCloseDoc : Doc := { plainDoc with tag := bytes "tx" }

/-- The document `<t></tx>`: the closing name is a proper extension of the tag. -/
def longCloseDoc : Doc := { plainDoc with closeName := bytes "tx" }

/-- The document `<a><b></a></b>`: the closing names of `a` and `b` are exchanged. -/
def crossedDoc : Doc :=
  { plainDoc with
    tag := bytes "a", inner := .elem [] (bytes "b") [] [] (.last []) (bytes "a") [] (.last []),
    closeName := bytes "b" }

/-- The document `<?xml version="1.0"?><?style sheet?><t></t>`, with two declarations in
the prolog. -/
def twoDeclarations : Doc :=
  { plainDoc with prolog := [(bytes "xml version=\"1.0\"?", []), (bytes "style sheet?", [])] }

/-- The document `<?xml version="1.0"?><t a="1" b="2"><u></u></t>`. -/
def compactDoc : Doc :=
  { lead := [], prolog := [(bytes "xml version=\"1.0\"?", [])], tag := bytes "t",
    space := bytes " ",
    attrs := [{ name := bytes "a", quote := 34, raw := bytes "1", space := bytes " " },
              { name := bytes "b", quote := 34, raw := bytes "2", space := [] }],
    inner := .elem [] (bytes "u") [] [] (.last []) (bytes "u") [] (.last []),
    closeName := bytes "t", closeSpace := [], trail := [] }

/-- The document `compactDoc` with more whitespace between the prolog and the root,
between the two attributes and between the closing names and their `>`. -/
def spacedDoc : Doc :=
  { lead := [], prolog := [(bytes "xml version=\"1.0\"?", bytes "\n  ")], tag := bytes "t",
    space := bytes " ",
    attrs := [{ name := bytes "a", quote := 34, raw := bytes "1", space := bytes " \n\t " },
              { name := bytes "b", quote := 34, raw := bytes "2", space := [] }],
    inner := .elem [] (bytes "u") [] [] (.last []) (bytes "u") (bytes "  ") (.last []),
    closeName := bytes "t", closeSpace := bytes " \n", trail := [] }

/-- The document `<t></t` followed by `n` spaces and `>`. -/
def paddedDoc (n : Nat) : Doc := { plainDoc with closeSpace := List.replicate n 32 }

/-- The document `<t a="it's" b='say "hi"'></t>`: each value holds the quote that does
not delimit it. -/
def quotesDoc : Doc :=
  { plainDoc with
    space := bytes " ",
    attrs := [{ name := bytes "a", quote := 34, raw := bytes "it's", space := bytes " " },
              { name := bytes "b", quote := 39, raw := bytes "say \"hi\"", space := [] }] }

/-- The document `<a> x <b>1 &lt; 2</b> y <c/><d k="v"> <e></e></d>z</a>`. -/
def treeDoc : Doc :=
  { plainDoc with
    tag := bytes "a"
    inner := .elem (bytes " x ") (bytes "b") [] [] (.last (bytes "1 &lt; 2")) (bytes "b") []
      (.self (bytes " y ") (bytes "c") [] []
        (.elem [] (bytes "d") (bytes " ")
          [{ name := bytes "k", quote := 34, raw := bytes "v", space := [] }]
          (.elem (bytes " ") (bytes "e") [] [] (.last []) (bytes "e") [] (.last []))
          (bytes "d") [] (.last (bytes "z"))))
    closeName := bytes "a" }

/-- Three calls: two keys of the same row, then the first key again. -/
def sampleCalls : List (CStr × Nat) := [(bytes "q7", 0), (bytes "q1985", 1), (bytes "q7", 5)]

/-- The table after `sampleCalls`. -/
def sampleTable : HashTable :=
  match insertAll sampleCalls initialize_ht with
  | .ok ht => ht
  | .error _ => initialize_ht

/-! ## `dot.c`: `toLabel_dot`

`DOT_QUOTE_SYMBOL` is a macro of the header `dot.h`, which is not among the sources: the
function takes it as the argument `quote`. -/

/-- One iteration of the loop of `toLabel_dot` on the byte `c`: the text that is written
at `to`. A tab writes nothing. -/
def toLabel_dot_step (h : DotHeader) (quote c : Nat) : Except Fatal CStr :=
  if c = quote then fromPattern h.DOT_MAX_LABEL_SIZE [92, quote]
  else if c = 9 then .ok []
  else if c = 10 then fromPattern h.DOT_MAX_LABEL_SIZE [92, 108]
  else if c = 92 then fromPattern h.DOT_MAX_LABEL_SIZE [92, 92]
  else fromPattern h.DOT_MAX_LABEL_SIZE [c]

/-- The loop of `toLabel_dot`: `from` is the first argument, the second is the text
between `label` and `to`. -/
def toLabel_dot_loop (h : DotHeader) (quote : Nat) : CStr → CStr → Except Fatal CStr
  | [], out => .ok out
  | c :: rest, out => do
    let piece ← toLabel_dot_step h quote c
    toLabel_dot_loop h quote rest (out ++ piece)

/-- `toLabel_dot(label, rawlabel)`: the text written to `label`. -/
def toLabel_dot (h : DotHeader) (quote : Nat) (rawlabel : CStr) : Except Fatal CStr := do
  let label ← toLabel_dot_loop h quote rawlabel []
  ASSERT_NOT_TOO_LONG label h.DOT_MAX_LABEL_SIZE
  return label

/-! ## Escaped labels

The definitions of this section are not translated from the source: the byte-wise map
that the specification gives for the labels of a graph. -/

/-- The text that stands for one byte of a raw label: a backslash is doubled, the quote
gets a backslash before it, a newline becomes backslash and `l`, a tab is dropped. -/
def escapeLabelByte (quote c : Nat) : CStr :=
  if c = 92 then [92, 92]
  else if c = quote then [92, quote]
  else if c = 10 then [92, 108]
  else if c = 9 then []
  else [c]

/-- The escaped form of a raw label. -/
def escapeLabel (quote : Nat) (raw : CStr) : CStr := raw.flatMap (escapeLabelByte quote)

/-- A document with the alphabet of a backslash and a double quote. -/
def escDoc : CStr := bytes
  "<dfa name=\"E\" alphabet=\"\\&quot;\"><states><accept><q0/></accept><reject><q1/></reject></states><initialState><q0/></initialState><transitions><q0><q0>\\</q0><q1>\"</q1></q0><q1><q1>\\\"</q1></q1></transitions></dfa>"

/-- The automaton built from `escDoc`. -/
def esc_dfa : DFA :=
  { name := bytes "E", alphabet := [92, 34]
    states := [{ id := 0, name := bytes "q0", isAccept := 1 },
               { id := 1, name := bytes "q1", isAccept := 0 }]
    initialStateId := 0
    transitions :=
      applyWrites (fun _ _ => none) [⟨0, 92, 0⟩, ⟨0, 34, 1⟩, ⟨1, 92, 1⟩, ⟨1, 34, 1⟩] }

/-- The graph that `toDot_dfa` returns for `esc_dfa` with the sample header. -/
def esc_graph : Graph :=
  { name := bytes "E"
    nodes := [
      { id := 0, peripheries := 2, style := [], shape := bytes "circle", name := bytes "q0",
        label := [], edges := [{ label := [92], target := 0 }, { label := [34], target := 1 }] },
      { id := 1, peripheries := 1, style := [], shape := bytes "circle", name := bytes "q1",
        label := [], edges := [{ label := [92, 44, 34], target := 1 }] },
      { id := 2, peripheries := 1, style := bytes "invis", shape := bytes "point",
        name := bytes "reset", label := [], edges := [{ label := [], target := 0 }] }]
    clusters := [] }

/-- A buffer like `zeroMemory` whose transition cells all hold 7. -/
def sevenMemory : Memory := { array := zeroMemory.array, transitions := fun _ _ => 7 }

/-! ## `hash.c` on an `unsigned long` of any width -/

/-- One step of the loop of `hash` on an `unsigned long` of `w` bits:
`hash = ((hash << 5) + hash) + c`, each operation modulo `2 ^ w`, `c` being the `int`
read from a `char`. -/
def hashStepAt (w h c : Nat) : Nat :=
  (((h * 2 ^ 5) % 2 ^ w + h) % 2 ^ w + charAt w c) % 2 ^ w

/-- `hash(str)` on an `unsigned long` of `w` bits; `hash` is `hashAt 64`. -/
def hashAt (w : Nat) (str : CStr) : Nat := str.foldl (hashStepAt w) (5381 % 2 ^ w)

/-! ## Documents with many children -/

/-- The content `<b/>` ... `<b/>` with `n` elements and empty texts. -/
def childrenItems : Nat → Items
  | 0 => .last []
  | n + 1 => .self [] (bytes "b") [] [] (childrenItems n)

/-- The document `<a><b/>` ... `<b/></a>` whose root has `n` children. -/
def wideDoc (n : Nat) : Doc :=
  { lead := [], prolog := [], tag := bytes "a", space := [], attrs := [],
    inner := childrenItems n, closeName := bytes "a", closeSpace := [], trail := [] }

/-! ## `xml.c`: the printer `toString_xmln` and `toString_xml` -/

/-- The loop over `node->attributes` in `toString_xmln`; `out` is the text written so
far. Every iteration checks the attribute, puts a space and writes the attribute with
`toString_xattr`. -/
def toString_attributeLoop : List XmlAttribute → CStr → Except Fatal CStr
  | [], out => .ok out
  | attr :: rest, out => do
    ASSERT_XMLATTRIBUTE attr
    -- Put a space.
    let str ← toString_xattr attr
    ASSERT_NOT_EMPTY str
    toString_attributeLoop rest (out ++ 32 :: str)

/-- The loop `for (i = 0; i < node->nChildren; i++)` in `toString_xmln` together with the
statement behind it, which writes `node->content[i]` for the `i` that the loop leaves.
`toString_child` is the recursive call of `toString_xmln`, `children` are the children
from `i` on, `out` is the text written so far. -/
def toString_contentLoop (xml : Xml) (toString_child : Nat → Except Fatal CStr)
    (content : List CStr) : List Nat → Nat → CStr → Except Fatal CStr
  | [], i, out => do
    let text ← private_toXmlString (content.getD i [])
    return out ++ text
  | child :: rest, i, out => do
    let text ← private_toXmlString (content.getD i [])
    let childNode ← getNode xml child
    ASSERT_XMLNODE childNode
    let str ← toString_child child
    ASSERT_NOT_EMPTY str
    toString_contentLoop xml toString_child content rest (i + 1) (out ++ text ++ str)

/-- `toString_xmln(str, node)` for the node with the index `n`: the text written to
`str`. The counter bounds the depth of the recursion over the children. -/
def toString_xmln : Nat → Xml → Nat → Except Fatal CStr
  | 0, _, _ => .error .outOfFuel
  | fuel + 1, xml, n => do
    let node ← getNode xml n
    ASSERT_XMLNODE node
    -- Start the node.
    let start ← fromPattern BUFFER_LARGE_SIZE (60 :: node.tag)
    ASSERT_NOT_EMPTY start
    -- Write attributes.
    let head ← toString_attributeLoop node.attributes start
    let stop ← fromPattern BUFFER_SIZE [62]
    ASSERT_NOT_EMPTY stop
    -- Write the content.
    let body ← toString_contentLoop xml (fun child => toString_xmln fuel xml child)
      node.content node.children 0 (head ++ stop)
    -- Finalize the node.
    let final ← fromPattern BUFFER_SIZE (60 :: 47 :: node.tag ++ [62])
    ASSERT_NOT_EMPTY final
    -- Final check.
    ASSERT_FITS_IN_BOUND body.length BUFFER_LARGE_SIZE
    return body ++ final

/-- `toString_xml(NULL, xml)`: the text written to the buffer of `BUFFER_LARGE_SIZE + 1`
bytes that `fromPattern` allocates for the `meta` string. The depth of a tree is at most
the number of its nodes, which is the counter that `toString_xmln` gets. The C code writes
the root behind the `meta` string into the same buffer and checks no length against the
size of the buffer; the definition is the code for a text of at most `BUFFER_LARGE_SIZE`
bytes, which the buffer holds. -/
def toString_xml (xml : Xml) : Except Fatal CStr := do
  ASSERT_XML xml
  let xmlstr ← fromPattern BUFFER_LARGE_SIZE xml.meta
  if xml.nodes.length ≠ 0 then do
    let str ← toString_xmln xml.nodes.length xml 0
    return xmlstr ++ str
  else
    return xmlstr

/-! ## The text that the printer writes for the tree of a document

The definitions of this section are not translated from the source. They give, for a
document of the grammar, the text that the claims expect from `toString_xml` on the tree
of the document (`Doc.print`), the same text as a document of the grammar
(`Doc.printed`), its length, and the limits that the tree of an accepted document
keeps. -/

/-- The text that the encoder writes for the decoded form of the text `t`. -/
def reencoded (t : CStr) : CStr := (decodeReferences t).flatMap encodeByte

/-- The attributes as the printer writes them: a space, the name, `="`, the encoded
value, `"`. -/
def printAttrs (attrs : List AttrText) : CStr :=
  attrs.flatMap fun a => 32 :: a.name ++ 61 :: 34 :: reencoded a.raw ++ [34]

/-- An element as the printer writes it. -/
def printElement (tag : CStr) (attrs : List AttrText) (body : CStr) : CStr :=
  60 :: tag ++ printAttrs attrs ++ 62 :: body ++ 60 :: 47 :: tag ++ [62]

/-- A content as the printer writes it. -/
def Items.print : Items → CStr
  | .last t => reencoded t
  | .self t tag _ attrs rest => reencoded t ++ printElement tag attrs [] ++ rest.print
  | .elem t tag _ attrs inner _ _ rest =>
    reencoded t ++ printElement tag attrs inner.print ++ rest.print

/-- A document as the printer writes its tree: the `meta` string, then the root. -/
def Doc.print (D : Doc) : CStr := D.meta ++ printElement D.tag D.attrs D.inner.print

/-- The length of `printAttrs attrs`. -/
def printAttrsLen (attrs : List AttrText) : Nat :=
  (attrs.map fun a => a.name.length + (reencoded a.raw).length + 4).sum

/-- The length of `its.print`. -/
def Items.printLen : Items → Nat
  | .last t => (reencoded t).length
  | .self t tag _ attrs rest =>
    (reencoded t).length + (2 * tag.length + printAttrsLen attrs + 5) + rest.printLen
  | .elem t tag _ attrs inner _ _ rest =>
    (reencoded t).length + (2 * tag.length + printAttrsLen attrs + 5 + inner.printLen) +
      rest.printLen

/-- The length of `D.print`. -/
def Doc.printLen (D : Doc) : Nat :=
  D.meta.length + (2 * D.tag.length + printAttrsLen D.attrs + 5 + D.inner.printLen)

/-- The final check of `toString_xmln` passes for every element of the content: the text
of an element up to its closing tag is shorter than `BUFFER_LARGE_SIZE`. -/
def Items.fits : Items → Bool
  | .last _ => true
  | .self _ tag _ attrs rest =>
    decide (tag.length + printAttrsLen attrs + 2 < BUFFER_LARGE_SIZE) && rest.fits
  | .elem _ tag _ attrs inner _ _ rest =>
    inner.fits &&
      decide (tag.length + printAttrsLen attrs + 2 + inner.printLen < BUFFER_LARGE_SIZE) &&
      rest.fits

/-- The final check of `toString_xmln` passes for every element of the document. -/
def Doc.fits (D : Doc) : Bool :=
  D.inner.fits &&
    decide (D.tag.length + printAttrsLen D.attrs + 2 + D.inner.printLen < BUFFER_LARGE_SIZE)

/-- The limits that the parser checks on an attribute. -/
def attrBounded (a : AttrText) : Bool :=
  a.name != [] && decide (a.name.length < XML_MAX_ATTRIBUTE_NAME_SIZE) &&
    decide ((decodeReferences a.raw).length < XML_MAX_ATTRIBUTE_VAL_SIZE)

/-- The limits that the parser checks on an opening tag. -/
def headBounded (tag : CStr) (attrs : List AttrText) : Bool :=
  decide (tag.length < XML_MAX_TAG_SIZE) && decide (attrs.length < XML_MAX_ATTRIBUTES) &&
    attrs.all attrBounded

/-- The limits that the parser checks on a content: on its texts, on the tags and the
attributes of its elements, on the number of children of its elements. -/
def Items.bounded : Items → Bool
  | .last t => decide ((decodeReferences t).length < XML_MAX_CONTENT_SIZE)
  | .self t tag _ attrs rest =>
    decide ((decodeReferences t).length < XML_MAX_CONTENT_SIZE) && headBounded tag attrs &&
      rest.bounded
  | .elem t tag _ attrs inner _ _ rest =>
    decide ((decodeReferences t).length < XML_MAX_CONTENT_SIZE) && headBounded tag attrs &&
      inner.bounded && decide (inner.texts.length ≤ XML_MAX_CHILDREN) && rest.bounded

/-- The limits that the parser checks on a document. -/
def Doc.bounded (D : Doc) : Bool :=
  headBounded D.tag D.attrs && D.inner.bounded &&
    decide (D.inner.texts.length ≤ XML_MAX_CHILDREN)

/-- An attribute as the printer writes it, with the whitespace `space` behind it. -/
def AttrText.printed (a : AttrText) (space : CStr) : AttrText :=
  { name := a.name, quote := 34, raw := reencoded a.raw, space := space }

/-- The attributes as the printer writes them: a space between two attributes, none
behind the last. -/
def printedAttrs : List AttrText → List AttrText
  | [] => []
  | a :: rest => a.printed (if rest.isEmpty then [] else [32]) :: printedAttrs rest

/-- The whitespace that the printer writes behind a tag: a space before the first
attribute. -/
def printedSpace (attrs : List AttrText) : CStr := if attrs.isEmpty then [] else [32]

/-- The content as the printer writes it: every text encoded anew, every element with its
opening and its closing tag, no whitespace but the space before an attribute. -/
def Items.printed : Items → Items
  | .last t => .last (reencoded t)
  | .self t tag _ attrs rest =>
    .elem (reencoded t) tag (printedSpace attrs) (printedAttrs attrs) (.last []) tag []
      rest.printed
  | .elem t tag _ attrs inner _ _ rest =>
    .elem (reencoded t) tag (printedSpace attrs) (printedAttrs attrs) inner.printed tag []
      rest.printed

/-- The text of the `meta` string between `<?` and `>`. -/
def Doc.metaBody (D : Doc) : CStr :=
  match D.prolog.getLast? with
  | some d => d.1
  | none => bytes "xml version='1.0' encoding='UTF-8' standalone='yes'?"

/-- The document as the printer writes its tree: one declaration, the `meta` string, and
the root, without whitespace outside the texts but the space before an attribute. -/
def Doc.printed (D : Doc) : Doc :=
  { lead := [], prolog := [(D.metaBody, [])], tag := D.tag, space := printedSpace D.attrs,
    attrs := printedAttrs D.attrs, inner := D.inner.printed, closeName := D.tag,
    closeSpace := [], trail := [] }

/-- The length of the text of a content. -/
def Items.textLen : Items → Nat
  | .last t => t.length + 1
  | .self t tag sp attrs rest =>
    t.length + 1 + tag.length + sp.length + (attrs.map fun a => a.text.length).sum + 2 +
      rest.textLen
  | .elem t tag sp attrs inner cn cs rest =>
    t.length + 1 + tag.length + sp.length + (attrs.map fun a => a.text.length).sum + 1 +
      inner.textLen + 1 + cn.length + cs.length + 1 + rest.textLen

/-- The length of the text of a document. -/
def Doc.textLen (D : Doc) : Nat :=
  D.lead.length + 1 + (D.prolog.map fun d => d.1.length + d.2.length + 3).sum + D.tag.length +
    D.space.length + (D.attrs.map fun a => a.text.length).sum + 1 + D.inner.textLen + 1 +
    D.closeName.length + D.closeSpace.length + 1 + D.trail.length

/-! ## A document whose printed tree has `BUFFER_LARGE_SIZE` bytes -/

/-- The attribute `a="aa...a"` with a value of 255 bytes. -/
def bigAttr (space : CStr) : AttrText :=
  { name := bytes "a", quote := 34, raw := List.replicate 255 97, space := space }

/-- The attribute `bigAttr` `n + 1` times, with a space between two of them. -/
def bigAttrs (n : Nat) : List AttrText := List.replicate n (bigAttr [32]) ++ [bigAttr []]

/-- The content `rest` behind `n` elements `<b a="aa...a" ... a="aa...a"></b>` with 31
attributes each. -/
def bigChildren : Nat → Items → Items
  | 0, rest => rest
  | n + 1, rest =>
    .elem [] (bytes "b") [32] (bigAttrs 30) (.last []) (bytes "b") [] (bigChildren n rest)

/-- The document `<t>` ... `</t>` without a prolog whose root has 16 children with 31
attributes, one child with 7 attributes and a last text of 111 bytes: 131017 bytes, written
as the printer writes. -/
def bigDoc : Doc :=
  { lead := [], prolog := [], tag := bytes "t", space := [], attrs := [],
    inner := bigChildren 16 (.elem [] (bytes "b") [32] (bigAttrs 6) (.last []) (bytes "b") []
      (.last (List.replicate 111 120))),
    closeName := bytes "t", closeSpace := [], trail := [] }

/-- A small document with a declaration, attributes, a self-closing element, whitespace
and references. -/
def printDoc : Doc :=
  { lead := [10], prolog := [(bytes "xml version=\"1.0\"?", [10])], tag := bytes "r",
    space := [32, 32],
    attrs := [{ name := bytes "k", quote := 39, raw := bytes "a\"b&lt;", space := [32] }],
    inner := .self (bytes " x>y ") (bytes "e") [32] [] (.elem (bytes "&amp;") (bytes "f") [] []
      (.last (bytes "it's")) (bytes "f") [32] (.last [])),
    closeName := bytes "r", closeSpace := [10], trail := [10] }

set_option maxRecDepth 100000

/-! ## Lemmas on the error monad and the assertions -/

theorem bind_eq_ok {α β : Type} {x : Except Fatal α} {f : α → Except Fatal β} {b : β} :
    (x >>= f) = .ok b ↔ ∃ a, x = .ok a ∧ f a = .ok b := by
  cases x <;> simp [bind, Except.bind]

theorem bind_eq_error {α β : Type} {x : Except Fatal α} {f : α → Except Fatal β} {e : Fatal} :
    (x >>= f) = .error e ↔ x = .error e ∨ ∃ a, x = .ok a ∧ f a = .error e := by
  cases x <;> simp [bind, Except.bind]

theorem pure_eq_ok {α : Type} {a b : α} : (pure a : Except Fatal α) = .ok b ↔ a = b := by
  simp [pure, Except.pure]

theorem ASSERT_NOT_EMPTY_ok {s : CStr} {u : Unit} : ASSERT_NOT_EMPTY s = .ok u ↔ s ≠ [] := by
  unfold ASSERT_NOT_EMPTY; split <;> simp_all

theorem ASSERT_NOT_TOO_LONG_ok {s : CStr} {n : Nat} {u : Unit} :
    ASSERT_NOT_TOO_LONG s n = .ok u ↔ s.length < n := by
  unfold ASSERT_NOT_TOO_LONG; split <;> simp_all

theorem ASSERT_FITS_IN_BOUND_ok {i n : Nat} {u : Unit} :
    ASSERT_FITS_IN_BOUND i n = .ok u ↔ i < n := by
  unfold ASSERT_FITS_IN_BOUND; split <;> simp_all

theorem ASSERT_NOT_ZERO_ok {i : Nat} {u : Unit} : ASSERT_NOT_ZERO i = .ok u ↔ i ≠ 0 := by
  unfold ASSERT_NOT_ZERO; split <;> simp_all

theorem ASSERT_EQUAL_STR_ok {s t : CStr} {u : Unit} : ASSERT_EQUAL_STR s t = .ok u ↔ s = t := by
  unfold ASSERT_EQUAL_STR; split <;> simp_all

theorem ASSERT_NOT_NULL_ok {α : Type} {p : Option α} {a : α} :
    ASSERT_NOT_NULL p = .ok a ↔ p = some a := by
  cases p <;> simp [ASSERT_NOT_NULL]

theorem ASSERT_HASHTABLE_ok {ht : HashTable} {u : Unit} :
    ASSERT_HASHTABLE ht = .ok u ↔ ht.nKeys < HT_MAX_KEYS := by
  unfold ASSERT_HASHTABLE; exact ASSERT_FITS_IN_BOUND_ok

theorem fromPattern_ok {cap : Nat} {f r : CStr} :
    fromPattern cap f = .ok r ↔
      (cap ≠ 0 ∧ cap < BUFFER_LARGE_SIZE + 1 ∧ f.length < cap) ∧ f = r := by
  unfold fromPattern
  simp only [bind_eq_ok, ASSERT_NOT_ZERO_ok, ASSERT_FITS_IN_BOUND_ok, ASSERT_NOT_TOO_LONG_ok,
    pure_eq_ok, exists_and_left, exists_const, and_assoc]

theorem ASSERT_DFASTATE_ok {st : DFAState} {u : Unit} :
    ASSERT_DFASTATE st = .ok u ↔
      st.name ≠ [] ∧ st.name.length < DFA_MAX_NAME_SIZE ∧ st.id < DFA_MAX_STATES := by
  unfold ASSERT_DFASTATE
  simp only [bind_eq_ok, ASSERT_NOT_EMPTY_ok, ASSERT_FITS_IN_BOUND_ok, ASSERT_NOT_TOO_LONG_ok,
    exists_and_left, exists_const]

theorem ASSERT_DFA_ok {dfa : DFA} {u : Unit} :
    ASSERT_DFA dfa = .ok u ↔
      dfa.name ≠ [] ∧ dfa.name.length < DFA_MAX_NAME_SIZE ∧ dfa.alphabet ≠ [] ∧
        dfa.alphabet.length < DFA_MAX_SYMBOLS ∧ dfa.nStates < DFA_MAX_STATES ∧
        dfa.initialStateId < DFA_MAX_STATES := by
  unfold ASSERT_DFA
  simp only [bind_eq_ok, ASSERT_NOT_EMPTY_ok, ASSERT_FITS_IN_BOUND_ok, ASSERT_NOT_TOO_LONG_ok,
    exists_and_left, exists_const]

theorem ASSERT_XMLNODE_ok {node : XmlNode} {u : Unit} :
    ASSERT_XMLNODE node = .ok u ↔
      node.tag ≠ [] ∧ node.tag.length < XML_MAX_TAG_SIZE ∧
        node.children.length < XML_MAX_CHILDREN ∧
        node.attributes.length < XML_MAX_ATTRIBUTES := by
  unfold ASSERT_XMLNODE
  simp only [bind_eq_ok, ASSERT_NOT_EMPTY_ok, ASSERT_FITS_IN_BOUND_ok, ASSERT_NOT_TOO_LONG_ok,
    exists_and_left, exists_const]

theorem getNode_ok {xml : Xml} {p : Nat} {node : XmlNode} :
    getNode xml p = .ok node ↔ xml.nodes[p]? = some node := by
  unfold getNode
  cases h : xml.nodes[p]? <;> simp

/-! ## The code emitter spells out `programOf` -/

theorem toC_transitionLoop_ok (mem : Memory) (dfa : DFA) (sourceId : Nat) (syms out r : CStr)
    (h : toC_transitionLoop mem dfa sourceId syms out = .ok r) :
    r = out ++ (syms.map fun sym =>
      renderBranch (sym, (stateAt mem dfa (cellAt mem dfa sourceId sym)).name)).flatten := by
  induction syms generalizing out with
  | nil =>
    simp only [toC_transitionLoop, Except.ok.injEq] at h
    simp [h]
  | cons w rest ih =>
    simp only [toC_transitionLoop, bind_eq_ok, fromPattern_ok, ASSERT_NOT_EMPTY_ok,
      ASSERT_FITS_IN_BOUND_ok, ASSERT_DFASTATE_ok] at h
    obtain ⟨p1, ⟨_, hp1⟩, _, _, _, _, _, _, p2, ⟨_, hp2⟩, _, _, h⟩ := h
    rw [ih _ h, ← hp1, ← hp2]
    simp [renderBranch, List.append_assoc]

theorem toC_stateLoop_ok (mem : Memory) (dfa : DFA) (ks : List Nat) (out r : CStr)
    (h : toC_stateLoop mem dfa ks out = .ok r) :
    r = out ++ (ks.map fun k => renderBlock
      { label := (stateAt mem dfa k).name
        onEnd := (stateAt mem dfa k).isAccept
        branches := dfa.alphabet.map fun sym =>
          (sym, (stateAt mem dfa (cellAt mem dfa (stateAt mem dfa k).id sym)).name) }).flatten := by
  induction ks generalizing out with
  | nil =>
    simp only [toC_stateLoop, Except.ok.injEq] at h
    simp [h]
  | cons k rest ih =>
    simp only [toC_stateLoop, bind_eq_ok, fromPattern_ok, ASSERT_NOT_EMPTY_ok,
      ASSERT_FITS_IN_BOUND_ok, ASSERT_DFASTATE_ok] at h
    obtain ⟨_, _, _, _, p1, ⟨_, hp1⟩, _, _, p2, ⟨_, hp2⟩, _, _, p3, ⟨_, hp3⟩, _, _, out1, hloop,
      p4, ⟨_, hp4⟩, _, _, h⟩ := h
    rw [ih _ h, toC_transitionLoop_ok _ _ _ _ _ _ hloop, ← hp1, ← hp2, ← hp3, ← hp4]
    simp [renderBlock, List.append_assoc, List.map_map, Function.comp_def]

theorem stateAt_of_lt (mem : Memory) (dfa : DFA) (k : Nat) (h : k < dfa.states.length) :
    stateAt mem dfa k = dfa.states[k] := by
  simp [stateAt, List.getElem?_eq_getElem h]

theorem range_map_stateAt {β : Type} (mem : Memory) (dfa : DFA) (F : DFAState → β) :
    (List.range dfa.states.length).map (fun k => F (stateAt mem dfa k)) = dfa.states.map F := by
  apply List.ext_getElem
  · simp
  · intro i h1 h2
    simp only [List.length_map, List.length_range] at h1
    simp [stateAt_of_lt mem dfa i h1]

/-- The text of `toC_dfa` is the rendering of `programOf`. -/
theorem toC_dfa_eq_render (mem : Memory) (dfa : DFA) (txt : CStr)
    (h : toC_dfa mem dfa = .ok txt) : txt = render (programOf mem dfa) := by
  simp only [toC_dfa, bind_eq_ok, fromPattern_ok, ASSERT_NOT_EMPTY_ok, ASSERT_NOT_TOO_LONG_ok,
    ASSERT_DFASTATE_ok, pure_eq_ok] at h
  obtain ⟨_, _, p0, ⟨_, hp0⟩, _, _, _, _, p1, ⟨_, hp1⟩, _, _, out, hloop, p2, ⟨_, hp2⟩, _, _, _,
    _, _, _, h⟩ := h
  rw [← h, toC_stateLoop_ok _ _ _ _ _ hloop, ← hp0, ← hp1, ← hp2]
  unfold DeterministicFiniteAutomaton.nStates
  rw [range_map_stateAt mem dfa (fun st => renderBlock
      { label := st.name, onEnd := st.isAccept,
        branches := dfa.alphabet.map fun sym =>
          (sym, (stateAt mem dfa (cellAt mem dfa st.id sym)).name) })]
  simp [render, programOf, List.map_map, Function.comp_def]

theorem toC_transitionLoop_mem (mem mem' : Memory) (dfa : DFA) (sourceId : Nat) (syms : CStr)
    (hc : ∀ c ∈ syms, ∃ k, dfa.transitions sourceId c = some k ∧ k < dfa.states.length)
    (out : CStr) :
    toC_transitionLoop mem dfa sourceId syms out = toC_transitionLoop mem' dfa sourceId syms out := by
  induction syms generalizing out with
  | nil => rfl
  | cons w rest ih =>
    obtain ⟨k, hk, hlt⟩ := hc w (List.mem_cons_self _ _)
    have ih' := ih (fun c hcm => hc c (List.mem_cons_of_mem _ hcm))
    have h1 : cellAt mem dfa sourceId w = k := by simp [cellAt, hk]
    have h2 : cellAt mem' dfa sourceId w = k := by simp [cellAt, hk]
    simp only [toC_transitionLoop, h1, h2, stateAt_of_lt _ dfa k hlt, ih']

theorem toC_stateLoop_mem (mem mem' : Memory) (dfa : DFA) (ks : List Nat)
    (hk : ∀ k ∈ ks, k < dfa.states.length)
    (hc : ∀ st ∈ dfa.states, ∀ c ∈ dfa.alphabet,
      ∃ k, dfa.transitions st.id c = some k ∧ k < dfa.states.length)
    (out : CStr) :
    toC_stateLoop mem dfa ks out = toC_stateLoop mem' dfa ks out := by
  induction ks generalizing out with
  | nil => rfl
  | cons k rest ih =>
    have hlt := hk k (List.mem_cons_self _ _)
    have ih' := ih (fun c hcm => hk c (List.mem_cons_of_mem _ hcm))
    have hmem : dfa.states[k] ∈ dfa.states := List.getElem_mem _
    simp only [toC_stateLoop, stateAt_of_lt _ dfa k hlt, ih',
      toC_transitionLoop_mem mem mem' dfa _ _ (hc _ hmem)]

theorem closedOn_spec (dfa : DFA) (h : closedOn dfa = true) :
    dfa.initialStateId < dfa.states.length ∧
      ∀ st ∈ dfa.states, ∀ c ∈ dfa.alphabet,
        ∃ k, dfa.transitions st.id c = some k ∧ k < dfa.states.length := by
  simp only [closedOn, Bool.and_eq_true, decide_eq_true_eq, List.all_eq_true] at h
  refine ⟨h.1, fun st hst c hc => ?_⟩
  have := h.2 st hst c hc
  cases hk : dfa.transitions st.id c with
  | none => simp [hk] at this
  | some k => exact ⟨k, rfl, by simpa [hk] using this⟩

/-- When every cell that `toC_dfa` reads was written, its result does not depend on
what the other cells hold. -/
theorem toC_dfa_mem (mem mem' : Memory) (dfa : DFA) (h : closedOn dfa = true) :
    toC_dfa mem dfa = toC_dfa mem' dfa := by
  obtain ⟨hi, hc⟩ := closedOn_spec dfa h
  have hr : ∀ k ∈ List.range dfa.nStates, k < dfa.states.length := fun k hk => by
    simpa [DeterministicFiniteAutomaton.nStates] using hk
  simp only [toC_dfa, stateAt_of_lt _ dfa _ hi, toC_stateLoop_mem mem mem' dfa _ hr hc]

/-! ## The name table is a finite map -/

theorem findInRow_replaceInRow (k k' : CStr) (v : Nat) (row row' : List Mapping)
    (h : replaceInRow k v row = some row') :
    findInRow k' row' = if k' = k then some v else findInRow k' row := by
  induction row generalizing row' with
  | nil => simp [replaceInRow] at h
  | cons m ms ih =>
    unfold replaceInRow at h
    split at h
    · rename_i hm
      simp only [Option.some.injEq] at h
      subst h
      by_cases hk : k' = k
      · simp [findInRow, hm, hk]
      · have : ¬ k = k' := fun e => hk e.symm
        simp [findInRow, hm, hk, this]
    · rename_i hm
      cases hr : replaceInRow k v ms with
      | none => simp [hr] at h
      | some r =>
        simp only [hr, Option.map_some', Option.some.injEq] at h
        subst h
        have := ih r hr
        by_cases hk : k' = k
        · subst hk
          simp only [findInRow, hm, if_false, this, if_true]
        · simp only [findInRow, this, hk, if_false]

theorem findInRow_of_replaceInRow_none (k : CStr) (v : Nat) (row : List Mapping)
    (h : replaceInRow k v row = none) : findInRow k row = none := by
  induction row with
  | nil => rfl
  | cons m ms ih =>
    unfold replaceInRow at h
    split at h
    · simp at h
    · rename_i hm
      simp only [Option.map_eq_none'] at h
      simp [findInRow, hm, ih h]

theorem findInRow_append (k' : CStr) (row : List Mapping) (m : Mapping) :
    findInRow k' (row ++ [m]) =
      match findInRow k' row with
      | some v => some v
      | none => if m.key = k' then some m.value else none := by
  induction row with
  | nil => simp [findInRow]
  | cons x xs ih =>
    by_cases hx : x.key = k'
    · simp [findInRow, hx]
    · simp [findInRow, hx, ih]

/-- After a successful `insert_ht` the table maps the inserted key to the inserted value
and every other key as before. -/
theorem lookup_insert_ht (ht ht' : HashTable) (k k' : CStr) (v : Nat)
    (h : insert_ht ht k v = .ok ht') :
    lookup_ht ht' k' = if k' = k then some v else lookup_ht ht k' := by
  unfold insert_ht at h
  simp only [bind_eq_ok, ASSERT_HASHTABLE_ok, ASSERT_NOT_TOO_LONG_ok] at h
  obtain ⟨_, _, _, _, h⟩ := h
  split at h
  · rename_i row hrow
    simp only [pure_eq_ok] at h
    subst h
    unfold lookup_ht
    by_cases hr : hash k' % HT_ROW_COUNT = hash k % HT_ROW_COUNT
    · rw [hr]
      simp only [Function.update_same]
      rw [findInRow_replaceInRow k k' v _ _ hrow]
    · have hk : k' ≠ k := fun e => hr (by rw [e])
      simp only [Function.update_noteq hr, hk, if_false]
  · rename_i hrow
    simp only [bind_eq_ok, ASSERT_FITS_IN_BOUND_ok, fromPattern_ok, ASSERT_HASHTABLE_ok,
      pure_eq_ok] at h
    obtain ⟨_, _, kk, ⟨_, hkk⟩, _, _, h⟩ := h
    subst h hkk
    unfold lookup_ht
    by_cases hr : hash k' % HT_ROW_COUNT = hash k % HT_ROW_COUNT
    · rw [hr]
      simp only [Function.update_same, findInRow_append]
      by_cases hk : k' = k
      · subst hk
        simp [findInRow_of_replaceInRow_none _ _ _ hrow]
      · have : ¬ k = k' := fun e => hk e.symm
        simp only [hk, this, if_false]
        cases findInRow k' (ht.map (hash k % HT_ROW_COUNT)) <;> rfl
    · have hk : k' ≠ k := fun e => hr (by rw [e])
      simp only [Function.update_noteq hr, hk, if_false]

theorem get_ht_ok (ht : HashTable) (key : CStr) (r : Option Nat) (h : get_ht ht key = .ok r) :
    r = lookup_ht ht key ∧ key.length < HT_MAX_KEY_SIZE := by
  unfold get_ht at h
  simp only [bind_eq_ok, ASSERT_HASHTABLE_ok, ASSERT_NOT_TOO_LONG_ok, pure_eq_ok] at h
  obtain ⟨_, _, _, hl, h⟩ := h
  exact ⟨h.symm, hl⟩

theorem get_ht_run (ht : HashTable) (key : CStr) (hht : ASSERT_HASHTABLE ht = .ok ())
    (hl : key.length < HT_MAX_KEY_SIZE) : get_ht ht key = .ok (lookup_ht ht key) := by
  unfold get_ht
  simp only [hht, ASSERT_NOT_TOO_LONG, hl, if_true, bind, Except.bind, pure, Except.pure,
    lookup_ht]

theorem stateId_append (states : List DFAState) (st : DFAState) (name : CStr) :
    stateId (states ++ [st]) name =
      if name = st.name then some st.id else stateId states name := by
  unfold stateId
  by_cases h : st.name = name
  · simp [h]
  · have : ¬ name = st.name := fun e => h e.symm
    simp [h, this]

theorem stateId_some_mem (states : List DFAState) (name : CStr) (id : Nat)
    (h : stateId states name = some id) : ∃ st ∈ states, st.name = name ∧ st.id = id := by
  unfold stateId at h
  simp only [Option.map_eq_some'] at h
  obtain ⟨st, hf, hid⟩ := h
  have h1 := List.mem_of_find?_eq_some hf
  have h2 := List.find?_some hf
  simp only [decide_eq_true_eq] at h2
  exact ⟨st, List.mem_reverse.mp h1, h2, hid⟩

theorem stateId_name_length (states : List DFAState) (name : CStr) (id : Nat)
    (hss : ∀ st ∈ states, ASSERT_DFASTATE st = .ok ()) (h : stateId states name = some id) :
    name.length < HT_MAX_KEY_SIZE := by
  obtain ⟨st, hm, hn, _⟩ := stateId_some_mem states name id h
  have := ASSERT_DFASTATE_ok.mp (hss st hm)
  rw [← hn]
  exact this.2.1

/-! ## The builder: the states -/

theorem insertState_dfa_ok (dfa dfa' : DFA) (s : Nat) (h : insertState_dfa dfa = .ok (dfa', s)) :
    s = dfa.states.length ∧ dfa.states.length + 1 < DFA_MAX_STATES ∧ dfa.alphabet ≠ [] ∧
      ∃ st : DFAState, st.id = dfa.states.length ∧
        dfa' = { dfa with states := dfa.states ++ [st] } := by
  unfold insertState_dfa at h
  simp only [bind_eq_ok, ASSERT_DFA_ok, ASSERT_FITS_IN_BOUND_ok, fromPattern_ok,
    ASSERT_NOT_EMPTY_ok, ASSERT_DFASTATE_ok, pure_eq_ok, Prod.mk.injEq,
    DeterministicFiniteAutomaton.nStates] at h
  obtain ⟨_, ⟨_, _, ha, _⟩, _, _, _, hlt, _, _, name, _, _, _, _, _, h1, h2⟩ := h
  refine ⟨h2.symm, hlt, ha, ⟨_, ?_, h1.symm⟩⟩
  simp

theorem set_length_append {α : Type} (l : List α) (a b : α) :
    (l ++ [a]).set l.length b = l ++ [b] := by
  induction l with
  | nil => rfl
  | cons x xs ih => simp [ih]

theorem stateLoop_ok (xml : Xml) (flag : Int) (js : List Nat) (dfa dfa' : DFA)
    (ht ht' : HashTable) (h : stateLoop xml flag js dfa ht = .ok (dfa', ht'))
    (hinv : ∀ k, lookup_ht ht k = stateId dfa.states k) :
    dfa'.states = dfa.states ++
        statesFrom dfa.states.length ((js.filterMap fun j => xml.nodes[j]?).map fun st => (st.tag, flag)) ∧
      dfa'.name = dfa.name ∧ dfa'.alphabet = dfa.alphabet ∧
      dfa'.initialStateId = dfa.initialStateId ∧ dfa'.transitions = dfa.transitions ∧
      (∀ k, lookup_ht ht' k = stateId dfa'.states k) ∧ (js ≠ [] → dfa.alphabet ≠ []) := by
  induction js generalizing dfa ht with
  | nil =>
    simp only [stateLoop, Except.ok.injEq, Prod.mk.injEq] at h
    obtain ⟨rfl, rfl⟩ := h
    simp [statesFrom, hinv]
  | cons j rest ih =>
    simp only [stateLoop, bind_eq_ok, getNode_ok, ASSERT_XMLNODE_ok, ASSERT_NOT_NULL_ok,
      ASSERT_DFASTATE_ok, fromPattern_ok, ASSERT_NOT_EMPTY_ok, ASSERT_HASHTABLE_ok] at h
    obtain ⟨state, hstate, _, _, ⟨dfa1, s⟩, hins, st0, hst0, _, _, check, ⟨_, hcheck⟩, _, _,
      ht1, hht1, _, _, h⟩ := h
    obtain ⟨hs, _, hne, stn, hid, hd1⟩ := insertState_dfa_ok _ _ _ hins
    subst hs hd1
    simp only [List.getElem?_concat_length, Option.some.injEq] at hst0
    subst hst0
    simp only [set_length_append] at h hht1
    have hinv1 : ∀ k, lookup_ht ht1 k =
        stateId (dfa.states ++ [{ stn with isAccept := flag, name := check }]) k := by
      intro k
      rw [lookup_insert_ht _ _ _ k _ hht1, stateId_append, hinv k]
    obtain ⟨h1, h2, h3, h4, h5, h6, _⟩ := ih _ _ h hinv1
    refine ⟨?_, h2, h3, h4, h5, h6, fun _ => hne⟩
    rw [h1]
    simp [hstate, statesFrom, hid, ← hcheck]

theorem insertState_dfa_valid (dfa dfa' : DFA) (s : Nat)
    (h : insertState_dfa dfa = .ok (dfa', s)) : ASSERT_DFA dfa = .ok () := by
  unfold insertState_dfa at h
  simp only [bind_eq_ok] at h
  obtain ⟨_, h1, _⟩ := h
  exact h1

theorem stateLoop_valid (xml : Xml) (flag : Int) (js : List Nat) (dfa dfa' : DFA)
    (ht ht' : HashTable) (h : stateLoop xml flag js dfa ht = .ok (dfa', ht'))
    (hss : ∀ st ∈ dfa.states, ASSERT_DFASTATE st = .ok ())
    (hht : ASSERT_HASHTABLE ht = .ok ()) :
    (∀ st ∈ dfa'.states, ASSERT_DFASTATE st = .ok ()) ∧ ASSERT_HASHTABLE ht' = .ok () ∧
      (js ≠ [] → dfa.name ≠ [] ∧ dfa.name.length < DFA_MAX_NAME_SIZE ∧
        dfa.alphabet.length < DFA_MAX_SYMBOLS ∧ dfa'.states.length < DFA_MAX_STATES) := by
  induction js generalizing dfa ht with
  | nil =>
    simp only [stateLoop, Except.ok.injEq, Prod.mk.injEq] at h
    obtain ⟨rfl, rfl⟩ := h
    exact ⟨hss, hht, fun hn => absurd rfl hn⟩
  | cons j rest ih =>
    simp only [stateLoop, bind_eq_ok, getNode_ok, ASSERT_XMLNODE_ok, ASSERT_NOT_NULL_ok,
      ASSERT_DFASTATE_ok, fromPattern_ok, ASSERT_NOT_EMPTY_ok] at h
    obtain ⟨state, hstate, _, _, ⟨dfa1, s⟩, hins, st0, hst0, _, hst0ok, check, ⟨⟨_, _, hcl⟩, hcheck⟩,
      _, hcne, ht1, hht1, _, hht1ok, h⟩ := h
    have hv := ASSERT_DFA_ok.mp (insertState_dfa_valid _ _ _ hins)
    obtain ⟨hs, hlt, hne, stn, hid, hd1⟩ := insertState_dfa_ok _ _ _ hins
    subst hs hd1
    simp only [List.getElem?_concat_length, Option.some.injEq] at hst0
    subst hst0
    simp only [set_length_append] at h hht1
    have hss1 : ∀ st ∈ dfa.states ++ [{ stn with isAccept := flag, name := check }],
        ASSERT_DFASTATE st = .ok () := by
      intro st hm
      rcases List.mem_append.mp hm with hm | hm
      · exact hss st hm
      · simp only [List.mem_singleton] at hm
        subst hm
        rw [ASSERT_DFASTATE_ok]
        refine ⟨hcne, ?_, hst0ok.2.2⟩
        rw [← hcheck]; exact hcl
    obtain ⟨g1, g2, g3⟩ := ih _ _ h hss1 hht1ok
    refine ⟨g1, g2, fun _ => ⟨hv.1, hv.2.1, hv.2.2.2.1, ?_⟩⟩
    by_cases hr : rest = []
    · subst hr
      simp only [stateLoop, Except.ok.injEq, Prod.mk.injEq] at h
      obtain ⟨rfl, _⟩ := h
      simpa using hlt
    · exact (g3 hr).2.2.2

theorem statesFrom_append (k : Nat) (a b : List (CStr × Int)) :
    statesFrom k (a ++ b) = statesFrom k a ++ statesFrom (k + a.length) b := by
  induction a generalizing k with
  | nil => simp [statesFrom]
  | cons x xs ih =>
    obtain ⟨n, f⟩ := x
    simp [statesFrom, ih, Nat.add_assoc, Nat.add_comm 1]

theorem statesFrom_length (k : Nat) (a : List (CStr × Int)) :
    (statesFrom k a).length = a.length := by
  induction a generalizing k with
  | nil => rfl
  | cons x xs ih =>
    obtain ⟨n, f⟩ := x
    simp [statesFrom, ih]

theorem stateGroupLoop_ok (xml : Xml) (is : List Nat) (dfa dfa' : DFA)
    (ht ht' : HashTable) (h : stateGroupLoop xml is dfa ht = .ok (dfa', ht'))
    (hinv : ∀ k, lookup_ht ht k = stateId dfa.states k) :
    dfa'.states = dfa.states ++
        statesFrom dfa.states.length
          ((is.filterMap fun i => xml.nodes[i]?).flatMap (groupStates xml)) ∧
      dfa'.name = dfa.name ∧ dfa'.alphabet = dfa.alphabet ∧
      dfa'.initialStateId = dfa.initialStateId ∧ dfa'.transitions = dfa.transitions ∧
      (∀ k, lookup_ht ht' k = stateId dfa'.states k) ∧
      (dfa'.states ≠ dfa.states → dfa.alphabet ≠ []) := by
  induction is generalizing dfa ht with
  | nil =>
    simp only [stateGroupLoop, Except.ok.injEq, Prod.mk.injEq] at h
    obtain ⟨rfl, rfl⟩ := h
    simp [statesFrom, hinv]
  | cons i rest ih =>
    simp only [stateGroupLoop, bind_eq_ok, getNode_ok, ASSERT_XMLNODE_ok] at h
    obtain ⟨node, hnode, _, _, h⟩ := h
    generalize hfa : (if node.tag = bytes "accept" then (1 : Int) else 0) = fa at h
    generalize hfr : (if node.tag = bytes "reject" then (1 : Int) else 0) = fr at h
    split at h
    · rename_i hskip
      obtain ⟨h1, h2, h3, h4, h5, h6, h7⟩ := ih _ _ h hinv
      have ha : node.tag ≠ bytes "accept" := fun e => by
        rw [if_pos e] at hfa; rw [← hfa] at hskip; simp at hskip
      have hr : node.tag ≠ bytes "reject" := fun e => by
        rw [if_pos e] at hfr; rw [← hfr] at hskip; simp at hskip
      refine ⟨?_, h2, h3, h4, h5, h6, h7⟩
      rw [h1]
      simp [hnode, groupStates, ha, hr]
    · rename_i hgo
      simp only [bind_eq_ok] at h
      obtain ⟨⟨dfa1, ht1⟩, hloop, h⟩ := h
      obtain ⟨g1, g2, g3, g4, g5, g6, g7⟩ := stateLoop_ok _ _ _ _ _ _ _ hloop hinv
      obtain ⟨h1, h2, h3, h4, h5, h6, h7⟩ := ih _ _ h g6
      refine ⟨?_, h2.trans g2, h3.trans g3, h4.trans g4, h5.trans g5, h6, ?_⟩
      · rw [h1, g1]
        have hg : groupStates xml node = (childrenOf xml node).map fun st => (st.tag, fa) := by
          subst hfa hfr
          unfold groupStates
          by_cases ha : node.tag = bytes "accept"
          · simp [ha]
          · by_cases hr : node.tag = bytes "reject"
            · rw [if_neg ha, if_pos hr, if_neg ha]
            · exfalso; apply hgo; rw [if_neg ha, if_neg hr]; exact ⟨rfl, rfl⟩
        simp [hnode, hg, childrenOf, statesFrom_append, statesFrom_length, List.append_assoc]
      · intro hne
        by_cases hc : node.children = []
        · rw [g3] at h7
          apply h7
          simp only [hc, List.filterMap_nil, List.map_nil, statesFrom, List.append_nil] at g1
          rw [g1]; exact hne
        · exact g7 hc

theorem stateGroupLoop_valid (xml : Xml) (is : List Nat) (dfa dfa' : DFA)
    (ht ht' : HashTable) (h : stateGroupLoop xml is dfa ht = .ok (dfa', ht'))
    (hinv : ∀ k, lookup_ht ht k = stateId dfa.states k)
    (hss : ∀ st ∈ dfa.states, ASSERT_DFASTATE st = .ok ())
    (hht : ASSERT_HASHTABLE ht = .ok ()) :
    (∀ st ∈ dfa'.states, ASSERT_DFASTATE st = .ok ()) ∧ ASSERT_HASHTABLE ht' = .ok () ∧
      (dfa'.states ≠ dfa.states → dfa.name ≠ [] ∧ dfa.name.length < DFA_MAX_NAME_SIZE ∧
        dfa.alphabet.length < DFA_MAX_SYMBOLS ∧ dfa'.states.length < DFA_MAX_STATES) := by
  induction is generalizing dfa ht with
  | nil =>
    simp only [stateGroupLoop, Except.ok.injEq, Prod.mk.injEq] at h
    obtain ⟨rfl, rfl⟩ := h
    exact ⟨hss, hht, fun hn => absurd rfl hn⟩
  | cons i rest ih =>
    simp only [stateGroupLoop, bind_eq_ok, getNode_ok, ASSERT_XMLNODE_ok] at h
    obtain ⟨node, hnode, _, _, h⟩ := h
    generalize (if node.tag = bytes "accept" then (1 : Int) else 0) = fa at h
    generalize (if node.tag = bytes "reject" then (1 : Int) else 0) = fr at h
    split at h
    · exact ih _ _ h hinv hss hht
    · simp only [bind_eq_ok] at h
      obtain ⟨⟨dfa1, ht1⟩, hloop, h⟩ := h
      obtain ⟨g1, g2, g3, _, _, g6, _⟩ := stateLoop_ok _ _ _ _ _ _ _ hloop hinv
      obtain ⟨v1, v2, v3⟩ := stateLoop_valid _ _ _ _ _ _ _ hloop hss hht
      obtain ⟨w1, w2, w3⟩ := ih _ _ h g6 v1 v2
      refine ⟨w1, w2, fun hne => ?_⟩
      by_cases hc : node.children = []
      · simp only [hc, List.filterMap_nil, List.map_nil, statesFrom, List.append_nil] at g1
        rw [g1, g2, g3] at w3
        exact w3 hne
      · obtain ⟨a1, a2, a3, a4⟩ := v3 hc
        refine ⟨a1, a2, a3, ?_⟩
        by_cases he : dfa'.states = dfa1.states
        · rw [he]; exact a4
        · exact (w3 he).2.2.2

/-! ## The builder: the transitions -/

theorem writeCell_apply (t : Nat → Nat → Option Nat) (w : Write) (s c : Nat) :
    writeCell t w s c = if w.source = s ∧ w.symbol = c then some w.sink else t s c := by
  unfold writeCell
  by_cases hs : s = w.source
  · subst hs
    by_cases hc : c = w.symbol
    · subst hc; simp
    · have : ¬ w.symbol = c := fun e => hc e.symm
      simp [Function.update_noteq hc, this]
  · have : ¬ w.source = s := fun e => hs e.symm
    simp [Function.update_noteq hs, this]

theorem applyWrites_append (t : Nat → Nat → Option Nat) (a b : List Write) :
    applyWrites t (a ++ b) = applyWrites (applyWrites t a) b := by
  simp [applyWrites, List.foldl_append]

/-- A cell holds the sink of the last write to it, and its old contents when there is
no write to it. -/
theorem applyWrites_apply (t : Nat → Nat → Option Nat) (ws : List Write) (s c : Nat) :
    applyWrites t ws s c =
      match lastWrite ws s c with
      | some w => some w.sink
      | none => t s c := by
  induction ws using List.reverseRecOn with
  | nil => simp [applyWrites, lastWrite]
  | append_singleton ws w ih =>
    rw [applyWrites_append]
    simp only [applyWrites, List.foldl_cons, List.foldl_nil] at ih ⊢
    rw [writeCell_apply, ih]
    unfold lastWrite
    by_cases h : w.source = s ∧ w.symbol = c
    · simp [h]
    · simp [h]

theorem insertTransition_dfa_ok (dfa dfa' : DFA) (sid kid w r : Nat)
    (h : insertTransition_dfa dfa sid kid w = .ok (dfa', r)) :
    sid < dfa.states.length ∧ kid < dfa.states.length ∧
      ((w ∈ dfa.alphabet ∧ r = 1 ∧
          dfa' = { dfa with transitions := writeCell dfa.transitions ⟨sid, w, kid⟩ }) ∨
        (w ∉ dfa.alphabet ∧ r = 0 ∧ dfa' = dfa)) := by
  unfold insertTransition_dfa at h
  simp only [bind_eq_ok, ASSERT_DFA_ok, ASSERT_FITS_IN_BOUND_ok, ASSERT_NOT_ZERO_ok,
    ASSERT_NOT_NULL_ok, ASSERT_DFASTATE_ok, DeterministicFiniteAutomaton.nStates] at h
  obtain ⟨_, _, _, hs, _, hk, _, _, _, _, _, _, _, _, _, _, h⟩ := h
  refine ⟨hs, hk, ?_⟩
  split at h
  · rename_i hw
    simp only [pure_eq_ok, Prod.mk.injEq] at h
    exact Or.inl ⟨hw, h.2.symm, h.1.symm⟩
  · rename_i hw
    simp only [pure_eq_ok, Prod.mk.injEq] at h
    exact Or.inr ⟨hw, h.2.symm, h.1.symm⟩

theorem symbolLoop_ok (sid kid : Nat) (ws : CStr) (dfa dfa' : DFA) (e e' : Nat)
    (h : symbolLoop true sid kid ws dfa e = .ok (dfa', e')) :
    dfa'.states = dfa.states ∧ dfa'.name = dfa.name ∧ dfa'.alphabet = dfa.alphabet ∧
      dfa'.initialStateId = dfa.initialStateId ∧
      dfa'.transitions = applyWrites dfa.transitions (ws.map fun w => ⟨sid, w, kid⟩) ∧
      (∀ w ∈ ws, w ∈ dfa.alphabet) := by
  induction ws generalizing dfa e with
  | nil =>
    simp only [symbolLoop, Except.ok.injEq, Prod.mk.injEq] at h
    obtain ⟨rfl, rfl⟩ := h
    simp [applyWrites]
  | cons w rest ih =>
    unfold symbolLoop at h
    by_cases hw : w ∈ dfa.alphabet
    · rw [if_pos hw] at h
      simp only [bind_eq_ok, pure_eq_ok, ASSERT_NOT_ZERO_ok] at h
      obtain ⟨⟨dfa1, e1⟩, h1, ⟨dfa2, r⟩, hins, _, hr, h⟩ := h
      simp only [Prod.mk.injEq] at h1
      obtain ⟨rfl, rfl⟩ := h1
      obtain ⟨_, _, hcase⟩ := insertTransition_dfa_ok _ _ _ _ _ _ hins
      rcases hcase with ⟨_, _, hd⟩ | ⟨hn, _, _⟩
      · subst hd
        obtain ⟨g1, g2, g3, g4, g5, g6⟩ := ih _ _ h
        refine ⟨g1, g2, g3, g4, ?_, ?_⟩
        · rw [g5]; simp [applyWrites]
        · intro x hx
          rcases List.mem_cons.mp hx with rfl | hx
          · exact hw
          · exact g6 x hx
      · exact absurd hw hn
    · rw [if_neg hw] at h
      simp [bind, Except.bind, errorIf] at h

theorem WellDeclared_congr (dfa dfa' : DFA) (d : Declared) (hs : dfa'.states = dfa.states)
    (ha : dfa'.alphabet = dfa.alphabet) : WellDeclared dfa' d ↔ WellDeclared dfa d := by
  unfold WellDeclared; rw [hs, ha]

theorem writesOf_append (states : List DFAState) (a b : List Declared) :
    writesOf states (a ++ b) = writesOf states a ++ writesOf states b := by
  simp [writesOf]

theorem writesOf_symbols (states : List DFAState) (src snk : CStr) (sid kid : Nat) (ws : CStr)
    (hs : stateId states src = some sid) (hk : stateId states snk = some kid) :
    writesOf states (ws.map fun w => ⟨src, snk, w⟩) = ws.map fun w => ⟨sid, w, kid⟩ := by
  induction ws with
  | nil => rfl
  | cons w rest ih =>
    simp only [writesOf, List.map_cons, List.filterMap_cons] at ih ⊢
    simp [resolve, hs, hk, ih]

theorem sinkLoop_ok (xml : Xml) (ht : HashTable) (src : CStr) (sid : Nat) (js : List Nat)
    (dfa dfa' : DFA) (e e' : Nat)
    (h : sinkLoop xml ht true sid js dfa e = .ok (dfa', e'))
    (hinv : ∀ k, lookup_ht ht k = stateId dfa.states k)
    (hs : stateId dfa.states src = some sid) (hlt : sid < dfa.states.length) :
    dfa'.states = dfa.states ∧ dfa'.name = dfa.name ∧ dfa'.alphabet = dfa.alphabet ∧
      dfa'.initialStateId = dfa.initialStateId ∧
      dfa'.transitions = applyWrites dfa.transitions
        (writesOf dfa.states ((js.filterMap fun j => xml.nodes[j]?).flatMap fun sink =>
          (sink.content.getD 0 []).map fun w => ⟨src, sink.tag, w⟩)) ∧
      (∀ d ∈ ((js.filterMap fun j => xml.nodes[j]?).flatMap fun sink =>
          (sink.content.getD 0 []).map fun w => (⟨src, sink.tag, w⟩ : Declared)),
        WellDeclared dfa d) := by
  induction js generalizing dfa e with
  | nil =>
    simp only [sinkLoop, Except.ok.injEq, Prod.mk.injEq] at h
    obtain ⟨rfl, rfl⟩ := h
    simp [applyWrites, writesOf]
  | cons j rest ih =>
    simp only [sinkLoop, bind_eq_ok, getNode_ok, ASSERT_XMLNODE_ok, ASSERT_NOT_NULL_ok,
      ASSERT_FITS_IN_BOUND_ok, DeterministicFiniteAutomaton.nStates] at h
    obtain ⟨sink, hsink, _, _, obj, hget, kid, hobj, _, hk, ⟨dfa1, e1⟩, hsym, h⟩ := h
    obtain ⟨hobj', _⟩ := get_ht_ok _ _ _ hget
    rw [hobj, hinv] at hobj'
    obtain ⟨s1, s2, s3, s4, s5, s6⟩ := symbolLoop_ok _ _ _ _ _ _ _ hsym
    obtain ⟨g1, g2, g3, g4, g5, g6⟩ := ih dfa1 e1 h (by rw [s1]; exact hinv) (by rw [s1]; exact hs)
      (by rw [s1]; exact hlt)
    refine ⟨g1.trans s1, g2.trans s2, g3.trans s3, g4.trans s4, ?_, ?_⟩
    · rw [g5, s5, s1]
      simp only [hsink, List.filterMap_cons, List.flatMap_cons, writesOf_append,
        applyWrites_append]
      rw [writesOf_symbols dfa.states src sink.tag sid kid _ hs hobj'.symm]
    · intro d hd
      simp only [hsink, List.filterMap_cons, List.flatMap_cons, List.mem_append] at hd
      rcases hd with hd | hd
      · simp only [List.mem_map] at hd
        obtain ⟨w, hw, rfl⟩ := hd
        exact ⟨sid, kid, hs, hlt, hobj'.symm, hk, s6 w hw⟩
      · exact (WellDeclared_congr dfa dfa1 d s1 s3).mp (g6 d hd)

theorem sourceLoop_ok (xml : Xml) (ht : HashTable) (is : List Nat)
    (dfa dfa' : DFA) (e e' : Nat)
    (h : sourceLoop xml ht true is dfa e = .ok (dfa', e'))
    (hinv : ∀ k, lookup_ht ht k = stateId dfa.states k) :
    dfa'.states = dfa.states ∧ dfa'.name = dfa.name ∧ dfa'.alphabet = dfa.alphabet ∧
      dfa'.initialStateId = dfa.initialStateId ∧
      dfa'.transitions = applyWrites dfa.transitions
        (writesOf dfa.states ((is.filterMap fun i => xml.nodes[i]?).flatMap (sourceDeclared xml))) ∧
      (∀ d ∈ (is.filterMap fun i => xml.nodes[i]?).flatMap (sourceDeclared xml),
        WellDeclared dfa d) := by
  induction is generalizing dfa e with
  | nil =>
    simp only [sourceLoop, Except.ok.injEq, Prod.mk.injEq] at h
    obtain ⟨rfl, rfl⟩ := h
    simp [applyWrites, writesOf]
  | cons i rest ih =>
    simp only [sourceLoop, bind_eq_ok, getNode_ok, ASSERT_XMLNODE_ok, ASSERT_NOT_NULL_ok,
      ASSERT_FITS_IN_BOUND_ok, DeterministicFiniteAutomaton.nStates] at h
    obtain ⟨src, hsrc, _, _, obj, hget, sid, hobj, _, hlt, ⟨dfa1, e1⟩, hsink, h⟩ := h
    obtain ⟨hobj', _⟩ := get_ht_ok _ _ _ hget
    rw [hobj, hinv] at hobj'
    obtain ⟨s1, s2, s3, s4, s5, s6⟩ :=
      sinkLoop_ok xml ht src.tag sid _ _ _ _ _ hsink hinv hobj'.symm hlt
    obtain ⟨g1, g2, g3, g4, g5, g6⟩ := ih dfa1 e1 h (by rw [s1]; exact hinv)
    refine ⟨g1.trans s1, g2.trans s2, g3.trans s3, g4.trans s4, ?_, ?_⟩
    · rw [g5, s5, s1]
      simp only [hsrc, List.filterMap_cons, List.flatMap_cons, writesOf_append,
        applyWrites_append]
      rfl
    · intro d hd
      simp only [hsrc, List.filterMap_cons, List.flatMap_cons, List.mem_append] at hd
      rcases hd with hd | hd
      · exact s6 d hd
      · exact (WellDeclared_congr dfa dfa1 d s1 s3).mp (g6 d hd)

/-! ## The builder: the root element -/

theorem find?_reverse_cons {α : Type} (p : α → Bool) (a : α) (l : List α) :
    (a :: l).reverse.find? p =
      match l.reverse.find? p with
      | some x => some x
      | none => if p a then some a else none := by
  rw [List.reverse_cons, List.find?_append]
  cases l.reverse.find? p with
  | some x => simp
  | none => cases h : p a <;> simp [List.find?, h]

theorem lastAttribute_cons (a : XmlAttribute) (rest : List XmlAttribute) (name : CStr) :
    lastAttribute (a :: rest) name =
      match lastAttribute rest name with
      | some v => some v
      | none => if a.name = name then some a.value else none := by
  unfold lastAttribute
  rw [find?_reverse_cons]
  cases rest.reverse.find? (fun a => decide (a.name = name)) with
  | some x => rfl
  | none => by_cases h : a.name = name <;> simp [h]

theorem name_ne_alphabet : bytes "name" ≠ bytes "alphabet" := by decide

theorem attributesLoop_ok (attrs : List XmlAttribute) (dfa dfa' : DFA) (pre pre' : Bool)
    (e e' : Nat) (h : attributesLoop attrs dfa pre e = .ok (dfa', pre', e')) :
    dfa'.states = dfa.states ∧ dfa'.initialStateId = dfa.initialStateId ∧
      dfa'.transitions = dfa.transitions ∧
      dfa'.name = (lastAttribute attrs (bytes "name")).getD dfa.name ∧
      dfa'.alphabet = (lastAttribute attrs (bytes "alphabet")).getD dfa.alphabet ∧
      pre' = (pre || (lastAttribute attrs (bytes "alphabet")).isSome) := by
  induction attrs generalizing dfa pre e with
  | nil =>
    simp only [attributesLoop, Except.ok.injEq, Prod.mk.injEq] at h
    obtain ⟨rfl, rfl, rfl⟩ := h
    simp [lastAttribute]
  | cons a rest ih =>
    unfold attributesLoop at h
    simp only [bind_eq_ok] at h
    obtain ⟨_, _, h⟩ := h
    rw [lastAttribute_cons, lastAttribute_cons]
    by_cases hn : a.name = bytes "name"
    · have hna : ¬ a.name = bytes "alphabet" := fun e => name_ne_alphabet (hn.symm.trans e)
      rw [if_pos hn] at h
      simp only [bind_eq_ok, fromPattern_ok, ASSERT_NOT_EMPTY_ok] at h
      obtain ⟨check, ⟨_, hc⟩, _, _, h⟩ := h
      obtain ⟨h1, h2, h3, h4, h5, h6⟩ := ih _ _ _ h
      refine ⟨h1, h2, h3, ?_, ?_, ?_⟩
      · rw [h4, if_pos hn]
        cases lastAttribute rest (bytes "name") <;> simp [hc]
      · rw [h5, if_neg hna]
        cases lastAttribute rest (bytes "alphabet") <;> simp
      · rw [h6, if_neg hna]
        cases lastAttribute rest (bytes "alphabet") <;> simp
    · rw [if_neg hn] at h
      by_cases ha : a.name = bytes "alphabet"
      · rw [if_pos ha] at h
        simp only [bind_eq_ok, fromPattern_ok, ASSERT_NOT_EMPTY_ok] at h
        obtain ⟨check, ⟨_, hc⟩, _, _, h⟩ := h
        obtain ⟨h1, h2, h3, h4, h5, h6⟩ := ih _ _ _ h
        refine ⟨h1, h2, h3, ?_, ?_, ?_⟩
        · rw [h4, if_neg hn]
          cases lastAttribute rest (bytes "name") <;> simp
        · rw [h5, if_pos ha]
          cases lastAttribute rest (bytes "alphabet") <;> simp [hc]
        · rw [h6, if_pos ha]
          cases lastAttribute rest (bytes "alphabet") <;> simp
      · rw [if_neg ha] at h
        obtain ⟨h1, h2, h3, h4, h5, h6⟩ := ih _ _ _ h
        refine ⟨h1, h2, h3, ?_, ?_, ?_⟩
        · rw [h4, if_neg hn]
          cases lastAttribute rest (bytes "name") <;> simp
        · rw [h5, if_neg ha]
          cases lastAttribute rest (bytes "alphabet") <;> simp
        · rw [h6, if_neg ha]
          cases lastAttribute rest (bytes "alphabet") <;> simp

theorem tags_distinct :
    bytes "states" ≠ bytes "initialState" ∧ bytes "states" ≠ bytes "transitions" ∧
      bytes "initialState" ≠ bytes "transitions" := by decide

theorem rootChildrenLoop_ok (xml : Xml) (is : List Nat) (rc rc' : RootChildren)
    (h : rootChildrenLoop xml is rc = .ok rc') :
    rc'.states =
        ((is.filterMap fun i => xml.nodes[i]?).reverse.find?
          fun n => decide (n.tag = bytes "states")).or rc.states ∧
      rc'.initialState =
        ((is.filterMap fun i => xml.nodes[i]?).reverse.find?
          fun n => decide (n.tag = bytes "initialState")).or rc.initialState ∧
      rc'.transitions =
        ((is.filterMap fun i => xml.nodes[i]?).reverse.find?
          fun n => decide (n.tag = bytes "transitions")).or rc.transitions := by
  obtain ⟨d1, d2, d3⟩ := tags_distinct
  induction is generalizing rc with
  | nil =>
    simp only [rootChildrenLoop, Except.ok.injEq] at h
    subst h
    simp
  | cons i rest ih =>
    unfold rootChildrenLoop at h
    simp only [bind_eq_ok, getNode_ok] at h
    obtain ⟨node, hnode, _, _, h⟩ := h
    simp only [hnode, List.filterMap_cons, find?_reverse_cons]
    by_cases h1 : node.tag = bytes "states"
    · rw [if_pos h1] at h
      obtain ⟨g1, g2, g3⟩ := ih _ h
      have n2 : ¬ node.tag = bytes "initialState" := fun e => d1 (h1.symm.trans e)
      have n3 : ¬ node.tag = bytes "transitions" := fun e => d2 (h1.symm.trans e)
      refine ⟨?_, ?_, ?_⟩
      · rw [g1]; cases List.find? _ _ <;> simp [h1]
      · rw [g2]; cases List.find? _ _ <;> simp [n2]
      · rw [g3]; cases List.find? _ _ <;> simp [n3]
    · rw [if_neg h1] at h
      by_cases h2 : node.tag = bytes "initialState"
      · rw [if_pos h2] at h
        obtain ⟨g1, g2, g3⟩ := ih _ h
        have n3 : ¬ node.tag = bytes "transitions" := fun e => d3 (h2.symm.trans e)
        refine ⟨?_, ?_, ?_⟩
        · rw [g1]; cases List.find? _ _ <;> simp [h1]
        · rw [g2]; cases List.find? _ _ <;> simp [h2]
        · rw [g3]; cases List.find? _ _ <;> simp [n3]
      · rw [if_neg h2] at h
        by_cases h3 : node.tag = bytes "transitions"
        · rw [if_pos h3] at h
          obtain ⟨g1, g2, g3⟩ := ih _ h
          refine ⟨?_, ?_, ?_⟩
          · rw [g1]; cases List.find? _ _ <;> simp [h1]
          · rw [g2]; cases List.find? _ _ <;> simp [h2]
          · rw [g3]; cases List.find? _ _ <;> simp [h3]
        · rw [if_neg h3] at h
          obtain ⟨g1, g2, g3⟩ := ih _ h
          refine ⟨?_, ?_, ?_⟩
          · rw [g1]; cases List.find? _ _ <;> simp [h1]
          · rw [g2]; cases List.find? _ _ <;> simp [h2]
          · rw [g3]; cases List.find? _ _ <;> simp [h3]

/-! ## The builder: what a successful build has done -/

theorem errorUnless_ok {c : Prop} [Decidable c] {e : Fatal} {u : Unit} :
    errorUnless c e = .ok u ↔ c := by
  by_cases h : c <;> simp [h, errorUnless]

theorem errorIf_ok {c : Prop} [Decidable c] {e : Fatal} {u : Unit} :
    errorIf c e = .ok u ↔ ¬ c := by
  by_cases h : c <;> simp [h, errorIf]

theorem initialize_dfa_eq :
    initialize_dfa = .ok
      { name := bytes "DFA", alphabet := bytes "ABC", states := [],
        initialStateId := 0, transitions := fun _ _ => none } := by
  rfl

theorem stateId_lt_of_statesFrom (decl : List (CStr × Int)) (k : Nat) (name : CStr) (i : Nat)
    (h : stateId (statesFrom k decl) name = some i) : k ≤ i ∧ i < k + decl.length := by
  induction decl using List.reverseRecOn generalizing i with
  | nil => simp [statesFrom, stateId] at h
  | append_singleton ds d ih =>
    obtain ⟨n, f⟩ := d
    rw [statesFrom_append] at h
    simp only [statesFrom, stateId_append] at h
    split at h
    · simp only [Option.some.injEq] at h
      subst h
      simp
    · have := ih i h
      simp only [List.length_append, List.length_singleton]
      omega

theorem fromXml_dfa_eq (xml : Xml) :
    fromXml_dfa xml = (do
      let st ← fromXml_dfa_header xml
      let (dfa5, _) ← sourceLoop xml st.ht st.isAlphabetPredefined st.transitions.children st.dfa st.alphabetEnd
      return dfa5) := by
  unfold fromXml_dfa fromXml_dfa_header
  simp only [bind_assoc, pure_bind]

theorem fromXml_dfa_header_ok (xml : Xml) (st : BuildState)
    (h : fromXml_dfa_header xml = .ok st) :
    ∃ root states initial node alphabet,
      rootElem xml = some root ∧ root.tag = bytes "dfa" ∧ root.children.length = 3 ∧
      statesElem xml = some states ∧ initialStateElem xml = some initial ∧
      transitionsElem xml = some st.transitions ∧
      lastAttribute root.attributes (bytes "alphabet") = some alphabet ∧
      st.dfa.alphabet = alphabet ∧
      st.dfa.name = (lastAttribute root.attributes (bytes "name")).getD (bytes "DFA") ∧
      st.dfa.states = statesFrom 0 (declaredStates xml) ∧
      initial.children.length = 1 ∧ childrenOf xml initial = [node] ∧
      stateId st.dfa.states node.tag = some st.dfa.initialStateId ∧
      st.dfa.initialStateId < st.dfa.states.length ∧
      st.dfa.transitions = (fun _ _ => none) ∧
      st.isAlphabetPredefined = true ∧
      (∀ k, lookup_ht st.ht k = stateId st.dfa.states k) ∧
      ASSERT_DFA st.dfa = .ok () ∧
      (∀ s ∈ st.dfa.states, ASSERT_DFASTATE s = .ok ()) ∧
      ASSERT_HASHTABLE st.ht = .ok () := by
  unfold fromXml_dfa_header at h
  rw [initialize_dfa_eq] at h
  simp only [bind_eq_ok, getNode_ok, ASSERT_EQUAL_STR_ok, ASSERT_XMLNODE_ok,
    ASSERT_NOT_NULL_ok, ASSERT_FITS_IN_BOUND_ok, errorUnless_ok, pure_eq_ok,
    Except.ok.injEq, exists_eq_left'] at h
  obtain ⟨_, _, _, _, _, hht0, root, hroot, _, htag, ⟨dfa2, pre, aend⟩, hattr, _, h3,
    rc, hrc, states, hstates, _, _, _, _, ⟨dfa3, ht⟩, hgroup, initial, hinitial, _, _, _, hone,
    node, hnode, _, _, obj, hget, initId, hobj, _, hlt, transitions, htrans, _, _, h⟩ := h
  simp only [] at hgroup hget hlt h
  subst h
  obtain ⟨a1, a2, a3, a4, a5, a6⟩ := attributesLoop_ok _ _ _ _ _ _ _ hattr
  obtain ⟨r1, r2, r3⟩ := rootChildrenLoop_ok _ _ _ _ hrc
  simp only [Option.or_none] at r1 r2 r3
  have hinv0 : ∀ k, lookup_ht initialize_ht k = stateId dfa2.states k := by
    intro k; rw [a1]; rfl
  have hss0 : ∀ s ∈ dfa2.states, ASSERT_DFASTATE s = .ok () := by
    rw [a1]; intro s hs; simp at hs
  obtain ⟨g1, g2, g3, g4, g5, g6, g7⟩ := stateGroupLoop_ok _ _ _ _ _ _ hgroup hinv0
  obtain ⟨v1, v2, v3⟩ := stateGroupLoop_valid _ _ _ _ _ _ hgroup hinv0 hss0 hht0
  obtain ⟨hobj', _⟩ := get_ht_ok _ _ _ hget
  rw [hobj, g6] at hobj'
  have hne : dfa3.states ≠ dfa2.states := by
    rw [a1]; intro e; rw [e] at hobj'; simp [stateId] at hobj'
  have halpha := g7 hne
  obtain ⟨n1, n2, n3, n4⟩ := v3 hne
  have halpha' := halpha
  rw [a5] at halpha
  obtain ⟨alphabet, hal⟩ : ∃ v, lastAttribute root.attributes (bytes "alphabet") = some v := by
    cases hl : lastAttribute root.attributes (bytes "alphabet") with
    | none => rw [hl] at halpha; simp at halpha
    | some v => exact ⟨v, rfl⟩
  have hpre : pre = true := by rw [a6, hal]; rfl
  subst hpre
  have hse : statesElem xml = some states := by
    simp only [statesElem, rootElem, hroot, Option.some_bind, childTagged, childrenOf]
    rw [← r1]; exact hstates
  have hie : initialStateElem xml = some initial := by
    simp only [initialStateElem, rootElem, hroot, Option.some_bind, childTagged, childrenOf]
    rw [← r2]; exact hinitial
  have hte : transitionsElem xml = some transitions := by
    simp only [transitionsElem, rootElem, hroot, Option.some_bind, childTagged, childrenOf]
    rw [← r3]; exact htrans
  have hst : dfa3.states = statesFrom 0 (declaredStates xml) := by
    rw [g1, a1]
    simp [declaredStates, hse, childrenOf]
  have hlt' : initId < dfa3.states.length := by
    simpa [DeterministicFiniteAutomaton.nStates] using hlt
  refine ⟨root, states, initial, node, alphabet, hroot, htag, h3, hse, hie, hte,
    hal, ?_, ?_, hst, hone, ?_, hobj'.symm, hlt', ?_, rfl, g6, ?_, v1, v2⟩
  · show dfa3.alphabet = alphabet
    rw [g3, a5, hal]; rfl
  · show dfa3.name = _
    rw [g2, a4]
  · have : ∃ c, initial.children = [c] := by
      match hc : initial.children, hone with
      | [c], _ => exact ⟨c, rfl⟩
    obtain ⟨c, hc⟩ := this
    rw [hc] at hnode
    simp only [List.getD_cons_zero] at hnode
    simp [childrenOf, hc, hnode]
  · show dfa3.transitions = _
    rw [g5, a3]
  · rw [ASSERT_DFA_ok]
    refine ⟨?_, ?_, ?_, ?_, n4, ?_⟩
    · show dfa3.name ≠ []
      rw [g2]; exact n1
    · show dfa3.name.length < _
      rw [g2]; exact n2
    · show dfa3.alphabet ≠ []
      rw [g3]; exact halpha'
    · show dfa3.alphabet.length < _
      rw [g3]; exact n3
    · show initId < DFA_MAX_STATES
      exact Nat.lt_trans hlt' n4

/-- What a successful `fromXml_dfa` has read and written. -/
theorem fromXml_dfa_ok (xml : Xml) (dfa : DFA) (h : fromXml_dfa xml = .ok dfa) :
    ∃ root states initial transitions node alphabet,
      rootElem xml = some root ∧ root.tag = bytes "dfa" ∧ root.children.length = 3 ∧
      statesElem xml = some states ∧ initialStateElem xml = some initial ∧
      transitionsElem xml = some transitions ∧
      lastAttribute root.attributes (bytes "alphabet") = some alphabet ∧
      dfa.alphabet = alphabet ∧
      dfa.name = (lastAttribute root.attributes (bytes "name")).getD (bytes "DFA") ∧
      dfa.states = statesFrom 0 (declaredStates xml) ∧
      initial.children.length = 1 ∧ childrenOf xml initial = [node] ∧
      stateId dfa.states node.tag = some dfa.initialStateId ∧
      dfa.initialStateId < dfa.states.length ∧
      dfa.transitions =
        applyWrites (fun _ _ => none) (writesOf dfa.states (declaredTransitions xml)) ∧
      (∀ d ∈ declaredTransitions xml, WellDeclared dfa d) := by
  rw [fromXml_dfa_eq] at h
  simp only [bind_eq_ok, pure_eq_ok] at h
  obtain ⟨st, hst, ⟨dfa5, e5⟩, hsrc, h⟩ := h
  simp only [] at h
  subst h
  obtain ⟨root, states, initial, node, alphabet, h1, h2, h3, h4, h5, h6, h7, h8, h9, h10, h11,
    h12, h13, h14, h15, h16, h17, _⟩ := fromXml_dfa_header_ok xml st hst
  rw [h16] at hsrc
  obtain ⟨s1, s2, s3, s4, s5, s6⟩ := sourceLoop_ok xml st.ht _ _ _ _ _ hsrc h17
  refine ⟨root, states, initial, st.transitions, node, alphabet, h1, h2, h3, h4, h5, h6, h7,
    ?_, ?_, ?_, h11, h12, ?_, ?_, ?_, ?_⟩
  · rw [s3]; exact h8
  · rw [s2]; exact h9
  · rw [s1]; exact h10
  · rw [s1, s4]; exact h13
  · rw [s1, s4]; exact h14
  · rw [s5, s1, h15]
    simp only [declaredTransitions, h6, childrenOf]
  · intro d hd
    simp only [declaredTransitions, h6, childrenOf] at hd
    exact (WellDeclared_congr _ dfa5 d s1 s3).mpr (s6 d hd)

/-! ## Scenario A -/

theorem map_eq_ok {α β : Type} {x : Except Fatal α} {f : α → β} {b : β}
    (h : x.map f = .ok b) : ∃ a, x = .ok a ∧ f a = b := by
  cases x with
  | error e => simp [Except.map] at h
  | ok a => exact ⟨a, rfl, by simpa [Except.map] using h⟩

theorem scenarioA_parsed : fromString_xml scenarioA = .ok scenarioA_xml := by decide!

theorem scenarioA_built : fromXml_dfa scenarioA_xml = .ok anyA_dfa := by rfl

theorem overDoc_parsed : fromString_xml overDoc = .ok over_xml := by decide!

theorem overDoc_built : fromXml_dfa over_xml = .ok over_dfa := by rfl

theorem aaDoc_parsed : fromString_xml aaDoc = .ok aa_xml := by decide!

theorem aaDoc_built : fromXml_dfa aa_xml = .ok aa_dfa := by rfl

theorem scenarioF_parsed : fromString_xml scenarioF = .ok scenarioF_xml := by decide!

theorem scenarioF_fails :
    fromXml_dfa scenarioF_xml =
      .error (Fatal.syntaxError "Encountered symbol outside the alphabet!") := by decide!

theorem scenarioB_fails : fromString_xml scenarioB >>= fromXml_dfa = .error Fatal.empty := by
  decide!

/-! ## Further lemmas for the claims -/

theorem programOf_mem (mem mem' : Memory) (dfa : DFA) (h : closedOn dfa = true) :
    programOf mem dfa = programOf mem' dfa := by
  obtain ⟨hi, hc⟩ := closedOn_spec dfa h
  unfold programOf
  rw [stateAt_of_lt mem dfa _ hi, stateAt_of_lt mem' dfa _ hi]
  congr 1
  apply List.map_congr_left
  intro st hst
  congr 1
  apply List.map_congr_left
  intro c hcm
  obtain ⟨k, hk, hlt⟩ := hc st hst c hcm
  have h1 : cellAt mem dfa st.id c = k := by simp [cellAt, hk]
  have h2 : cellAt mem' dfa st.id c = k := by simp [cellAt, hk]
  rw [h1, h2, stateAt_of_lt mem dfa k hlt, stateAt_of_lt mem' dfa k hlt]

theorem lastDeclared_cons (states : List DFAState) (d : Declared) (ds : List Declared)
    (i c : Nat) :
    lastDeclared states (d :: ds) i c =
      match lastDeclared states ds i c with
      | some x => some x
      | none => if stateId states d.source = some i ∧ d.symbol = c then some d else none := by
  unfold lastDeclared
  rw [find?_reverse_cons]
  cases ds.reverse.find? _ with
  | some x => rfl
  | none => by_cases h : stateId states d.source = some i ∧ d.symbol = c <;> simp [h]

theorem lastWrite_cons (w : Write) (ws : List Write) (s c : Nat) :
    lastWrite (w :: ws) s c =
      match lastWrite ws s c with
      | some x => some x
      | none => if w.source = s ∧ w.symbol = c then some w else none := by
  unfold lastWrite
  rw [find?_reverse_cons]
  cases ws.reverse.find? _ with
  | some x => rfl
  | none => by_cases h : w.source = s ∧ w.symbol = c <;> simp [h]

theorem lastDeclared_mem (states : List DFAState) (ds : List Declared) (i c : Nat)
    (d : Declared) (h : lastDeclared states ds i c = some d) :
    d ∈ ds ∧ stateId states d.source = some i ∧ d.symbol = c := by
  unfold lastDeclared at h
  have h1 := List.mem_of_find?_eq_some h
  have h2 := List.find?_some h
  simp only [decide_eq_true_eq] at h2
  exact ⟨List.mem_reverse.mp h1, h2⟩

/-- The last write to a cell is the write of the last declared transition for it. -/
theorem lastWrite_writesOf (states : List DFAState) (ds : List Declared) (i c : Nat)
    (hall : ∀ d ∈ ds, ∃ w, resolve states d = some w) :
    lastWrite (writesOf states ds) i c = (lastDeclared states ds i c).bind (resolve states) := by
  induction ds with
  | nil => rfl
  | cons d rest ih =>
    obtain ⟨w, hw⟩ := hall d (List.mem_cons_self _ _)
    have ih' := ih (fun x hx => hall x (List.mem_cons_of_mem _ hx))
    have hwo : writesOf states (d :: rest) = w :: writesOf states rest := by
      simp [writesOf, hw]
    rw [hwo, lastWrite_cons, lastDeclared_cons, ih']
    cases hl : lastDeclared states rest i c with
    | some x =>
      obtain ⟨wx, hwx⟩ := hall x (List.mem_cons_of_mem _ (lastDeclared_mem _ _ _ _ _ hl).1)
      simp [hwx]
    | none =>
      simp only [Option.none_bind]
      unfold resolve at hw
      cases hs : stateId states d.source with
      | none => simp [hs] at hw
      | some s =>
        cases hk : stateId states d.sink with
        | none => simp [hs, hk] at hw
        | some k =>
          simp only [hs, hk, Option.some.injEq] at hw
          subst hw
          by_cases hc : s = i ∧ d.symbol = c
          · obtain ⟨rfl, rfl⟩ := hc
            simp [resolve, hs, hk]
          · have : ¬ (some s = some i ∧ d.symbol = c) := by
              simpa using hc
            simp [hc, this]

theorem resolve_of_WellDeclared (dfa : DFA) (d : Declared) (h : WellDeclared dfa d) :
    ∃ s k, resolve dfa.states d = some ⟨s, d.symbol, k⟩ ∧
      stateId dfa.states d.source = some s ∧ stateId dfa.states d.sink = some k ∧
      s < dfa.states.length ∧ k < dfa.states.length ∧ d.symbol ∈ dfa.alphabet := by
  obtain ⟨s, k, hs, hsl, hk, hkl, hsym⟩ := h
  exact ⟨s, k, by simp [resolve, hs, hk], hs, hk, hsl, hkl, hsym⟩

theorem statesFrom_getElem (decl : List (CStr × Int)) (k j : Nat)
    (h : j < (statesFrom k decl).length) :
    (statesFrom k decl)[j].id = k + j := by
  induction decl generalizing k j with
  | nil => simp [statesFrom] at h
  | cons x xs ih =>
    obtain ⟨n, f⟩ := x
    cases j with
    | zero => simp [statesFrom]
    | succ j =>
      simp only [statesFrom, List.getElem_cons_succ]
      rw [ih]; omega

theorem statesFrom_names (decl : List (CStr × Int)) (k : Nat) :
    (statesFrom k decl).map (·.name) = decl.map (·.1) := by
  induction decl generalizing k with
  | nil => rfl
  | cons x xs ih =>
    obtain ⟨n, f⟩ := x
    simp [statesFrom, ih]

/-- In predeclared mode the symbol loop ends the process with the syntax error as soon
as it meets a byte outside the alphabet, once the automaton and the two state ids are
valid. -/
theorem symbolLoop_foreign (sid kid : Nat) (ws : CStr) (dfa : DFA) (e : Nat)
    (hdfa : ASSERT_DFA dfa = .ok ()) (hs : sid < dfa.states.length)
    (hk : kid < dfa.states.length)
    (hss : ∀ st ∈ dfa.states, ASSERT_DFASTATE st = .ok ())
    (hnz : ∀ w ∈ ws, w ≠ 0) (hex : ∃ w ∈ ws, w ∉ dfa.alphabet) :
    symbolLoop true sid kid ws dfa e =
      .error (Fatal.syntaxError "Encountered symbol outside the alphabet!") := by
  induction ws generalizing dfa e with
  | nil => obtain ⟨w, hw, _⟩ := hex; simp at hw
  | cons w rest ih =>
    unfold symbolLoop
    by_cases hw : w ∈ dfa.alphabet
    · rw [if_pos hw]
      have hnzw : w ≠ 0 := hnz w (List.mem_cons_self _ _)
      have h1 : insertTransition_dfa dfa sid kid w =
          .ok ({ dfa with transitions := writeCell dfa.transitions ⟨sid, w, kid⟩ }, 1) := by
        unfold insertTransition_dfa
        have e1 : dfa.states[sid]? = some dfa.states[sid] := List.getElem?_eq_getElem hs
        have e2 : dfa.states[kid]? = some dfa.states[kid] := List.getElem?_eq_getElem hk
        simp only [hdfa, e1, e2, ASSERT_NOT_NULL, hss _ (List.getElem_mem hs),
          hss _ (List.getElem_mem hk), ASSERT_FITS_IN_BOUND, ASSERT_NOT_ZERO,
          DeterministicFiniteAutomaton.nStates, hs, hk, hnzw, hw, if_true, if_false,
          bind, Except.bind, pure, Except.pure]
        rfl
      simp only [bind, Except.bind, pure, Except.pure, h1, ASSERT_NOT_ZERO]
      simp only [one_ne_zero, if_false]
      apply ih
      · rw [← hdfa]; rfl
      · exact hs
      · exact hk
      · exact hss
      · exact fun x hx => hnz x (List.mem_cons_of_mem _ hx)
      · obtain ⟨x, hx, hxn⟩ := hex
        rcases List.mem_cons.mp hx with rfl | hx
        · exact absurd hw hxn
        · exact ⟨x, hx, hxn⟩
    · rw [if_neg hw]
      simp [bind, Except.bind, errorIf]

theorem lastWrite_mem (ws : List Write) (s c : Nat) (w : Write) (h : lastWrite ws s c = some w) :
    w ∈ ws ∧ w.source = s ∧ w.symbol = c := by
  unfold lastWrite at h
  have h1 := List.mem_of_find?_eq_some h
  have h2 := List.find?_some h
  simp only [decide_eq_true_eq] at h2
  exact ⟨List.mem_reverse.mp h1, h2⟩

theorem mem_writesOf (states : List DFAState) (ds : List Declared) (w : Write)
    (h : w ∈ writesOf states ds) : ∃ d ∈ ds, resolve states d = some w := by
  simpa [writesOf, List.mem_filterMap] using h

/-- Every cell that a successful build has written lies in the row of a state, in the
column of an alphabet symbol, and holds the id of a state. -/
theorem written_cell_valid (xml : Xml) (dfa : DFA) (h : fromXml_dfa xml = .ok dfa)
    (i c k : Nat) (hcell : dfa.transitions i c = some k) :
    i < dfa.states.length ∧ k < dfa.states.length ∧ c ∈ dfa.alphabet := by
  obtain ⟨_, _, _, _, _, _, _, _, _, _, _, _, _, _, _, _, _, _, _, _, htr, hwd⟩ :=
    fromXml_dfa_ok xml dfa h
  rw [htr, applyWrites_apply] at hcell
  cases hl : lastWrite (writesOf dfa.states (declaredTransitions xml)) i c with
  | none => rw [hl] at hcell; simp at hcell
  | some w =>
    rw [hl] at hcell
    simp only [Option.some.injEq] at hcell
    obtain ⟨hm, hs, hc⟩ := lastWrite_mem _ _ _ _ hl
    obtain ⟨d, hd, hr⟩ := mem_writesOf _ _ _ hm
    obtain ⟨s', k', hr', _, _, h1, h2, h3⟩ := resolve_of_WellDeclared dfa d (hwd d hd)
    rw [hr] at hr'
    simp only [Option.some.injEq] at hr'
    subst hr'
    simp only [] at hs hc hcell
    subst hs hc hcell
    exact ⟨h1, h2, h3⟩

/-! ## The builder run forward: a foreign symbol in an otherwise accepted document -/

theorem insertTransition_dfa_run (dfa : DFA) (sid kid w : Nat)
    (hdfa : ASSERT_DFA dfa = .ok ()) (hs : sid < dfa.states.length)
    (hk : kid < dfa.states.length)
    (hss : ∀ st ∈ dfa.states, ASSERT_DFASTATE st = .ok ())
    (hnz : w ≠ 0) (hw : w ∈ dfa.alphabet) :
    insertTransition_dfa dfa sid kid w =
      .ok ({ dfa with transitions := writeCell dfa.transitions ⟨sid, w, kid⟩ }, 1) := by
  unfold insertTransition_dfa
  have e1 : dfa.states[sid]? = some dfa.states[sid] := List.getElem?_eq_getElem hs
  have e2 : dfa.states[kid]? = some dfa.states[kid] := List.getElem?_eq_getElem hk
  simp only [hdfa, e1, e2, ASSERT_NOT_NULL, hss _ (List.getElem_mem hs),
    hss _ (List.getElem_mem hk), ASSERT_FITS_IN_BOUND, ASSERT_NOT_ZERO,
    DeterministicFiniteAutomaton.nStates, hs, hk, hnz, hw, if_true, if_false,
    bind, Except.bind, pure, Except.pure]
  rfl

theorem symbolLoop_run (sid kid : Nat) (ws : CStr) (dfa : DFA) (e : Nat)
    (hdfa : ASSERT_DFA dfa = .ok ()) (hs : sid < dfa.states.length)
    (hk : kid < dfa.states.length)
    (hss : ∀ st ∈ dfa.states, ASSERT_DFASTATE st = .ok ())
    (hnz : ∀ w ∈ ws, w ≠ 0) (hall : ∀ w ∈ ws, w ∈ dfa.alphabet) :
    symbolLoop true sid kid ws dfa e =
      .ok ({ dfa with
              transitions := applyWrites dfa.transitions (ws.map fun w => ⟨sid, w, kid⟩) },
            e) := by
  induction ws generalizing dfa with
  | nil => rfl
  | cons w rest ih =>
    unfold symbolLoop
    rw [if_pos (hall w (List.mem_cons_self _ _))]
    simp only [bind, Except.bind, pure, Except.pure,
      insertTransition_dfa_run dfa sid kid w hdfa hs hk hss (hnz w (List.mem_cons_self _ _))
        (hall w (List.mem_cons_self _ _)), ASSERT_NOT_ZERO]
    simp only [one_ne_zero, if_false]
    exact ih { dfa with transitions := writeCell dfa.transitions ⟨sid, w, kid⟩ }
      (by rw [← hdfa]; rfl) hs hk hss (fun x hx => hnz x (List.mem_cons_of_mem _ hx))
      (fun x hx => hall x (List.mem_cons_of_mem _ hx))

theorem sinkLoop_run (xml : Xml) (ht : HashTable) (sid : Nat) (js : List Nat) (dfa : DFA)
    (e : Nat) (hdfa : ASSERT_DFA dfa = .ok ())
    (hss : ∀ st ∈ dfa.states, ASSERT_DFASTATE st = .ok ())
    (hht : ASSERT_HASHTABLE ht = .ok ())
    (hinv : ∀ k, lookup_ht ht k = stateId dfa.states k)
    (hid : ∀ key id, stateId dfa.states key = some id → id < dfa.states.length)
    (hs : sid < dfa.states.length)
    (hjs : ∀ j ∈ js, sinkResolves xml dfa.states j = true) :
    ((∀ w ∈ sinkSymbols xml js, w ∈ dfa.alphabet) →
        ∃ t, sinkLoop xml ht true sid js dfa e = .ok ({ dfa with transitions := t }, e)) ∧
      ((∃ w ∈ sinkSymbols xml js, w ∉ dfa.alphabet) →
        sinkLoop xml ht true sid js dfa e =
          .error (Fatal.syntaxError "Encountered symbol outside the alphabet!")) := by
  induction js generalizing dfa with
  | nil =>
    refine ⟨fun _ => ⟨dfa.transitions, rfl⟩, fun hex => ?_⟩
    obtain ⟨w, hw, _⟩ := hex
    simp [sinkSymbols] at hw
  | cons j rest ih =>
    have hj := hjs j (List.mem_cons_self _ _)
    unfold sinkResolves at hj
    cases hnode : xml.nodes[j]? with
    | none => rw [hnode] at hj; simp at hj
    | some sink =>
      rw [hnode] at hj
      simp only [Bool.and_eq_true, decide_eq_true_eq, List.all_eq_true, Option.isSome_iff_exists,
        ne_eq, decide_not, Bool.not_eq_eq_eq_not, Bool.not_true, decide_eq_false_iff_not] at hj
      obtain ⟨⟨hx, kid, hkid⟩, hnz⟩ := hj
      have hklt := hid _ _ hkid
      have hlen : sink.tag.length < HT_MAX_KEY_SIZE := stateId_name_length _ _ _ hss hkid
      have hsym : sinkSymbols xml (j :: rest) = sink.content.getD 0 [] ++ sinkSymbols xml rest := by
        simp [sinkSymbols, hnode]
      have hstep : sinkLoop xml ht true sid (j :: rest) dfa e =
          (symbolLoop true sid kid (sink.content.getD 0 []) dfa e >>= fun r =>
            sinkLoop xml ht true sid rest r.1 r.2) := by
        rw [sinkLoop]
        simp only [getNode, hnode, hx, get_ht_run ht _ hht hlen, hinv, hkid, ASSERT_NOT_NULL,
          ASSERT_FITS_IN_BOUND, DeterministicFiniteAutomaton.nStates, hklt, if_true,
          bind, Except.bind, pure, Except.pure]
      rw [hstep, hsym]
      by_cases hall : ∀ w ∈ sink.content.getD 0 [], w ∈ dfa.alphabet
      · rw [symbolLoop_run sid kid _ dfa e hdfa hs hklt hss hnz hall]
        have ih' := ih
          { dfa with
            transitions :=
              (applyWrites dfa.transitions ((sink.content.getD 0 []).map fun w => ⟨sid, w, kid⟩)) }
          (by rw [← hdfa]; rfl) hss hinv hid hs (fun x hx => hjs x (List.mem_cons_of_mem _ hx))
        refine ⟨fun h => ?_, fun hex => ?_⟩
        · obtain ⟨t, ht⟩ := ih'.1 (fun w hw => h w (List.mem_append_right _ hw))
          exact ⟨t, ht⟩
        · apply ih'.2
          obtain ⟨w, hw, hn⟩ := hex
          rcases List.mem_append.mp hw with hw | hw
          · exact absurd (hall w hw) hn
          · exact ⟨w, hw, hn⟩
      · have hex1 : ∃ w ∈ sink.content.getD 0 [], w ∉ dfa.alphabet := by
          by_contra hc
          apply hall
          intro w hw
          by_contra hn
          exact hc ⟨w, hw, hn⟩
        rw [symbolLoop_foreign sid kid _ dfa e hdfa hs hklt hss hnz hex1]
        refine ⟨fun h => ?_, fun _ => rfl⟩
        exfalso
        apply hall
        intro w hw
        exact h w (List.mem_append_left _ hw)

theorem sourceLoop_run (xml : Xml) (ht : HashTable) (is : List Nat) (dfa : DFA)
    (e : Nat) (hdfa : ASSERT_DFA dfa = .ok ())
    (hss : ∀ st ∈ dfa.states, ASSERT_DFASTATE st = .ok ())
    (hht : ASSERT_HASHTABLE ht = .ok ())
    (hinv : ∀ k, lookup_ht ht k = stateId dfa.states k)
    (hid : ∀ key id, stateId dfa.states key = some id → id < dfa.states.length)
    (his : ∀ i ∈ is, sourceResolves xml dfa.states i = true) :
    ((∀ w ∈ sourceSymbols xml is, w ∈ dfa.alphabet) →
        ∃ t, sourceLoop xml ht true is dfa e = .ok ({ dfa with transitions := t }, e)) ∧
      ((∃ w ∈ sourceSymbols xml is, w ∉ dfa.alphabet) →
        sourceLoop xml ht true is dfa e =
          .error (Fatal.syntaxError "Encountered symbol outside the alphabet!")) := by
  induction is generalizing dfa with
  | nil =>
    refine ⟨fun _ => ⟨dfa.transitions, rfl⟩, fun hex => ?_⟩
    obtain ⟨w, hw, _⟩ := hex
    simp [sourceSymbols] at hw
  | cons i rest ih =>
    have hi := his i (List.mem_cons_self _ _)
    unfold sourceResolves at hi
    cases hnode : xml.nodes[i]? with
    | none => rw [hnode] at hi; simp at hi
    | some src =>
      rw [hnode] at hi
      simp only [Bool.and_eq_true, decide_eq_true_eq, List.all_eq_true,
        Option.isSome_iff_exists] at hi
      obtain ⟨⟨hx, sid, hsid⟩, hjs⟩ := hi
      have hslt := hid _ _ hsid
      have hlen : src.tag.length < HT_MAX_KEY_SIZE := stateId_name_length _ _ _ hss hsid
      have hsym : sourceSymbols xml (i :: rest) =
          sinkSymbols xml src.children ++ sourceSymbols xml rest := by
        simp [sourceSymbols, hnode]
      have hstep : sourceLoop xml ht true (i :: rest) dfa e =
          (sinkLoop xml ht true sid src.children dfa e >>= fun r =>
            sourceLoop xml ht true rest r.1 r.2) := by
        rw [sourceLoop]
        simp only [getNode, hnode, hx, get_ht_run ht _ hht hlen, hinv, hsid, ASSERT_NOT_NULL,
          ASSERT_FITS_IN_BOUND, DeterministicFiniteAutomaton.nStates, hslt, if_true,
          bind, Except.bind, pure, Except.pure]
      have hsink := sinkLoop_run xml ht sid src.children dfa e hdfa hss hht hinv hid hslt hjs
      rw [hstep, hsym]
      by_cases hall : ∀ w ∈ sinkSymbols xml src.children, w ∈ dfa.alphabet
      · obtain ⟨t, ht1⟩ := hsink.1 hall
        rw [ht1]
        have ih' := ih { dfa with transitions := t }
          (by rw [← hdfa]; rfl) hss hinv hid (fun x hx => his x (List.mem_cons_of_mem _ hx))
        refine ⟨fun h => ?_, fun hex => ?_⟩
        · obtain ⟨t2, ht2⟩ := ih'.1 (fun w hw => h w (List.mem_append_right _ hw))
          exact ⟨t2, ht2⟩
        · apply ih'.2
          obtain ⟨w, hw, hn⟩ := hex
          rcases List.mem_append.mp hw with hw | hw
          · exact absurd (hall w hw) hn
          · exact ⟨w, hw, hn⟩
      · have hex1 : ∃ w ∈ sinkSymbols xml src.children, w ∉ dfa.alphabet := by
          by_contra hc
          apply hall
          intro w hw
          by_contra hn
          exact hc ⟨w, hw, hn⟩
        rw [hsink.2 hex1]
        refine ⟨fun h => ?_, fun _ => rfl⟩
        exfalso
        apply hall
        intro w hw
        exact h w (List.mem_append_left _ hw)

theorem sourceDeclared_symbols (xml : Xml) (src : XmlNode) :
    (sourceDeclared xml src).map (·.symbol) = sinkSymbols xml src.children := by
  unfold sourceDeclared sinkSymbols childrenOf
  induction (List.filterMap (fun i => xml.nodes[i]?) src.children) with
  | nil => rfl
  | cons a l ih =>
    rw [List.flatMap_cons, List.flatMap_cons, List.map_append, ih, List.map_map]
    congr 1
    simp [Function.comp_def]

theorem declaredTransitions_symbols (xml : Xml) (transitions : XmlNode)
    (h : transitionsElem xml = some transitions) :
    (declaredTransitions xml).map (·.symbol) = sourceSymbols xml transitions.children := by
  unfold declaredTransitions sourceSymbols childrenOf
  rw [h]
  simp only []
  induction (List.filterMap (fun i => xml.nodes[i]?) transitions.children) with
  | nil => rfl
  | cons a l ih => simp [List.flatMap_cons, ih, sourceDeclared_symbols]

/-- In a document whose root element, states and initial state the builder accepts and
whose source and sink elements all resolve, a symbol outside the predeclared alphabet
ends the build with the syntax error. -/
theorem foreign_symbol_diagnostic (xml : Xml) (root : XmlNode) (v : CStr) (d : Declared)
    (hroot : rootElem xml = some root)
    (hattr : lastAttribute root.attributes (bytes "alphabet") = some v)
    (hd : d ∈ declaredTransitions xml) (hsym : d.symbol ∉ v)
    (st : BuildState) (hst : fromXml_dfa_header xml = .ok st)
    (hres : transitionsResolve xml = true) :
    fromXml_dfa xml = .error (Fatal.syntaxError "Encountered symbol outside the alphabet!") := by
  obtain ⟨root', states, initial, node, alphabet, h1, h2, h3, h4, h5, h6, h7, h8, h9, h10, h11,
    h12, h13, h14, h15, h16, h17, h18, h19, h20⟩ := fromXml_dfa_header_ok xml st hst
  rw [hroot] at h1
  simp only [Option.some.injEq] at h1
  subst h1
  rw [hattr] at h7
  simp only [Option.some.injEq] at h7
  subst h7
  unfold transitionsResolve at hres
  rw [h6] at hres
  simp only [List.all_eq_true] at hres
  rw [← h10] at hres
  have hid : ∀ key id, stateId st.dfa.states key = some id → id < st.dfa.states.length := by
    intro key id hk
    rw [h10] at hk ⊢
    have := (stateId_lt_of_statesFrom _ 0 key id hk).2
    rw [statesFrom_length]
    omega
  have hex : ∃ w ∈ sourceSymbols xml st.transitions.children, w ∉ st.dfa.alphabet := by
    refine ⟨d.symbol, ?_, by rw [h8]; exact hsym⟩
    rw [← declaredTransitions_symbols xml st.transitions h6]
    exact List.mem_map_of_mem _ hd
  have hrun := (sourceLoop_run xml st.ht st.transitions.children st.dfa st.alphabetEnd
    h18 h19 h20 h17 hid hres).2 hex
  rw [fromXml_dfa_eq, hst]
  simp only [bind, Except.bind]
  rw [h16, hrun]

/-- A document whose root element, states and initial state the builder accepts, whose
source and sink elements all resolve and whose symbols all occur in the alphabet is
built: nothing else is checked, in particular not whether a cell is written twice. -/
theorem fromXml_dfa_accepts (xml : Xml) (st : BuildState)
    (hst : fromXml_dfa_header xml = .ok st) (hres : transitionsResolve xml = true)
    (hall : ∀ d ∈ declaredTransitions xml, d.symbol ∈ st.dfa.alphabet) :
    ∃ dfa, fromXml_dfa xml = .ok dfa := by
  obtain ⟨root', states, initial, node, alphabet, h1, h2, h3, h4, h5, h6, h7, h8, h9, h10, h11,
    h12, h13, h14, h15, h16, h17, h18, h19, h20⟩ := fromXml_dfa_header_ok xml st hst
  unfold transitionsResolve at hres
  rw [h6] at hres
  simp only [List.all_eq_true] at hres
  rw [← h10] at hres
  have hid : ∀ key id, stateId st.dfa.states key = some id → id < st.dfa.states.length := by
    intro key id hk
    rw [h10] at hk ⊢
    have := (stateId_lt_of_statesFrom _ 0 key id hk).2
    rw [statesFrom_length]
    omega
  have hin : ∀ w ∈ sourceSymbols xml st.transitions.children, w ∈ st.dfa.alphabet := by
    intro w hw
    rw [← declaredTransitions_symbols xml st.transitions h6] at hw
    obtain ⟨d, hd, rfl⟩ := List.mem_map.mp hw
    exact hall d hd
  obtain ⟨t, hrun⟩ := (sourceLoop_run xml st.ht st.transitions.children st.dfa st.alphabetEnd
    h18 h19 h20 h17 hid hres).1 hin
  refine ⟨{ st.dfa with transitions := t }, ?_⟩
  rw [fromXml_dfa_eq, hst]
  simp only [bind, Except.bind]
  rw [h16, hrun]
  rfl

theorem scenarioF_header : ∃ st, fromXml_dfa_header scenarioF_xml = .ok st := ⟨_, rfl⟩

theorem scenarioF_resolves : transitionsResolve scenarioF_xml = true := by decide!

theorem childTagged_mem (xml : Xml) (node child : XmlNode) (tag : CStr)
    (h : childTagged xml node tag = some child) : child ∈ childrenOf xml node ∧ child.tag = tag := by
  unfold childTagged at h
  have h1 := List.mem_of_find?_eq_some h
  have h2 := List.find?_some h
  simp only [decide_eq_true_eq] at h2
  exact ⟨List.mem_reverse.mp h1, h2⟩

theorem perm_of_three {α : Type} [DecidableEq α] (l : List α) (a b c : α) (hl : l.length ≤ 3)
    (hab : a ≠ b) (hac : a ≠ c) (hbc : b ≠ c) (ha : a ∈ l) (hb : b ∈ l) (hc : c ∈ l) :
    l.Perm [a, b, c] := by
  have hnd : [a, b, c].Nodup := by simp [hab, hac, hbc]
  have hsub : [a, b, c] ⊆ l := by
    intro x hx
    simp only [List.mem_cons, List.mem_singleton, List.not_mem_nil, or_false] at hx
    rcases hx with rfl | rfl | rfl <;> assumption
  exact ((List.subperm_of_subset hnd hsub).perm_of_length_le (by simpa using hl)).symm

theorem root_children_tags (xml : Xml) (dfa : DFA) (h : fromXml_dfa xml = .ok dfa) :
    ∃ root, rootElem xml = some root ∧ root.tag = bytes "dfa" ∧ root.children.length = 3 ∧
      ((childrenOf xml root).map (·.tag)).Perm
        [bytes "states", bytes "initialState", bytes "transitions"] := by
  obtain ⟨root, states, initial, transitions, _, _, hroot, htag, h3, hs, hi, ht, _⟩ :=
    fromXml_dfa_ok xml dfa h
  refine ⟨root, hroot, htag, h3, ?_⟩
  simp only [statesElem, initialStateElem, transitionsElem, hroot, Option.some_bind] at hs hi ht
  obtain ⟨ms, es⟩ := childTagged_mem _ _ _ _ hs
  obtain ⟨mi, ei⟩ := childTagged_mem _ _ _ _ hi
  obtain ⟨mt, et⟩ := childTagged_mem _ _ _ _ ht
  obtain ⟨d1, d2, d3⟩ := tags_distinct
  apply perm_of_three _ _ _ _ _ d1 d2 d3
  · exact List.mem_map.mpr ⟨states, ms, es⟩
  · exact List.mem_map.mpr ⟨initial, mi, ei⟩
  · exact List.mem_map.mpr ⟨transitions, mt, et⟩
  · rw [List.length_map]
    unfold childrenOf
    exact (List.length_filterMap_le _ _).trans (le_of_eq h3)

theorem scenarioE_parses : (fromString_xml scenarioE).toBool = true := by decide!

theorem toBool_ok {α : Type} (x : Except Fatal α) (h : x.toBool = true) : ∃ a, x = .ok a := by
  cases x with
  | ok a => exact ⟨a, rfl⟩
  | error e => simp [Except.toBool] at h

theorem scenarioE_fails :
    fromString_xml scenarioE >>= fromXml_dfa = .error (Fatal.syntaxError
      "DFA must have exactly 3 children, <states>, <initialState>, <transitions>") := by
  decide!

theorem stateId_declared (xml : Xml) (name : CStr) (id : Nat)
    (h : stateId (statesFrom 0 (declaredStates xml)) name = some id) :
    name ∈ (declaredStates xml).map (·.1) ∧
      ∃ st, (statesFrom 0 (declaredStates xml))[id]? = some st ∧ st.name = name := by
  obtain ⟨st, hm, hn, hid⟩ := stateId_some_mem _ _ _ h
  constructor
  · rw [← statesFrom_names (declaredStates xml) 0]
    exact List.mem_map.mpr ⟨st, hm, hn⟩
  · obtain ⟨k, hk, hst⟩ := List.getElem_of_mem hm
    have := statesFrom_getElem (declaredStates xml) 0 k hk
    rw [hst] at this
    simp only [Nat.zero_add] at this
    rw [hid] at this
    subst this
    exact ⟨st, by rw [List.getElem?_eq_getElem hk, hst], hn⟩

theorem declared_stateId (xml : Xml) (name : CStr)
    (h : name ∈ (declaredStates xml).map (·.1)) :
    ∃ id, stateId (statesFrom 0 (declaredStates xml)) name = some id := by
  rw [← statesFrom_names (declaredStates xml) 0] at h
  obtain ⟨st, hm, hn⟩ := List.mem_map.mp h
  unfold stateId
  cases hf : (statesFrom 0 (declaredStates xml)).reverse.find? fun s => decide (s.name = name) with
  | some s => exact ⟨s.id, rfl⟩
  | none =>
    rw [List.find?_eq_none] at hf
    have := hf st (List.mem_reverse.mpr hm)
    simp [hn] at this

theorem initial_state_resolved (xml : Xml) (dfa : DFA) (h : fromXml_dfa xml = .ok dfa) :
    ∃ initial node st, initialStateElem xml = some initial ∧ initial.children.length = 1 ∧
      childrenOf xml initial = [node] ∧
      stateId dfa.states node.tag = some dfa.initialStateId ∧
      node.tag ∈ (declaredStates xml).map (·.1) ∧
      dfa.states[dfa.initialStateId]? = some st ∧ st.name = node.tag := by
  obtain ⟨_, _, initial, _, node, _, _, _, _, _, hie, _, _, _, _, hst, hone, hch, hid, _⟩ :=
    fromXml_dfa_ok xml dfa h
  have hid' := hid
  rw [hst] at hid'
  obtain ⟨hmem, st, hget, hname⟩ := stateId_declared xml _ _ hid'
  exact ⟨initial, node, st, hie, hone, hch, hid, hmem, by rw [hst]; exact hget, hname⟩

theorem noInitDoc_fails :
    fromString_xml noInitDoc >>= fromXml_dfa =
      .error (Fatal.syntaxError "There has to be EXACTLY one initial state!") := by decide!

theorem twoInitDoc_fails :
    fromString_xml twoInitDoc >>= fromXml_dfa =
      .error (Fatal.syntaxError "There has to be EXACTLY one initial state!") := by decide!

theorem badInitDoc_fails : fromString_xml badInitDoc >>= fromXml_dfa = .error Fatal.null := by
  decide!

theorem insertTransition_dfa_spec (dfa : DFA) (sid kid w : Nat) (src snk : DFAState)
    (hdfa : ASSERT_DFA dfa = .ok ()) (hs : dfa.states[sid]? = some src)
    (hk : dfa.states[kid]? = some snk) (hsv : ASSERT_DFASTATE src = .ok ())
    (hkv : ASSERT_DFASTATE snk = .ok ()) (hnz : w ≠ 0) :
    insertTransition_dfa dfa sid kid w =
      if w ∈ dfa.alphabet then
        .ok ({ dfa with transitions := writeCell dfa.transitions ⟨sid, w, kid⟩ }, 1)
      else .ok (dfa, 0) := by
  have hs' : sid < dfa.states.length := by
    by_contra hc
    rw [List.getElem?_eq_none (Nat.le_of_not_lt hc)] at hs
    simp at hs
  have hk' : kid < dfa.states.length := by
    by_contra hc
    rw [List.getElem?_eq_none (Nat.le_of_not_lt hc)] at hk
    simp at hk
  unfold insertTransition_dfa
  simp only [hdfa, hs, hk, ASSERT_NOT_NULL, hsv, hkv, ASSERT_FITS_IN_BOUND, ASSERT_NOT_ZERO,
    DeterministicFiniteAutomaton.nStates, hs', hk', hnz, if_true, if_false,
    bind, Except.bind, pure, Except.pure]
  rfl

theorem symbolLoop_nonzero (sid kid : Nat) (ws : CStr) (dfa dfa' : DFA) (e e' : Nat)
    (h : symbolLoop true sid kid ws dfa e = .ok (dfa', e')) : ∀ w ∈ ws, w ≠ 0 := by
  induction ws generalizing dfa e with
  | nil => intro w hw; simp at hw
  | cons w rest ih =>
    unfold symbolLoop at h
    by_cases hw : w ∈ dfa.alphabet
    · rw [if_pos hw] at h
      simp only [bind_eq_ok, pure_eq_ok, ASSERT_NOT_ZERO_ok] at h
      obtain ⟨⟨dfa1, e1⟩, h1, ⟨dfa2, r⟩, hins, _, hr, h⟩ := h
      have hnz : w ≠ 0 := by
        unfold insertTransition_dfa at hins
        simp only [bind_eq_ok, ASSERT_NOT_ZERO_ok] at hins
        obtain ⟨_, _, _, _, _, _, _, hz, _⟩ := hins
        exact hz
      intro x hx
      rcases List.mem_cons.mp hx with rfl | hx
      · exact hnz
      · exact ih _ _ h x hx
    · rw [if_neg hw] at h
      simp [bind, Except.bind, errorIf] at h

theorem sinkLoop_resolves (xml : Xml) (ht : HashTable) (sid : Nat) (js : List Nat)
    (dfa dfa' : DFA) (e e' : Nat)
    (h : sinkLoop xml ht true sid js dfa e = .ok (dfa', e'))
    (hinv : ∀ k, lookup_ht ht k = stateId dfa.states k) :
    ∀ j ∈ js, sinkResolves xml dfa.states j = true := by
  induction js generalizing dfa e with
  | nil => intro j hj; simp at hj
  | cons j rest ih =>
    simp only [sinkLoop, bind_eq_ok, getNode_ok, ASSERT_NOT_NULL_ok] at h
    obtain ⟨sink, hsink, _, hx, obj, hget, kid, hobj, _, _, ⟨dfa1, e1⟩, hsym, h⟩ := h
    obtain ⟨hobj', _⟩ := get_ht_ok _ _ _ hget
    rw [hobj, hinv] at hobj'
    obtain ⟨s1, _⟩ := symbolLoop_ok _ _ _ _ _ _ _ hsym
    have hnz := symbolLoop_nonzero _ _ _ _ _ _ _ hsym
    intro x hx'
    rcases List.mem_cons.mp hx' with rfl | hx'
    · unfold sinkResolves
      rw [hsink]
      simp only [Bool.and_eq_true, decide_eq_true_eq, List.all_eq_true]
      exact ⟨⟨hx, by rw [← hobj']; rfl⟩, fun w hw => by simpa using hnz w hw⟩
    · have := ih dfa1 e1 h (by rw [s1]; exact hinv) x hx'
      rw [s1] at this
      exact this

theorem sourceLoop_resolves (xml : Xml) (ht : HashTable) (is : List Nat)
    (dfa dfa' : DFA) (e e' : Nat)
    (h : sourceLoop xml ht true is dfa e = .ok (dfa', e'))
    (hinv : ∀ k, lookup_ht ht k = stateId dfa.states k) :
    ∀ i ∈ is, sourceResolves xml dfa.states i = true := by
  induction is generalizing dfa e with
  | nil => intro i hi; simp at hi
  | cons i rest ih =>
    simp only [sourceLoop, bind_eq_ok, getNode_ok, ASSERT_NOT_NULL_ok,
      ASSERT_FITS_IN_BOUND_ok, DeterministicFiniteAutomaton.nStates] at h
    obtain ⟨src, hsrc, _, hx, obj, hget, sid, hobj, _, hlt, ⟨dfa1, e1⟩, hsink, h⟩ := h
    obtain ⟨hobj', _⟩ := get_ht_ok _ _ _ hget
    rw [hobj, hinv] at hobj'
    obtain ⟨s1, _⟩ := sinkLoop_ok xml ht src.tag sid _ _ _ _ _ hsink hinv hobj'.symm hlt
    have hres := sinkLoop_resolves _ _ _ _ _ _ _ _ hsink hinv
    intro x hx'
    rcases List.mem_cons.mp hx' with rfl | hx'
    · unfold sourceResolves
      rw [hsrc]
      simp only [Bool.and_eq_true, decide_eq_true_eq, List.all_eq_true]
      exact ⟨⟨hx, by rw [← hobj']; rfl⟩, hres⟩
    · have := ih dfa1 e1 h (by rw [s1]; exact hinv) x hx'
      rw [s1] at this
      exact this

/-- A successful build has resolved every source and sink element under `transitions`. -/
theorem fromXml_dfa_resolves (xml : Xml) (dfa : DFA) (h : fromXml_dfa xml = .ok dfa) :
    transitionsResolve xml = true := by
  rw [fromXml_dfa_eq] at h
  simp only [bind_eq_ok, pure_eq_ok] at h
  obtain ⟨st, hst, ⟨dfa5, e5⟩, hsrc, h⟩ := h
  obtain ⟨root, states, initial, node, alphabet, h1, h2, h3, h4, h5, h6, h7, h8, h9, h10, h11,
    h12, h13, h14, h15, h16, h17, _⟩ := fromXml_dfa_header_ok xml st hst
  rw [h16] at hsrc
  have := sourceLoop_resolves xml st.ht _ _ _ _ _ hsrc h17
  unfold transitionsResolve
  rw [h6]
  simp only [List.all_eq_true]
  rw [← h10]
  exact this

theorem mem_childrenOf (xml : Xml) (node child : XmlNode) (h : child ∈ childrenOf xml node) :
    ∃ i ∈ node.children, xml.nodes[i]? = some child := by
  unfold childrenOf at h
  simpa [List.mem_filterMap] using h

theorem unknownSourceDoc_parsed : fromString_xml unknownSourceDoc = .ok unknownSource_xml := by
  decide!

theorem unknownSourceDoc_fails :
    fromString_xml unknownSourceDoc >>= fromXml_dfa = .error Fatal.null := by decide!

theorem unknownSinkDoc_fails :
    fromString_xml unknownSinkDoc >>= fromXml_dfa = .error Fatal.null := by decide!

theorem private_fromXmlString_loop_lt (rest out : CStr) :
    private_fromXmlString_loop (bytes "&lt;" ++ rest) out =
      private_fromXmlString_loop rest (out ++ [60]) := by rfl

theorem private_fromXmlString_loop_gt (rest out : CStr) :
    private_fromXmlString_loop (bytes "&gt;" ++ rest) out =
      private_fromXmlString_loop rest (out ++ [62]) := by rfl

theorem private_fromXmlString_loop_quot (rest out : CStr) :
    private_fromXmlString_loop (bytes "&quot;" ++ rest) out =
      private_fromXmlString_loop rest (out ++ [34]) := by rfl

theorem private_fromXmlString_loop_apos (rest out : CStr) :
    private_fromXmlString_loop (bytes "&apos;" ++ rest) out =
      private_fromXmlString_loop rest (out ++ [39]) := by rfl

theorem private_fromXmlString_loop_amp (rest out : CStr) :
    private_fromXmlString_loop (bytes "&amp;" ++ rest) out =
      private_fromXmlString_loop rest (out ++ [38]) := by rfl

set_option maxHeartbeats 4000000 in
theorem private_fromXmlString_loop_other (c : Nat) (rest out : CStr)
    (h : ∀ r ∈ namedReferences, ∀ t, c :: rest ≠ r.1 ++ t) :
    private_fromXmlString_loop (c :: rest) out =
      private_fromXmlString_loop rest (out ++ [c]) := by
  have hp : fromPattern BUFFER_SIZE [c] = .ok [c] := by
    simp [fromPattern, ASSERT_NOT_ZERO, ASSERT_FITS_IN_BOUND, ASSERT_NOT_TOO_LONG, BUFFER_SIZE,
      LOG_SAY_MAX, BUFFER_LARGE_SIZE, bind, Except.bind, pure, Except.pure]
  rw [private_fromXmlString_loop]
  · simp only [hp, bind, Except.bind, ASSERT_NOT_EMPTY]
    rw [if_neg (by simp)]
  · intro t hc hr
    exact h (bytes "&lt;", 60) (by simp [namedReferences]) t (by rw [hc, hr]; rfl)
  · intro t hc hr
    exact h (bytes "&gt;", 62) (by simp [namedReferences]) t (by rw [hc, hr]; rfl)
  · intro t hc hr
    exact h (bytes "&quot;", 34) (by simp [namedReferences]) t (by rw [hc, hr]; rfl)
  · intro t hc hr
    exact h (bytes "&apos;", 39) (by simp [namedReferences]) t (by rw [hc, hr]; rfl)
  · intro t hc hr
    exact h (bytes "&amp;", 38) (by simp [namedReferences]) t (by rw [hc, hr]; rfl)

/-- The loop of `private_fromXmlString` appends the decoded text. -/
theorem private_fromXmlString_loop_eq (fuel : Nat) (s out : CStr) (h : s.length ≤ fuel) :
    private_fromXmlString_loop s out = .ok (out ++ decodePass fuel s) := by
  induction fuel generalizing s out with
  | zero =>
    have : s = [] := List.length_eq_zero.mp (Nat.le_zero.mp h)
    subst this
    simp [decodePass]
    rfl
  | succ fuel ih =>
    cases s with
    | nil => simp [decodePass]; rfl
    | cons c rest =>
      simp only [decodePass]
      cases hf : namedReferences.find? (fun r => r.1.isPrefixOf (c :: rest)) with
      | none =>
        simp only []
        rw [List.find?_eq_none] at hf
        rw [private_fromXmlString_loop_other c rest out, ih rest _ (by simpa using h)]
        · simp
        · intro r hr t ht
          apply hf r hr
          rw [List.isPrefixOf_iff_prefix]
          exact ⟨t, ht.symm⟩
      | some r =>
        simp only []
        have hm := List.mem_of_find?_eq_some hf
        have hp := List.find?_some hf
        rw [List.isPrefixOf_iff_prefix] at hp
        obtain ⟨t, ht⟩ := hp
        have hlen : t.length + r.1.length = rest.length + 1 := by
          have := congrArg List.length ht
          simp only [List.length_append, List.length_cons] at this
          omega
        have hdrop : (c :: rest).drop r.1.length = t := by
          rw [← ht]; simp
        rw [hdrop, ← ht]
        simp only [namedReferences, List.mem_cons, List.mem_singleton, List.not_mem_nil,
          or_false] at hm
        simp only [List.length_cons] at h
        rcases hm with rfl | rfl | rfl | rfl | rfl
        · rw [private_fromXmlString_loop_lt, ih t _ (by
            have : (bytes "&lt;").length = 4 := rfl
            simp only [] at hlen; omega)]
          simp
        · rw [private_fromXmlString_loop_gt, ih t _ (by
            have : (bytes "&gt;").length = 4 := rfl
            simp only [] at hlen; omega)]
          simp
        · rw [private_fromXmlString_loop_quot, ih t _ (by
            have : (bytes "&quot;").length = 6 := rfl
            simp only [] at hlen; omega)]
          simp
        · rw [private_fromXmlString_loop_apos, ih t _ (by
            have : (bytes "&apos;").length = 6 := rfl
            simp only [] at hlen; omega)]
          simp
        · rw [private_fromXmlString_loop_amp, ih t _ (by
            have : (bytes "&amp;").length = 5 := rfl
            simp only [] at hlen; omega)]
          simp

theorem decodePass_fuel (fuel : Nat) (s : CStr) (h : s.length ≤ fuel) :
    decodePass fuel s = decodeReferences s := by
  have h1 := private_fromXmlString_loop_eq fuel s [] h
  have h2 := private_fromXmlString_loop_eq s.length s [] (Nat.le_refl _)
  rw [h1] at h2
  simpa [decodeReferences] using h2

theorem decodeReferences_nil : decodeReferences [] = [] := rfl

theorem decodeReferences_reference (r : CStr × Nat) (hr : r ∈ namedReferences) (t : CStr) :
    decodeReferences (r.1 ++ t) = r.2 :: decodeReferences t := by
  simp only [namedReferences, List.mem_cons, List.mem_singleton, List.not_mem_nil,
    or_false] at hr
  rcases hr with rfl | rfl | rfl | rfl | rfl
  · show decodePass (t.length + 4) (38 :: 108 :: 116 :: 59 :: t) = _
    rw [decodePass]
    simp [namedReferences, bytes, List.isPrefixOf, decodePass_fuel]
  · show decodePass (t.length + 4) (38 :: 103 :: 116 :: 59 :: t) = _
    rw [decodePass]
    simp [namedReferences, bytes, List.isPrefixOf, decodePass_fuel]
  · show decodePass (t.length + 6) (38 :: 113 :: 117 :: 111 :: 116 :: 59 :: t) = _
    rw [decodePass]
    simp [namedReferences, bytes, List.isPrefixOf, decodePass_fuel]
  · show decodePass (t.length + 6) (38 :: 97 :: 112 :: 111 :: 115 :: 59 :: t) = _
    rw [decodePass]
    simp [namedReferences, bytes, List.isPrefixOf, decodePass_fuel]
  · show decodePass (t.length + 5) (38 :: 97 :: 109 :: 112 :: 59 :: t) = _
    rw [decodePass]
    simp [namedReferences, bytes, List.isPrefixOf, decodePass_fuel]

theorem decodeReferences_other (c : Nat) (t : CStr)
    (h : ∀ r ∈ namedReferences, ¬ r.1 <+: c :: t) :
    decodeReferences (c :: t) = c :: decodeReferences t := by
  show decodePass (t.length + 1) (c :: t) = _
  rw [decodePass]
  have hf : namedReferences.find? (fun r => r.1.isPrefixOf (c :: t)) = none := by
    rw [List.find?_eq_none]
    intro r hr
    rw [List.isPrefixOf_iff_prefix]
    exact h r hr
  rw [hf]
  simp [decodePass_fuel]

theorem private_fromXmlString_eq (s : CStr) :
    private_fromXmlString s =
      if s.length < BUFFER_SIZE then
        if (decodeReferences s).length < XML_MAX_CONTENT_SIZE then .ok (decodeReferences s)
        else .error Fatal.outOfBounds
      else .error Fatal.tooLong := by
  unfold private_fromXmlString
  have h := private_fromXmlString_loop_eq s.length s [] (Nat.le_refl _)
  simp only [List.nil_append] at h
  by_cases h1 : s.length < BUFFER_SIZE
  · by_cases h2 : (decodeReferences s).length < XML_MAX_CONTENT_SIZE
    · simp only [h1, h2, if_true, ASSERT_NOT_TOO_LONG, h, bind, Except.bind,
        ASSERT_FITS_IN_BOUND, decodeReferences] at *
      simp [h2, pure, Except.pure]
    · simp only [h1, h2, if_true, if_false, ASSERT_NOT_TOO_LONG, h, bind, Except.bind,
        ASSERT_FITS_IN_BOUND, decodeReferences] at *
      simp [h2]
  · simp [h1, ASSERT_NOT_TOO_LONG, bind, Except.bind]

theorem partialDoc_parsed : fromString_xml partialDoc = .ok partial_xml := by decide!

theorem partialDoc_built : fromXml_dfa partial_xml = .ok partial_dfa := by rfl

theorem partial_emitted : toC_dfa zeroMemory partial_dfa = .ok (render partialProgram) := by
  decide!

theorem programOf_branches (mem : Memory) (dfa : DFA) (b : CBlock)
    (hb : b ∈ (programOf mem dfa).blocks) : b.branches.map (·.1) = dfa.alphabet := by
  unfold programOf at hb
  simp only [List.mem_map] at hb
  obtain ⟨st, _, rfl⟩ := hb
  simp [List.map_map, Function.comp_def]

theorem runFrom_cons (p : CProgram) (label : CStr) (b : CBlock) (c : Nat) (rest : CStr)
    (hb : findBlock p label = some b) :
    (c ∉ b.branches.map (·.1) → runFrom p label (c :: rest) = some 0) ∧
      (c ∈ b.branches.map (·.1) →
        ∃ target, (c, target) ∈ b.branches ∧
          runFrom p label (c :: rest) = runFrom p target rest) := by
  constructor
  · intro hc
    have : b.branches.find? (fun br => br.1 = c) = none := by
      rw [List.find?_eq_none]
      intro br hbr hx
      simp only [decide_eq_true_eq] at hx
      exact hc (List.mem_map.mpr ⟨br, hbr, hx⟩)
    simp [runFrom, hb, this]
  · intro hc
    cases hf : b.branches.find? (fun br => br.1 = c) with
    | none =>
      rw [List.find?_eq_none] at hf
      obtain ⟨br, hbr, hx⟩ := List.mem_map.mp hc
      exact absurd (by simpa using hx) (hf br hbr)
    | some br =>
      have h1 := List.mem_of_find?_eq_some hf
      have h2 := List.find?_some hf
      simp only [decide_eq_true_eq] at h2
      refine ⟨br.2, ?_, by simp [runFrom, hb, hf]⟩
      rw [← h2]
      exact h1

theorem updateNode_tree (xml : Xml) (p : Nat) (f : XmlNode → XmlNode)
    (hf : ∀ n, (f n).children = n.children)
    (h : ∀ n ∈ xml.nodes, 0 ∉ n.children) :
    ∀ n ∈ (updateNode xml p f).nodes, 0 ∉ n.children := by
  intro n hn
  unfold updateNode at hn
  cases hp : xml.nodes[p]? with
  | none => rw [hp] at hn; exact h n hn
  | some node =>
    rw [hp] at hn
    simp only [] at hn
    rcases List.mem_or_eq_of_mem_set hn with hm | rfl
    · exact h n hm
    · rw [hf]; exact h node (List.getElem?_mem hp)

theorem newNode_tree (xml xml' : Xml) (parent : Option Nat) (k : Nat)
    (hn : newNode xml parent = .ok (xml', k))
    (h : ∀ n ∈ xml.nodes, 0 ∉ n.children) :
    ∀ n ∈ xml'.nodes, 0 ∉ n.children := by
  unfold newNode at hn
  simp only [bind_eq_ok, ASSERT_FITS_IN_BOUND_ok] at hn
  obtain ⟨_, _, _, _, hn⟩ := hn
  cases parent with
  | none =>
    simp only [pure_eq_ok, Prod.mk.injEq] at hn
    obtain ⟨rfl, _⟩ := hn
    intro n hm
    simp only [List.mem_append, List.mem_singleton] at hm
    rcases hm with hm | rfl
    · exact h n hm
    · simp
  | some p =>
    simp only [bind_eq_ok, getNode_ok, pure_eq_ok, Prod.mk.injEq] at hn
    obtain ⟨par, hpar, _, _, rfl, _⟩ := hn
    intro n hm
    simp only [List.mem_append, List.mem_singleton] at hm
    rcases hm with hm | rfl
    · unfold updateNode at hm hpar
      cases hp : xml.nodes[p]? with
      | none => rw [hp] at hm; exact h n hm
      | some node =>
        rw [hp] at hm
        simp only [] at hm
        rcases List.mem_or_eq_of_mem_set hm with hm | rfl
        · exact h n hm
        · simp only [List.mem_append, List.mem_singleton, not_or]
          refine ⟨h node (List.getElem?_mem hp), ?_⟩
          intro e
          have : p < xml.nodes.length := by
            by_contra hc
            rw [List.getElem?_eq_none (Nat.le_of_not_lt hc)] at hp
            simp at hp
          omega
    · simp

theorem metaLoop_nodes (fuel : Nat) (ptr ptr' : CStr) (xml xml' : Xml)
    (h : metaLoop fuel ptr xml = .ok (ptr', xml')) : xml'.nodes = xml.nodes := by
  induction fuel generalizing ptr xml with
  | zero => simp [metaLoop] at h
  | succ fuel ih =>
    unfold metaLoop at h
    split at h
    · simp only [Except.ok.injEq, Prod.mk.injEq] at h
      rw [← h.2]
    · simp only [bind_eq_ok] at h
      obtain ⟨_, _, _, _, _, _, _, _, _, _, _, _, h⟩ := h
      exact (ih _ _ h).trans rfl

theorem contentLoop_tree (fuel : Nat) (ptr : CStr) (xml : Xml) (n : Nat) (parent : Option Nat)
    (st : ParseState) (hc : contentLoop fuel ptr xml n parent = .ok st)
    (h : ∀ n ∈ xml.nodes, 0 ∉ n.children) :
    ∀ n ∈ st.xml.nodes, 0 ∉ n.children := by
  induction fuel generalizing ptr xml n parent with
  | zero => simp [contentLoop] at hc
  | succ fuel ih =>
    unfold contentLoop at hc
    simp only [bind_eq_ok] at hc
    obtain ⟨_, _, node, _, text, _, _, _, hc⟩ := hc
    have h1 := updateNode_tree xml n
      (fun nd => { nd with content := nd.content.set nd.children.length text }) (fun _ => rfl) h
    split at hc
    · simp only [pure_eq_ok] at hc
      rw [← hc]
      exact h1
    · simp only [bind_eq_ok] at hc
      obtain ⟨_, _, _, _, _, _, _, _, _, _, hc⟩ := hc
      split at hc
      · simp only [pure_eq_ok] at hc
        rw [← hc]
        exact h1
      · simp only [bind_eq_ok] at hc
        obtain ⟨_, _, _, _, hc⟩ := hc
        exact ih _ _ _ _ hc h1

theorem elementLoop_tree (fuel : Nat) (ptr ptr' : CStr) (xml xml' : Xml) (parent : Option Nat)
    (he : elementLoop fuel ptr xml parent = .ok (ptr', xml'))
    (h : ∀ n ∈ xml.nodes, 0 ∉ n.children) :
    ∀ n ∈ xml'.nodes, 0 ∉ n.children := by
  induction fuel generalizing ptr xml parent with
  | zero => simp [elementLoop] at he
  | succ fuel ih =>
    unfold elementLoop at he
    simp only [bind_eq_ok] at he
    obtain ⟨⟨xml1, n⟩, hnew, _, _, _, _, _, _, _, _, ⟨ptr3, attrs⟩, _, ⟨ptr5, cur⟩, _, he⟩ := he
    have h1 := newNode_tree _ _ _ _ hnew h
    have h2 := updateNode_tree xml1 n (fun nd => { nd with tag := List.takeWhile isTagByte ptr })
      (fun _ => rfl) h1
    have h3 := updateNode_tree _ n (fun nd => { nd with attributes := attrs }) (fun _ => rfl) h2
    simp only [] at he
    cases cur with
    | none =>
      simp only [pure_eq_ok, Prod.mk.injEq] at he
      rw [← he.2]
      exact h3
    | some c =>
      obtain ⟨node, parent1⟩ := c
      simp only [bind_eq_ok] at he
      obtain ⟨_, _, _, _, _, _, st, hcont, he⟩ := he
      have h4 := contentLoop_tree _ _ _ _ _ _ hcont h3
      cases hm : st.node with
      | none =>
        rw [hm] at he
        simp only [pure_eq_ok, Prod.mk.injEq] at he
        rw [← he.2]
        exact h4
      | some m =>
        rw [hm] at he
        exact ih _ _ _ he h4

/-- In a tree that the parser returns the root is the child of no node. -/
theorem fromString_xml_tree (s : CStr) (xml : Xml) (h : fromString_xml s = .ok xml) :
    ∀ n ∈ xml.nodes, 0 ∉ n.children := by
  unfold fromString_xml at h
  simp only [bind_eq_ok] at h
  obtain ⟨_, _, _, _, xml0, hinit, _, _, _, _, _, _, _, _, ⟨ptr3, xml1⟩, hmeta,
    ⟨ptr4, xml2⟩, helem, _, _, h⟩ := h
  simp only [pure_eq_ok] at h
  subst h
  have h0 : xml0.nodes = [] := by
    unfold initialize_xml at hinit
    simp only [bind_eq_ok, pure_eq_ok] at hinit
    obtain ⟨_, _, _, _, _, _, rfl⟩ := hinit
    rfl
  apply elementLoop_tree _ _ _ _ _ _ helem
  rw [metaLoop_nodes _ _ _ _ _ hmeta, h0]
  intro n hn
  simp at hn

theorem permuteRoot_getElem? (xml : Xml) (cs : List Nat) (i : Nat) (h : i ≠ 0) :
    (permuteRoot xml cs).nodes[i]? = xml.nodes[i]? := by
  unfold permuteRoot updateNode
  cases h0 : xml.nodes[0]? with
  | none => rfl
  | some root =>
    simp only []
    rw [List.getElem?_set_ne (Ne.symm h)]

theorem permuteRoot_root (xml : Xml) (cs : List Nat) (root : XmlNode)
    (h : xml.nodes[0]? = some root) :
    (permuteRoot xml cs).nodes[0]? = some { root with children := cs } := by
  unfold permuteRoot updateNode
  rw [h]
  simp only []
  have hl : 0 < xml.nodes.length := by
    by_contra hc
    rw [List.getElem?_eq_none (Nat.le_of_not_lt hc)] at h
    simp at h
  rw [List.getElem?_set_self hl]

theorem permuteRoot_length (xml : Xml) (cs : List Nat) :
    (permuteRoot xml cs).nodes.length = xml.nodes.length := by
  unfold permuteRoot updateNode
  cases xml.nodes[0]? <;> simp

theorem permuteRoot_meta (xml : Xml) (cs : List Nat) : (permuteRoot xml cs).meta = xml.meta := by
  unfold permuteRoot updateNode
  cases xml.nodes[0]? <;> rfl

theorem getNode_permuteRoot (xml : Xml) (cs : List Nat) (i : Nat) (h : i ≠ 0) :
    getNode (permuteRoot xml cs) i = getNode xml i := by
  unfold getNode
  rw [permuteRoot_getElem? xml cs i h]

theorem stateLoop_permuteRoot (xml : Xml) (cs : List Nat) (flag : Int) (js : List Nat)
    (dfa : DFA) (ht : HashTable) (h0 : 0 ∉ js) :
    stateLoop (permuteRoot xml cs) flag js dfa ht = stateLoop xml flag js dfa ht := by
  induction js generalizing dfa ht with
  | nil => rfl
  | cons j rest ih =>
    have hj : j ≠ 0 := fun e => h0 (e ▸ List.mem_cons_self _ _)
    have hr : 0 ∉ rest := fun e => h0 (List.mem_cons_of_mem _ e)
    simp only [stateLoop, getNode_permuteRoot xml cs j hj]
    congr 1; funext state
    congr 1; funext _
    congr 1; funext r
    congr 1; funext st0
    congr 1; funext _
    congr 1; funext check
    congr 1; funext _
    congr 1; funext ht1
    congr 1; funext _
    exact ih _ _ hr

theorem stateGroupLoop_permuteRoot (xml : Xml) (cs : List Nat) (is : List Nat)
    (dfa : DFA) (ht : HashTable) (htree : ∀ n ∈ xml.nodes, 0 ∉ n.children) (h0 : 0 ∉ is) :
    stateGroupLoop (permuteRoot xml cs) is dfa ht = stateGroupLoop xml is dfa ht := by
  induction is generalizing dfa ht with
  | nil => rfl
  | cons i rest ih =>
    have hi : i ≠ 0 := fun e => h0 (e ▸ List.mem_cons_self _ _)
    have hr : 0 ∉ rest := fun e => h0 (List.mem_cons_of_mem _ e)
    simp only [stateGroupLoop, getNode_permuteRoot xml cs i hi, ih _ _ hr]
    unfold getNode
    cases hn : xml.nodes[i]? with
    | none => rfl
    | some node =>
      have hc : 0 ∉ node.children := htree node (List.getElem?_mem hn)
      simp only [bind, Except.bind, stateLoop_permuteRoot xml cs _ _ _ _ hc]

theorem sinkLoop_permuteRoot (xml : Xml) (cs : List Nat) (ht : HashTable) (pre : Bool)
    (sid : Nat) (js : List Nat) (dfa : DFA) (e : Nat) (h0 : 0 ∉ js) :
    sinkLoop (permuteRoot xml cs) ht pre sid js dfa e = sinkLoop xml ht pre sid js dfa e := by
  induction js generalizing dfa e with
  | nil => rfl
  | cons j rest ih =>
    have hj : j ≠ 0 := fun e => h0 (e ▸ List.mem_cons_self _ _)
    have hr : 0 ∉ rest := fun e => h0 (List.mem_cons_of_mem _ e)
    simp only [sinkLoop, getNode_permuteRoot xml cs j hj, ih _ _ hr]

theorem sourceLoop_permuteRoot (xml : Xml) (cs : List Nat) (ht : HashTable) (pre : Bool)
    (is : List Nat) (dfa : DFA) (e : Nat) (htree : ∀ n ∈ xml.nodes, 0 ∉ n.children)
    (h0 : 0 ∉ is) :
    sourceLoop (permuteRoot xml cs) ht pre is dfa e = sourceLoop xml ht pre is dfa e := by
  induction is generalizing dfa e with
  | nil => rfl
  | cons i rest ih =>
    have hi : i ≠ 0 := fun e => h0 (e ▸ List.mem_cons_self _ _)
    have hr : 0 ∉ rest := fun e => h0 (List.mem_cons_of_mem _ e)
    simp only [sourceLoop, getNode_permuteRoot xml cs i hi, ih _ _ hr]
    unfold getNode
    cases hn : xml.nodes[i]? with
    | none => rfl
    | some node =>
      have hc : 0 ∉ node.children := htree node (List.getElem?_mem hn)
      simp only [bind, Except.bind, sinkLoop_permuteRoot xml cs _ _ _ _ _ _ hc]

theorem rootChildrenLoop_permuteRoot (xml : Xml) (cs : List Nat) (is : List Nat)
    (rc : RootChildren) (h0 : 0 ∉ is) :
    rootChildrenLoop (permuteRoot xml cs) is rc = rootChildrenLoop xml is rc := by
  induction is generalizing rc with
  | nil => rfl
  | cons i rest ih =>
    have hi : i ≠ 0 := fun e => h0 (e ▸ List.mem_cons_self _ _)
    have hr : 0 ∉ rest := fun e => h0 (List.mem_cons_of_mem _ e)
    simp only [rootChildrenLoop, getNode_permuteRoot xml cs i hi, ih _ hr]

/-- The loop over the children of the root runs through when every child is a valid
element. -/
theorem rootChildrenLoop_run (xml : Xml) (is : List Nat) (rc : RootChildren)
    (h : ∀ i ∈ is, ∃ n, xml.nodes[i]? = some n ∧ ASSERT_XMLNODE n = .ok ()) :
    ∃ rc', rootChildrenLoop xml is rc = .ok rc' := by
  induction is generalizing rc with
  | nil => exact ⟨rc, rfl⟩
  | cons i rest ih =>
    obtain ⟨n, hn, hv⟩ := h i (List.mem_cons_self _ _)
    have hr : ∀ j ∈ rest, ∃ n, xml.nodes[j]? = some n ∧ ASSERT_XMLNODE n = .ok () :=
      fun j hj => h j (List.mem_cons_of_mem _ hj)
    simp only [rootChildrenLoop, getNode, hn, hv, bind, Except.bind]
    split
    · exact ih _ hr
    · split
      · exact ih _ hr
      · split
        · exact ih _ hr
        · exact ih _ hr

theorem rootChildrenLoop_valid (xml : Xml) (is : List Nat) (rc rc' : RootChildren)
    (h : rootChildrenLoop xml is rc = .ok rc') :
    ∀ i ∈ is, ∃ n, xml.nodes[i]? = some n ∧ ASSERT_XMLNODE n = .ok () := by
  induction is generalizing rc with
  | nil => intro i hi; simp at hi
  | cons i rest ih =>
    unfold rootChildrenLoop at h
    simp only [bind_eq_ok, getNode_ok] at h
    obtain ⟨node, hnode, _, hv, h⟩ := h
    have hrest : ∃ rc1, rootChildrenLoop xml rest rc1 = .ok rc' := by
      split at h
      · exact ⟨_, h⟩
      · split at h
        · exact ⟨_, h⟩
        · split at h
          · exact ⟨_, h⟩
          · exact ⟨_, h⟩
    obtain ⟨rc1, h1⟩ := hrest
    intro x hx
    rcases List.mem_cons.mp hx with rfl | hx
    · exact ⟨node, hnode, hv⟩
    · exact ih _ h1 x hx

theorem find?_eq_head?_filter {α : Type} (p : α → Bool) (l : List α) :
    l.find? p = (l.filter p).head? := by
  induction l with
  | nil => rfl
  | cons a l ih =>
    cases h : p a
    · rw [List.find?_cons_of_neg _ (by simp [h]), List.filter_cons_of_neg (by simp [h]), ih]
    · rw [List.find?_cons_of_pos _ h, List.filter_cons_of_pos h]
      rfl

theorem perm_of_length_le_one {α : Type} {l l' : List α} (hp : l.Perm l')
    (hl : l.length ≤ 1) : l = l' := by
  match l, hl with
  | [], _ => exact (List.Perm.nil_eq hp)
  | [a], _ => exact (List.perm_singleton.mp hp.symm).symm

/-- A search finds the same element in two arrangements of a list that holds at most one
element with the property. -/
theorem find?_perm {α : Type} (p : α → Bool) {l l' : List α} (hp : l.Perm l')
    (hu : (l.filter p).length ≤ 1) : l.find? p = l'.find? p := by
  rw [find?_eq_head?_filter, find?_eq_head?_filter, perm_of_length_le_one (hp.filter p) hu]

theorem filter_tag_length (L : List XmlNode) (T : CStr) (hnd : (L.map (·.tag)).Nodup) :
    (L.filter fun n => decide (n.tag = T)).length ≤ 1 := by
  have hsub : ((L.filter fun n => decide (n.tag = T)).map (·.tag)).Nodup :=
    hnd.sublist ((List.filter_sublist L).map _)
  have hall : ∀ x ∈ (L.filter fun n => decide (n.tag = T)).map (·.tag), x = T := by
    intro x hx
    obtain ⟨n, hn, rfl⟩ := List.mem_map.mp hx
    simpa using (List.mem_filter.mp hn).2
  rw [← List.length_map (L.filter fun n => decide (n.tag = T)) (·.tag)]
  generalize (L.filter fun n => decide (n.tag = T)).map (·.tag) = M at hsub hall
  match M, hsub, hall with
  | [], _, _ => simp
  | [_], _, _ => simp
  | a :: b :: rest, hsub, hall =>
    exfalso
    have ha := hall a (by simp)
    have hb := hall b (by simp)
    rw [List.nodup_cons] at hsub
    exact hsub.1 (by rw [ha, hb]; simp)

theorem find?_tag_mem (xml : Xml) (is : List Nat) (T : CStr) (n : XmlNode)
    (h : ((is.filterMap fun i => xml.nodes[i]?).reverse.find?
      fun n => decide (n.tag = T)) = some n) :
    n ∈ (is.filterMap fun i => xml.nodes[i]?) ∧ n.tag = T ∧ n ∈ xml.nodes := by
  have h1 := List.mem_reverse.mp (List.mem_of_find?_eq_some h)
  have h2 := List.find?_some h
  simp only [decide_eq_true_eq] at h2
  refine ⟨h1, h2, ?_⟩
  obtain ⟨i, _, hi⟩ := List.mem_filterMap.mp h1
  exact List.getElem?_mem hi

/-- The three locals that the loop over the children of the root leaves do not depend on
the order of the children, when there are three children and each local is set. -/
theorem rootChildrenLoop_perm (xml : Xml) (cs cs' : List Nat) (rc : RootChildren)
    (hp : cs'.Perm cs) (h3 : cs.length = 3)
    (h : rootChildrenLoop xml cs ⟨none, none, none⟩ = .ok rc)
    (hs : rc.states.isSome) (hi : rc.initialState.isSome) (ht : rc.transitions.isSome) :
    rootChildrenLoop xml cs' ⟨none, none, none⟩ = .ok rc := by
  have hvalid := rootChildrenLoop_valid _ _ _ _ h
  obtain ⟨rc', h'⟩ := rootChildrenLoop_run xml cs' ⟨none, none, none⟩
    (fun i hi => hvalid i (hp.mem_iff.mp hi))
  obtain ⟨r1, r2, r3⟩ := rootChildrenLoop_ok _ _ _ _ h
  obtain ⟨r1', r2', r3'⟩ := rootChildrenLoop_ok _ _ _ _ h'
  simp only [Option.or_none] at r1 r2 r3 r1' r2' r3'
  have hL : (cs'.filterMap fun i => xml.nodes[i]?).reverse.Perm
      (cs.filterMap fun i => xml.nodes[i]?).reverse :=
    (List.reverse_perm _).trans ((hp.filterMap _).trans (List.reverse_perm _).symm)
  obtain ⟨d1, d2, d3⟩ := tags_distinct
  obtain ⟨ns, hns⟩ := Option.isSome_iff_exists.mp hs
  obtain ⟨ni, hni⟩ := Option.isSome_iff_exists.mp hi
  obtain ⟨nt, hnt⟩ := Option.isSome_iff_exists.mp ht
  obtain ⟨ms, es, _⟩ := find?_tag_mem xml cs _ ns (by rw [← r1]; exact hns)
  obtain ⟨mi, ei, _⟩ := find?_tag_mem xml cs _ ni (by rw [← r2]; exact hni)
  obtain ⟨mt, et, _⟩ := find?_tag_mem xml cs _ nt (by rw [← r3]; exact hnt)
  have hperm3 : ((cs.filterMap fun i => xml.nodes[i]?).map (·.tag)).Perm
      [bytes "states", bytes "initialState", bytes "transitions"] := by
    apply perm_of_three _ _ _ _ _ d1 d2 d3
    · exact List.mem_map.mpr ⟨ns, ms, es⟩
    · exact List.mem_map.mpr ⟨ni, mi, ei⟩
    · exact List.mem_map.mpr ⟨nt, mt, et⟩
    · rw [List.length_map]
      exact (List.length_filterMap_le _ _).trans (le_of_eq h3)
  have hnd : ((cs.filterMap fun i => xml.nodes[i]?).map (·.tag)).Nodup :=
    hperm3.nodup_iff.mpr (by simp [d1, d2, d3])
  have hnd' : ((cs'.filterMap fun i => xml.nodes[i]?).reverse.map (·.tag)).Nodup := by
    rw [List.map_reverse, List.nodup_reverse]
    exact ((hp.filterMap _).map _).nodup_iff.mpr hnd
  have e1 := find?_perm (fun n : XmlNode => decide (n.tag = bytes "states")) hL
    (filter_tag_length _ _ hnd')
  have e2 := find?_perm (fun n : XmlNode => decide (n.tag = bytes "initialState")) hL
    (filter_tag_length _ _ hnd')
  have e3 := find?_perm (fun n : XmlNode => decide (n.tag = bytes "transitions")) hL
    (filter_tag_length _ _ hnd')
  rw [h']
  congr 1
  cases rc
  cases rc'
  simp only [] at r1 r2 r3 r1' r2' r3'
  simp only [RootChildren.mk.injEq]
  exact ⟨by rw [r1', r1, e1], by rw [r2', r2, e2], by rw [r3', r3, e3]⟩

theorem ASSERT_XML_permuteRoot (xml : Xml) (cs : List Nat) :
    ASSERT_XML (permuteRoot xml cs) = ASSERT_XML xml := by
  unfold ASSERT_XML
  rw [permuteRoot_meta, permuteRoot_length]

/-- The part of the build before the transitions does not depend on the order in which
the root lists its children. -/
theorem fromXml_dfa_header_permuteRoot (xml : Xml) (root : XmlNode) (cs : List Nat)
    (st : BuildState) (hroot : xml.nodes[0]? = some root) (hperm : cs.Perm root.children)
    (htree : ∀ n ∈ xml.nodes, 0 ∉ n.children)
    (h : fromXml_dfa_header xml = .ok st) :
    fromXml_dfa_header (permuteRoot xml cs) = .ok st := by
  unfold fromXml_dfa_header at h ⊢
  rw [initialize_dfa_eq] at h ⊢
  simp only [bind_eq_ok, getNode_ok, ASSERT_NOT_NULL_ok, pure_eq_ok, Except.ok.injEq,
    exists_eq_left'] at h
  obtain ⟨_, hxml, _, hdfa0, _, hht0, root', hroot', _, htag, ⟨dfa2, pre, aend⟩, hattr, _, h3,
    rc, hrc, states, hstates, _, hsv, _, hsb, ⟨dfa3, ht⟩, hgroup, initial, hinitial, _, hiv, _,
    hone, node, hnode, _, hnv, obj, hget, initId, hobj, _, hlt, transitions, htrans, _, htv,
    h⟩ := h
  rw [hroot] at hroot'
  simp only [Option.some.injEq] at hroot'
  subst hroot'
  have h0cs : 0 ∉ cs := fun e => htree root (List.getElem?_mem hroot) (hperm.mem_iff.mp e)
  obtain ⟨r1, r2, r3⟩ := rootChildrenLoop_ok _ _ _ _ hrc
  simp only [Option.or_none] at r1 r2 r3
  obtain ⟨_, _, hsm⟩ := find?_tag_mem xml root.children _ states (by rw [← r1]; exact hstates)
  obtain ⟨_, _, him⟩ := find?_tag_mem xml root.children _ initial (by rw [← r2]; exact hinitial)
  have h3' : (errorUnless (root.children.length = 3) (Fatal.syntaxError
      "DFA must have exactly 3 children, <states>, <initialState>, <transitions>")) =
      .ok () := h3
  have h3l : root.children.length = 3 := errorUnless_ok.mp h3
  have hrc' : rootChildrenLoop (permuteRoot xml cs) cs ⟨none, none, none⟩ = .ok rc := by
    rw [rootChildrenLoop_permuteRoot xml cs cs _ h0cs]
    exact rootChildrenLoop_perm xml root.children cs rc hperm h3l hrc
      (by rw [hstates]; rfl) (by rw [hinitial]; rfl) (by rw [htrans]; rfl)
  have hgroup' : stateGroupLoop (permuteRoot xml cs) states.children dfa2 initialize_ht =
      .ok (dfa3, ht) := by
    rw [stateGroupLoop_permuteRoot xml cs _ _ _ htree (htree states hsm)]
    exact hgroup
  have honel : initial.children.length = 1 := errorUnless_ok.mp hone
  have hidx : initial.children.getD 0 0 ≠ 0 := by
    intro e
    apply htree initial him
    match hc : initial.children, honel with
    | [c], _ =>
      rw [hc] at e
      simp only [List.getD_cons_zero] at e
      simp [e]
  have hnode' : getNode (permuteRoot xml cs) (initial.children.getD 0 0) = .ok node := by
    rw [getNode_permuteRoot xml cs _ hidx]
    exact getNode_ok.mpr hnode
  have hroot'' : getNode (permuteRoot xml cs) 0 = .ok { root with children := cs } :=
    getNode_ok.mpr (permuteRoot_root xml cs root hroot)
  have hlen : cs.length = 3 := by rw [hperm.length_eq]; exact h3l
  simp only [bind, Except.bind, ASSERT_XML_permuteRoot, hxml, hdfa0, hht0, hroot'', htag, hattr,
    hlen, errorUnless, if_true, hrc', hstates, ASSERT_NOT_NULL, hsv, hsb, hgroup', hinitial,
    hiv, honel, hnode', hnv, hget, hobj, hlt, htrans, htv, pure, Except.pure]
  exact congrArg Except.ok h

theorem fromXml_dfa_permuteRoot (xml : Xml) (root : XmlNode) (cs : List Nat) (dfa : DFA)
    (hroot : xml.nodes[0]? = some root) (hperm : cs.Perm root.children)
    (htree : ∀ n ∈ xml.nodes, 0 ∉ n.children) (h : fromXml_dfa xml = .ok dfa) :
    fromXml_dfa (permuteRoot xml cs) = .ok dfa := by
  rw [fromXml_dfa_eq] at h ⊢
  cases hst : fromXml_dfa_header xml with
  | error e => rw [hst] at h; simp [bind, Except.bind] at h
  | ok st =>
    rw [hst] at h
    obtain ⟨_, _, _, _, _, hr, _, _, _, _, hte, _⟩ := fromXml_dfa_header_ok xml st hst
    have htm : st.transitions ∈ xml.nodes := by
      simp only [transitionsElem, hr, Option.some_bind] at hte
      obtain ⟨hm, _⟩ := childTagged_mem _ _ _ _ hte
      obtain ⟨i, _, hi⟩ := mem_childrenOf _ _ _ hm
      exact List.getElem?_mem hi
    rw [fromXml_dfa_header_permuteRoot xml root cs st hroot hperm htree hst]
    simp only [bind, Except.bind] at h ⊢
    rw [sourceLoop_permuteRoot xml cs _ _ _ _ _ htree (htree _ htm)]
    exact h

theorem permuteRoot_permuteRoot (xml : Xml) (root : XmlNode) (cs : List Nat)
    (hroot : xml.nodes[0]? = some root) :
    permuteRoot (permuteRoot xml cs) root.children = xml := by
  have h1 := permuteRoot_root xml cs root hroot
  have hl : 0 < xml.nodes.length := by
    by_contra hc
    rw [List.getElem?_eq_none (Nat.le_of_not_lt hc)] at hroot
    simp at hroot
  have hget : xml.nodes[0] = root := by
    rw [List.getElem?_eq_getElem hl] at hroot
    exact Option.some.inj hroot
  unfold permuteRoot updateNode at h1 ⊢
  rw [hroot] at h1 ⊢
  simp only [] at h1 ⊢
  rw [h1]
  simp only [List.set_set]
  cases xml with
  | mk m nodes =>
    simp only [Xml.mk.injEq, true_and]
    simp only [] at hget hl
    rw [← hget]
    cases nodes with
    | nil => simp at hl
    | cons a rest => rfl

theorem permuteRoot_tree (xml : Xml) (root : XmlNode) (cs : List Nat)
    (hroot : xml.nodes[0]? = some root) (hperm : cs.Perm root.children)
    (htree : ∀ n ∈ xml.nodes, 0 ∉ n.children) :
    ∀ n ∈ (permuteRoot xml cs).nodes, 0 ∉ n.children := by
  intro n hn
  unfold permuteRoot updateNode at hn
  rw [hroot] at hn
  simp only [] at hn
  rcases List.mem_or_eq_of_mem_set hn with hm | rfl
  · exact htree n hm
  · exact fun e => htree root (List.getElem?_mem hroot) (hperm.mem_iff.mp e)

/-! ## The graph emitter returns `graphOf` -/

theorem getEdge_loop_none (h : DotHeader) (t w : Nat) (es : List Edge) (b : Nat)
    (hl : getEdge_loop h t es b = .ok none) :
    addSymbol es w t = es ++ [{ label := [w], target := t }] := by
  induction es generalizing b with
  | nil => rfl
  | cons e rest ih =>
    simp only [getEdge_loop, bind_eq_ok] at hl
    obtain ⟨_, _, hl⟩ := hl
    split at hl
    · simp [pure, Except.pure] at hl
    · rename_i hne
      simp only [addSymbol, if_neg hne, List.cons_append, ih _ hl]

theorem getEdge_loop_some (h : DotHeader) (t w : Nat) (es : List Edge) (b r : Nat)
    (hl : getEdge_loop h t es b = .ok (some r)) :
    ∃ k e, r = b + k ∧ es[k]? = some e ∧
      es.set k { e with label := e.label ++ [44, w] } = addSymbol es w t := by
  induction es generalizing b with
  | nil => simp [getEdge_loop] at hl
  | cons e rest ih =>
    simp only [getEdge_loop, bind_eq_ok] at hl
    obtain ⟨_, _, hl⟩ := hl
    split at hl
    · rename_i heq
      simp only [pure_eq_ok, Option.some.injEq] at hl
      exact ⟨0, e, by omega, by simp, by simp [addSymbol, heq]⟩
    · rename_i hne
      obtain ⟨k, e', hr, hk, hset⟩ := ih _ hl
      refine ⟨k + 1, e', by omega, by simpa using hk, ?_⟩
      simp only [addSymbol, if_neg hne, List.set_cons_succ, hset]

theorem set_getElem?_self {α : Type} (l : List α) (i : Nat) (a : α) (h : l[i]? = some a) :
    l.set i a = l := by
  induction l generalizing i with
  | nil => rfl
  | cons b rest ih =>
    cases i with
    | zero =>
      simp only [List.getElem?_cons_zero, Option.some.injEq] at h
      rw [List.set_cons_zero, h]
    | succ i =>
      simp only [List.getElem?_cons_succ] at h
      rw [List.set_cons_succ, ih i h]

theorem getElem?_lt {α : Type} {l : List α} {i : Nat} {a : α} (h : l[i]? = some a) :
    i < l.length := by
  by_contra hc
  rw [List.getElem?_eq_none (Nat.le_of_not_lt hc)] at h
  simp at h

theorem updateEdge_nodes (G : Graph) (i k : Nat) (f : Edge → Edge) (node : Node) (e : Edge)
    (hn : G.nodes[i]? = some node) (he : node.edges[k]? = some e) :
    updateEdge G i k f =
      { G with nodes := G.nodes.set i { node with edges := node.edges.set k (f e) } } := by
  simp [updateEdge, hn, he]

theorem getEdge_ok {G : Graph} {i k : Nat} {e : Edge} (h : getEdge G i k = .ok e) :
    ∃ node, G.nodes[i]? = some node ∧ node.edges[k]? = some e := by
  unfold getEdge at h
  cases hn : G.nodes[i]? with
  | none => rw [hn] at h; simp at h
  | some node =>
    rw [hn] at h
    simp only [] at h
    cases he : node.edges[k]? with
    | none => rw [he] at h; simp at h
    | some e' =>
      rw [he] at h
      simp only [Except.ok.injEq] at h
      exact ⟨node, rfl, by rw [he, h]⟩

theorem insertEdge_dot_ok (h : DotHeader) (gmem : GraphMemory) (G G' : Graph) (src snk k : Nat)
    (hi : insertEdge_dot h gmem G src snk = .ok (G', k)) :
    ∃ node, G.nodes[src]? = some node ∧ snk < G.nodes.length ∧ k = node.edges.length ∧
      G' = { G with
             nodes := G.nodes.set src
               { node with
                 edges := node.edges ++
                   [{ label := h.DOT_DEFAULT_EDGE_LABEL (gmem.edge src node.edges.length),
                      target := snk }] } } := by
  unfold insertEdge_dot at hi
  simp only [bind_eq_ok, ASSERT_FITS_IN_BOUND_ok, ASSERT_NOT_NULL_ok, fromPattern_ok,
    pure_eq_ok, Prod.mk.injEq, Graph.size] at hi
  obtain ⟨_, _, _, _, _, hsnk, node, hnode, _, _, sink, _, _, _, _, _, check, ⟨_, hcheck⟩, _, _,
    _, _, hG, hk⟩ := hi
  refine ⟨node, hnode, hsnk, hk.symm, ?_⟩
  rw [← hG, ← hcheck]

theorem getEdge_dot_some (h : DotHeader) (G : Graph) (i j k : Nat)
    (hg : getEdge_dot h G i j = .ok (some k)) : j < G.nodes.length := by
  by_contra hc
  unfold getEdge_dot at hg
  simp only [bind_eq_ok, Graph.size] at hg
  obtain ⟨_, _, hg⟩ := hg
  rw [if_pos (by simp only [not_and]; exact fun _ => hc)] at hg
  simp [pure, Except.pure] at hg

theorem getEdge_dot_ok (h : DotHeader) (G : Graph) (i j : Nat) (r : Option Nat) (node : Node)
    (hn : G.nodes[i]? = some node) (hj : j < G.nodes.length)
    (hg : getEdge_dot h G i j = .ok r) : getEdge_loop h j node.edges 0 = .ok r := by
  have hi : i < G.nodes.length := by
    by_contra hc
    rw [List.getElem?_eq_none (Nat.le_of_not_lt hc)] at hn
    simp at hn
  unfold getEdge_dot at hg
  simp only [bind_eq_ok, Graph.size] at hg
  obtain ⟨_, _, hg⟩ := hg
  rw [if_neg (by simp [hi, hj])] at hg
  simp only [bind_eq_ok, ASSERT_NOT_NULL_ok] at hg
  obtain ⟨src, hsrc, _, _, _, _, _, _, hg⟩ := hg
  rw [hn] at hsrc
  simp only [Option.some.injEq] at hsrc
  subst hsrc
  exact hg

/-- One pass of the loop over the alphabet adds the symbols, one by one, to the edges of
the node `i` and leaves everything else as it is. -/
theorem toDot_symbolLoop_ok (h : DotHeader) (gmem : GraphMemory) (mem : Memory) (dfa : DFA)
    (i : Nat) (ws : CStr) (G G' : Graph) (node : Node)
    (hl : toDot_symbolLoop h gmem mem dfa i ws G = .ok G')
    (hn : G.nodes[i]? = some node) :
    G' = { G with
           nodes := G.nodes.set i
             { node with
               edges := ws.foldl (fun es w => addSymbol es w (cellAt mem dfa i w))
                 node.edges } } := by
  induction ws generalizing G node with
  | nil =>
    simp only [toDot_symbolLoop, Except.ok.injEq] at hl
    subst hl
    simp only [List.foldl_nil]
    cases G with
    | mk name nodes clusters =>
      simp only [Graph.mk.injEq, true_and, and_true]
      simp only [] at hn
      exact (set_getElem?_self _ _ _ hn).symm
  | cons w rest ih =>
    have hi : i < G.nodes.length := getElem?_lt hn
    simp only [toDot_symbolLoop, bind_eq_ok] at hl
    obtain ⟨found, hfound, hl⟩ := hl
    cases found with
    | some k =>
      simp only [bind_eq_ok, fromPattern_ok] at hl
      obtain ⟨edge, hedge, _, _, check, ⟨_, hcheck⟩, _, _, edge1, _, _, _, hl⟩ := hl
      have hj := getEdge_dot_some h G i _ k hfound
      obtain ⟨k', e, hk, he, hset⟩ :=
        getEdge_loop_some h _ w node.edges 0 k (getEdge_dot_ok h G i _ _ node hn hj hfound)
      have hk0 : k = k' := by omega
      subst hk0
      subst hcheck
      rw [updateEdge_nodes G i k _ node e hn he] at hl
      simp only [hset] at hl
      have := ih _ _ hl (List.getElem?_set_self hi)
      rw [this]
      simp only [List.set_set, List.foldl_cons]
    | none =>
      simp only [bind_eq_ok, fromPattern_ok, Prod.exists] at hl
      obtain ⟨G0, k, hins, edge, hedge, _, _, check, ⟨_, hcheck⟩, _, _, edge1, _, _, _, hl⟩ := hl
      obtain ⟨node0, hn0, hj, hk, hG0⟩ := insertEdge_dot_ok h gmem G G0 i _ k hins
      rw [hn] at hn0
      simp only [Option.some.injEq] at hn0
      subst hn0
      subst hcheck
      subst hG0
      subst hk
      have hup := updateEdge_nodes
        { G with
          nodes := G.nodes.set i
            { node with
              edges := node.edges ++
                [{ label := h.DOT_DEFAULT_EDGE_LABEL (gmem.edge i node.edges.length),
                   target := cellAt mem dfa i w }] } }
        i node.edges.length (fun e => { e with label := [w] })
        { node with
          edges := node.edges ++
            [{ label := h.DOT_DEFAULT_EDGE_LABEL (gmem.edge i node.edges.length),
               target := cellAt mem dfa i w }] }
        { label := h.DOT_DEFAULT_EDGE_LABEL (gmem.edge i node.edges.length),
          target := cellAt mem dfa i w }
        (List.getElem?_set_self hi) (by simp)
      rw [hup] at hl
      have := ih _ _ hl (List.getElem?_set_self (by simpa using hi))
      rw [this]
      simp only [List.set_set, List.foldl_cons, List.set_append_right _ _ (le_refl _),
        Nat.sub_self, List.set_cons_zero,
        getEdge_loop_none h _ w node.edges 0 (getEdge_dot_ok h G i _ _ node hn hj hfound)]

/-- The loop over the states adds the alphabet symbols to the edges of the nodes it visits
and leaves the other nodes as they are. -/
theorem toDot_stateLoop_ok (h : DotHeader) (gmem : GraphMemory) (mem : Memory) (dfa : DFA)
    (is : List Nat) (G G' : Graph) (hl : toDot_stateLoop h gmem mem dfa is G = .ok G')
    (hnd : is.Nodup) (hlt : ∀ i ∈ is, i < G.nodes.length) :
    G'.name = G.name ∧ G'.clusters = G.clusters ∧
      ∀ k, G'.nodes[k]? = (G.nodes[k]?).map fun node =>
        if k ∈ is then
          { node with
            edges := dfa.alphabet.foldl (fun es w => addSymbol es w (cellAt mem dfa k w))
              node.edges }
        else node := by
  induction is generalizing G with
  | nil =>
    simp only [toDot_stateLoop, Except.ok.injEq] at hl
    subst hl
    refine ⟨rfl, rfl, fun k => ?_⟩
    cases G.nodes[k]? <;> simp
  | cons i rest ih =>
    simp only [toDot_stateLoop, bind_eq_ok] at hl
    obtain ⟨G1, h1, hl⟩ := hl
    have hi : i < G.nodes.length := hlt i (List.mem_cons_self _ _)
    obtain ⟨node, hn⟩ : ∃ node, G.nodes[i]? = some node :=
      ⟨G.nodes[i], List.getElem?_eq_getElem hi⟩
    have hG1 := toDot_symbolLoop_ok h gmem mem dfa i dfa.alphabet G G1 node h1 hn
    subst hG1
    obtain ⟨hname, hcl, hnodes⟩ := ih _ hl (List.nodup_cons.mp hnd).2
      (fun j hj => by
        simp only [List.length_set]
        exact hlt j (List.mem_cons_of_mem _ hj))
    refine ⟨hname, hcl, fun k => ?_⟩
    rw [hnodes k]
    by_cases hk : k = i
    · subst hk
      simp only [List.getElem?_set_self hi, hn, Option.map_some', List.mem_cons, true_or,
        if_true, if_neg (List.nodup_cons.mp hnd).1]
    · simp only [List.getElem?_set_ne (Ne.symm hk), List.mem_cons, hk, false_or]

theorem insertNode_dot_ok (h : DotHeader) (G G1 : Graph) (nid : Nat)
    (hi : insertNode_dot h G (-1) = .ok (G1, nid)) :
    nid = G.nodes.length ∧
      G1 = { G with
             nodes := G.nodes ++
               [{ id := G.nodes.length, peripheries := DOT_DEFAULT_PERIPHERIES,
                  style := h.DOT_DEFAULT_STYLE, shape := h.DOT_DEFAULT_SHAPE,
                  name := h.DOT_DEFAULT_NODE_NAME G.nodes.length,
                  label := h.DOT_DEFAULT_NODE_LABEL G.nodes.length, edges := [] }] } := by
  unfold insertNode_dot at hi
  simp only [bind_eq_ok, fromPattern_ok, pure_eq_ok, Prod.mk.injEq, Graph.size,
    if_pos (show (-1 : Int) < 0 by decide)] at hi
  obtain ⟨_, _, _, _, style, ⟨_, hstyle⟩, shape, ⟨_, hshape⟩, _, _, name, ⟨_, hname⟩, label,
    ⟨_, hlabel⟩, clusters, hcl, _, _, _, _, hG, hnid⟩ := hi
  subst hstyle hshape hname hlabel hcl
  exact ⟨hnid.symm, hG.symm⟩

/-- The first loop of `toDot_dfa` appends the nodes of the states, still without edges. -/
theorem toDot_nodeLoop_ok (h : DotHeader) (mem : Memory) (dfa : DFA) (sts : List DFAState)
    (G G' : Graph) (hl : toDot_nodeLoop h sts G = .ok G') :
    G' = { G with
           nodes := G.nodes ++
             (stateNodes h mem dfa G.nodes.length sts).map fun n => { n with edges := [] } } := by
  induction sts generalizing G with
  | nil =>
    simp only [toDot_nodeLoop, Except.ok.injEq] at hl
    subst hl
    simp [stateNodes]
  | cons state rest ih =>
    simp only [toDot_nodeLoop, bind_eq_ok, fromPattern_ok, ASSERT_NOT_NULL_ok, Prod.exists] at hl
    obtain ⟨_, _, G1, nid, hins, node, hnode, _, _, _, _, name, ⟨_, hname⟩, _, _, label,
      ⟨_, hlabel⟩, _, _, shape, ⟨_, hshape⟩, _, _, hl⟩ := hl
    obtain ⟨hnid, hG1⟩ := insertNode_dot_ok h G G1 nid hins
    subst hnid hG1 hname hlabel hshape
    simp only [List.getElem?_concat_length, Option.some.injEq] at hnode
    subst hnode
    rw [ih _ hl]
    simp [stateNodes, List.set_append_right]

theorem stateNodes_length (h : DotHeader) (mem : Memory) (dfa : DFA) (k : Nat)
    (sts : List DFAState) : (stateNodes h mem dfa k sts).length = sts.length := by
  induction sts generalizing k with
  | nil => rfl
  | cons st rest ih => simp [stateNodes, ih]

theorem stateNodes_getElem? (h : DotHeader) (mem : Memory) (dfa : DFA) (k i : Nat)
    (sts : List DFAState) :
    (stateNodes h mem dfa k sts)[i]? = (sts[i]?).map fun st =>
      { id := k + i, peripheries := if st.isAccept ≠ 0 then 2 else DOT_DEFAULT_PERIPHERIES,
        style := h.DOT_DEFAULT_STYLE, shape := bytes "circle", name := st.name, label := [],
        edges := rowEdges mem dfa (k + i) } := by
  induction sts generalizing k i with
  | nil => simp [stateNodes]
  | cons st rest ih =>
    cases i with
    | zero => simp [stateNodes]
    | succ i =>
      simp only [stateNodes, List.getElem?_cons_succ, ih]
      have : k + 1 + i = k + (i + 1) := by omega
      rw [this]

/-- Whenever `toDot_dfa` returns a graph, it is the graph `graphOf` of the automaton. -/
theorem toDot_dfa_eq (h : DotHeader) (gmem : GraphMemory) (mem : Memory) (dfa : DFA) (G : Graph)
    (hG : toDot_dfa h gmem mem dfa = .ok G) : G = graphOf h gmem mem dfa := by
  unfold toDot_dfa at hG
  simp only [bind_eq_ok, fromPattern_ok, ASSERT_NOT_NULL_ok, Prod.exists] at hG
  obtain ⟨_, _, G0, hG0, _, _, name, ⟨_, hname⟩, _, _, G1, hG1, G2, nid, hins, node, hnode, _, _,
    _, _, rname, ⟨_, hrname⟩, _, _, rlabel, ⟨_, hrlabel⟩, _, _, rstyle, ⟨_, hrstyle⟩, _, _,
    rshape, ⟨_, hrshape⟩, _, _, G4, k, hedge, hloop⟩ := hG
  unfold initialize_dot at hG0
  simp only [bind_eq_ok, fromPattern_ok, pure_eq_ok] at hG0
  obtain ⟨check, _, _, _, hG0⟩ := hG0
  subst hG0 hname hrname hrlabel hrstyle hrshape
  have h1 := toDot_nodeLoop_ok h mem dfa dfa.states _ G1 hG1
  simp only [List.nil_append, List.length_nil] at h1
  subst h1
  obtain ⟨hnid, hG2⟩ := insertNode_dot_ok h _ G2 nid hins
  subst hnid hG2
  simp only [List.getElem?_concat_length, Option.some.injEq] at hnode
  subst hnode
  simp only [List.length_map, stateNodes_length, Graph.size, List.length_set,
    List.length_append, List.length_singleton, Nat.add_sub_cancel,
    List.set_append_right _ _ (le_of_eq (List.length_map _ _)),
    Nat.sub_self, List.set_cons_zero] at hedge
  clear * - hedge hloop
  have hbl : (List.map (fun n : Node => { n with edges := [] })
      (stateNodes h mem dfa 0 dfa.states)).length = dfa.states.length := by
    rw [List.length_map, stateNodes_length]
  have hbk : ∀ k, (List.map (fun n : Node => { n with edges := [] })
      (stateNodes h mem dfa 0 dfa.states))[k]? = (dfa.states[k]?).map fun (st : DFAState) =>
        ({ id := k, peripheries := if st.isAccept ≠ (0 : Int) then 2 else DOT_DEFAULT_PERIPHERIES,
           style := h.DOT_DEFAULT_STYLE, shape := bytes "circle", name := st.name, label := [],
           edges := [] } : Node) := by
    intro k
    rw [List.getElem?_map, stateNodes_getElem?]
    cases dfa.states[k]? <;> simp
  generalize List.map (fun n : Node => { n with edges := [] })
      (stateNodes h mem dfa 0 dfa.states) = bare at hedge hbl hbk
  rw [List.set_append_right _ _ (le_of_eq hbl), hbl, Nat.sub_self, List.set_cons_zero] at hedge
  obtain ⟨src, hsrc, _, _, hG4⟩ := insertEdge_dot_ok h gmem _ G4 _ _ k hedge
  simp only [← hbl, List.getElem?_concat_length, Option.some.injEq] at hsrc
  subst hsrc
  simp only [List.set_append_right _ _ (le_of_eq hbl), hbl, Nat.sub_self, List.set_cons_zero,
    List.length_nil] at hG4
  subst hG4
  obtain ⟨hname, hcl, hnodes⟩ := toDot_stateLoop_ok h gmem mem dfa _ _ G hloop
    (List.nodup_range _) (fun i hi => by
      simp only [List.length_append, List.length_singleton, hbl]
      have := List.mem_range.mp hi
      simp only [DeterministicFiniteAutomaton.nStates] at this
      omega)
  cases G with
  | mk name nodes clusters =>
    simp only [] at hname hcl hnodes
    subst hname hcl
    simp only [graphOf, Graph.mk.injEq, true_and, and_true]
    apply List.ext_getElem?
    intro k
    rw [hnodes k]
    by_cases hk : k < dfa.states.length
    · rw [List.getElem?_append_left (by omega), List.getElem?_append_left
        (by rw [stateNodes_length]; exact hk), hbk, stateNodes_getElem?,
        List.getElem?_eq_getElem hk]
      simp [DeterministicFiniteAutomaton.nStates, hk, rowEdges]
    · rw [List.getElem?_append_right (by omega), List.getElem?_append_right
        (by rw [stateNodes_length]; omega), stateNodes_length, hbl]
      cases hkk : k - dfa.states.length with
      | zero =>
        simp [DeterministicFiniteAutomaton.nStates, hk, resetNode]
      | succ m => simp

/-! ## The edges of a state node -/

theorem symbolList_concat (cs : CStr) (w : Nat) :
    symbolList (cs ++ [w]) = if cs = [] then [w] else symbolList cs ++ [44, w] := by
  induction cs with
  | nil => rfl
  | cons c rest ih =>
    cases rest with
    | nil => rfl
    | cons d rest =>
      simp only [List.cons_append, reduceCtorEq, if_false] at ih ⊢
      simp only [symbolList, ih, List.cons_append]

theorem mem_symbolList (cs : CStr) (c : Nat) (h : c ∈ cs) : c ∈ symbolList cs := by
  induction cs with
  | nil => simp at h
  | cons x rest ih =>
    cases rest with
    | nil => simpa [symbolList] using h
    | cons d rest =>
      simp only [symbolList, List.mem_cons]
      rcases List.mem_cons.mp h with rfl | h
      · exact Or.inl rfl
      · exact Or.inr (Or.inr (ih h))

theorem addSymbol_targets (es : List Edge) (w t : Nat) :
    (addSymbol es w t).map (·.target) =
      if t ∈ es.map (·.target) then es.map (·.target) else es.map (·.target) ++ [t] := by
  induction es with
  | nil => simp [addSymbol]
  | cons e rest ih =>
    by_cases he : e.target = t
    · simp [addSymbol, he]
    · have hne : ¬ t = e.target := fun h => he h.symm
      simp only [addSymbol, if_neg he, List.map_cons, ih, List.mem_cons, hne, false_or]
      split <;> simp

theorem addSymbol_find? (es : List Edge) (w t k : Nat) :
    (addSymbol es w t).find? (fun e => decide (e.target = k)) =
      if k = t then
        some (match es.find? (fun e => decide (e.target = t)) with
          | some e => { e with label := e.label ++ [44, w] }
          | none => { label := [w], target := t })
      else es.find? (fun e => decide (e.target = k)) := by
  induction es with
  | nil =>
    by_cases hk : k = t
    · subst hk; simp [addSymbol]
    · have : ¬ t = k := fun h => hk h.symm
      simp [addSymbol, hk, this]
  | cons e rest ih =>
    simp only [addSymbol]
    by_cases he : e.target = t
    · simp only [if_pos he, List.find?_cons]
      by_cases hk : k = t
      · subst hk; simp [he]
      · have h1 : ¬ e.target = k := fun h => hk (h.symm.trans he)
        have h2 : ¬ t = k := fun h => hk h.symm
        simp [he, hk, h1, h2]
    · simp only [if_neg he, List.find?_cons, ih]
      by_cases hk : k = t
      · subst hk; simp [he]
      · by_cases hek : e.target = k <;> simp [hk, hek]

theorem foldl_addSymbol_targets (g : Nat → Nat) (ws : CStr) :
    ((ws.foldl (fun es w => addSymbol es w (g w)) []).map (·.target)).Nodup ∧
      ∀ t, t ∈ (ws.foldl (fun es w => addSymbol es w (g w)) []).map (·.target) ↔
        ∃ c ∈ ws, g c = t := by
  induction ws using List.reverseRecOn with
  | nil => simp
  | append_singleton ws w ih =>
    obtain ⟨hnd, hmem⟩ := ih
    simp only [List.foldl_append, List.foldl_cons, List.foldl_nil, addSymbol_targets]
    split
    · rename_i hin
      refine ⟨hnd, fun t => ?_⟩
      rw [hmem t]
      constructor
      · rintro ⟨c, hc, rfl⟩
        exact ⟨c, List.mem_append_left _ hc, rfl⟩
      · rintro ⟨c, hc, rfl⟩
        rcases List.mem_append.mp hc with hc | hc
        · exact ⟨c, hc, rfl⟩
        · simp only [List.mem_singleton] at hc
          subst hc
          exact (hmem _).mp hin
    · rename_i hin
      refine ⟨?_, fun t => ?_⟩
      · rw [List.nodup_append]
        refine ⟨hnd, List.nodup_singleton _, ?_⟩
        intro a ha hb
        simp only [List.mem_singleton] at hb
        subst hb
        exact hin ha
      · rw [List.mem_append, hmem t]
        constructor
        · rintro (⟨c, hc, rfl⟩ | ht)
          · exact ⟨c, List.mem_append_left _ hc, rfl⟩
          · simp only [List.mem_singleton] at ht
            exact ⟨w, by simp, ht.symm⟩
        · rintro ⟨c, hc, rfl⟩
          rcases List.mem_append.mp hc with hc | hc
          · exact Or.inl ⟨c, hc, rfl⟩
          · simp only [List.mem_singleton] at hc
            subst hc
            exact Or.inr (by simp)

theorem foldl_addSymbol_find? (g : Nat → Nat) (ws : CStr) (t : Nat) :
    (ws.foldl (fun es w => addSymbol es w (g w)) []).find? (fun e => decide (e.target = t)) =
      if ws.filter (fun c => decide (g c = t)) = [] then none
      else some { label := symbolList (ws.filter fun c => decide (g c = t)), target := t } := by
  induction ws using List.reverseRecOn with
  | nil => simp
  | append_singleton ws w ih =>
    simp only [List.foldl_append, List.foldl_cons, List.foldl_nil, addSymbol_find?,
      List.filter_append]
    by_cases hw : g w = t
    · subst hw
      have hf : List.filter (fun c => decide (g c = g w)) [w] = [w] := by simp
      rw [if_pos rfl, ih, hf, symbolList_concat]
      by_cases hf : ws.filter (fun c => decide (g c = g w)) = []
      · simp [hf]
      · simp [hf]
    · have hne : ¬ t = g w := fun h => hw h.symm
      have hf : List.filter (fun c => decide (g c = t)) [w] = [] := by simp [hw]
      rw [if_neg hne, ih, hf, List.append_nil]

theorem find?_of_nodup_targets (es : List Edge) (e : Edge) (hnd : (es.map (·.target)).Nodup)
    (he : e ∈ es) : es.find? (fun x => decide (x.target = e.target)) = some e := by
  induction es with
  | nil => simp at he
  | cons x rest ih =>
    simp only [List.map_cons, List.nodup_cons] at hnd
    rcases List.mem_cons.mp he with rfl | hin
    · simp
    · have hx : ¬ x.target = e.target := by
        intro h
        exact hnd.1 (h ▸ List.mem_map_of_mem _ hin)
      rw [List.find?_cons_of_neg _ (by simpa using hx)]
      exact ih hnd.2 hin

/-- The edges of the node of a state: no two of them have the same target; there is an
edge to `t` exactly when some alphabet symbol leads to `t`; and its label lists the
symbols that lead to `t`, in alphabet order, separated by commas. -/
theorem rowEdges_spec (mem : Memory) (dfa : DFA) (i : Nat) :
    ((rowEdges mem dfa i).map (·.target)).Nodup ∧
      (∀ t, (∃ e ∈ rowEdges mem dfa i, e.target = t) ↔
        ∃ c ∈ dfa.alphabet, cellAt mem dfa i c = t) ∧
      ∀ e ∈ rowEdges mem dfa i,
        e.label = symbolList (dfa.alphabet.filter fun c => decide (cellAt mem dfa i c = e.target)) := by
  obtain ⟨hnd, hmem⟩ := foldl_addSymbol_targets (cellAt mem dfa i) dfa.alphabet
  refine ⟨hnd, fun t => ?_, fun e he => ?_⟩
  · rw [← hmem t]
    simp only [rowEdges, List.mem_map]
  · have h1 := find?_of_nodup_targets _ e hnd he
    rw [foldl_addSymbol_find?] at h1
    split at h1
    · cases h1
    · simp only [Option.some.injEq] at h1
      exact (congrArg Edge.label h1).symm

/-- The node of the state `i` in the graph of an automaton. -/
theorem graphOf_state_node (h : DotHeader) (gmem : GraphMemory) (mem : Memory) (dfa : DFA)
    (i : Nat) (st : DFAState) (hst : dfa.states[i]? = some st) :
    (graphOf h gmem mem dfa).nodes[i]? = some
      { id := i, peripheries := if st.isAccept ≠ 0 then 2 else DOT_DEFAULT_PERIPHERIES,
        style := h.DOT_DEFAULT_STYLE, shape := bytes "circle", name := st.name, label := [],
        edges := rowEdges mem dfa i } := by
  have hi : i < dfa.states.length := getElem?_lt hst
  simp only [graphOf]
  rw [List.getElem?_append_left (by rw [stateNodes_length]; exact hi), stateNodes_getElem?,
    hst, Option.map_some', Nat.zero_add]

/-- The last node of the graph of an automaton is the node that marks the initial
state. -/
theorem graphOf_reset_node (h : DotHeader) (gmem : GraphMemory) (mem : Memory) (dfa : DFA) :
    (graphOf h gmem mem dfa).nodes.length = dfa.nStates + 1 ∧
      (graphOf h gmem mem dfa).nodes[dfa.nStates]? = some (resetNode h gmem dfa) := by
  simp only [graphOf, List.length_append, stateNodes_length, List.length_singleton,
    DeterministicFiniteAutomaton.nStates, true_and]
  rw [List.getElem?_append_right (by rw [stateNodes_length]), stateNodes_length, Nat.sub_self]
  rfl

/-! ## Scenario C -/

theorem scenarioC_built : fromXml_dfa scenarioC_xml = .ok scenarioC_dfa := by rfl

theorem scenarioC_drawn :
    toDot_dfa sampleHeader zeroGraphMemory zeroMemory scenarioC_dfa = .ok scenarioC_graph := by
  decide!

theorem scenarioC_total :
    ∀ s < scenarioC_dfa.nStates, ∀ c ∈ scenarioC_dfa.alphabet,
      ∃ d ∈ declaredTransitions scenarioC_xml,
        stateId scenarioC_dfa.states d.source = some s ∧ d.symbol = c := by decide!

/-! ## Cells that a declared transition has written -/

/-- After a successful build, the cell of a state and a symbol for which the document
declares a transition holds the id of a state, and that id is the sink of a declared
transition for the same state and symbol. -/
theorem declared_cell (xml : Xml) (dfa : DFA) (h : fromXml_dfa xml = .ok dfa) (s c : Nat)
    (hd : ∃ d ∈ declaredTransitions xml, stateId dfa.states d.source = some s ∧ d.symbol = c) :
    ∃ k, dfa.transitions s c = some k ∧ k < dfa.states.length ∧
      ∃ d ∈ declaredTransitions xml, stateId dfa.states d.source = some s ∧ d.symbol = c ∧
        stateId dfa.states d.sink = some k := by
  obtain ⟨_, _, _, _, _, _, _, _, _, _, _, _, _, _, _, _, _, _, _, _, htr, hwd⟩ :=
    fromXml_dfa_ok xml dfa h
  obtain ⟨d, hdm, hds, hdc⟩ := hd
  obtain ⟨s', k', hr, hs', _, _, _, _⟩ := resolve_of_WellDeclared dfa d (hwd d hdm)
  rw [hds] at hs'
  simp only [Option.some.injEq] at hs'
  subst hs' hdc
  have hmem : (⟨s, d.symbol, k'⟩ : Write) ∈ writesOf dfa.states (declaredTransitions xml) := by
    simp only [writesOf, List.mem_filterMap]
    exact ⟨d, hdm, hr⟩
  cases hl : lastWrite (writesOf dfa.states (declaredTransitions xml)) s d.symbol with
  | none =>
    unfold lastWrite at hl
    rw [List.find?_eq_none] at hl
    have := hl _ (List.mem_reverse.mpr hmem)
    simp at this
  | some w =>
    obtain ⟨hm, hws, hwc⟩ := lastWrite_mem _ _ _ _ hl
    obtain ⟨d', hd', hr'⟩ := mem_writesOf _ _ _ hm
    obtain ⟨s2, k2, hr2, hs2, hk2, _, hlt, _⟩ := resolve_of_WellDeclared dfa d' (hwd d' hd')
    rw [hr'] at hr2
    simp only [Option.some.injEq] at hr2
    subst hr2
    simp only [] at hws hwc
    subst hws
    refine ⟨k2, ?_, hlt, d', hd', hs2, hwc, hk2⟩
    rw [htr, applyWrites_apply, hl]

/-! ## The encoder `private_toXmlString` -/

theorem encodeByte_length (c : Nat) : 1 ≤ (encodeByte c).length ∧ (encodeByte c).length ≤ 6 := by
  unfold encodeByte
  split_ifs <;> simp [bytes]

theorem flatMap_encodeByte_length (s : CStr) : (s.flatMap encodeByte).length ≤ 6 * s.length := by
  induction s with
  | nil => simp
  | cons c rest ih =>
    have := (encodeByte_length c).2
    simp only [List.flatMap_cons, List.length_append, List.length_cons]
    omega

theorem private_toXmlString_loop_eq (s out : CStr) :
    private_toXmlString_loop s out = .ok (out ++ s.flatMap encodeByte) := by
  induction s generalizing out with
  | nil => simp [private_toXmlString_loop]
  | cons c rest ih =>
    have hl := encodeByte_length c
    have hp : fromPattern BUFFER_SIZE (encodeByte c) = .ok (encodeByte c) := by
      rw [fromPattern_ok]
      refine ⟨⟨by decide, by decide, ?_⟩, rfl⟩
      have : (6 : Nat) < BUFFER_SIZE := by decide
      omega
    have hne : encodeByte c ≠ [] := by
      intro h
      rw [h] at hl
      simp at hl
    simp only [private_toXmlString_loop, hp, bind, Except.bind, ASSERT_NOT_EMPTY, if_neg hne, ih,
      List.flatMap_cons, List.append_assoc]

/-- The encoder writes, for every byte in turn, the text of `encodeByte`, and ends the
process when the encoded text does not fit the buffer. -/
theorem private_toXmlString_eq (s : CStr) :
    private_toXmlString s =
      if (s.flatMap encodeByte).length < BUFFER_SIZE then .ok (s.flatMap encodeByte)
      else .error Fatal.outOfBounds := by
  unfold private_toXmlString
  by_cases h : (s.flatMap encodeByte).length < BUFFER_SIZE
  · simp only [private_toXmlString_loop_eq, List.nil_append, bind, Except.bind,
      ASSERT_FITS_IN_BOUND, h, if_true, pure, Except.pure]
  · simp only [private_toXmlString_loop_eq, List.nil_append, bind, Except.bind,
      ASSERT_FITS_IN_BOUND, h, if_false]

theorem decodeReferences_encodeByte (c : Nat) (t : CStr) :
    decodeReferences (encodeByte c ++ t) = c :: decodeReferences t := by
  unfold encodeByte
  split_ifs with h1 h2 h3 h4 h5
  · subst h1
    exact decodeReferences_reference (bytes "&lt;", 60) (by simp [namedReferences]) t
  · subst h2
    exact decodeReferences_reference (bytes "&gt;", 62) (by simp [namedReferences]) t
  · subst h3
    exact decodeReferences_reference (bytes "&quot;", 34) (by simp [namedReferences]) t
  · subst h4
    exact decodeReferences_reference (bytes "&apos;", 39) (by simp [namedReferences]) t
  · subst h5
    exact decodeReferences_reference (bytes "&amp;", 38) (by simp [namedReferences]) t
  · apply decodeReferences_other
    intro r hr hp
    simp only [namedReferences, List.mem_cons, List.mem_singleton, List.not_mem_nil,
      or_false] at hr
    rcases hr with rfl | rfl | rfl | rfl | rfl <;>
      · obtain ⟨u, hu⟩ := hp
        simp only [bytes, String.toList, List.map, Char.toNat, List.cons_append,
          List.cons.injEq] at hu
        exact h5 hu.1.symm

theorem decodeReferences_flatMap_encodeByte (s : CStr) :
    decodeReferences (s.flatMap encodeByte) = s := by
  induction s with
  | nil => rfl
  | cons c rest ih => rw [List.flatMap_cons, decodeReferences_encodeByte, ih]

/-- Decoding undoes encoding for every text of fewer than `XML_MAX_CONTENT_SIZE` bytes. -/
theorem decode_encode (s : CStr) (h : s.length < XML_MAX_CONTENT_SIZE) :
    private_toXmlString s = .ok (s.flatMap encodeByte) ∧
      private_fromXmlString (s.flatMap encodeByte) = .ok s := by
  have hl := flatMap_encodeByte_length s
  have hb : (s.flatMap encodeByte).length < BUFFER_SIZE := by
    have h1 : XML_MAX_CONTENT_SIZE = 256 := rfl
    have h2 : BUFFER_SIZE = 8192 := rfl
    omega
  refine ⟨by rw [private_toXmlString_eq, if_pos hb], ?_⟩
  rw [private_fromXmlString_eq, if_pos hb, decodeReferences_flatMap_encodeByte, if_pos h]

theorem namedReferences_encodeByte (r : CStr × Nat) (hr : r ∈ namedReferences) :
    encodeByte r.2 = r.1 ∧ ∃ t, r.1 = 38 :: t := by
  simp only [namedReferences, List.mem_cons, List.mem_singleton, List.not_mem_nil,
    or_false] at hr
  rcases hr with rfl | rfl | rfl | rfl | rfl <;> exact ⟨rfl, _, rfl⟩

theorem encodeByte_plain (c : Nat) (h1 : c ≠ 60) (h2 : c ≠ 62) (h3 : c ≠ 34) (h4 : c ≠ 39)
    (h5 : c ≠ 38) : encodeByte c = [c] := by
  simp [encodeByte, h1, h2, h3, h4, h5]

theorem encodeByte_head (c : Nat) (h : c = 60 ∨ c = 62 ∨ c = 34 ∨ c = 39 ∨ c = 38) :
    ∃ r ∈ namedReferences, encodeByte c = r.1 ∧ r.2 = c := by
  rcases h with rfl | rfl | rfl | rfl | rfl
  · exact ⟨(bytes "&lt;", 60), by simp [namedReferences], rfl, rfl⟩
  · exact ⟨(bytes "&gt;", 62), by simp [namedReferences], rfl, rfl⟩
  · exact ⟨(bytes "&quot;", 34), by simp [namedReferences], rfl, rfl⟩
  · exact ⟨(bytes "&apos;", 39), by simp [namedReferences], rfl, rfl⟩
  · exact ⟨(bytes "&amp;", 38), by simp [namedReferences], rfl, rfl⟩

theorem encode_decodePass_iff (fuel : Nat) (x : CStr) (h : x.length ≤ fuel) :
    (decodePass fuel x).flatMap encodeByte = x ↔ encodedPass fuel x = true := by
  induction fuel generalizing x with
  | zero =>
    have : x = [] := List.length_eq_zero.mp (Nat.le_zero.mp h)
    subst this
    simp [decodePass, encodedPass]
  | succ fuel ih =>
    cases x with
    | nil => simp [decodePass, encodedPass]
    | cons c rest =>
      simp only [List.length_cons, Nat.add_le_add_iff_right] at h
      simp only [decodePass, encodedPass]
      cases hf : namedReferences.find? (fun r => r.1.isPrefixOf (c :: rest)) with
      | some r =>
        have hr := List.mem_of_find?_eq_some hf
        have hp := List.find?_some hf
        simp only [List.isPrefixOf_iff_prefix] at hp
        obtain ⟨t, ht⟩ := hp
        obtain ⟨he, u, hu⟩ := namedReferences_encodeByte r hr
        have hc : c = 38 := by
          rw [hu] at ht
          simp only [List.cons_append, List.cons.injEq] at ht
          exact ht.1.symm
        have hdrop : (c :: rest).drop r.1.length = t := by
          rw [← ht, List.drop_left]
        have htl : t.length ≤ fuel := by
          have := congrArg List.length ht
          rw [hu] at this
          simp only [List.length_append, List.length_cons] at this
          omega
        subst hc
        simp only [hdrop, List.flatMap_cons, he, if_true]
        rw [show ¬ ((38 : Nat) = 60 ∨ (38 : Nat) = 62 ∨ (38 : Nat) = 34 ∨ (38 : Nat) = 39) by
          decide |> if_neg]
        rw [← ih t htl, ← ht]
        exact List.append_cancel_left_eq _ _ _ |>.to_iff
      | none =>
        rw [List.find?_eq_none] at hf
        simp only [List.isPrefixOf_iff_prefix] at hf
        simp only [List.flatMap_cons]
        by_cases hraw : c = 60 ∨ c = 62 ∨ c = 34 ∨ c = 39
        · rw [if_pos hraw]
          simp only [Bool.false_eq_true, iff_false]
          obtain ⟨r, hr, her, hrc⟩ := encodeByte_head c (by tauto)
          obtain ⟨_, u, hu⟩ := namedReferences_encodeByte r hr
          rw [her, hu]
          intro heq
          simp only [List.cons_append, List.cons.injEq] at heq
          rcases hraw with rfl | rfl | rfl | rfl <;> omega
        · rw [if_neg hraw]
          by_cases h38 : c = 38
          · subst h38
            simp only [if_true, Bool.false_eq_true, iff_false]
            intro heq
            have : encodeByte 38 = bytes "&amp;" := rfl
            rw [this] at heq
            exact hf (bytes "&amp;", 38) (by simp [namedReferences]) ⟨_, heq⟩
          · rw [if_neg h38, encodeByte_plain c (by tauto) (by tauto) (by tauto) (by tauto) h38,
              ← ih rest h]
            simp

/-- Encoding the decoded text gives the text back exactly when the text is in the form
that the encoder writes. -/
theorem encode_decode_iff (x : CStr) :
    (decodeReferences x).flatMap encodeByte = x ↔ isEncoded x = true :=
  encode_decodePass_iff x.length x (Nat.le_refl _)

/-! ## The name table as a finite map -/

theorem replaceInRow_of_findInRow_none (k : CStr) (v : Nat) (row : List Mapping)
    (h : findInRow k row = none) : replaceInRow k v row = none := by
  induction row with
  | nil => rfl
  | cons m ms ih =>
    unfold findInRow at h
    split at h
    · simp at h
    · rename_i hm
      simp [replaceInRow, hm, ih h]

theorem insert_ht_valid (ht ht' : HashTable) (k : CStr) (v : Nat)
    (h : insert_ht ht k v = .ok ht') : ASSERT_HASHTABLE ht' = .ok () := by
  unfold insert_ht at h
  simp only [bind_eq_ok, ASSERT_NOT_TOO_LONG_ok] at h
  obtain ⟨_, hv, _, _, h⟩ := h
  split at h
  · simp only [pure_eq_ok] at h
    subst h
    exact hv
  · simp only [bind_eq_ok, pure_eq_ok] at h
    obtain ⟨_, _, _, _, _, hv', h⟩ := h
    subst h
    exact hv'

theorem replaceInRow_length (k : CStr) (v : Nat) (row row' : List Mapping)
    (h : replaceInRow k v row = some row') : row'.length = row.length := by
  induction row generalizing row' with
  | nil => simp [replaceInRow] at h
  | cons m ms ih =>
    unfold replaceInRow at h
    split at h
    · simp only [Option.some.injEq] at h
      subst h
      rfl
    · cases hr : replaceInRow k v ms with
      | none => simp [hr] at h
      | some r =>
        simp only [hr, Option.map_some', Option.some.injEq] at h
        subst h
        simp [ih r hr]

theorem insertAll_lookup (ops : List (CStr × Nat)) (start ht : HashTable)
    (h : insertAll ops start = .ok ht) (k : CStr) :
    lookup_ht ht k =
      match lastInserted ops k with
      | some v => some v
      | none => lookup_ht start k := by
  induction ops generalizing start with
  | nil =>
    simp only [insertAll, Except.ok.injEq] at h
    subst h
    rfl
  | cons op rest ih =>
    simp only [insertAll, bind_eq_ok] at h
    obtain ⟨ht1, h1, h2⟩ := h
    rw [ih ht1 h2]
    unfold lastInserted
    rw [find?_reverse_cons]
    cases hf : rest.reverse.find? (fun op => decide (op.1 = k)) with
    | some x => rfl
    | none =>
      simp only [Option.map_none']
      rw [lookup_insert_ht start ht1 op.1 k op.2 h1]
      by_cases hk : k = op.1
      · subst hk
        simp
      · have : ¬ op.1 = k := fun e => hk e.symm
        simp [hk, this]

/-- `insert_ht` of a key that is not in the table, on a table that passes the check at
its entry: the row must hold fewer than 14 pairs and the table fewer than 1999 keys. -/
theorem insert_ht_new (ht : HashTable) (k : CStr) (v : Nat)
    (hv : ASSERT_HASHTABLE ht = .ok ()) (hk : k.length < HT_MAX_KEY_SIZE)
    (hnew : lookup_ht ht k = none) :
    insert_ht ht k v =
      if (ht.map (hash k % HT_ROW_COUNT)).length + 1 < HT_MAX_SAME_HASHES ∧
          ht.nKeys + 1 < HT_MAX_KEYS then
        .ok { nKeys := ht.nKeys + 1
              map := Function.update ht.map (hash k % HT_ROW_COUNT)
                (ht.map (hash k % HT_ROW_COUNT) ++ [⟨k, v⟩]) }
      else .error Fatal.outOfBounds := by
  have hp : fromPattern HT_MAX_KEY_SIZE k = .ok k := by
    rw [fromPattern_ok]
    exact ⟨⟨by decide, by decide, hk⟩, rfl⟩
  have hrep := replaceInRow_of_findInRow_none k v _ hnew
  have hlt : ht.nKeys < HT_MAX_KEYS := ASSERT_HASHTABLE_ok.mp hv
  unfold insert_ht
  simp only [hrep, hlt, ASSERT_NOT_TOO_LONG, hk, if_true, hp, bind, Except.bind, pure,
    Except.pure, ASSERT_FITS_IN_BOUND, ASSERT_HASHTABLE]
  by_cases h1 : (ht.map (hash k % HT_ROW_COUNT)).length + 1 < HT_MAX_SAME_HASHES
  · by_cases h2 : ht.nKeys + 1 < HT_MAX_KEYS
    · simp [h1, h2]
    · simp [h1, h2]
  · simp [h1]

theorem insert_ht_bounds (ht ht' : HashTable) (k : CStr) (v : Nat)
    (h : insert_ht ht k v = .ok ht') (hr : ∀ r, (ht.map r).length < HT_MAX_SAME_HASHES) :
    ∀ r, (ht'.map r).length < HT_MAX_SAME_HASHES := by
  unfold insert_ht at h
  simp only [bind_eq_ok, ASSERT_NOT_TOO_LONG_ok] at h
  obtain ⟨_, hv, _, _, h⟩ := h
  intro r
  split at h
  · rename_i row hrow
    simp only [pure_eq_ok] at h
    subst h
    simp only [Function.update_apply]
    split
    · rw [replaceInRow_length k v _ row hrow]
      exact hr _
    · exact hr r
  · simp only [bind_eq_ok, pure_eq_ok, ASSERT_FITS_IN_BOUND_ok] at h
    obtain ⟨_, hlt, _, _, _, _, h⟩ := h
    subst h
    simp only [Function.update_apply]
    split
    · simpa using hlt
    · exact hr r

theorem insertAll_valid (ops : List (CStr × Nat)) (start ht : HashTable)
    (h : insertAll ops start = .ok ht) (hv : ASSERT_HASHTABLE start = .ok ())
    (hr : ∀ r, (start.map r).length < HT_MAX_SAME_HASHES) :
    ASSERT_HASHTABLE ht = .ok () ∧ ∀ r, (ht.map r).length < HT_MAX_SAME_HASHES := by
  induction ops generalizing start with
  | nil =>
    simp only [insertAll, Except.ok.injEq] at h
    subst h
    exact ⟨hv, hr⟩
  | cons op rest ih =>
    simp only [insertAll, bind_eq_ok] at h
    obtain ⟨ht1, h1, h2⟩ := h
    exact ih ht1 h2 (insert_ht_valid _ _ _ _ h1) (insert_ht_bounds _ _ _ _ h1 hr)

theorem empty_ht_ok (old start : HashTable) (h : empty_ht old = .ok start) :
    start = initialize_ht := by
  unfold empty_ht at h
  simp only [bind_eq_ok, pure_eq_ok] at h
  obtain ⟨_, _, _, _, h⟩ := h
  exact h.symm

/-! ## The tree that the work of the parser on a document leaves -/

theorem updateNode_eq (xml : Xml) (p : Nat) (f : XmlNode → XmlNode) (nd : XmlNode)
    (h : xml.nodes[p]? = some nd) :
    updateNode xml p f = { xml with nodes := xml.nodes.set p (f nd) } := by
  simp [updateNode, h]

theorem updateNode_mk (meta : CStr) (nodes : List XmlNode) (p : Nat) (f : XmlNode → XmlNode)
    (nd : XmlNode) (h : nodes[p]? = some nd) :
    updateNode { meta := meta, nodes := nodes } p f =
      { meta := meta, nodes := nodes.set p (f nd) } := by
  simp [updateNode, h]

theorem private_fromXmlString_value (t text : CStr) (h : private_fromXmlString t = .ok text) :
    text = decodeReferences t := by
  rw [private_fromXmlString_eq] at h
  split at h
  · split at h
    · simp only [Except.ok.injEq] at h
      exact h.symm
    · cases h
  · cases h

theorem storeText_ok (xml xml' : Xml) (n : Nat) (t : CStr) (h : storeText xml n t = .ok xml') :
    ∃ node, xml.nodes[n]? = some node ∧
      xml' = { xml with
               nodes := xml.nodes.set n
                 { node with
                   content := node.content.set node.children.length (decodeReferences t) } } := by
  unfold storeText at h
  simp only [bind_eq_ok, getNode_ok, pure_eq_ok] at h
  obtain ⟨node, hnode, text, htext, h⟩ := h
  rw [updateNode_eq xml n _ node hnode, private_fromXmlString_value t text htext] at h
  exact ⟨node, hnode, h.symm⟩

theorem buildAttrs_ok (attrs : List AttrText) (acc parsed : List XmlAttribute)
    (h : buildAttrs attrs acc = .ok parsed) : parsed = acc ++ attrsOf attrs := by
  induction attrs generalizing acc with
  | nil =>
    simp only [buildAttrs, Except.ok.injEq] at h
    simp [attrsOf, h]
  | cons a rest ih =>
    simp only [buildAttrs, bind_eq_ok] at h
    obtain ⟨_, _, _, _, _, _, value, hvalue, _, _, h⟩ := h
    rw [ih _ h, private_fromXmlString_value _ _ hvalue]
    simp [attrsOf]

theorem newNode_child (xml xml' : Xml) (p k : Nat) (h : newNode xml (some p) = .ok (xml', k)) :
    k = xml.nodes.length ∧ ∃ par, xml.nodes[p]? = some par ∧
      par.children.length + 1 < XML_MAX_CHILDREN ∧
      xml' = { xml with
               nodes := xml.nodes.set p { par with children := par.children ++ [k] } ++
                 [freshNode (some p)] } := by
  unfold newNode at h
  simp only [bind_eq_ok, ASSERT_FITS_IN_BOUND_ok, getNode_ok, pure_eq_ok, Prod.mk.injEq] at h
  obtain ⟨_, _, _, _, par', hpar', _, hvalid, hx, hk⟩ := h
  subst hk
  refine ⟨rfl, ?_⟩
  have hlt : p < xml.nodes.length := by
    by_contra hc
    have hnone : xml.nodes[p]? = none := List.getElem?_eq_none (Nat.le_of_not_lt hc)
    simp only [updateNode, hnone] at hpar'
    cases hpar'
  have hp : xml.nodes[p]? = some xml.nodes[p] := List.getElem?_eq_getElem hlt
  rw [updateNode_eq xml p _ _ hp] at hpar' hx
  simp only [List.getElem?_set_self hlt, Option.some.injEq] at hpar'
  subst hpar'
  rw [ASSERT_XMLNODE_ok] at hvalid
  refine ⟨_, hp, ?_, hx.symm⟩
  have := hvalid.2.2.1
  simpa using this

theorem newNode_root (xml xml' : Xml) (k : Nat) (h : newNode xml none = .ok (xml', k)) :
    k = xml.nodes.length ∧ xml' = { xml with nodes := xml.nodes ++ [freshNode none] } := by
  unfold newNode at h
  simp only [bind_eq_ok, ASSERT_FITS_IN_BOUND_ok, pure_eq_ok, Prod.mk.injEq] at h
  obtain ⟨_, _, _, _, hx, hk⟩ := h
  exact ⟨hk.symm, hx.symm⟩

theorem getElem?_lt_length {α : Type} {l : List α} {i : Nat} {a : α} (h : l[i]? = some a) :
    i < l.length := by
  by_contra hc
  rw [List.getElem?_eq_none (Nat.le_of_not_lt hc)] at h
  cases h

theorem openElement_child (tag : CStr) (attrs : List AttrText) (xml xml' : Xml) (p m : Nat)
    (h : openElement tag attrs xml (some p) = .ok (xml', m)) :
    m = xml.nodes.length ∧ tag.length < XML_MAX_TAG_SIZE ∧ ∃ par, xml.nodes[p]? = some par ∧
      par.children.length + 1 < XML_MAX_CHILDREN ∧
      xml' = { xml with
               nodes := xml.nodes.set p { par with children := par.children ++ [m] } ++
                 [{ freshNode (some p) with tag := tag, attributes := attrsOf attrs }] } := by
  unfold openElement at h
  simp only [bind_eq_ok, ASSERT_FITS_IN_BOUND_ok, pure_eq_ok, Prod.mk.injEq, Prod.exists] at h
  obtain ⟨xml1, k, hnew, _, _, _, htag, parsed, hparsed, hx, hk⟩ := h
  subst hk
  obtain ⟨hk, par, hpar, hlt, hx1⟩ := newNode_child xml xml1 p k hnew
  have hpa := buildAttrs_ok attrs [] parsed hparsed
  simp only [List.nil_append] at hpa
  subst hpa hk hx1
  refine ⟨rfl, htag, par, hpar, hlt, ?_⟩
  have hl : (xml.nodes.set p { par with children := par.children ++ [xml.nodes.length] }).length =
      xml.nodes.length := List.length_set _ _ _
  have h1 : (xml.nodes.set p { par with children := par.children ++ [xml.nodes.length] } ++
      [freshNode (some p)])[xml.nodes.length]? = some (freshNode (some p)) := by
    rw [List.getElem?_append_right (by rw [hl]), hl, Nat.sub_self]
    rfl
  rw [updateNode_mk _ _ _ _ _ h1] at hx
  simp only [List.set_append_right _ _ (le_of_eq hl), hl, Nat.sub_self, List.set_cons_zero] at hx
  have h2 : (xml.nodes.set p { par with children := par.children ++ [xml.nodes.length] } ++
      [{ freshNode (some p) with tag := tag }])[xml.nodes.length]? =
      some { freshNode (some p) with tag := tag } := by
    rw [List.getElem?_append_right (by rw [hl]), hl, Nat.sub_self]
    rfl
  rw [updateNode_mk _ _ _ _ _ h2] at hx
  simp only [List.set_append_right _ _ (le_of_eq hl), hl, Nat.sub_self, List.set_cons_zero] at hx
  exact hx.symm

theorem openElement_root (tag : CStr) (attrs : List AttrText) (xml xml' : Xml) (m : Nat)
    (h : openElement tag attrs xml none = .ok (xml', m)) :
    m = xml.nodes.length ∧ tag.length < XML_MAX_TAG_SIZE ∧
      xml' = { xml with
               nodes := xml.nodes ++
                 [{ freshNode none with tag := tag, attributes := attrsOf attrs }] } := by
  unfold openElement at h
  simp only [bind_eq_ok, ASSERT_FITS_IN_BOUND_ok, pure_eq_ok, Prod.mk.injEq, Prod.exists] at h
  obtain ⟨xml1, k, hnew, _, _, _, htag, parsed, hparsed, hx, hk⟩ := h
  subst hk
  obtain ⟨hk, hx1⟩ := newNode_root xml xml1 k hnew
  have hpa := buildAttrs_ok attrs [] parsed hparsed
  simp only [List.nil_append] at hpa
  subst hpa hk hx1
  refine ⟨rfl, htag, ?_⟩
  have h1 : (xml.nodes ++ [freshNode none])[xml.nodes.length]? = some (freshNode none) := by
    rw [List.getElem?_append_right (le_refl _), Nat.sub_self]
    rfl
  rw [updateNode_mk _ _ _ _ _ h1] at hx
  simp only [List.set_append_right _ _ (le_refl _), Nat.sub_self, List.set_cons_zero] at hx
  have h2 : (xml.nodes ++ [{ freshNode none with tag := tag }])[xml.nodes.length]? =
      some { freshNode none with tag := tag } := by
    rw [List.getElem?_append_right (le_refl _), Nat.sub_self]
    rfl
  rw [updateNode_mk _ _ _ _ _ h2] at hx
  simp only [List.set_append_right _ _ (le_refl _), Nat.sub_self, List.set_cons_zero] at hx
  exact hx.symm

theorem Items.nodes_length (its : Items) (base : Nat) (parent : Option Nat) :
    (its.nodes base parent).length = its.size := by
  induction its generalizing base parent with
  | last t => rfl
  | self t tag sp attrs rest ih => simp [Items.nodes, Items.size, ih]; omega
  | elem t tag sp attrs inner cn cs rest ih1 ih2 =>
    simp [Items.nodes, Items.size, ih1, ih2]; omega

theorem storeTexts_length (content : List CStr) (i : Nat) (texts : List CStr) :
    (storeTexts content i texts).length = content.length := by
  induction texts generalizing content i with
  | nil => rfl
  | cons t ts ih => simp [storeTexts, ih]

theorem storeTexts_getElem? (content : List CStr) (i : Nat) (texts : List CStr) (j : Nat)
    (h : i + texts.length ≤ content.length) :
    (storeTexts content i texts)[j]? =
      if i ≤ j ∧ j < i + texts.length then (texts[j - i]?).map decodeReferences
      else content[j]? := by
  induction texts generalizing content i with
  | nil =>
    simp only [storeTexts, List.length_nil, Nat.add_zero]
    rw [if_neg (by omega)]
  | cons t ts ih =>
    simp only [storeTexts, List.length_cons] at h ⊢
    rw [ih _ _ (by simp only [List.length_set]; omega)]
    by_cases hj : j = i
    · subst hj
      rw [if_neg (by omega), if_pos (by omega), List.getElem?_set_self (by omega), Nat.sub_self]
      simp
    · rw [List.getElem?_set_ne (fun e => hj e.symm)]
      by_cases h1 : i + 1 ≤ j ∧ j < i + 1 + ts.length
      · rw [if_pos h1, if_pos (by omega)]
        have : j - i = (j - (i + 1)) + 1 := by omega
        rw [this, List.getElem?_cons_succ]
      · rw [if_neg h1, if_neg (by omega)]

theorem storeTexts_fresh (texts : List CStr) (h : texts.length ≤ XML_MAX_CHILDREN + 1) :
    storeTexts (List.replicate (XML_MAX_CHILDREN + 1) []) 0 texts = fragments texts := by
  apply List.ext_getElem?
  intro j
  rw [storeTexts_getElem? _ _ _ _ (by simpa using h)]
  unfold fragments
  rw [List.getElem?_map]
  by_cases hj : j < XML_MAX_CHILDREN + 1
  · rw [List.getElem?_range hj]
    simp only [Option.map_some', Nat.zero_le, true_and, Nat.zero_add, Nat.sub_zero]
    by_cases hjt : j < texts.length
    · rw [if_pos hjt, List.getElem?_eq_getElem hjt]
      rfl
    · rw [if_neg hjt, List.getElem?_eq_none (Nat.le_of_not_lt hjt)]
      simp [List.getElem?_replicate, hj]
  · rw [if_neg (by omega), List.getElem?_eq_none (by simp; omega),
      List.getElem?_eq_none (by simp; omega)]
    rfl

theorem closeTag_ok (xml : Xml) (n : Nat) (cn : CStr) (node : XmlNode)
    (hn : xml.nodes[n]? = some node) (h : closeTag xml n cn = .ok ()) : cn = node.tag := by
  unfold closeTag at h
  simp only [bind_eq_ok, getNode_ok, errorUnless_ok] at h
  obtain ⟨node', hn', _, h1, h2⟩ := h
  rw [hn] at hn'
  simp only [Option.some.injEq] at hn'
  subst hn'
  rw [← h1]
  exact (List.take_append_drop node.tag.length cn).symm.trans (by rw [h2, List.append_nil])

/-- What the work of the parser on a content leaves: the node `n` has the children and
the fragments of the content behind those that it had, the nodes of the elements of the
content are appended to the tree, and every closing tag bears the name of its element. -/
theorem buildItems_nodes (its : Items) :
    ∀ (xml xml' : Xml) (n : Nat) (node : XmlNode), xml.nodes[n]? = some node →
      node.children.length < XML_MAX_CHILDREN → buildItems its xml n = .ok xml' →
      xml'.meta = xml.meta ∧ its.matched = true ∧
        node.children.length + its.texts.length ≤ XML_MAX_CHILDREN ∧
        xml'.nodes =
          xml.nodes.set n
            { node with
              children := node.children ++ its.childIndices xml.nodes.length
              content := storeTexts node.content node.children.length its.texts } ++
            its.nodes xml.nodes.length (some n) := by
  induction its with
  | last t =>
    intro xml xml' n node hn hc h
    simp only [buildItems] at h
    obtain ⟨node', hn', hx⟩ := storeText_ok xml xml' n t h
    rw [hn] at hn'
    simp only [Option.some.injEq] at hn'
    subst hn' hx
    refine ⟨rfl, rfl, by simp only [Items.texts, List.length_singleton]; omega, ?_⟩
    simp [Items.childIndices, Items.nodes, Items.texts, storeTexts]
  | self t tag sp attrs rest ih =>
    intro xml xml' n node hn hc h
    have hnl := getElem?_lt_length hn
    simp only [buildItems, bind_eq_ok, Prod.exists] at h
    obtain ⟨xml1, h1, xml2, m, h2, h3⟩ := h
    obtain ⟨node', hn', hx1⟩ := storeText_ok xml xml1 n t h1
    rw [hn] at hn'
    simp only [Option.some.injEq] at hn'
    subst hn' hx1
    obtain ⟨hm, _, par, hpar, hlt, hx2⟩ := openElement_child tag attrs _ xml2 n m h2
    simp only [List.getElem?_set_self hnl, Option.some.injEq] at hpar
    subst hpar hx2
    simp only [List.length_set, List.set_set] at hm h3
    subst hm
    have hn2 : (⟨xml.meta, xml.nodes.set n
        { node with
          content := node.content.set node.children.length (decodeReferences t)
          children := node.children ++ [xml.nodes.length] } ++
        [{ freshNode (some n) with tag := tag, attributes := attrsOf attrs }]⟩ : Xml).nodes[n]? =
        some { node with
               content := node.content.set node.children.length (decodeReferences t)
               children := node.children ++ [xml.nodes.length] } := by
      simp only []
      rw [List.getElem?_append_left (by simpa using hnl), List.getElem?_set_self hnl]
    obtain ⟨hmeta, hmatch, hcount, hnodes⟩ := ih _ xml' n _ hn2 (by simpa using hlt) h3
    refine ⟨hmeta, hmatch, ?_, ?_⟩
    · simp only [List.length_append, List.length_singleton, Items.texts, List.length_cons]
        at hcount ⊢
      omega
    · rw [hnodes]
      simp only [List.length_append, List.length_set, List.length_singleton,
        List.set_append_left _ _ (show n < (xml.nodes.set n _).length by simpa using hnl),
        List.set_set, Items.childIndices, Items.nodes, Items.texts, storeTexts,
        List.append_assoc, List.singleton_append]
      rfl
  | elem t tag sp attrs inner cn cs rest ih1 ih2 =>
    intro xml xml' n node hn hc h
    have hnl := getElem?_lt_length hn
    simp only [buildItems, bind_eq_ok, Prod.exists] at h
    obtain ⟨xml1, h1, xml2, m, h2, xml3, h3, _, h4, h5⟩ := h
    obtain ⟨node', hn', hx1⟩ := storeText_ok xml xml1 n t h1
    rw [hn] at hn'
    simp only [Option.some.injEq] at hn'
    subst hn' hx1
    obtain ⟨hm, _, par, hpar, hlt, hx2⟩ := openElement_child tag attrs _ xml2 n m h2
    simp only [List.getElem?_set_self hnl, Option.some.injEq] at hpar
    subst hpar hx2
    simp only [List.length_set, List.set_set] at hm h3 h4 h5
    subst hm
    -- the content of the new node
    have hl : (xml.nodes.set n
        { node with
          content := node.content.set node.children.length (decodeReferences t)
          children := node.children ++ [xml.nodes.length] }).length = xml.nodes.length :=
      List.length_set _ _ _
    have hm2 : (⟨xml.meta, xml.nodes.set n
        { node with
          content := node.content.set node.children.length (decodeReferences t)
          children := node.children ++ [xml.nodes.length] } ++
        [{ freshNode (some n) with tag := tag, attributes := attrsOf attrs }]⟩ :
          Xml).nodes[xml.nodes.length]? =
        some { freshNode (some n) with tag := tag, attributes := attrsOf attrs } := by
      simp only []
      rw [List.getElem?_append_right (by rw [hl]), hl, Nat.sub_self]
      rfl
    obtain ⟨hmeta3, hmatch3, hcount3, hnodes3⟩ :=
      ih1 _ xml3 xml.nodes.length _ hm2 (by simp [freshNode, XML_MAX_CHILDREN]) h3
    have hin : inner.texts.length ≤ XML_MAX_CHILDREN + 1 := by
      simp only [freshNode, List.length_nil, Nat.zero_add] at hcount3
      omega
    simp only [List.length_append, List.length_singleton, hl,
      List.set_append_right _ _ (le_of_eq hl), Nat.sub_self, List.set_cons_zero] at hnodes3
    have hnode3 : xml3.nodes[xml.nodes.length]? = some
        { freshNode (some n) with
          tag := tag, attributes := attrsOf attrs
          children := inner.childIndices (xml.nodes.length + 1)
          content := fragments inner.texts } := by
      rw [hnodes3, List.append_assoc, List.getElem?_append_right (by rw [hl]), hl, Nat.sub_self]
      simp only [List.singleton_append, List.getElem?_cons_zero, freshNode, List.nil_append,
        List.length_nil, Option.some.injEq, XmlNode.mk.injEq, true_and, and_true]
      exact storeTexts_fresh _ hin
    have hcn := closeTag_ok xml3 _ cn _ hnode3 h4
    simp only [] at hcn
    -- the rest of the content
    have hn3 : xml3.nodes[n]? =
        some { node with
               content := node.content.set node.children.length (decodeReferences t)
               children := node.children ++ [xml.nodes.length] } := by
      rw [hnodes3, List.append_assoc, List.getElem?_append_left (by rw [hl]; exact hnl),
        List.getElem?_set_self hnl]
    obtain ⟨hmeta, hmatch, hcount, hnodes⟩ := ih2 xml3 xml' n _ hn3 (by simpa using hlt) h5
    refine ⟨hmeta.trans hmeta3, ?_, ?_, ?_⟩
    · simp [Items.matched, hcn, hmatch3, hmatch]
    · simp only [List.length_append, List.length_singleton, Items.texts, List.length_cons]
        at hcount ⊢
      omega
    · rw [hnodes, hnodes3]
      simp only [List.length_append, List.length_set, List.length_singleton,
        Items.nodes_length, List.append_assoc,
        List.set_append_left _ _ (show n < (xml.nodes.set n _).length by simpa using hnl),
        List.set_set, Items.childIndices, Items.nodes, Items.texts, storeTexts,
        List.singleton_append, List.cons_append]
      have e1 : xml.nodes.length + (1 + inner.size) = xml.nodes.length + 1 + inner.size := by
        omega
      simp only [freshNode, List.nil_append, List.length_nil, storeTexts_fresh _ hin,
        List.length_cons, Items.nodes_length, e1, Nat.add_comm inner.size 1]

theorem buildProlog_ok (decls : List (CStr × CStr)) (xml xml' : Xml)
    (h : buildProlog decls xml = .ok xml') :
    xml'.nodes = xml.nodes ∧
      xml'.meta = match decls.getLast? with
        | some d => 60 :: 63 :: d.1 ++ [62]
        | none => xml.meta := by
  induction decls generalizing xml with
  | nil =>
    simp only [buildProlog, Except.ok.injEq] at h
    subst h
    exact ⟨rfl, rfl⟩
  | cons d rest ih =>
    simp only [buildProlog, bind_eq_ok] at h
    obtain ⟨_, _, h⟩ := h
    obtain ⟨h1, h2⟩ := ih _ h
    refine ⟨h1, ?_⟩
    rw [h2]
    cases rest with
    | nil => rfl
    | cons e rest2 =>
      simp only [List.getLast?_cons_cons]
      rcases hg : (e :: rest2).getLast? with _ | x
      · simp at hg
      · rfl

theorem initialize_xml_eq :
    initialize_xml = .ok
      { meta := bytes "<?xml version='1.0' encoding='UTF-8' standalone='yes'?>", nodes := [] } := by
  decide!

/-- What the work of the parser on a document leaves: the tree of the document and its
`meta` string; and every closing tag bears the name of its element. -/
theorem buildDoc_ok (D : Doc) (xml : Xml) (h : buildDoc D = .ok xml) :
    xml.nodes = D.nodes ∧ xml.meta = D.meta ∧ D.matched = true := by
  unfold buildDoc at h
  rw [initialize_xml_eq] at h
  simp only [bind_eq_ok, Except.ok.injEq, exists_eq_left', Prod.exists, pure_eq_ok] at h
  obtain ⟨xml1, h1, xml2, n, h2, xml3, h3, _, h4, h5⟩ := h
  subst h5
  obtain ⟨hn1, hm1⟩ := buildProlog_ok _ _ _ h1
  simp only [] at hn1 hm1
  obtain ⟨hn, _, hx2⟩ := openElement_root D.tag D.attrs xml1 xml2 n h2
  rw [hn1] at hn hx2
  simp only [List.length_nil, List.nil_append] at hn hx2
  subst hn hx2
  obtain ⟨hmeta, hmatch, hcount, hnodes⟩ := buildItems_nodes D.inner
    { meta := xml1.meta
      nodes := [{ freshNode none with tag := D.tag, attributes := attrsOf D.attrs }] } xml3 0
    { freshNode none with tag := D.tag, attributes := attrsOf D.attrs } rfl
    (by simp [freshNode, XML_MAX_CHILDREN]) h3
  have hin : D.inner.texts.length ≤ XML_MAX_CHILDREN + 1 := by
    simp only [freshNode, List.length_nil, Nat.zero_add] at hcount
    omega
  simp only [List.length_singleton, List.set_cons_zero, freshNode, List.nil_append,
    List.length_nil, storeTexts_fresh _ hin] at hnodes
  have hroot : xml3.nodes[0]? = some
      { parent := none, tag := D.tag, content := fragments D.inner.texts
        children := D.inner.childIndices 1, attributes := attrsOf D.attrs } := by
    rw [hnodes]
    simp
  have hcn := closeTag_ok xml3 0 D.closeName _ hroot h4
  simp only [] at hcn
  refine ⟨?_, ?_, ?_⟩
  · rw [hnodes]
    rfl
  · rw [hmeta]
    simp only [hm1, Doc.meta]
  · simp [Doc.matched, hcn, hmatch]

/-! ## The parser on the text of a document: the bytes -/

theorem ok_bind {α β : Type} (a : α) (f : α → Except Fatal β) :
    ((Except.ok a : Except Fatal α) >>= f) = f a := rfl

theorem error_bind {α β : Type} (e : Fatal) (f : α → Except Fatal β) :
    ((Except.error e : Except Fatal α) >>= f) = .error e := rfl

theorem takeWhile_append_cons {α : Type} (p : α → Bool) (a : List α) (c : α) (rest : List α)
    (ha : a.all p = true) (hc : p c = false) :
    (a ++ c :: rest).takeWhile p = a ∧ (a ++ c :: rest).dropWhile p = c :: rest := by
  induction a with
  | nil => simp [List.takeWhile, List.dropWhile, hc]
  | cons x xs ih =>
    simp only [List.all_cons, Bool.and_eq_true] at ha
    obtain ⟨h1, h2⟩ := ih ha.2
    simp [List.takeWhile, List.dropWhile, ha.1, h1, h2]

theorem skipSpaces_append_cons (sp : CStr) (c : Nat) (rest : CStr) (hs : spaceOk sp = true)
    (hc : isspace c = false) : skipSpaces (sp ++ c :: rest) = c :: rest :=
  (takeWhile_append_cons isspace sp c rest hs hc).2

theorem peek_append_cons (a : CStr) (c : Nat) (rest : CStr) :
    peek (a ++ c :: rest) = peek (a ++ [c]) := by
  cases a <;> rfl

/-- One iteration of the attribute loop on an attribute that is written as the grammar
says. -/
theorem attributeLoop_step (fuel : Nat) (a : AttrText) (rest : CStr)
    (attrs : List XmlAttribute) (ha : attrOk a = true) :
    attributeLoop (fuel + 1) (a.text ++ rest) attrs = (do
      ASSERT_FITS_IN_BOUND attrs.length XML_MAX_ATTRIBUTES
      ASSERT_FITS_IN_BOUND (attrs.length + 1) XML_MAX_ATTRIBUTES
      ASSERT_FITS_IN_BOUND a.name.length XML_MAX_ATTRIBUTE_NAME_SIZE
      let value ← private_fromXmlString a.raw
      let attr : XmlAttribute := { name := a.name, value := value }
      ASSERT_XMLATTRIBUTE attr
      ASSERT_NOT_EMPTY (a.space ++ rest)
      ASSERT_NOT_EMPTY (skipSpaces (a.space ++ rest))
      attributeLoop fuel (skipSpaces (a.space ++ rest)) (attrs ++ [attr])) := by
  simp only [attrOk, Bool.and_eq_true, Bool.or_eq_true, beq_iff_eq, bne_iff_ne, ne_eq,
    Bool.not_eq_true'] at ha
  obtain ⟨⟨⟨⟨⟨⟨hname, hsp⟩, h47⟩, h62⟩, hq⟩, hraw⟩, hspace⟩ := ha
  have hname' : a.name.all (fun x => decide (x ≠ 61)) = true := by
    simpa [List.all_eq_true] using hname
  have hraw' : a.raw.all (fun x => decide (x ≠ a.quote)) = true := by
    simpa [List.all_eq_true] using hraw
  have htext : a.text ++ rest =
      a.name ++ 61 :: (a.quote :: (a.raw ++ a.quote :: (a.space ++ rest))) := by
    simp [AttrText.text]
  obtain ⟨t1, d1⟩ := takeWhile_append_cons (fun x => decide (x ≠ 61)) a.name 61
    (a.quote :: (a.raw ++ a.quote :: (a.space ++ rest))) hname' (by simp)
  obtain ⟨t2, d2⟩ := takeWhile_append_cons (fun x => decide (x ≠ a.quote)) a.raw a.quote
    (a.space ++ rest) hraw' (by simp)
  have hpk : ¬ (peek (a.text ++ rest) = 47 ∨ peek (a.text ++ rest) = 62) := by
    rw [htext, peek_append_cons]
    cases hn : a.name with
    | nil => simp [peek]
    | cons c cs =>
      rw [hn] at h47 h62
      simp only [peek, List.headD_cons] at h47 h62
      simp [peek, h47, h62]
  have hne : a.raw ++ a.quote :: (a.space ++ rest) ≠ [] := by simp
  rw [attributeLoop, if_neg hpk, htext]
  simp only [t1, d1, List.drop_succ_cons, List.drop_zero, peek, List.headD_cons, t2, d2,
    ASSERT_NOT_EMPTY, reduceCtorEq, if_false, bind, Except.bind, errorUnless, hq, if_true,
    if_neg hne]

/-- The attribute loop on the attributes of an opening tag that is written as the grammar
says: the loop stops at the `/` or `>` behind them. -/
theorem attributeLoop_attrs (attrs : List AttrText) (hall : attrs.all attrOk = true) :
    ∀ (fuel : Nat) (c : Nat) (k : CStr) (acc : List XmlAttribute), attrs.length < fuel →
      (c = 47 ∨ c = 62) →
      attributeLoop fuel (attrsText attrs ++ c :: k) acc =
        (buildAttrs attrs acc >>= fun parsed => pure (c :: k, parsed)) := by
  induction attrs with
  | nil =>
    intro fuel c k acc hf hc
    obtain ⟨f, rfl⟩ : ∃ f, fuel = f + 1 := ⟨fuel - 1, by omega⟩
    simp only [attrsText, List.flatMap_nil, List.nil_append, attributeLoop, peek,
      List.headD_cons, hc, if_true, buildAttrs, bind, Except.bind, pure, Except.pure]
  | cons a rest ih =>
    intro fuel c k acc hf hc
    obtain ⟨f, rfl⟩ : ∃ f, fuel = f + 1 := ⟨fuel - 1, by omega⟩
    simp only [List.all_cons, Bool.and_eq_true] at hall
    have ha := hall.1
    have hspace : spaceOk a.space = true := by
      simp only [attrOk, Bool.and_eq_true] at ha
      exact ha.2
    -- the byte behind the whitespace is no whitespace
    have hnext : ∃ d tl, attrsText rest ++ c :: k = d :: tl ∧ isspace d = false := by
      cases rest with
      | nil =>
        refine ⟨c, k, rfl, ?_⟩
        rcases hc with rfl | rfl <;> decide
      | cons b bs =>
        have hb := hall.2
        simp only [List.all_cons, Bool.and_eq_true, attrOk, Bool.not_eq_true'] at hb
        obtain ⟨⟨⟨⟨⟨⟨⟨_, hsp⟩, _⟩, _⟩, _⟩, _⟩, _⟩, _⟩ := hb
        have e : attrsText (b :: bs) ++ c :: k =
            b.name ++ 61 :: (b.quote :: (b.raw ++ b.quote :: (b.space ++
              (attrsText bs ++ c :: k)))) := by
          simp [attrsText, AttrText.text]
        rw [e]
        cases hn : b.name with
        | nil => exact ⟨61, _, rfl, by decide⟩
        | cons x xs =>
          rw [hn] at hsp
          exact ⟨x, _, rfl, by simpa [peek] using hsp⟩
    obtain ⟨d, tl, hd, hds⟩ := hnext
    have hskip : skipSpaces (a.space ++ (attrsText rest ++ c :: k)) = attrsText rest ++ c :: k := by
      rw [hd]
      exact skipSpaces_append_cons _ _ _ hspace hds
    have htxt : attrsText (a :: rest) ++ c :: k = a.text ++ (attrsText rest ++ c :: k) := by
      simp [attrsText]
    have ih' := fun acc => ih hall.2 f c k acc (by simp only [List.length_cons] at hf; omega) hc
    rw [htxt, attributeLoop_step f a _ acc ha, hskip]
    have hne1 : a.space ++ (attrsText rest ++ c :: k) ≠ [] := by simp
    have hne2 : attrsText rest ++ c :: k ≠ [] := by simp
    simp only [ih', buildAttrs, ASSERT_NOT_EMPTY, if_neg hne1, if_neg hne2, ok_bind, bind_assoc]

/-- One iteration of the loop over the declarations of the prolog. -/
theorem metaLoop_step (fuel : Nat) (decl sp rest : CStr) (xml : Xml)
    (hd : decl.all (· != 62) = true) (hs : spaceOk sp = true) :
    metaLoop (fuel + 1) (63 :: decl ++ 62 :: sp ++ 60 :: rest) xml = (do
      ASSERT_NOT_TOO_LONG (60 :: 63 :: decl ++ [62]) XML_META_MAX_SIZE
      ASSERT_NOT_EMPTY rest
      metaLoop fuel rest { xml with meta := 60 :: 63 :: decl ++ [62] }) := by
  have hd' : (63 :: decl).all (fun x => decide (x ≠ 62)) = true := by
    simpa [List.all_eq_true] using hd
  have htext : 63 :: decl ++ 62 :: sp ++ 60 :: rest = (63 :: decl) ++ 62 :: (sp ++ 60 :: rest) := by
    simp
  obtain ⟨t1, d1⟩ := takeWhile_append_cons (fun x => decide (x ≠ 62)) (63 :: decl) 62
    (sp ++ 60 :: rest) hd' (by simp)
  have hsk : skipSpaces (sp ++ 60 :: rest) = 60 :: rest :=
    skipSpaces_append_cons sp 60 rest hs (by decide)
  have hne : sp ++ 60 :: rest ≠ [] := by simp
  rw [metaLoop, htext, if_neg (by simp [peek])]
  simp only [List.cons_append] at t1 d1 ⊢
  simp only [t1, d1, List.drop_succ_cons, List.drop_zero, peek, List.headD_cons, hsk,
    ASSERT_NOT_EMPTY, reduceCtorEq, if_false, if_neg hne, ok_bind, errorUnless, if_true,
    List.cons_append]

/-- The loop over the declarations of a prolog that is written as the grammar says. -/
theorem metaLoop_prolog (decls : List (CStr × CStr))
    (hall : decls.all (fun d => d.1.all (· != 62) && spaceOk d.2) = true) :
    ∀ (fuel : Nat) (rest : CStr) (xml : Xml), decls.length < fuel → rest ≠ [] → peek rest ≠ 63 →
      metaLoop fuel (prologText decls ++ rest) xml =
        (buildProlog decls xml >>= fun x => pure (rest, x)) := by
  induction decls with
  | nil =>
    intro fuel rest xml hf hne hpk
    obtain ⟨f, rfl⟩ : ∃ f, fuel = f + 1 := ⟨fuel - 1, by omega⟩
    simp only [prologText, List.flatMap_nil, List.nil_append, metaLoop, hpk, ne_eq,
      not_false_eq_true, if_true, buildProlog, ok_bind, pure, Except.pure]
  | cons d rest ih =>
    intro fuel k xml hf hne hpk
    obtain ⟨f, rfl⟩ : ∃ f, fuel = f + 1 := ⟨fuel - 1, by omega⟩
    simp only [List.all_cons, Bool.and_eq_true] at hall
    have htxt : prologText (d :: rest) ++ k =
        63 :: d.1 ++ 62 :: d.2 ++ 60 :: (prologText rest ++ k) := by
      simp [prologText]
    have hne2 : prologText rest ++ k ≠ [] := by simp [hne]
    have ih' := fun xml => ih hall.2 f k xml (by simp only [List.length_cons] at hf; omega)
      hne hpk
    rw [htxt, metaLoop_step f d.1 d.2 _ xml hall.1.1 hall.1.2]
    simp only [ih', buildProlog, ASSERT_NOT_EMPTY, if_neg hne2, ok_bind, bind_assoc]

theorem storeText_eq (xml : Xml) (n : Nat) (t : CStr) :
    storeText xml n t = (do
      let _ ← getNode xml n
      let text ← private_fromXmlString t
      pure (updateNode xml n
        (fun nd => { nd with content := nd.content.set nd.children.length text }))) := rfl

/-- One iteration of the inner loop on a text that is followed by an opening tag. -/
theorem contentLoop_child (G : Nat) (t : CStr) (c : Nat) (rest : CStr) (xml : Xml) (n : Nat)
    (par : Option Nat) (ht : t.all (· != 60) = true) (hc : c ≠ 47) :
    contentLoop (G + 1) (t ++ 60 :: c :: rest) xml n par =
      (storeText xml n t >>= fun xml1 =>
        pure { ptr := c :: rest, xml := xml1, node := some n, parent := par }) := by
  have ht' : t.all (fun x => decide (x ≠ 60)) = true := by
    simpa [List.all_eq_true] using ht
  obtain ⟨t1, d1⟩ := takeWhile_append_cons (fun x => decide (x ≠ 60)) t 60 (c :: rest) ht'
    (by simp)
  rw [contentLoop, storeText_eq]
  simp only [t1, d1, List.drop_succ_cons, List.drop_zero, peek, List.headD_cons,
    ASSERT_NOT_EMPTY, reduceCtorEq, if_false, ok_bind, bind_assoc, ne_eq, hc,
    not_false_eq_true, if_true, pure_bind]

theorem isTagByte_spec (c : Nat) (h : isTagByte c = true) : isspace c = false ∧ c ≠ 62 ∧ c ≠ 47 := by
  have h2 : (isspace c = false ∧ ¬c = 62) ∧ ¬c = 47 := by simpa [isTagByte] using h
  exact ⟨h2.1.1, h2.1.2, h2.2⟩

theorem isNameByte_spec (c : Nat) (h : isNameByte c = true) : isspace c = false ∧ c ≠ 62 := by
  simpa [isNameByte] using h

/-- The checks of the inner loop on a closing tag, on the bytes and on the name. -/
theorem close_check {β : Type} (tag cn cs k : CStr) (f : CStr → Except Fatal β)
    (htag : tag.all isTagByte = true) (hcn : cn.all isNameByte = true)
    (hcs : spaceOk cs = true) :
    (errorUnless ((cn ++ cs ++ 62 :: k).take tag.length = tag)
        (Fatal.syntaxError "Tag Mismatch") >>= fun _ =>
      ASSERT_NOT_EMPTY ((cn ++ cs ++ 62 :: k).drop tag.length) >>= fun _ =>
      ASSERT_NOT_EMPTY (skipSpaces ((cn ++ cs ++ 62 :: k).drop tag.length)) >>= fun _ =>
      errorUnless (peek (skipSpaces ((cn ++ cs ++ 62 :: k).drop tag.length)) = 62)
        (Fatal.syntaxError "Expected 'XML_NODE_END'") >>= fun _ =>
      f ((skipSpaces ((cn ++ cs ++ 62 :: k).drop tag.length)).drop 1)) =
    (errorUnless (cn.take tag.length = tag) (Fatal.syntaxError "Tag Mismatch") >>= fun _ =>
      errorUnless (cn.drop tag.length = []) (Fatal.syntaxError "Expected 'XML_NODE_END'") >>=
        fun _ => f k) := by
  by_cases hA : cn.take tag.length = tag
  · have hle : tag.length ≤ cn.length := by
      have := congrArg List.length hA
      simp only [List.length_take] at this
      omega
    have htake : (cn ++ cs ++ 62 :: k).take tag.length = tag := by
      rw [List.append_assoc, List.take_append_of_le_length hle, hA]
    have hdrop : (cn ++ cs ++ 62 :: k).drop tag.length = cn.drop tag.length ++ (cs ++ 62 :: k) := by
      rw [List.append_assoc, List.drop_append_of_le_length hle]
    rw [htake, hdrop]
    simp only [errorUnless, if_true, hA, ok_bind]
    cases hd : cn.drop tag.length with
    | nil =>
      have hsk : skipSpaces (cs ++ 62 :: k) = 62 :: k :=
        skipSpaces_append_cons cs 62 k hcs (by decide)
      have hne : cs ++ 62 :: k ≠ [] := by simp
      simp only [List.nil_append, hsk, ASSERT_NOT_EMPTY, if_neg hne, reduceCtorEq, if_false,
        ok_bind, peek, List.headD_cons, if_true, List.drop_succ_cons, List.drop_zero]
    | cons x xs =>
      have hx : x ∈ cn := List.mem_of_mem_drop (by rw [hd]; exact List.mem_cons_self _ _)
      obtain ⟨h1, h2⟩ := isNameByte_spec x (List.all_eq_true.mp hcn x hx)
      have hsk : skipSpaces (x :: (xs ++ (cs ++ 62 :: k))) = x :: (xs ++ (cs ++ 62 :: k)) := by
        simp [skipSpaces, List.dropWhile, h1]
      simp only [List.cons_append, hsk, ASSERT_NOT_EMPTY, reduceCtorEq, if_false, ok_bind, peek,
        List.headD_cons, h2, error_bind]
  · have htake : (cn ++ cs ++ 62 :: k).take tag.length ≠ tag := by
      intro heq
      by_cases hle : tag.length ≤ cn.length
      · rw [List.append_assoc, List.take_append_of_le_length hle] at heq
        exact hA heq
      · rw [List.append_assoc, List.take_append_eq_append_take,
          List.take_of_length_le (by omega)] at heq
        have hpos : 0 < tag.length - cn.length := by omega
        obtain ⟨m, hm⟩ : ∃ m, tag.length - cn.length = m + 1 := ⟨tag.length - cn.length - 1, by omega⟩
        rw [hm] at heq
        -- the byte behind the name is no byte of a tag
        have hbad : ∃ y, y ∈ tag ∧ isTagByte y = false := by
          cases hcs' : cs with
          | nil =>
            rw [hcs'] at heq
            simp only [List.nil_append, List.take_succ_cons] at heq
            exact ⟨62, by rw [← heq]; simp, by decide⟩
          | cons s ss =>
            rw [hcs'] at heq hcs
            simp only [List.cons_append, List.take_succ_cons] at heq
            have hs : isspace s = true := by
              simp only [spaceOk, List.all_cons, Bool.and_eq_true] at hcs
              exact hcs.1
            exact ⟨s, by rw [← heq]; simp, by simp [isTagByte, hs]⟩
        obtain ⟨y, hy, hyb⟩ := hbad
        have := List.all_eq_true.mp htag y hy
        rw [hyb] at this
        cases this
    simp only [errorUnless, if_neg htake, if_neg hA, error_bind]

theorem getNode_updateNode_self (xml : Xml) (n : Nat) (f : XmlNode → XmlNode) (node : XmlNode)
    (hn : xml.nodes[n]? = some node) : getNode (updateNode xml n f) n = .ok (f node) := by
  rw [updateNode_eq xml n f node hn, getNode_ok]
  simp [List.getElem?_set_self (getElem?_lt_length hn)]

/-- One iteration of the inner loop on a text that is followed by a closing tag. -/
theorem contentLoop_close (G : Nat) (t cn cs k : CStr) (xml : Xml) (n : Nat) (par : Option Nat)
    (node : XmlNode) (ht : t.all (· != 60) = true) (hclose : closeOk cn cs = true)
    (hn : xml.nodes[n]? = some node) (htag : node.tag.all isTagByte = true) :
    contentLoop (G + 1) (t ++ 60 :: 47 :: (cn ++ cs ++ 62 :: k)) xml n par =
      (storeText xml n t >>= fun xml1 => closeTag xml1 n cn >>= fun _ =>
        match par with
        | none => pure { ptr := k, xml := xml1, node := none, parent := none }
        | some p => getNode xml1 p >>= fun pnode => ASSERT_NOT_EMPTY k >>= fun _ =>
            contentLoop G k xml1 p pnode.parent) := by
  have ht' : t.all (fun x => decide (x ≠ 60)) = true := by
    simpa [List.all_eq_true] using ht
  obtain ⟨t1, d1⟩ := takeWhile_append_cons (fun x => decide (x ≠ 60)) t 60
    (47 :: (cn ++ cs ++ 62 :: k)) ht' (by simp)
  have hg : getNode xml n = .ok node := getNode_ok.mpr hn
  simp only [closeOk, Bool.and_eq_true] at hclose
  obtain ⟨hcn, hcs⟩ := hclose
  have hne : cn ++ cs ++ 62 :: k ≠ [] := by simp
  rw [contentLoop, storeText_eq]
  simp only [t1, d1, List.drop_succ_cons, List.drop_zero, peek, List.headD_cons,
    ASSERT_NOT_EMPTY, reduceCtorEq, if_false, ok_bind, bind_assoc, ne_eq,
    not_true_eq_false, hg, if_neg hne, pure_bind]
  cases hdec : private_fromXmlString t with
  | error e => simp only [error_bind]
  | ok text =>
    simp only [ok_bind]
    have hg1 := getNode_updateNode_self xml n
      (fun nd => { nd with content := nd.content.set nd.children.length text }) node hn
    generalize updateNode xml n
      (fun nd => { nd with content := nd.content.set nd.children.length text }) = xml1 at hg1 ⊢
    have hcc := close_check node.tag cn cs k (fun ptr6 =>
      match par with
      | none => (pure (ParseState.mk ptr6 xml1 none par) : Except Fatal ParseState)
      | some p => getNode xml1 p >>= fun pnode => ASSERT_NOT_EMPTY ptr6 >>= fun _ =>
            contentLoop G ptr6 xml1 p pnode.parent) htag hcn hcs
    simp only [closeTag, hg1, ok_bind, bind_assoc]
    simp only [ASSERT_NOT_EMPTY, peek] at hcc
    cases par with
    | none => exact hcc
    | some p => exact hcc

theorem attrText_head (a : AttrText) (ha : attrOk a = true) (rest : CStr) :
    ∃ e r, a.text ++ rest = e :: r ∧ isspace e = false := by
  cases hname : a.name with
  | nil => exact ⟨61, _, by simp only [AttrText.text, hname, List.nil_append, List.cons_append]; rfl, by decide⟩
  | cons x xs =>
    refine ⟨x, _, by simp only [AttrText.text, hname, List.cons_append]; rfl, ?_⟩
    simp only [attrOk, hname, peek, List.headD_cons, Bool.and_eq_true, Bool.not_eq_true'] at ha
    exact ha.1.1.1.1.1.2

theorem attrsText_length (attrs : List AttrText) : attrs.length ≤ (attrsText attrs).length := by
  induction attrs with
  | nil => simp [attrsText]
  | cons a rest ih =>
    simp only [attrsText, List.flatMap_cons, List.length_append, List.length_cons,
      AttrText.text] at ih ⊢
    omega

/-- The scans of the outer loop over the head of a tag that is written as the grammar
says: the tag, then the whitespace behind it. -/
theorem head_scan (tag space : CStr) (attrs : List AttrText) (c : Nat) (k : CStr)
    (hhead : headOk tag space attrs = true) (hc : c = 47 ∨ c = 62) :
    (tag ++ space ++ attrsText attrs ++ c :: k).takeWhile isTagByte = tag ∧
    (tag ++ space ++ attrsText attrs ++ c :: k).dropWhile isTagByte =
      space ++ attrsText attrs ++ c :: k ∧
    skipSpaces (space ++ attrsText attrs ++ c :: k) = attrsText attrs ++ c :: k := by
  simp only [headOk, tagOk, Bool.and_eq_true, Bool.or_eq_true] at hhead
  obtain ⟨⟨⟨⟨_, htag⟩, hsp⟩, hattrs⟩, hsep⟩ := hhead
  have hcb : isTagByte c = false ∧ isspace c = false := by
    rcases hc with rfl | rfl <;> exact ⟨by decide, by decide⟩
  have h1 : ∃ d r, space ++ attrsText attrs ++ c :: k = d :: r ∧ isTagByte d = false := by
    cases hs : space with
    | nil =>
      rw [hs] at hsep
      have he : attrs = [] := by
        rcases hsep with h | h
        · simpa using h
        · simp at h
      exact ⟨c, k, by simp [he, attrsText], hcb.1⟩
    | cons x xs =>
      rw [hs] at hsp
      simp only [spaceOk, List.all_cons, Bool.and_eq_true] at hsp
      exact ⟨x, _, by simp only [List.cons_append]; rfl, by simp [isTagByte, hsp.1]⟩
  have h2 : ∃ e r, attrsText attrs ++ c :: k = e :: r ∧ isspace e = false := by
    cases ha : attrs with
    | nil => exact ⟨c, k, by simp [attrsText], hcb.2⟩
    | cons a rest =>
      rw [ha] at hattrs
      simp only [List.all_cons, Bool.and_eq_true] at hattrs
      obtain ⟨e, r, he, hsp⟩ := attrText_head a hattrs.1 (attrsText rest ++ c :: k)
      exact ⟨e, r, by simp only [attrsText, List.flatMap_cons, List.append_assoc] at he ⊢; exact he, hsp⟩
  obtain ⟨d, r, hd, hdb⟩ := h1
  obtain ⟨e, r', he, heb⟩ := h2
  have e1 : tag ++ space ++ attrsText attrs ++ c :: k = tag ++ d :: r := by
    rw [← hd]; simp only [List.append_assoc]
  obtain ⟨t1, d1⟩ := takeWhile_append_cons isTagByte tag d r htag hdb
  refine ⟨by rw [e1, t1], by rw [e1, d1, hd], ?_⟩
  rw [List.append_assoc, he]
  exact skipSpaces_append_cons space e r' hsp heb

/-- One iteration of the outer loop on an opening tag. -/
theorem elementLoop_open (F : Nat) (tag space : CStr) (attrs : List AttrText) (k : CStr)
    (xml : Xml) (parent : Option Nat) (hhead : headOk tag space attrs = true) :
    elementLoop (F + 1) (tag ++ space ++ attrsText attrs ++ 62 :: k) xml parent =
      (openElement tag attrs xml parent >>= fun r => ASSERT_NOT_EMPTY k >>= fun _ =>
        continueParse F (k.length + 1) k r.1 r.2 parent) := by
  obtain ⟨t1, d1, s1⟩ := head_scan tag space attrs 62 k hhead (Or.inr rfl)
  have hattrs : attrs.all attrOk = true := by
    simp only [headOk, Bool.and_eq_true] at hhead
    exact hhead.1.2
  have hal := attributeLoop_attrs attrs hattrs ((attrsText attrs ++ 62 :: k).length + 1) 62 k []
    (by have := attrsText_length attrs; simp only [List.length_append, List.length_cons]; omega)
    (Or.inr rfl)
  have hne1 : space ++ attrsText attrs ++ 62 :: k ≠ [] := by simp
  have hne2 : attrsText attrs ++ 62 :: k ≠ [] := by simp
  rw [elementLoop, openElement]
  simp only [t1, d1, s1, hal, bind_assoc, ASSERT_NOT_EMPTY, if_neg hne1, if_neg hne2, ok_bind,
    pure_bind, peek, List.headD_cons, (by decide : ¬ (62 : Nat) = 47), if_false,
    List.drop_succ_cons, List.drop_zero, errorUnless, if_true, reduceCtorEq, continueParse]

/-- One iteration of the outer loop on a self-closing tag below the node `p`. -/
theorem elementLoop_self_child (F : Nat) (tag space : CStr) (attrs : List AttrText) (k : CStr)
    (xml : Xml) (p : Nat) (hhead : headOk tag space attrs = true) :
    elementLoop (F + 1) (tag ++ space ++ attrsText attrs ++ 47 :: 62 :: k) xml (some p) =
      (openElement tag attrs xml (some p) >>= fun r => getNode r.1 p >>= fun pnode =>
        ASSERT_NOT_EMPTY k >>= fun _ =>
        continueParse F (k.length + 1) k r.1 p pnode.parent) := by
  obtain ⟨t1, d1, s1⟩ := head_scan tag space attrs 47 (62 :: k) hhead (Or.inl rfl)
  have hattrs : attrs.all attrOk = true := by
    simp only [headOk, Bool.and_eq_true] at hhead
    exact hhead.1.2
  have hal := attributeLoop_attrs attrs hattrs ((attrsText attrs ++ 47 :: 62 :: k).length + 1)
    47 (62 :: k) []
    (by have := attrsText_length attrs; simp only [List.length_append, List.length_cons]; omega)
    (Or.inl rfl)
  have hne1 : space ++ attrsText attrs ++ 47 :: 62 :: k ≠ [] := by simp
  have hne2 : attrsText attrs ++ 47 :: 62 :: k ≠ [] := by simp
  rw [elementLoop, openElement]
  simp only [t1, d1, s1, hal, bind_assoc, ASSERT_NOT_EMPTY, if_neg hne1, if_neg hne2, ok_bind,
    pure_bind, peek, List.headD_cons, if_false,
    List.drop_succ_cons, List.drop_zero, errorUnless, if_true, reduceCtorEq, continueParse]

/-- The outer loop on a self-closing tag that has no parent: the loop is left with `ptr`
at the `>` of the tag. -/
theorem elementLoop_self_root (F : Nat) (tag space : CStr) (attrs : List AttrText) (k : CStr)
    (xml : Xml) (hhead : headOk tag space attrs = true) :
    elementLoop (F + 1) (tag ++ space ++ attrsText attrs ++ 47 :: 62 :: k) xml none =
      (openElement tag attrs xml none >>= fun r => pure (62 :: k, r.1)) := by
  obtain ⟨t1, d1, s1⟩ := head_scan tag space attrs 47 (62 :: k) hhead (Or.inl rfl)
  have hattrs : attrs.all attrOk = true := by
    simp only [headOk, Bool.and_eq_true] at hhead
    exact hhead.1.2
  have hal := attributeLoop_attrs attrs hattrs ((attrsText attrs ++ 47 :: 62 :: k).length + 1)
    47 (62 :: k) []
    (by have := attrsText_length attrs; simp only [List.length_append, List.length_cons]; omega)
    (Or.inl rfl)
  have hne1 : space ++ attrsText attrs ++ 47 :: 62 :: k ≠ [] := by simp
  have hne2 : attrsText attrs ++ 47 :: 62 :: k ≠ [] := by simp
  rw [elementLoop, openElement]
  simp only [t1, d1, s1, hal, bind_assoc, ASSERT_NOT_EMPTY, if_neg hne1, if_neg hne2, ok_bind,
    pure_bind, peek, List.headD_cons, if_false,
    List.drop_succ_cons, List.drop_zero, errorUnless, if_true, reduceCtorEq]

/-! ## The parser on the text of a document: the elements -/

theorem storeText_frame (xml xml' : Xml) (n : Nat) (t : CStr)
    (h : storeText xml n t = .ok xml') (j : Nat) (nd : XmlNode) (hj : xml.nodes[j]? = some nd) :
    ∃ nd', xml'.nodes[j]? = some nd' ∧ nd'.tag = nd.tag ∧ nd'.parent = nd.parent := by
  obtain ⟨node, hn, rfl⟩ := storeText_ok xml xml' n t h
  by_cases hjn : n = j
  · subst hjn
    rw [hn] at hj
    simp only [Option.some.injEq] at hj
    subst hj
    exact ⟨_, List.getElem?_set_self (getElem?_lt_length hn), rfl, rfl⟩
  · exact ⟨nd, by simp only [List.getElem?_set_ne hjn, hj], rfl, rfl⟩

theorem openElement_frame (tag : CStr) (attrs : List AttrText) (xml xml' : Xml) (p m : Nat)
    (h : openElement tag attrs xml (some p) = .ok (xml', m)) :
    (∀ (j : Nat) (nd : XmlNode), xml.nodes[j]? = some nd →
      ∃ nd', xml'.nodes[j]? = some nd' ∧ nd'.tag = nd.tag ∧ nd'.parent = nd.parent) ∧
    ∃ ndm, xml'.nodes[m]? = some ndm ∧ ndm.tag = tag ∧ ndm.parent = some p := by
  obtain ⟨hm, _, par, hpar, _, rfl⟩ := openElement_child tag attrs xml xml' p m h
  constructor
  · intro j nd hj
    have hlt := getElem?_lt_length hj
    by_cases hjp : p = j
    · subst hjp
      rw [hpar] at hj
      simp only [Option.some.injEq] at hj
      subst hj
      refine ⟨{ par with children := par.children ++ [m] }, ?_, rfl, rfl⟩
      simp only
      rw [List.getElem?_append_left (by simpa using hlt)]
      exact List.getElem?_set_self hlt
    · refine ⟨nd, ?_, rfl, rfl⟩
      simp only
      rw [List.getElem?_append_left (by simpa using hlt), List.getElem?_set_ne hjp, hj]
  · refine ⟨{ freshNode (some p) with tag := tag, attributes := attrsOf attrs }, ?_, rfl, rfl⟩
    simp only
    rw [hm, List.getElem?_append_right (by simp)]
    simp

theorem buildItems_frame (its : Items) :
    ∀ (xml xml' : Xml) (n : Nat), buildItems its xml n = .ok xml' →
      ∀ (j : Nat) (nd : XmlNode), xml.nodes[j]? = some nd →
        ∃ nd', xml'.nodes[j]? = some nd' ∧ nd'.tag = nd.tag ∧ nd'.parent = nd.parent := by
  induction its with
  | last t =>
    intro xml xml' n h j nd hj
    exact storeText_frame xml xml' n t h j nd hj
  | self t tag sp attrs rest ih =>
    intro xml xml' n h j nd hj
    simp only [buildItems, bind_eq_ok, Prod.exists] at h
    obtain ⟨xml1, h1, xml2, m, h2, h3⟩ := h
    obtain ⟨nd1, hj1, ht1, hp1⟩ := storeText_frame xml xml1 n t h1 j nd hj
    obtain ⟨nd2, hj2, ht2, hp2⟩ := (openElement_frame tag attrs xml1 xml2 n m h2).1 j nd1 hj1
    obtain ⟨nd3, hj3, ht3, hp3⟩ := ih xml2 xml' n h3 j nd2 hj2
    exact ⟨nd3, hj3, by rw [ht3, ht2, ht1], by rw [hp3, hp2, hp1]⟩
  | elem t tag sp attrs inner cn cs rest ihin ihrest =>
    intro xml xml' n h j nd hj
    simp only [buildItems, bind_eq_ok, Prod.exists] at h
    obtain ⟨xml1, h1, xml2, m, h2, xml3, h3, _, _, h5⟩ := h
    obtain ⟨nd1, hj1, ht1, hp1⟩ := storeText_frame xml xml1 n t h1 j nd hj
    obtain ⟨nd2, hj2, ht2, hp2⟩ := (openElement_frame tag attrs xml1 xml2 n m h2).1 j nd1 hj1
    obtain ⟨nd3, hj3, ht3, hp3⟩ := ihin xml2 xml3 m h3 j nd2 hj2
    obtain ⟨nd4, hj4, ht4, hp4⟩ := ihrest xml3 xml' n h5 j nd3 hj3
    exact ⟨nd4, hj4, by rw [ht4, ht3, ht2, ht1], by rw [hp4, hp3, hp2, hp1]⟩

/-- One iteration of the inner loop on a text that is followed by the head of a tag. -/
theorem contentLoop_head (G : Nat) (t p : CStr) (xml : Xml) (n : Nat) (par : Option Nat)
    (ht : t.all (· != 60) = true) (hp : p ≠ []) (hc : peek p ≠ 47) :
    contentLoop (G + 1) (t ++ 60 :: p) xml n par =
      (storeText xml n t >>= fun xml1 =>
        pure { ptr := p, xml := xml1, node := some n, parent := par }) := by
  cases p with
  | nil => exact absurd rfl hp
  | cons c rest => exact contentLoop_child G t c rest xml n par ht hc

theorem head_peek (tag space : CStr) (attrs : List AttrText) (k : CStr)
    (hhead : headOk tag space attrs = true) :
    tag ++ space ++ attrsText attrs ++ k ≠ [] ∧ peek (tag ++ space ++ attrsText attrs ++ k) ≠ 47
      ∧ (peek tag = 63 ∨ peek (tag ++ space ++ attrsText attrs ++ k) ≠ 63) := by
  simp only [headOk, tagOk, Bool.and_eq_true, bne_iff_ne, ne_eq] at hhead
  obtain ⟨⟨⟨⟨hne, htag⟩, _⟩, _⟩, _⟩ := hhead
  cases htg : tag with
  | nil => exact absurd htg hne
  | cons c tg =>
    rw [htg] at htag
    simp only [List.all_cons, Bool.and_eq_true] at htag
    obtain ⟨_, _, h47⟩ := isTagByte_spec c htag.1
    refine ⟨by simp, by simpa [peek] using h47, ?_⟩
    by_cases h : c = 63
    · exact Or.inl (by simp [peek, h])
    · exact Or.inr (by simpa [peek] using h)

theorem getNode_of_frame (xml : Xml) (j : Nat) (nd : XmlNode) (tag : CStr) (par : Option Nat)
    (h : ∃ nd', xml.nodes[j]? = some nd' ∧ nd'.tag = nd.tag ∧ nd'.parent = nd.parent)
    (htag : nd.tag = tag) (hpar : nd.parent = par) :
    ∃ nd', xml.nodes[j]? = some nd' ∧ getNode xml j = .ok nd' ∧ nd'.tag = tag ∧
      nd'.parent = par := by
  obtain ⟨nd', h1, h2, h3⟩ := h
  exact ⟨nd', h1, getNode_ok.mpr h1, by rw [h2, htag], by rw [h3, hpar]⟩

/-- The parser on the content of the node `n` and on the closing tag behind it: the inner
and the outer loop do the work of `buildItems` and of `closeTag`, and go on with what
follows the closing tag in the parent of `n`. -/
theorem items_sim (its : Items) (hlex : its.lexOk = true) :
    ∀ (cn cs k : CStr), closeOk cn cs = true → ∀ (F G : Nat),
      (itemsText its ++ 47 :: (cn ++ cs ++ 62 :: k)).length < F →
      (itemsText its ++ 47 :: (cn ++ cs ++ 62 :: k)).length < G →
      ∃ F' G', k.length < F' ∧ k.length < G' ∧
        ∀ (xml : Xml) (n : Nat) (par : Option Nat) (node : XmlNode),
          xml.nodes[n]? = some node → node.tag.all isTagByte = true → node.parent = par →
          continueParse F G (itemsText its ++ 47 :: (cn ++ cs ++ 62 :: k)) xml n par =
            (buildItems its xml n >>= fun xml' => closeTag xml' n cn >>= fun _ =>
              match par with
              | none => pure (k, xml')
              | some p => getNode xml' p >>= fun pnode => ASSERT_NOT_EMPTY k >>= fun _ =>
                  continueParse F' G' k xml' p pnode.parent) := by
  induction its with
  | last t =>
    intro cn cs k hclose F G hF hG
    simp only [Items.lexOk] at hlex
    have e : itemsText (.last t) ++ 47 :: (cn ++ cs ++ 62 :: k) =
        t ++ 60 :: 47 :: (cn ++ cs ++ 62 :: k) := by
      simp only [itemsText, List.append_assoc, List.cons_append, List.nil_append]
    rw [e] at hF hG ⊢
    obtain ⟨G0, rfl⟩ : ∃ G0, G = G0 + 1 := ⟨G - 1, by omega⟩
    simp only [List.length_append, List.length_cons] at hF hG
    refine ⟨F, G0, by omega, by omega, ?_⟩
    intro xml n par node hn htag hpar
    simp only [continueParse]
    rw [contentLoop_close G0 t cn cs k xml n par node hlex hclose hn htag]
    simp only [buildItems, bind_assoc]
    cases par with
    | none => simp only [pure_bind]
    | some p => simp only [bind_assoc]
  | self t tag sp attrs rest ih =>
    intro cn cs k hclose F G hF hG
    simp only [Items.lexOk, Bool.and_eq_true] at hlex
    obtain ⟨⟨ht, hhead⟩, hrest⟩ := hlex
    have e : itemsText (.self t tag sp attrs rest) ++ 47 :: (cn ++ cs ++ 62 :: k) =
        t ++ 60 :: (tag ++ sp ++ attrsText attrs ++
          47 :: 62 :: (itemsText rest ++ 47 :: (cn ++ cs ++ 62 :: k))) := by
      simp only [itemsText, List.append_assoc, List.cons_append]
    rw [e] at hF hG ⊢
    obtain ⟨G0, rfl⟩ : ∃ G0, G = G0 + 1 := ⟨G - 1, by omega⟩
    obtain ⟨F0, rfl⟩ : ∃ F0, F = F0 + 1 := ⟨F - 1, by omega⟩
    simp only [List.length_append, List.length_cons] at hF hG
    obtain ⟨F', G', hF', hG', hsim⟩ := ih hrest cn cs k hclose F0
      ((itemsText rest ++ 47 :: (cn ++ cs ++ 62 :: k)).length + 1)
      (by simp only [List.length_append, List.length_cons]; omega) (by omega)
    refine ⟨F', G', hF', hG', ?_⟩
    intro xml n par node hn htag hpar
    obtain ⟨hne, h47, _⟩ := head_peek tag sp attrs
      (47 :: 62 :: (itemsText rest ++ 47 :: (cn ++ cs ++ 62 :: k))) hhead
    simp only [continueParse]
    rw [contentLoop_head G0 t _ xml n par ht hne h47]
    simp only [buildItems, bind_assoc, pure_bind]
    cases hst : storeText xml n t with
    | error err => simp only [error_bind]
    | ok xml1 =>
      simp only [ok_bind]
      rw [elementLoop_self_child F0 tag sp attrs _ xml1 n hhead]
      cases hop : openElement tag attrs xml1 (some n) with
      | error err => simp only [error_bind]
      | ok r =>
        obtain ⟨xml2, m⟩ := r
        simp only [ok_bind]
        obtain ⟨nd2, hn2, hg2, htag2, hpar2⟩ := getNode_of_frame xml2 n node node.tag par
          (by
            obtain ⟨nd1, a1, b1, c1⟩ := storeText_frame xml xml1 n t hst n node hn
            obtain ⟨nd2, a2, b2, c2⟩ := (openElement_frame tag attrs xml1 xml2 n m hop).1 n nd1 a1
            exact ⟨nd2, a2, by rw [b2, b1], by rw [c2, c1]⟩) rfl hpar
        have hk1 : itemsText rest ++ 47 :: (cn ++ cs ++ 62 :: k) ≠ [] := by simp
        rw [hg2]
        simp only [ok_bind, ASSERT_NOT_EMPTY, if_neg hk1, hpar2]
        exact hsim xml2 n par nd2 hn2 (by rw [htag2]; exact htag) hpar2
  | elem t tag sp attrs inner cn1 cs1 rest ihin ihrest =>
    intro cn cs k hclose F G hF hG
    simp only [Items.lexOk, Bool.and_eq_true] at hlex
    obtain ⟨⟨⟨⟨ht, hhead⟩, hinner⟩, hclose1⟩, hrest⟩ := hlex
    have e : itemsText (.elem t tag sp attrs inner cn1 cs1 rest) ++ 47 :: (cn ++ cs ++ 62 :: k) =
        t ++ 60 :: (tag ++ sp ++ attrsText attrs ++
          62 :: (itemsText inner ++ 47 :: (cn1 ++ cs1 ++
            62 :: (itemsText rest ++ 47 :: (cn ++ cs ++ 62 :: k))))) := by
      simp only [itemsText, List.append_assoc, List.cons_append]
    rw [e] at hF hG ⊢
    obtain ⟨G0, rfl⟩ : ∃ G0, G = G0 + 1 := ⟨G - 1, by omega⟩
    obtain ⟨F0, rfl⟩ : ∃ F0, F = F0 + 1 := ⟨F - 1, by omega⟩
    simp only [List.length_append, List.length_cons] at hF hG
    obtain ⟨F1, G1, hF1, hG1, hsim1⟩ := ihin hinner cn1 cs1
      (itemsText rest ++ 47 :: (cn ++ cs ++ 62 :: k)) hclose1 F0
      ((itemsText inner ++ 47 :: (cn1 ++ cs1 ++
        62 :: (itemsText rest ++ 47 :: (cn ++ cs ++ 62 :: k)))).length + 1)
      (by simp only [List.length_append, List.length_cons]; omega) (by omega)
    obtain ⟨F', G', hF', hG', hsim⟩ := ihrest hrest cn cs k hclose F1 G1 hF1 hG1
    refine ⟨F', G', hF', hG', ?_⟩
    intro xml n par node hn htag hpar
    obtain ⟨hne, h47, _⟩ := head_peek tag sp attrs
      (62 :: (itemsText inner ++ 47 :: (cn1 ++ cs1 ++
        62 :: (itemsText rest ++ 47 :: (cn ++ cs ++ 62 :: k))))) hhead
    have htagOk : tag.all isTagByte = true := by
      simp only [headOk, tagOk, Bool.and_eq_true] at hhead
      exact hhead.1.1.1.2
    simp only [continueParse]
    rw [contentLoop_head G0 t _ xml n par ht hne h47]
    simp only [buildItems, bind_assoc, pure_bind]
    cases hst : storeText xml n t with
    | error err => simp only [error_bind]
    | ok xml1 =>
      simp only [ok_bind]
      rw [elementLoop_open F0 tag sp attrs _ xml1 (some n) hhead]
      cases hop : openElement tag attrs xml1 (some n) with
      | error err => simp only [error_bind]
      | ok r =>
        obtain ⟨xml2, m⟩ := r
        simp only [ok_bind]
        obtain ⟨hfr2, ndm, hm, hmtag, hmpar⟩ := openElement_frame tag attrs xml1 xml2 n m hop
        obtain ⟨nd2, hn2, hg2, htag2, hpar2⟩ := getNode_of_frame xml2 n node node.tag par
          (by
            obtain ⟨nd1, a1, b1, c1⟩ := storeText_frame xml xml1 n t hst n node hn
            obtain ⟨nd2, a2, b2, c2⟩ := hfr2 n nd1 a1
            exact ⟨nd2, a2, by rw [b2, b1], by rw [c2, c1]⟩) rfl hpar
        have hk1 : itemsText inner ++ 47 :: (cn1 ++ cs1 ++
            62 :: (itemsText rest ++ 47 :: (cn ++ cs ++ 62 :: k))) ≠ [] := by simp
        have hk2 : itemsText rest ++ 47 :: (cn ++ cs ++ 62 :: k) ≠ [] := by simp
        simp only [ASSERT_NOT_EMPTY, if_neg hk1, ok_bind]
        rw [hsim1 xml2 m (some n) ndm hm (by rw [hmtag]; exact htagOk) hmpar]
        cases hin : buildItems inner xml2 m with
        | error err => simp only [error_bind]
        | ok xml3 =>
          simp only [ok_bind]
          cases hcl : closeTag xml3 m cn1 with
          | error err => simp only [error_bind]
          | ok u =>
            simp only [ok_bind]
            obtain ⟨nd3, hn3, hg3, htag3, hpar3⟩ := getNode_of_frame xml3 n nd2 node.tag par
              (buildItems_frame inner xml2 xml3 m hin n nd2 hn2) htag2 hpar2
            rw [hg3]
            simp only [ok_bind, ASSERT_NOT_EMPTY, if_neg hk2, hpar3]
            exact hsim xml3 n par nd3 hn3 (by rw [htag3]; exact htag) hpar3

theorem skipSpaces_spaces (sp : CStr) (h : spaceOk sp = true) : skipSpaces sp = [] := by
  induction sp with
  | nil => rfl
  | cons x xs ih =>
    simp only [spaceOk, List.all_cons, Bool.and_eq_true] at h
    simp only [skipSpaces, List.dropWhile, h.1]
    exact ih h.2

theorem prologText_length (decls : List (CStr × CStr)) :
    decls.length ≤ (prologText decls).length := by
  induction decls with
  | nil => simp [prologText]
  | cons d rest ih =>
    simp only [prologText, List.flatMap_cons, List.length_append, List.length_cons] at ih ⊢
    omega

theorem openElement_root_node (tag : CStr) (attrs : List AttrText) (xml xml' : Xml) (m : Nat)
    (h : openElement tag attrs xml none = .ok (xml', m)) :
    ∃ ndm, xml'.nodes[m]? = some ndm ∧ ndm.tag = tag ∧ ndm.parent = none := by
  obtain ⟨hm, _, rfl⟩ := openElement_root tag attrs xml xml' m h
  refine ⟨{ freshNode none with tag := tag, attributes := attrsOf attrs }, ?_, rfl, rfl⟩
  simp only
  rw [hm, List.getElem?_append_right (by simp)]
  simp

/-- The parser on a document that is written as the grammar says: `fromString_xml` does
the work of `buildDoc`, after the check of the length of the text. -/
theorem parse_eq (D : Doc) (hlex : D.lexOk = true) :
    fromString_xml (docText D) =
      (ASSERT_NOT_TOO_LONG (docText D) BUFFER_LARGE_SIZE >>= fun _ => buildDoc D) := by
  simp only [Doc.lexOk, Bool.and_eq_true, bne_iff_ne, ne_eq] at hlex
  obtain ⟨⟨⟨⟨⟨⟨hlead, hprolog⟩, hhead⟩, h63⟩, hinner⟩, hclose⟩, htrail⟩ := hlex
  have htagOk : D.tag.all isTagByte = true := by
    simp only [headOk, tagOk, Bool.and_eq_true] at hhead
    exact hhead.1.1.1.2
  obtain ⟨hbne, _, hb63⟩ := head_peek D.tag D.space D.attrs
    (62 :: (itemsText D.inner ++ 47 :: (D.closeName ++ D.closeSpace ++ 62 :: D.trail))) hhead
  have hb63 := hb63.resolve_left h63
  have e : docText D = D.lead ++ 60 :: (prologText D.prolog ++
      (D.tag ++ D.space ++ attrsText D.attrs ++
        62 :: (itemsText D.inner ++ 47 :: (D.closeName ++ D.closeSpace ++ 62 :: D.trail)))) := by
    simp only [docText, List.append_assoc, List.cons_append]
  have hne : docText D ≠ [] := by rw [e]; simp
  have hsk := skipSpaces_append_cons D.lead 60 (prologText D.prolog ++
      (D.tag ++ D.space ++ attrsText D.attrs ++
        62 :: (itemsText D.inner ++ 47 :: (D.closeName ++ D.closeSpace ++ 62 :: D.trail))))
      hlead (by decide)
  have hr : prologText D.prolog ++
      (D.tag ++ D.space ++ attrsText D.attrs ++
        62 :: (itemsText D.inner ++ 47 :: (D.closeName ++ D.closeSpace ++ 62 :: D.trail))) ≠ [] := by
    intro h
    exact hbne (List.append_eq_nil.mp h).2
  have hml := metaLoop_prolog D.prolog hprolog
    ((prologText D.prolog ++
      (D.tag ++ D.space ++ attrsText D.attrs ++
        62 :: (itemsText D.inner ++ 47 :: (D.closeName ++ D.closeSpace ++ 62 :: D.trail)))).length + 1)
    (D.tag ++ D.space ++ attrsText D.attrs ++
        62 :: (itemsText D.inner ++ 47 :: (D.closeName ++ D.closeSpace ++ 62 :: D.trail)))
  have hxml0 : ASSERT_XML
      (Xml.mk (bytes "<?xml version='1.0' encoding='UTF-8' standalone='yes'?>") []) = .ok () := by
    decide!
  unfold fromString_xml buildDoc
  simp only [ASSERT_NOT_EMPTY, if_neg hne, ok_bind, initialize_xml_eq, hxml0, bind_assoc]
  cases hlen : ASSERT_NOT_TOO_LONG (docText D) BUFFER_LARGE_SIZE with
  | error err => simp only [error_bind]
  | ok u =>
    simp only [ok_bind]
    rw [e, hsk]
    simp only [peek, List.headD_cons, errorUnless, if_true, ok_bind, List.drop_succ_cons,
      List.drop_zero, if_neg hr, reduceCtorEq, if_false]
    rw [hml _ (by have := prologText_length D.prolog; simp only [List.length_append]; omega)
      hbne hb63]
    simp only [bind_assoc, pure_bind]
    cases hpr : buildProlog D.prolog
        (Xml.mk (bytes "<?xml version='1.0' encoding='UTF-8' standalone='yes'?>") []) with
    | error err => simp only [error_bind]
    | ok xml1 =>
      simp only [ok_bind]
      rw [elementLoop_open _ D.tag D.space D.attrs _ xml1 none hhead]
      cases hop : openElement D.tag D.attrs xml1 none with
      | error err => simp only [error_bind]
      | ok r =>
        obtain ⟨xml2, n⟩ := r
        obtain ⟨ndm, hm, hmtag, hmpar⟩ := openElement_root_node D.tag D.attrs xml1 xml2 n hop
        have hk1 : itemsText D.inner ++ 47 :: (D.closeName ++ D.closeSpace ++ 62 :: D.trail) ≠ [] := by
          simp
        obtain ⟨F', G', _, _, hsim⟩ := items_sim D.inner hinner D.closeName D.closeSpace D.trail
          hclose (D.tag ++ D.space ++ attrsText D.attrs ++
            62 :: (itemsText D.inner ++ 47 :: (D.closeName ++ D.closeSpace ++ 62 :: D.trail))).length
          ((itemsText D.inner ++ 47 :: (D.closeName ++ D.closeSpace ++ 62 :: D.trail)).length + 1)
          (by simp only [List.length_append, List.length_cons]; omega) (by omega)
        simp only [ok_bind, ASSERT_NOT_EMPTY, if_neg hk1]
        rw [hsim xml2 n none ndm hm (by rw [hmtag]; exact htagOk) hmpar]
        simp only [bind_assoc, pure_bind, skipSpaces_spaces D.trail htrail, ASSERT_EMPTY, if_true,
          ok_bind]

/-! ## Documents with a closing name that is not the tag -/

theorem all_isNameByte_of_isTagByte (tag : CStr) (h : tag.all isTagByte = true) :
    tag.all isNameByte = true := by
  rw [List.all_eq_true] at h ⊢
  intro c hc
  obtain ⟨h1, h2, _⟩ := isTagByte_spec c (h c hc)
  simp [isNameByte, h1, h2]

theorem headOk_tag (tag space : CStr) (attrs : List AttrText)
    (h : headOk tag space attrs = true) : tag.all isTagByte = true := by
  simp only [headOk, tagOk, Bool.and_eq_true] at h
  exact h.1.1.1.2

theorem closeOk_tag (tag space : CStr) (attrs : List AttrText) (cn cs : CStr)
    (h : headOk tag space attrs = true) (hc : closeOk cn cs = true) : closeOk tag cs = true := by
  simp only [closeOk, Bool.and_eq_true] at hc ⊢
  exact ⟨all_isNameByte_of_isTagByte tag (headOk_tag tag space attrs h), hc.2⟩

theorem items_lexOk_closedByTag (its : Items) (h : its.lexOk = true) :
    its.closedByTag.lexOk = true := by
  induction its with
  | last t => exact h
  | self t tag sp attrs rest ih =>
    simp only [Items.lexOk, Items.closedByTag, Bool.and_eq_true] at h ⊢
    exact ⟨h.1, ih h.2⟩
  | elem t tag sp attrs inner cn cs rest ihin ihrest =>
    simp only [Items.lexOk, Items.closedByTag, Bool.and_eq_true] at h ⊢
    exact ⟨⟨⟨h.1.1.1, ihin h.1.1.2⟩, closeOk_tag tag sp attrs cn cs h.1.1.1.2 h.1.2⟩, ihrest h.2⟩

theorem doc_lexOk_closedByTag (D : Doc) (h : D.lexOk = true) : D.closedByTag.lexOk = true := by
  simp only [Doc.lexOk, Doc.closedByTag, Bool.and_eq_true] at h ⊢
  exact ⟨⟨⟨h.1.1.1, items_lexOk_closedByTag D.inner h.1.1.2⟩,
    closeOk_tag D.tag D.space D.attrs D.closeName D.closeSpace h.1.1.1.1.2 h.1.2⟩, h.2⟩

/-- The check of a closing name either passes or ends in a syntax error, on a node that
exists. -/
theorem closeTag_cases (xml : Xml) (n : Nat) (a b : CStr) (h : closeTag xml n a = .ok ()) :
    closeTag xml n b = .ok () ∨ ∃ msg, closeTag xml n b = .error (.syntaxError msg) := by
  unfold closeTag at h ⊢
  cases hg : getNode xml n with
  | error e => rw [hg] at h; cases h
  | ok node =>
    simp only [ok_bind, errorUnless]
    by_cases h1 : b.take node.tag.length = node.tag
    · by_cases h2 : b.drop node.tag.length = []
      · exact Or.inl (by simp only [h1, h2, if_true, ok_bind])
      · exact Or.inr ⟨"Expected 'XML_NODE_END'", by simp only [h1, h2, if_true, if_false, ok_bind]⟩
    · exact Or.inr ⟨"Tag Mismatch", by simp only [h1, if_false, error_bind]⟩

theorem buildItems_closedByTag (its : Items) :
    ∀ (xml xml' : Xml) (n : Nat), buildItems its.closedByTag xml n = .ok xml' →
      buildItems its xml n = .ok xml' ∨ ∃ msg, buildItems its xml n = .error (.syntaxError msg) := by
  induction its with
  | last t =>
    intro xml xml' n h
    exact Or.inl h
  | self t tag sp attrs rest ih =>
    intro xml xml' n h
    simp only [Items.closedByTag, buildItems, bind_eq_ok, Prod.exists] at h
    obtain ⟨xml1, h1, xml2, m, h2, h3⟩ := h
    simp only [buildItems, h1, h2, ok_bind]
    exact ih xml2 xml' n h3
  | elem t tag sp attrs inner cn cs rest ihin ihrest =>
    intro xml xml' n h
    simp only [Items.closedByTag, buildItems, bind_eq_ok, Prod.exists] at h
    obtain ⟨xml1, h1, xml2, m, h2, xml3, h3, u, h4, h5⟩ := h
    simp only [buildItems, h1, h2, ok_bind]
    rcases ihin xml2 xml3 m h3 with hi | ⟨msg, hi⟩
    · simp only [hi, ok_bind]
      rcases closeTag_cases xml3 m tag cn h4 with hc | ⟨msg, hc⟩
      · simp only [hc, ok_bind]
        exact ihrest xml3 xml' n h5
      · exact Or.inr ⟨msg, by simp only [hc, error_bind]⟩
    · exact Or.inr ⟨msg, by simp only [hi, error_bind]⟩

theorem buildDoc_closedByTag (D : Doc) (xml : Xml) (h : buildDoc D.closedByTag = .ok xml) :
    buildDoc D = .ok xml ∨ ∃ msg, buildDoc D = .error (.syntaxError msg) := by
  unfold buildDoc at h ⊢
  simp only [Doc.closedByTag, bind_eq_ok, Prod.exists, pure_eq_ok] at h
  obtain ⟨xml0, h0, xml1, h1, xml2, n, h2, xml3, h3, u, h4, h5⟩ := h
  simp only [h0, h1, h2, ok_bind]
  rcases buildItems_closedByTag D.inner xml2 xml3 n h3 with hi | ⟨msg, hi⟩
  · simp only [hi, ok_bind]
    rcases closeTag_cases xml3 n D.tag D.closeName h4 with hc | ⟨msg, hc⟩
    · simp only [hc, ok_bind]
      exact Or.inl (by rw [← h5]; rfl)
    · exact Or.inr ⟨msg, by simp only [hc, error_bind]⟩
  · exact Or.inr ⟨msg, by simp only [hi, error_bind]⟩

theorem buildDoc_unmatched (D : Doc) (h : D.matched = false) : ∃ e, buildDoc D = .error e := by
  cases hb : buildDoc D with
  | error e => exact ⟨e, rfl⟩
  | ok xml =>
    have := (buildDoc_ok D xml hb).2.2
    rw [h] at this
    cases this

/-! ## Documents that differ in the whitespace of their tags -/

theorem buildAttrs_strip (attrs : List AttrText) :
    ∀ acc, buildAttrs (attrs.map AttrText.strip) acc = buildAttrs attrs acc := by
  induction attrs with
  | nil => intro acc; rfl
  | cons a rest ih =>
    intro acc
    simp only [List.map_cons, buildAttrs, AttrText.strip, ih]

theorem openElement_strip (tag : CStr) (attrs : List AttrText) (xml : Xml) (parent : Option Nat) :
    openElement tag (attrs.map AttrText.strip) xml parent = openElement tag attrs xml parent := by
  simp only [openElement, buildAttrs_strip]

theorem buildItems_strip (its : Items) :
    ∀ (xml : Xml) (n : Nat), buildItems its.strip xml n = buildItems its xml n := by
  induction its with
  | last t => intro xml n; rfl
  | self t tag sp attrs rest ih =>
    intro xml n
    simp only [Items.strip, buildItems, openElement_strip, ih]
  | elem t tag sp attrs inner cn cs rest ihin ihrest =>
    intro xml n
    simp only [Items.strip, buildItems, openElement_strip, ihin, ihrest]

theorem buildProlog_strip (decls : List (CStr × CStr)) :
    ∀ xml, buildProlog (decls.map fun d => (d.1, [])) xml = buildProlog decls xml := by
  induction decls with
  | nil => intro xml; rfl
  | cons d rest ih =>
    intro xml
    simp only [List.map_cons, buildProlog, ih]

theorem buildDoc_strip (D : Doc) : buildDoc D.strip = buildDoc D := by
  simp only [buildDoc, Doc.strip, buildProlog_strip, openElement_strip, buildItems_strip]

/-- The parser on two documents that differ in the whitespace of their tags only. -/
theorem parse_strip (D D' : Doc) (hlex : D.lexOk = true) (hlex' : D'.lexOk = true)
    (hsame : D'.strip = D.strip) (hlen : (docText D).length < BUFFER_LARGE_SIZE)
    (hlen' : (docText D').length < BUFFER_LARGE_SIZE) :
    fromString_xml (docText D') = fromString_xml (docText D) := by
  rw [parse_eq D hlex, parse_eq D' hlex', ← buildDoc_strip D, ← buildDoc_strip D', hsame]
  simp only [ASSERT_NOT_TOO_LONG, if_pos hlen, if_pos hlen']

theorem fromString_xml_tooLong (s : CStr) (h : BUFFER_LARGE_SIZE ≤ s.length) :
    fromString_xml s = .error .tooLong := by
  have hne : s ≠ [] := by
    intro h0
    rw [h0] at h
    simp [BUFFER_LARGE_SIZE] at h
  unfold fromString_xml
  simp only [ASSERT_NOT_EMPTY, if_neg hne, ok_bind, ASSERT_NOT_TOO_LONG,
    if_neg (Nat.not_lt.mpr h), error_bind]

/-! ## Self-closing elements -/

theorem storeText_fresh_node (xml : Xml) (m : Nat) (nd : XmlNode)
    (hm : xml.nodes[m]? = some nd) (hc : nd.children = [])
    (hcontent : nd.content = List.replicate (XML_MAX_CHILDREN + 1) []) :
    storeText xml m [] = .ok xml := by
  have hdec : private_fromXmlString [] = .ok [] := by decide!
  rw [storeText_eq, getNode_ok.mpr hm, hdec]
  simp only [ok_bind, pure, Except.pure]
  rw [updateNode_eq xml m _ nd hm]
  have hset : nd.content.set nd.children.length [] = nd.content := by
    rw [hc, hcontent]
    decide
  simp only [hset]
  have hnd : xml.nodes.set m nd = xml.nodes := by
    apply List.ext_getElem?
    intro i
    by_cases hi : m = i
    · subst hi
      rw [List.getElem?_set_self (getElem?_lt_length hm), hm]
    · rw [List.getElem?_set_ne hi]
  have : ({ nd with content := nd.content } : XmlNode) = nd := rfl
  rw [this, hnd]

theorem closeTag_self (xml : Xml) (m : Nat) (nd : XmlNode) (hm : xml.nodes[m]? = some nd) :
    closeTag xml m nd.tag = .ok () := by
  unfold closeTag
  rw [getNode_ok.mpr hm]
  simp only [ok_bind, errorUnless, List.take_length, List.drop_length, if_true]

/-- The work of the parser on a self-closing element below a node is its work on the
element with an empty content and a closing tag. -/
theorem buildItems_expanded (its : Items) :
    ∀ (xml : Xml) (n : Nat), buildItems its.expanded xml n = buildItems its xml n := by
  induction its with
  | last t => intro xml n; rfl
  | self t tag sp attrs rest ih =>
    intro xml n
    simp only [Items.expanded, buildItems]
    cases h1 : storeText xml n t with
    | error e => rfl
    | ok xml1 =>
      simp only [ok_bind]
      cases h2 : openElement tag attrs xml1 (some n) with
      | error e => rfl
      | ok r =>
        obtain ⟨xml2, m⟩ := r
        obtain ⟨hm, _, par, hpar, _, hx⟩ := openElement_child tag attrs xml1 xml2 n m h2
        have hnode : xml2.nodes[m]? =
            some { freshNode (some n) with tag := tag, attributes := attrsOf attrs } := by
          rw [hx]
          simp only
          rw [hm, List.getElem?_append_right (by simp)]
          simp
        simp only [ok_bind]
        rw [storeText_fresh_node xml2 m _ hnode rfl rfl]
        simp only [ok_bind]
        have hcl := closeTag_self xml2 m _ hnode
        simp only at hcl
        rw [hcl]
        simp only [ok_bind]
        exact ih xml2 n
  | elem t tag sp attrs inner cn cs rest ihin ihrest =>
    intro xml n
    simp only [Items.expanded, buildItems, ihin, ihrest]

theorem buildDoc_expanded (D : Doc) : buildDoc D.expanded = buildDoc D := by
  simp only [buildDoc, Doc.expanded, buildItems_expanded]

theorem items_lexOk_expanded (its : Items) (h : its.lexOk = true) :
    its.expanded.lexOk = true := by
  induction its with
  | last t => exact h
  | self t tag sp attrs rest ih =>
    simp only [Items.lexOk, Items.expanded, Bool.and_eq_true] at h ⊢
    refine ⟨⟨⟨⟨h.1.1, h.1.2⟩, by simp⟩, ?_⟩, ih h.2⟩
    simp only [closeOk, Bool.and_eq_true]
    exact ⟨all_isNameByte_of_isTagByte tag (headOk_tag tag sp attrs h.1.2), rfl⟩
  | elem t tag sp attrs inner cn cs rest ihin ihrest =>
    simp only [Items.lexOk, Items.expanded, Bool.and_eq_true] at h ⊢
    exact ⟨⟨⟨h.1.1.1, ihin h.1.1.2⟩, h.1.2⟩, ihrest h.2⟩

theorem doc_lexOk_expanded (D : Doc) (h : D.lexOk = true) : D.expanded.lexOk = true := by
  simp only [Doc.lexOk, Doc.expanded, Bool.and_eq_true] at h ⊢
  exact ⟨⟨⟨h.1.1.1, items_lexOk_expanded D.inner h.1.1.2⟩, h.1.2⟩, h.2⟩

/-- A self-closing element below the root parses as the element with an empty content and
a closing tag, as long as both texts are shorter than `BUFFER_LARGE_SIZE`. -/
theorem self_closing_child_as_empty_element (D : Doc) (hlex : D.lexOk = true)
    (hlen : (docText D).length < BUFFER_LARGE_SIZE)
    (hlen' : (docText D.expanded).length < BUFFER_LARGE_SIZE) :
    fromString_xml (docText D) = fromString_xml (docText D.expanded) := by
  rw [parse_eq D hlex, parse_eq D.expanded (doc_lexOk_expanded D hlex), buildDoc_expanded]
  simp only [ASSERT_NOT_TOO_LONG, if_pos hlen, if_pos hlen']

/-- The parser on a document whose root element is written self-closing: the outer loop
is left with `ptr` at the `>` of the tag, and the check that nothing follows the root
fails. -/
theorem parse_selfClosed (D : Doc) (hlead : spaceOk D.lead = true)
    (hprolog : D.prolog.all (fun d => d.1.all (· != 62) && spaceOk d.2) = true)
    (hhead : headOk D.tag D.space D.attrs = true) (h63 : peek D.tag ≠ 63) :
    fromString_xml (selfClosedText D) =
      (ASSERT_NOT_TOO_LONG (selfClosedText D) BUFFER_LARGE_SIZE >>= fun _ =>
        initialize_xml >>= fun xml0 => buildProlog D.prolog xml0 >>= fun xml1 =>
        openElement D.tag D.attrs xml1 none >>= fun _ => .error .notEmpty) := by
  obtain ⟨hbne, _, hb63⟩ := head_peek D.tag D.space D.attrs (47 :: 62 :: D.trail) hhead
  have hb63 := hb63.resolve_left h63
  have e : selfClosedText D = D.lead ++ 60 :: (prologText D.prolog ++
      (D.tag ++ D.space ++ attrsText D.attrs ++ 47 :: 62 :: D.trail)) := by
    simp only [selfClosedText, List.append_assoc, List.cons_append]
  have hne : selfClosedText D ≠ [] := by rw [e]; simp
  have hsk := skipSpaces_append_cons D.lead 60 (prologText D.prolog ++
      (D.tag ++ D.space ++ attrsText D.attrs ++ 47 :: 62 :: D.trail)) hlead (by decide)
  have hr : prologText D.prolog ++
      (D.tag ++ D.space ++ attrsText D.attrs ++ 47 :: 62 :: D.trail) ≠ [] := by
    intro h
    exact hbne (List.append_eq_nil.mp h).2
  have hml := metaLoop_prolog D.prolog hprolog
    ((prologText D.prolog ++
      (D.tag ++ D.space ++ attrsText D.attrs ++ 47 :: 62 :: D.trail)).length + 1)
    (D.tag ++ D.space ++ attrsText D.attrs ++ 47 :: 62 :: D.trail)
  have hxml0 : ASSERT_XML
      (Xml.mk (bytes "<?xml version='1.0' encoding='UTF-8' standalone='yes'?>") []) = .ok () := by
    decide!
  have hsk2 : skipSpaces (62 :: D.trail) = 62 :: D.trail := by
    simp [skipSpaces, List.dropWhile, (by decide : isspace 62 = false)]
  unfold fromString_xml
  simp only [ASSERT_NOT_EMPTY, if_neg hne, ok_bind, initialize_xml_eq, hxml0, bind_assoc]
  cases hlen : ASSERT_NOT_TOO_LONG (selfClosedText D) BUFFER_LARGE_SIZE with
  | error err => simp only [error_bind]
  | ok u =>
    simp only [ok_bind]
    rw [e, hsk]
    simp only [peek, List.headD_cons, errorUnless, if_true, ok_bind, List.drop_succ_cons,
      List.drop_zero, if_neg hr, reduceCtorEq, if_false]
    rw [hml _ (by have := prologText_length D.prolog; simp only [List.length_append]; omega)
      hbne hb63]
    simp only [bind_assoc, pure_bind]
    cases hpr : buildProlog D.prolog
        (Xml.mk (bytes "<?xml version='1.0' encoding='UTF-8' standalone='yes'?>") []) with
    | error err => simp only [error_bind]
    | ok xml1 =>
      simp only [ok_bind]
      rw [elementLoop_self_root _ D.tag D.space D.attrs _ xml1 hhead]
      cases hop : openElement D.tag D.attrs xml1 none with
      | error err => simp only [error_bind]
      | ok r =>
        simp only [ok_bind, pure_bind, hsk2, ASSERT_EMPTY, reduceCtorEq, if_false, error_bind]

theorem parse_selfClosed_error (D : Doc) (hlead : spaceOk D.lead = true)
    (hprolog : D.prolog.all (fun d => d.1.all (· != 62) && spaceOk d.2) = true)
    (hhead : headOk D.tag D.space D.attrs = true) (h63 : peek D.tag ≠ 63) :
    ∃ e, fromString_xml (selfClosedText D) = .error e := by
  rw [parse_selfClosed D hlead hprolog hhead h63]
  cases h1 : ASSERT_NOT_TOO_LONG (selfClosedText D) BUFFER_LARGE_SIZE with
  | error e => exact ⟨e, rfl⟩
  | ok u =>
    rw [initialize_xml_eq]
    simp only [ok_bind]
    cases h2 : buildProlog D.prolog
        (Xml.mk (bytes "<?xml version='1.0' encoding='UTF-8' standalone='yes'?>") []) with
    | error e => exact ⟨e, rfl⟩
    | ok xml1 =>
      simp only [ok_bind]
      cases h3 : openElement D.tag D.attrs xml1 none with
      | error e => exact ⟨e, rfl⟩
      | ok r => exact ⟨_, rfl⟩

/-! ## The tree of a document: parents, children, fragments -/

theorem Items.contents_length (its : Items) : its.contents.length = its.size := by
  induction its with
  | last t => rfl
  | self t tag sp attrs rest ih => simp [Items.contents, Items.size, ih]; omega
  | elem t tag sp attrs inner cn cs rest ih1 ih2 =>
    simp [Items.contents, Items.size, ih1, ih2]; omega

theorem Items.childIndices_length (its : Items) (base : Nat) :
    (its.childIndices base).length + 1 = its.texts.length := by
  induction its generalizing base with
  | last t => rfl
  | self t tag sp attrs rest ih => simp [Items.childIndices, Items.texts, ih]
  | elem t tag sp attrs inner cn cs rest ih1 ih2 => simp [Items.childIndices, Items.texts, ih2]

theorem getElem?_cons_sub {α : Type} (x : α) (l : List α) (b c : Nat) (h : b + 1 ≤ c) :
    (x :: l)[c - b]? = l[c - (b + 1)]? := by
  have e : c - b = (c - (b + 1)) + 1 := by omega
  rw [e, List.getElem?_cons_succ]

theorem getElem?_append_sub {α : Type} (l r : List α) (b c : Nat) (h : b + l.length ≤ c) :
    (l ++ r)[c - b]? = r[c - (b + l.length)]? := by
  rw [List.getElem?_append_right (by omega)]
  congr 1
  omega

theorem fragments_empty : fragments [[]] = fragments [] := by decide

/-- The tree of a content: the children of the content are nodes of it with the parent of
the content, in ascending order; and every node of it has its children behind it among
the nodes, in ascending order, is their parent, and has the fragments of the content of
its element. -/
theorem items_nodes_spec (its : Items) :
    ∀ (b : Nat) (par : Option Nat),
      (∀ c ∈ its.childIndices b, b ≤ c ∧ c < b + its.size ∧
        ∃ child, (its.nodes b par)[c - b]? = some child ∧ child.parent = par) ∧
      (its.childIndices b).Pairwise (· < ·) ∧
      ∀ (i : Nat) (node : XmlNode), (its.nodes b par)[i]? = some node →
        (∀ c ∈ node.children, b + i < c ∧ c < b + its.size ∧
          ∃ child, (its.nodes b par)[c - b]? = some child ∧ child.parent = some (b + i)) ∧
        node.children.Pairwise (· < ·) ∧
        ∃ cont, its.contents[i]? = some cont ∧ node.children.length + 1 = cont.texts.length ∧
          node.content = fragments cont.texts := by
  induction its with
  | last t =>
    intro b par
    refine ⟨fun c hc => ?_, List.Pairwise.nil, fun i node h => ?_⟩
    · simp [Items.childIndices] at hc
    · simp [Items.nodes] at h
  | self t tag sp attrs rest ih =>
    intro b par
    obtain ⟨ihA, ihP, ihB⟩ := ih (b + 1) par
    refine ⟨fun c hc => ?_, ?_, fun i node h => ?_⟩
    · simp only [Items.childIndices, List.mem_cons] at hc
      rcases hc with rfl | hc
      · refine ⟨Nat.le_refl _, by simp only [Items.size]; omega, ?_⟩
        simp only [Items.nodes, Nat.sub_self, List.getElem?_cons_zero]
        exact ⟨_, rfl, rfl⟩
      · obtain ⟨h1, h2, child, h3, h4⟩ := ihA c hc
        refine ⟨by omega, by simp only [Items.size]; omega, child, ?_, h4⟩
        simp only [Items.nodes]
        rw [getElem?_cons_sub _ _ b c h1]
        exact h3
    · simp only [Items.childIndices, List.pairwise_cons]
      exact ⟨fun c hc => by have := (ihA c hc).1; omega, ihP⟩
    · cases i with
      | zero =>
        simp only [Items.nodes, List.getElem?_cons_zero, Option.some.injEq] at h
        subst h
        refine ⟨fun c hc => ?_, List.Pairwise.nil, .last [], by simp [Items.contents], rfl, ?_⟩
        · simp at hc
        · simp only [Items.texts]
          exact fragments_empty.symm
      | succ i =>
        simp only [Items.nodes, List.getElem?_cons_succ] at h
        obtain ⟨h1, h2, cont, h3, h4, h5⟩ := ihB i node h
        refine ⟨fun c hc => ?_, h2, cont, ?_, h4, h5⟩
        · obtain ⟨a1, a2, child, a3, a4⟩ := h1 c hc
          refine ⟨by omega, by simp only [Items.size]; omega, child, ?_,
            by rw [a4]; congr 1; omega⟩
          simp only [Items.nodes]
          rw [getElem?_cons_sub _ _ b c (by omega)]
          exact a3
        · simp only [Items.contents, List.getElem?_cons_succ]
          exact h3
  | elem t tag sp attrs inner cn cs rest ihin ihrest =>
    intro b par
    obtain ⟨inA, inP, inB⟩ := ihin (b + 1) (some b)
    obtain ⟨reA, reP, reB⟩ := ihrest (b + 1 + inner.size) par
    have hIlen := Items.nodes_length inner (b + 1) (some b)
    have hClen := Items.contents_length inner
    refine ⟨fun c hc => ?_, ?_, fun i node h => ?_⟩
    · simp only [Items.childIndices, List.mem_cons] at hc
      rcases hc with rfl | hc
      · refine ⟨Nat.le_refl _, by simp only [Items.size]; omega, ?_⟩
        simp only [Items.nodes, Nat.sub_self, List.getElem?_cons_zero]
        exact ⟨_, rfl, rfl⟩
      · obtain ⟨h1, h2, child, h3, h4⟩ := reA c hc
        refine ⟨by omega, by simp only [Items.size]; omega, child, ?_, h4⟩
        simp only [Items.nodes]
        rw [getElem?_cons_sub _ _ b c (by omega),
          getElem?_append_sub _ _ (b + 1) c (by rw [hIlen]; exact h1), hIlen]
        exact h3
    · simp only [Items.childIndices, List.pairwise_cons]
      exact ⟨fun c hc => by have := (reA c hc).1; omega, reP⟩
    · cases i with
      | zero =>
        simp only [Items.nodes, List.getElem?_cons_zero, Option.some.injEq] at h
        subst h
        refine ⟨fun c hc => ?_, inP, inner, by simp [Items.contents],
          Items.childIndices_length inner (b + 1), rfl⟩
        obtain ⟨a1, a2, child, a3, a4⟩ := inA c hc
        refine ⟨by omega, by simp only [Items.size]; omega, child, ?_, a4⟩
        simp only [Items.nodes]
        rw [getElem?_cons_sub _ _ b c a1, List.getElem?_append_left (by omega)]
        exact a3
      | succ i =>
        simp only [Items.nodes, List.getElem?_cons_succ] at h
        by_cases hi : i < inner.size
        · rw [List.getElem?_append_left (by omega)] at h
          obtain ⟨h1, h2, cont, h3, h4, h5⟩ := inB i node h
          refine ⟨fun c hc => ?_, h2, cont, ?_, h4, h5⟩
          · obtain ⟨a1, a2, child, a3, a4⟩ := h1 c hc
            refine ⟨by omega, by simp only [Items.size]; omega, child, ?_,
              by rw [a4]; congr 1; omega⟩
            simp only [Items.nodes]
            rw [getElem?_cons_sub _ _ b c (by omega), List.getElem?_append_left (by omega)]
            exact a3
          · simp only [Items.contents, List.getElem?_cons_succ]
            rw [List.getElem?_append_left (by omega)]
            exact h3
        · rw [List.getElem?_append_right (by omega), hIlen] at h
          obtain ⟨h1, h2, cont, h3, h4, h5⟩ := reB (i - inner.size) node h
          refine ⟨fun c hc => ?_, h2, cont, ?_, h4, h5⟩
          · obtain ⟨a1, a2, child, a3, a4⟩ := h1 c hc
            refine ⟨by omega, by simp only [Items.size]; omega, child, ?_,
              by rw [a4]; congr 1; omega⟩
            simp only [Items.nodes]
            rw [getElem?_cons_sub _ _ b c (by omega),
              getElem?_append_sub _ _ (b + 1) c (by omega), hIlen]
            exact a3
          · simp only [Items.contents, List.getElem?_cons_succ]
            rw [List.getElem?_append_right (by omega), hClen]
            exact h3

theorem fragments_getElem? (texts : List CStr) (j : Nat) (t : CStr) (h : texts[j]? = some t)
    (hlen : texts.length ≤ XML_MAX_CHILDREN + 1) :
    (fragments texts)[j]? = some (decodeReferences t) := by
  have hj : j < XML_MAX_CHILDREN + 1 := Nat.lt_of_lt_of_le (getElem?_lt_length h) hlen
  simp only [fragments, List.getElem?_map, List.getElem?_range hj, Option.map_some', h,
    Option.getD_some]

/-- The work of the parser on a content succeeds only if every element of the content has
fewer than `XML_MAX_CHILDREN` children. -/
theorem buildItems_fits (its : Items) :
    ∀ (xml xml' : Xml) (n : Nat) (node : XmlNode), buildItems its xml n = .ok xml' →
      xml.nodes[n]? = some node → node.children.length < XML_MAX_CHILDREN →
      ∀ c ∈ its.contents, c.texts.length ≤ XML_MAX_CHILDREN := by
  induction its with
  | last t =>
    intro xml xml' n node h hn hc c hmem
    simp [Items.contents] at hmem
  | self t tag sp attrs rest ih =>
    intro xml xml' n node h hn hc c hmem
    simp only [buildItems, bind_eq_ok, Prod.exists] at h
    obtain ⟨xml1, h1, xml2, m, h2, h3⟩ := h
    simp only [Items.contents, List.mem_cons] at hmem
    rcases hmem with rfl | hmem
    · simp [Items.texts, XML_MAX_CHILDREN]
    · obtain ⟨hm, _, par, hpar, hlt, hx⟩ := openElement_child tag attrs xml1 xml2 n m h2
      have hn2 : xml2.nodes[n]? = some { par with children := par.children ++ [m] } := by
        rw [hx]
        simp only
        have hl := getElem?_lt_length hpar
        rw [List.getElem?_append_left (by simpa using hl)]
        exact List.getElem?_set_self hl
      exact ih xml2 xml' n _ h3 hn2 (by simp only [List.length_append, List.length_singleton]; omega)
        c hmem
  | elem t tag sp attrs inner cn cs rest ihin ihrest =>
    intro xml xml' n node h hn hc c hmem
    simp only [buildItems, bind_eq_ok, Prod.exists] at h
    obtain ⟨xml1, h1, xml2, m, h2, xml3, h3, _, _, h5⟩ := h
    obtain ⟨hm, _, par, hpar, hlt, hx⟩ := openElement_child tag attrs xml1 xml2 n m h2
    have hl := getElem?_lt_length hpar
    have hn2 : xml2.nodes[n]? = some { par with children := par.children ++ [m] } := by
      rw [hx]
      simp only
      rw [List.getElem?_append_left (by simpa using hl)]
      exact List.getElem?_set_self hl
    have hm2 : xml2.nodes[m]? =
        some { freshNode (some n) with tag := tag, attributes := attrsOf attrs } := by
      rw [hx]
      simp only
      rw [hm, List.getElem?_append_right (by simp)]
      simp
    have hfresh : ({ freshNode (some n) with tag := tag, attributes := attrsOf attrs } :
        XmlNode).children.length < XML_MAX_CHILDREN := by
      simp [freshNode, XML_MAX_CHILDREN]
    obtain ⟨_, _, hb, hnodes⟩ := buildItems_nodes inner xml2 xml3 m _ hm2 hfresh h3
    simp only [Items.contents, List.mem_cons, List.mem_append] at hmem
    rcases hmem with rfl | hmem | hmem
    · simp only [freshNode, List.length_nil, Nat.zero_add] at hb
      exact hb
    · exact ihin xml2 xml3 m _ h3 hm2 hfresh c hmem
    · have hnm : m ≠ n := by omega
      have hn3 : xml3.nodes[n]? = some { par with children := par.children ++ [m] } := by
        rw [hnodes, List.getElem?_append_left
          (by rw [List.length_set]; exact getElem?_lt_length hn2), List.getElem?_set_ne hnm]
        exact hn2
      exact ihrest xml3 xml' n _ h5 hn3
        (by simp only [List.length_append, List.length_singleton]; omega) c hmem

/-- The tree of a document: every node has its children behind it among the nodes, in
ascending order, is their parent, and has the fragments of the content of its element. -/
theorem doc_nodes_spec (D : Doc) (i : Nat) (node : XmlNode) (h : D.nodes[i]? = some node) :
    (∀ c ∈ node.children, i < c ∧ ∃ child, D.nodes[c]? = some child ∧ child.parent = some i) ∧
      node.children.Pairwise (· < ·) ∧
      ∃ cont, D.contents[i]? = some cont ∧ node.children.length + 1 = cont.texts.length ∧
        node.content = fragments cont.texts := by
  obtain ⟨hA, hP, hB⟩ := items_nodes_spec D.inner 1 (some 0)
  cases i with
  | zero =>
    simp only [Doc.nodes, List.getElem?_cons_zero, Option.some.injEq] at h
    subst h
    refine ⟨fun c hc => ?_, hP, D.inner, by simp [Doc.contents],
      Items.childIndices_length D.inner 1, rfl⟩
    obtain ⟨a1, _, child, a3, a4⟩ := hA c hc
    refine ⟨by omega, child, ?_, a4⟩
    simp only [Doc.nodes]
    have := getElem?_cons_sub
      ({ parent := none, tag := D.tag, content := fragments D.inner.texts,
         children := D.inner.childIndices 1, attributes := attrsOf D.attrs } : XmlNode)
      (D.inner.nodes 1 (some 0)) 0 c a1
    simp only [Nat.sub_zero, Nat.zero_add] at this
    rw [this]
    exact a3
  | succ i =>
    simp only [Doc.nodes, List.getElem?_cons_succ] at h
    obtain ⟨h1, h2, cont, h3, h4, h5⟩ := hB i node h
    refine ⟨fun c hc => ?_, h2, cont, ?_, h4, h5⟩
    · obtain ⟨a1, _, child, a3, a4⟩ := h1 c hc
      refine ⟨by omega, child, ?_, by rw [a4]; congr 1; omega⟩
      simp only [Doc.nodes]
      have := getElem?_cons_sub
        ({ parent := none, tag := D.tag, content := fragments D.inner.texts,
           children := D.inner.childIndices 1, attributes := attrsOf D.attrs } : XmlNode)
        (D.inner.nodes 1 (some 0)) 0 c (by omega)
      simp only [Nat.sub_zero, Nat.zero_add] at this
      rw [this]
      exact a3
    · simp only [Doc.contents, List.getElem?_cons_succ]
      exact h3

/-- The work of the parser on a document succeeds only if every element has fewer than
`XML_MAX_CHILDREN` children. -/
theorem buildDoc_fits (D : Doc) (xml : Xml) (h : buildDoc D = .ok xml) :
    ∀ c ∈ D.contents, c.texts.length ≤ XML_MAX_CHILDREN := by
  unfold buildDoc at h
  simp only [bind_eq_ok, Prod.exists, pure_eq_ok] at h
  obtain ⟨xml0, _, xml1, _, xml2, n, h2, xml3, h3, _, _, _⟩ := h
  obtain ⟨ndm, hm, htag, hpar⟩ := openElement_root_node D.tag D.attrs xml1 xml2 n h2
  obtain ⟨hn, _, hx⟩ := openElement_root D.tag D.attrs xml1 xml2 n h2
  have hm2 : xml2.nodes[n]? =
      some { freshNode none with tag := D.tag, attributes := attrsOf D.attrs } := by
    rw [hx]
    simp only
    rw [hn, List.getElem?_append_right (by simp)]
    simp
  have hfresh : ({ freshNode none with tag := D.tag, attributes := attrsOf D.attrs } :
      XmlNode).children.length < XML_MAX_CHILDREN := by
    simp [freshNode, XML_MAX_CHILDREN]
  intro c hc
  simp only [Doc.contents, List.mem_cons] at hc
  rcases hc with rfl | hc
  · obtain ⟨_, _, hb, _⟩ := buildItems_nodes D.inner xml2 xml3 n _ hm2 hfresh h3
    simp only [freshNode, List.length_nil, Nat.zero_add] at hb
    exact hb
  · exact buildItems_fits D.inner xml2 xml3 n _ h3 hm2 hfresh c hc

theorem decodeReferences_plain (a b : CStr) (h : a.all (· != 38) = true) :
    decodeReferences (a ++ b) = a ++ decodeReferences b := by
  induction a with
  | nil => rfl
  | cons c rest ih =>
    simp only [List.all_cons, Bool.and_eq_true, bne_iff_ne, ne_eq] at h
    rw [List.cons_append, decodeReferences_other c (rest ++ b), ih h.2]
    · rfl
    · intro r hr hp
      simp only [namedReferences, List.mem_cons, List.mem_singleton, List.not_mem_nil,
        or_false] at hr
      obtain ⟨u, hu⟩ := hp
      rcases hr with rfl | rfl | rfl | rfl | rfl <;>
        · simp only [bytes] at hu
          have := congrArg List.head? hu
          simp at this
          exact h.1 this.symm

theorem aposDoc_parsed : fromString_xml aposDoc = .ok apos_xml := by decide!

theorem shortCloseDoc_text : docText shortCloseDoc = bytes "<tx></t>" := by decide!

theorem longCloseDoc_text : docText longCloseDoc = bytes "<t></tx>" := by decide!

theorem crossedDoc_text : docText crossedDoc = bytes "<a><b></a></b>" := by decide!

theorem twoDeclarations_text :
    docText twoDeclarations = bytes "<?xml version=\"1.0\"?><?style sheet?><t></t>" := by decide!

theorem compactDoc_text :
    docText compactDoc = bytes "<?xml version=\"1.0\"?><t a=\"1\" b=\"2\"><u></u></t>" := by
  decide!

theorem spacedDoc_text :
    docText spacedDoc =
      bytes "<?xml version=\"1.0\"?>\n  <t a=\"1\" \n\t b=\"2\"><u></u  ></t \n>" := by
  decide!

theorem quotesDoc_text : docText quotesDoc = bytes "<t a=\"it's\" b='say \"hi\"'></t>" := by
  decide!

theorem treeDoc_text :
    docText treeDoc = bytes "<a> x <b>1 &lt; 2</b> y <c/><d k=\"v\"> <e></e></d>z</a>" := by
  decide!

theorem quotesDoc_parsed :
    fromString_xml (docText quotesDoc) =
      .ok { meta := bytes "<?xml version='1.0' encoding='UTF-8' standalone='yes'?>"
            nodes := [mkNode none "t" [] [] [("a", "it's"), ("b", "say \"hi\"")]] } := by
  decide!

theorem treeDoc_parsed :
    fromString_xml (docText treeDoc) =
      .ok { meta := bytes "<?xml version='1.0' encoding='UTF-8' standalone='yes'?>"
            nodes := [mkNode none "a" [" x ", " y ", "", "z"] [1, 2, 3] [],
                      mkNode (some 0) "b" ["1 < 2"] [] [],
                      mkNode (some 0) "c" [] [] [],
                      mkNode (some 0) "d" [" ", ""] [4] [("k", "v")],
                      mkNode (some 3) "e" [] [] []] } := by
  decide!

theorem plainDoc_parsed :
    fromString_xml (docText plainDoc) =
      .ok { meta := bytes "<?xml version='1.0' encoding='UTF-8' standalone='yes'?>"
            nodes := [mkNode none "t" [] [] []] } := by
  decide!

theorem paddedDoc_text (n : Nat) :
    docText (paddedDoc n) = bytes "<t></t" ++ List.replicate n 32 ++ bytes ">" := by
  simp only [docText, paddedDoc, plainDoc, itemsText, prologText, attrsText]
  have h1 : bytes "t" = [116] := by decide
  have h2 : bytes "<t></t" = [60, 116, 62, 60, 47, 116] := by decide
  have h3 : bytes ">" = [62] := by decide
  rw [h1, h2, h3]
  simp

theorem paddedDoc_tooLong (n : Nat) (h : BUFFER_LARGE_SIZE ≤ n) :
    fromString_xml (docText (paddedDoc n)) = .error .tooLong := by
  apply fromString_xml_tooLong
  rw [paddedDoc_text]
  simp only [List.length_append, List.length_replicate]
  omega

theorem paddedDoc_lexOk (n : Nat) : (paddedDoc n).lexOk = true := by
  have h : spaceOk (List.replicate n 32) = true := by
    simp only [spaceOk, List.all_eq_true]
    intro x hx
    rw [List.eq_of_mem_replicate hx]
    decide
  have h1 : closeOk (bytes "t") (List.replicate n 32) = true := by
    simp only [closeOk, h, Bool.and_true]
    decide
  simp only [Doc.lexOk, paddedDoc, plainDoc, h1, Bool.and_true]
  decide

theorem twoDeclarations_parsed :
    fromString_xml (docText twoDeclarations) =
      .ok { meta := bytes "<?style sheet?>", nodes := [mkNode none "t" [] [] []] } := by
  decide!

theorem compactDoc_parsed :
    fromString_xml (docText compactDoc) =
      .ok { meta := bytes "<?xml version=\"1.0\"?>"
            nodes := [mkNode none "t" [] [1] [("a", "1"), ("b", "2")],
                      mkNode (some 0) "u" [] [] []] } := by
  decide!

theorem private_fromXmlString_length (raw value : CStr)
    (h : private_fromXmlString raw = .ok value) : value.length < XML_MAX_CONTENT_SIZE := by
  unfold private_fromXmlString at h
  simp only [bind_eq_ok, ASSERT_FITS_IN_BOUND_ok, pure_eq_ok] at h
  obtain ⟨_, _, str, _, _, hlt, rfl⟩ := h
  exact hlt

/-- One iteration of the attribute loop on `name=`, a quote `q`, a text without `q`, and
`q` again. -/
theorem attributeLoop_quoted (fuel : Nat) (name raw rest : CStr) (acc : List XmlAttribute)
    (value : CStr) (q : Nat) (hname : name.all (· != 61) = true) (hne : name ≠ [])
    (h47 : peek name ≠ 47) (h62 : peek name ≠ 62)
    (hlen : name.length < XML_MAX_ATTRIBUTE_NAME_SIZE)
    (hacc : acc.length + 1 < XML_MAX_ATTRIBUTES)
    (hval : private_fromXmlString raw = .ok value) (hrest : skipSpaces rest ≠ [])
    (hq : q = 34 ∨ q = 39) (hraw : raw.all (· != q) = true) :
    attributeLoop (fuel + 1) (name ++ 61 :: q :: raw ++ q :: rest) acc =
      attributeLoop fuel (skipSpaces rest) (acc ++ [{ name := name, value := value }]) := by
  have hname' : name.all (fun x => decide (x ≠ 61)) = true := by
    simpa [List.all_eq_true] using hname
  have hraw' : raw.all (fun x => decide (x ≠ q)) = true := by
    simpa [List.all_eq_true] using hraw
  have htext : name ++ 61 :: q :: raw ++ q :: rest = name ++ 61 :: (q :: (raw ++ q :: rest)) := by
    simp
  obtain ⟨t1, d1⟩ := takeWhile_append_cons (fun x => decide (x ≠ 61)) name 61
    (q :: (raw ++ q :: rest)) hname' (by simp)
  obtain ⟨t2, d2⟩ := takeWhile_append_cons (fun x => decide (x ≠ q)) raw q rest hraw' (by simp)
  have hpk : ¬ (peek (name ++ 61 :: (q :: (raw ++ q :: rest))) = 47 ∨
      peek (name ++ 61 :: (q :: (raw ++ q :: rest))) = 62) := by
    cases hn : name with
    | nil => exact absurd hn hne
    | cons c cs =>
      rw [hn] at h47 h62
      simp only [peek, List.headD_cons] at h47 h62
      simp [peek, h47, h62]
  have hne2 : raw ++ q :: rest ≠ [] := by simp
  have hrest' : rest ≠ [] := by
    intro h0
    rw [h0] at hrest
    exact hrest rfl
  have hvlen := private_fromXmlString_length raw value hval
  have hv : XML_MAX_ATTRIBUTE_VAL_SIZE = XML_MAX_CONTENT_SIZE := rfl
  rw [htext, attributeLoop, if_neg hpk]
  simp only [t1, d1, List.drop_succ_cons, List.drop_zero, peek, List.headD_cons, t2, d2,
    ASSERT_NOT_EMPTY, reduceCtorEq, if_false, ok_bind, errorUnless, hq, if_true,
    if_neg hne2, ASSERT_FITS_IN_BOUND, if_pos hacc, if_pos (Nat.lt_of_succ_lt hacc), if_pos hlen,
    hval, ASSERT_XMLATTRIBUTE, if_neg hne, ASSERT_NOT_TOO_LONG, hv, if_pos hvlen, if_neg hrest',
    if_neg hrest]

/-- One iteration of the attribute loop on `name=` and a byte that is no quote. -/
theorem attributeLoop_unquoted (fuel : Nat) (name tail : CStr) (acc : List XmlAttribute)
    (q : Nat) (hname : name.all (· != 61) = true) (hne : name ≠ [])
    (h47 : peek name ≠ 47) (h62 : peek name ≠ 62)
    (hlen : name.length < XML_MAX_ATTRIBUTE_NAME_SIZE)
    (hacc : acc.length + 1 < XML_MAX_ATTRIBUTES) (h34 : q ≠ 34) (h39 : q ≠ 39) :
    attributeLoop (fuel + 1) (name ++ 61 :: q :: tail) acc =
      .error (.syntaxError "Expected 'QUOTE'") := by
  have hname' : name.all (fun x => decide (x ≠ 61)) = true := by
    simpa [List.all_eq_true] using hname
  obtain ⟨t1, d1⟩ := takeWhile_append_cons (fun x => decide (x ≠ 61)) name 61
    (q :: tail) hname' (by simp)
  have hpk : ¬ (peek (name ++ 61 :: q :: tail) = 47 ∨ peek (name ++ 61 :: q :: tail) = 62) := by
    cases hn : name with
    | nil => exact absurd hn hne
    | cons c cs =>
      rw [hn] at h47 h62
      simp only [peek, List.headD_cons] at h47 h62
      simp [peek, h47, h62]
  rw [attributeLoop, if_neg hpk]
  simp only [t1, d1, List.drop_succ_cons, List.drop_zero, peek, List.headD_cons,
    ASSERT_NOT_EMPTY, reduceCtorEq, if_false, ok_bind, errorUnless, h34, h39, or_self,
    ASSERT_FITS_IN_BOUND, if_pos hacc, if_pos (Nat.lt_of_succ_lt hacc), if_pos hlen, error_bind]

theorem sampleCalls_run : insertAll sampleCalls initialize_ht = .ok sampleTable := by rfl

theorem escDoc_built : fromString_xml escDoc >>= fromXml_dfa = .ok esc_dfa := by rfl

theorem escDoc_drawn :
    toDot_dfa sampleHeader zeroGraphMemory zeroMemory esc_dfa = .ok esc_graph := by
  decide!

theorem toLabel_dot_piece (h : DotHeader) (quote c : Nat) (h9 : quote ≠ 9) (h10 : quote ≠ 10) :
    toLabel_dot_step h quote c =
      if c = 9 then .ok [] else fromPattern h.DOT_MAX_LABEL_SIZE (escapeLabelByte quote c) := by
  unfold escapeLabelByte toLabel_dot_step
  by_cases hq : c = quote
  · subst hq
    rw [if_pos rfl, if_neg h9, if_neg h10, if_pos rfl]
    by_cases hb : c = 92
    · rw [if_pos hb, hb]
    · rw [if_neg hb]
  · rw [if_neg hq, if_neg hq]
    by_cases c9 : c = 9
    · rw [if_pos c9, if_pos c9]
    · rw [if_neg c9, if_neg c9, if_neg c9]
      by_cases c10 : c = 10
      · have : ¬ c = 92 := by omega
        rw [if_pos c10, if_pos c10, if_neg this]
      · rw [if_neg c10, if_neg c10]
        by_cases hb : c = 92
        · rw [if_pos hb, if_pos hb]
        · rw [if_neg hb, if_neg hb]

theorem escapeLabelByte_tab (quote : Nat) (h9 : quote ≠ 9) : escapeLabelByte quote 9 = [] := by
  have : ¬ (9 : Nat) = quote := fun e => h9 e.symm
  simp [escapeLabelByte, this]

theorem escapeLabelByte_length (quote c : Nat) : (escapeLabelByte quote c).length ≤ 2 := by
  unfold escapeLabelByte
  split_ifs <;> simp

theorem toLabel_dot_loop_ok (h : DotHeader) (quote : Nat) (h9 : quote ≠ 9) (h10 : quote ≠ 10)
    (raw : CStr) : ∀ out r, toLabel_dot_loop h quote raw out = .ok r →
      r = out ++ escapeLabel quote raw := by
  induction raw with
  | nil =>
    intro out r hr
    simp only [toLabel_dot_loop, Except.ok.injEq] at hr
    simp [escapeLabel, hr]
  | cons c rest ih =>
    intro out r hr
    rw [toLabel_dot_loop, toLabel_dot_piece h quote c h9 h10] at hr
    simp only [bind_eq_ok] at hr
    obtain ⟨piece, hp, hr⟩ := hr
    have hpiece : piece = escapeLabelByte quote c := by
      by_cases c9 : c = 9
      · rw [if_pos c9] at hp
        simp only [Except.ok.injEq] at hp
        rw [c9, escapeLabelByte_tab quote h9, hp]
      · rw [if_neg c9, fromPattern_ok] at hp
        exact hp.2.symm
    rw [ih _ _ hr, hpiece]
    simp [escapeLabel, List.flatMap_cons]

theorem toLabel_dot_loop_run (h : DotHeader) (quote : Nat) (h9 : quote ≠ 9) (h10 : quote ≠ 10)
    (hcap : 2 < h.DOT_MAX_LABEL_SIZE) (hcap' : h.DOT_MAX_LABEL_SIZE ≤ BUFFER_LARGE_SIZE)
    (raw : CStr) : ∀ out, toLabel_dot_loop h quote raw out = .ok (out ++ escapeLabel quote raw) := by
  induction raw with
  | nil =>
    intro out
    simp [toLabel_dot_loop, escapeLabel]
  | cons c rest ih =>
    intro out
    rw [toLabel_dot_loop, toLabel_dot_piece h quote c h9 h10]
    have hp : (if c = 9 then (.ok [] : Except Fatal CStr)
        else fromPattern h.DOT_MAX_LABEL_SIZE (escapeLabelByte quote c)) =
        .ok (escapeLabelByte quote c) := by
      by_cases c9 : c = 9
      · rw [if_pos c9, c9, escapeLabelByte_tab quote h9]
      · rw [if_neg c9, fromPattern_ok]
        have := escapeLabelByte_length quote c
        exact ⟨⟨by omega, by omega, by omega⟩, rfl⟩
    rw [hp]
    show toLabel_dot_loop h quote rest (out ++ escapeLabelByte quote c) = _
    rw [ih]
    simp [escapeLabel, List.flatMap_cons]

theorem symbolList_length (syms : CStr) (hne : syms ≠ []) :
    (symbolList syms).length + 1 = 2 * syms.length := by
  induction syms with
  | nil => exact absurd rfl hne
  | cons c rest ih =>
    cases rest with
    | nil => rfl
    | cons d rest' =>
      have := ih (by simp)
      simp only [symbolList, List.length_cons] at this ⊢
      omega

/-! ## The emitters read the state array and the cells of the alphabet only -/

theorem toC_transitionLoop_congr (mem1 mem2 : Memory) (dfa1 dfa2 : DFA) (sourceId : Nat)
    (hstates : ∀ i, i < DFA_MAX_STATES → stateAt mem1 dfa1 i = stateAt mem2 dfa2 i)
    (syms : CStr) :
    (∀ c ∈ syms, cellAt mem1 dfa1 sourceId c = cellAt mem2 dfa2 sourceId c) →
    ∀ out, toC_transitionLoop mem1 dfa1 sourceId syms out =
      toC_transitionLoop mem2 dfa2 sourceId syms out := by
  induction syms with
  | nil => intro _ out; rfl
  | cons w rest ih =>
    intro hc out
    have ih' := ih (fun c hcm => hc c (List.mem_cons_of_mem _ hcm))
    have hw := hc w (List.mem_cons_self _ _)
    simp only [toC_transitionLoop, hw, ih']
    by_cases hlt : cellAt mem2 dfa2 sourceId w < DFA_MAX_STATES
    · rw [hstates _ hlt]
    · simp only [ASSERT_FITS_IN_BOUND, if_neg hlt, bind, Except.bind]

theorem toC_stateLoop_congr (mem1 mem2 : Memory) (dfa1 dfa2 : DFA)
    (halpha : dfa1.alphabet = dfa2.alphabet) (hn : dfa1.nStates = dfa2.nStates)
    (hstates : ∀ i, i < DFA_MAX_STATES → stateAt mem1 dfa1 i = stateAt mem2 dfa2 i)
    (hcells : ∀ s, s < dfa1.nStates → ∀ c ∈ dfa1.alphabet,
      cellAt mem1 dfa1 s c = cellAt mem2 dfa2 s c)
    (ks : List Nat) :
    (∀ k ∈ ks, k < DFA_MAX_STATES) →
    ∀ out, toC_stateLoop mem1 dfa1 ks out = toC_stateLoop mem2 dfa2 ks out := by
  induction ks with
  | nil => intro _ out; rfl
  | cons k rest ih =>
    intro hk out
    have ih' := ih (fun c hcm => hk c (List.mem_cons_of_mem _ hcm))
    have hst := hstates k (hk k (List.mem_cons_self _ _))
    simp only [toC_stateLoop, hst, ih', ← halpha, ← hn]
    by_cases hlt : (stateAt mem2 dfa2 k).id < dfa1.nStates
    · have htl := toC_transitionLoop_congr mem1 mem2 dfa1 dfa2 (stateAt mem2 dfa2 k).id hstates
        dfa1.alphabet (hcells _ hlt)
      simp only [htl]
    · simp only [ASSERT_FITS_IN_BOUND, if_neg hlt, bind, Except.bind]

theorem ASSERT_DFA_congr (dfa1 dfa2 : DFA) (hname : dfa1.name = dfa2.name)
    (halpha : dfa1.alphabet = dfa2.alphabet) (hn : dfa1.nStates = dfa2.nStates)
    (hinit : dfa1.initialStateId = dfa2.initialStateId) :
    ASSERT_DFA dfa1 = ASSERT_DFA dfa2 := by
  simp only [ASSERT_DFA, hname, halpha, hn, hinit]

theorem toC_dfa_congr (mem1 mem2 : Memory) (dfa1 dfa2 : DFA) (hname : dfa1.name = dfa2.name)
    (halpha : dfa1.alphabet = dfa2.alphabet) (hn : dfa1.nStates = dfa2.nStates)
    (hstates : ∀ i, i < DFA_MAX_STATES → stateAt mem1 dfa1 i = stateAt mem2 dfa2 i)
    (hinit : dfa1.initialStateId = dfa2.initialStateId)
    (hcells : ∀ s, s < dfa1.nStates → ∀ c ∈ dfa1.alphabet,
      cellAt mem1 dfa1 s c = cellAt mem2 dfa2 s c) :
    toC_dfa mem1 dfa1 = toC_dfa mem2 dfa2 := by
  have hA := ASSERT_DFA_congr dfa1 dfa2 hname halpha hn hinit
  unfold toC_dfa
  rw [hA]
  cases hd : ASSERT_DFA dfa2 with
  | error e => simp only [error_bind]
  | ok u =>
    obtain ⟨_, _, _, _, hns, hi⟩ := ASSERT_DFA_ok.mp hd
    have hloop := toC_stateLoop_congr mem1 mem2 dfa1 dfa2 halpha hn hstates hcells
      (List.range dfa2.nStates) (fun k hk => by
        have := List.mem_range.mp hk
        omega)
    simp only [hname, hinit, hn, hstates _ hi, hloop]

theorem toDot_symbolLoop_congr (h : DotHeader) (gmem : GraphMemory) (mem1 mem2 : Memory)
    (dfa1 dfa2 : DFA) (i : Nat) (syms : CStr) :
    (∀ c ∈ syms, cellAt mem1 dfa1 i c = cellAt mem2 dfa2 i c) →
    ∀ G, toDot_symbolLoop h gmem mem1 dfa1 i syms G =
      toDot_symbolLoop h gmem mem2 dfa2 i syms G := by
  induction syms with
  | nil => intro _ G; rfl
  | cons w rest ih =>
    intro hc G
    have ih' := ih (fun c hcm => hc c (List.mem_cons_of_mem _ hcm))
    have hw := hc w (List.mem_cons_self _ _)
    simp only [toDot_symbolLoop, hw, ih']

theorem toDot_stateLoop_congr (h : DotHeader) (gmem : GraphMemory) (mem1 mem2 : Memory)
    (dfa1 dfa2 : DFA) (halpha : dfa1.alphabet = dfa2.alphabet)
    (hcells : ∀ s, s < dfa1.nStates → ∀ c ∈ dfa1.alphabet,
      cellAt mem1 dfa1 s c = cellAt mem2 dfa2 s c)
    (is : List Nat) :
    (∀ i ∈ is, i < dfa1.nStates) →
    ∀ G, toDot_stateLoop h gmem mem1 dfa1 is G = toDot_stateLoop h gmem mem2 dfa2 is G := by
  induction is with
  | nil => intro _ G; rfl
  | cons i rest ih =>
    intro hi G
    have ih' := ih (fun c hcm => hi c (List.mem_cons_of_mem _ hcm))
    have hs := toDot_symbolLoop_congr h gmem mem1 mem2 dfa1 dfa2 i dfa1.alphabet
      (hcells i (hi i (List.mem_cons_self _ _)))
    simp only [toDot_stateLoop, ← halpha, hs, ih']

theorem states_eq_of_stateAt (mem1 mem2 : Memory) (dfa1 dfa2 : DFA)
    (hn : dfa1.nStates = dfa2.nStates) (hlt : dfa2.nStates < DFA_MAX_STATES)
    (hstates : ∀ i, i < DFA_MAX_STATES → stateAt mem1 dfa1 i = stateAt mem2 dfa2 i) :
    dfa1.states = dfa2.states := by
  apply List.ext_getElem hn
  intro i h1 h2
  have := hstates i (by
    have : i < dfa2.nStates := h2
    omega)
  rw [stateAt_of_lt mem1 dfa1 i h1, stateAt_of_lt mem2 dfa2 i h2] at this
  exact this

theorem toDot_dfa_congr (h : DotHeader) (gmem : GraphMemory) (mem1 mem2 : Memory)
    (dfa1 dfa2 : DFA) (hname : dfa1.name = dfa2.name)
    (halpha : dfa1.alphabet = dfa2.alphabet) (hn : dfa1.nStates = dfa2.nStates)
    (hstates : ∀ i, i < DFA_MAX_STATES → stateAt mem1 dfa1 i = stateAt mem2 dfa2 i)
    (hinit : dfa1.initialStateId = dfa2.initialStateId)
    (hcells : ∀ s, s < dfa1.nStates → ∀ c ∈ dfa1.alphabet,
      cellAt mem1 dfa1 s c = cellAt mem2 dfa2 s c) :
    toDot_dfa h gmem mem1 dfa1 = toDot_dfa h gmem mem2 dfa2 := by
  have hA := ASSERT_DFA_congr dfa1 dfa2 hname halpha hn hinit
  unfold toDot_dfa
  rw [hA]
  cases hd : ASSERT_DFA dfa2 with
  | error e => simp only [error_bind]
  | ok u =>
    obtain ⟨_, _, _, _, hns, hi⟩ := ASSERT_DFA_ok.mp hd
    have hst := states_eq_of_stateAt mem1 mem2 dfa1 dfa2 hn hns hstates
    have hloop := toDot_stateLoop_congr h gmem mem1 mem2 dfa1 dfa2 halpha hcells
      (List.range dfa1.nStates) (fun k hk => List.mem_range.mp hk)
    rw [hn] at hloop
    simp only [hname, hinit, hst, hn, hloop]

theorem hashStepAt_eq (w h c : Nat) (hc : c < 128) :
    hashStepAt w h c = (33 * h + c) % 2 ^ w := by
  unfold hashStepAt charAt
  rw [if_pos hc, Nat.mod_add_mod, Nat.add_assoc, Nat.mod_add_mod]
  congr 1
  omega

theorem hashStepAt_high (w h c : Nat) (hc : 128 ≤ c) :
    hashStepAt w h c = (33 * h + (2 ^ w * 256 + c - 256)) % 2 ^ w := by
  have hn : ¬ c < 128 := by omega
  have h33 : h * 2 ^ 5 + h = 33 * h := by omega
  unfold hashStepAt charAt
  rw [if_neg hn]
  generalize 2 ^ w * 256 + c - 256 = k
  rw [Nat.add_mod_mod, Nat.mod_add_mod, Nat.add_assoc, Nat.mod_add_mod, ← Nat.add_assoc, h33]

theorem hashStep_eq_hashStepAt (h c : Nat) : hashStep h c = hashStepAt 64 h c := rfl

theorem hash_eq_hashAt (str : CStr) : hash str = hashAt 64 str := by
  unfold hash hashAt
  have h0 : 5381 % 2 ^ 64 = 5381 := by decide
  rw [h0]
  rfl

theorem hashAt_lt (w : Nat) (str : CStr) : hashAt w str < 2 ^ w := by
  unfold hashAt
  induction str using List.reverseRecOn with
  | nil => exact Nat.mod_lt _ (Nat.two_pow_pos w)
  | append_singleton s c _ =>
    rw [List.foldl_append]
    exact Nat.mod_lt _ (Nat.two_pow_pos w)

theorem hashAt_snoc (w : Nat) (s : CStr) (c : Nat) (hc : c < 128) :
    hashAt w (s ++ [c]) = (33 * hashAt w s + c) % 2 ^ w := by
  unfold hashAt
  rw [List.foldl_append]
  exact hashStepAt_eq w _ c hc

theorem hashAt_snoc_high (w : Nat) (s : CStr) (c : Nat) (hc : 128 ≤ c) :
    hashAt w (s ++ [c]) = (33 * hashAt w s + (2 ^ w * 256 + c - 256)) % 2 ^ w := by
  unfold hashAt
  rw [List.foldl_append]
  exact hashStepAt_high w _ c hc

theorem insert_ht_other_rows (ht ht' : HashTable) (k : CStr) (v : Nat)
    (h : insert_ht ht k v = .ok ht') (r : Nat) (hr : r ≠ hash k % HT_ROW_COUNT) :
    ht'.map r = ht.map r := by
  unfold insert_ht at h
  simp only [bind_eq_ok] at h
  obtain ⟨_, _, _, _, h⟩ := h
  split at h
  · simp only [pure_eq_ok] at h
    subst h
    exact Function.update_noteq hr _ _
  · simp only [bind_eq_ok, pure_eq_ok] at h
    obtain ⟨_, _, _, _, _, _, h⟩ := h
    subst h
    exact Function.update_noteq hr _ _

/-! ## The limit on the children of a node -/

theorem texts_length (its : Items) (base : Nat) :
    its.texts.length = (its.childIndices base).length + 1 := by
  induction its generalizing base with
  | last t => rfl
  | self t tag sp attrs rest ih =>
    simp only [Items.texts, Items.childIndices, List.length_cons, ih (base + 1)]
  | elem t tag sp attrs inner cn cs rest _ ih =>
    simp only [Items.texts, Items.childIndices, List.length_cons, ih (base + 1 + inner.size)]

theorem childrenItems_count (n : Nat) : ∀ base, ((childrenItems n).childIndices base).length = n := by
  induction n with
  | zero => intro base; rfl
  | succ n ih =>
    intro base
    simp only [childrenItems, Items.childIndices, List.length_cons, ih]

theorem wideDoc_31_parsed :
    fromString_xml (docText (wideDoc 31)) = .ok { meta := (wideDoc 31).meta, nodes := (wideDoc 31).nodes } := by
  decide!

theorem wideDoc_32_refused : fromString_xml (docText (wideDoc 32)) = .error .outOfBounds := by
  decide!

theorem lastAttribute_mem (attrs : List XmlAttribute) (name value : CStr)
    (h : lastAttribute attrs name = some value) :
    ∃ attr ∈ attrs, attr.name = name ∧ attr.value = value := by
  unfold lastAttribute at h
  simp only [Option.map_eq_some'] at h
  obtain ⟨a, ha, hv⟩ := h
  have hm := List.mem_of_find?_eq_some ha
  have hp := List.find?_some ha
  exact ⟨a, by simpa using hm, by simpa using hp, hv⟩

theorem lastAttribute_none (attrs : List XmlAttribute) (name : CStr)
    (h : ∀ attr ∈ attrs, attr.name ≠ name) : lastAttribute attrs name = none := by
  cases hl : lastAttribute attrs name with
  | none => rfl
  | some v =>
    obtain ⟨a, ha, hn, _⟩ := lastAttribute_mem attrs name v hl
    exact absurd hn (h a ha)

/-! ## The loops of the parser consume their input -/

theorem bind_noFuel {α β : Type} (x : Except Fatal α) (f : α → Except Fatal β)
    (hx : x ≠ .error .outOfFuel) (hf : ∀ a, x = .ok a → f a ≠ .error .outOfFuel) :
    (x >>= f) ≠ .error .outOfFuel := by
  cases x with
  | error e =>
    intro h
    simp only [error_bind, Except.error.injEq] at h
    exact hx (by rw [h])
  | ok a =>
    simp only [ok_bind]
    exact hf a rfl

theorem unit_cases (x : Except Fatal Unit) (hx : x ≠ .error .outOfFuel) :
    x = .ok () ∨ ∃ e, e ≠ Fatal.outOfFuel ∧ x = .error e := by
  cases x with
  | error e => exact Or.inr ⟨e, fun he => hx (by rw [he]), rfl⟩
  | ok u => exact Or.inl rfl

theorem result_cases {α : Type} (x : Except Fatal α) (hx : x ≠ .error .outOfFuel) :
    (∃ a, x = .ok a) ∨ ∃ e, e ≠ Fatal.outOfFuel ∧ x = .error e := by
  cases x with
  | error e => exact Or.inr ⟨e, fun he => hx (by rw [he]), rfl⟩
  | ok a => exact Or.inl ⟨a, rfl⟩

theorem ASSERT_NOT_EMPTY_noFuel (s : CStr) : ASSERT_NOT_EMPTY s ≠ .error .outOfFuel := by
  unfold ASSERT_NOT_EMPTY
  split <;> simp

theorem ASSERT_EMPTY_noFuel (s : CStr) : ASSERT_EMPTY s ≠ .error .outOfFuel := by
  unfold ASSERT_EMPTY
  split <;> simp

theorem ASSERT_NOT_TOO_LONG_noFuel (s : CStr) (n : Nat) :
    ASSERT_NOT_TOO_LONG s n ≠ .error .outOfFuel := by
  unfold ASSERT_NOT_TOO_LONG
  split <;> simp

theorem ASSERT_FITS_IN_BOUND_noFuel (i n : Nat) :
    ASSERT_FITS_IN_BOUND i n ≠ .error .outOfFuel := by
  unfold ASSERT_FITS_IN_BOUND
  split <;> simp

theorem ASSERT_NOT_ZERO_noFuel (n : Nat) : ASSERT_NOT_ZERO n ≠ .error .outOfFuel := by
  unfold ASSERT_NOT_ZERO
  split <;> simp

theorem errorUnless_noFuel (p : Prop) [Decidable p] (msg : String) :
    errorUnless p (Fatal.syntaxError msg) ≠ .error .outOfFuel := by
  unfold errorUnless
  split <;> simp

theorem getNode_noFuel (xml : Xml) (p : Nat) : getNode xml p ≠ .error .outOfFuel := by
  unfold getNode
  split <;> simp

theorem fromPattern_noFuel (n : Nat) (s : CStr) : fromPattern n s ≠ .error .outOfFuel := by
  unfold fromPattern
  refine bind_noFuel _ _ (ASSERT_NOT_ZERO_noFuel _) fun _ _ => ?_
  refine bind_noFuel _ _ (ASSERT_FITS_IN_BOUND_noFuel _ _) fun _ _ => ?_
  refine bind_noFuel _ _ (ASSERT_NOT_TOO_LONG_noFuel _ _) fun _ _ => ?_
  simp [pure, Except.pure]

theorem ASSERT_XMLATTRIBUTE_noFuel (a : XmlAttribute) :
    ASSERT_XMLATTRIBUTE a ≠ .error .outOfFuel := by
  unfold ASSERT_XMLATTRIBUTE
  refine bind_noFuel _ _ (ASSERT_NOT_EMPTY_noFuel _) fun _ _ => ?_
  refine bind_noFuel _ _ (ASSERT_NOT_TOO_LONG_noFuel _ _) fun _ _ => ?_
  exact ASSERT_NOT_TOO_LONG_noFuel _ _

theorem ASSERT_XMLNODE_noFuel (a : XmlNode) : ASSERT_XMLNODE a ≠ .error .outOfFuel := by
  unfold ASSERT_XMLNODE
  refine bind_noFuel _ _ (ASSERT_NOT_EMPTY_noFuel _) fun _ _ => ?_
  refine bind_noFuel _ _ (ASSERT_NOT_TOO_LONG_noFuel _ _) fun _ _ => ?_
  refine bind_noFuel _ _ (ASSERT_FITS_IN_BOUND_noFuel _ _) fun _ _ => ?_
  exact ASSERT_FITS_IN_BOUND_noFuel _ _

theorem ASSERT_XML_noFuel (a : Xml) : ASSERT_XML a ≠ .error .outOfFuel := by
  unfold ASSERT_XML
  refine bind_noFuel _ _ (ASSERT_NOT_TOO_LONG_noFuel _ _) fun _ _ => ?_
  exact ASSERT_FITS_IN_BOUND_noFuel _ _

theorem private_fromXmlString_noFuel (s : CStr) :
    private_fromXmlString s ≠ .error .outOfFuel := by
  rw [private_fromXmlString_eq]
  split
  · split <;> simp
  · simp

theorem newNode_noFuel (xml : Xml) (parent : Option Nat) :
    newNode xml parent ≠ .error .outOfFuel := by
  unfold newNode
  refine bind_noFuel _ _ (ASSERT_FITS_IN_BOUND_noFuel _ _) fun _ _ => ?_
  refine bind_noFuel _ _ (ASSERT_FITS_IN_BOUND_noFuel _ _) fun _ _ => ?_
  cases parent with
  | none => simp [pure, Except.pure]
  | some p =>
    simp only
    refine bind_noFuel _ _ (getNode_noFuel _ _) fun _ _ => ?_
    refine bind_noFuel _ _ (ASSERT_XMLNODE_noFuel _) fun _ _ => ?_
    simp [pure, Except.pure]

theorem initialize_xml_noFuel : initialize_xml ≠ .error .outOfFuel := by
  rw [initialize_xml_eq]
  simp

theorem drop_one_length_lt (s : CStr) (h : s ≠ []) : (s.drop 1).length < s.length := by
  cases s with
  | nil => exact absurd rfl h
  | cons c t => simp

theorem dropWhile_length_le (p : Nat → Bool) (s : CStr) :
    (s.dropWhile p).length ≤ s.length := (List.dropWhile_sublist p).length_le

theorem skipSpaces_length_le (s : CStr) : (skipSpaces s).length ≤ s.length :=
  dropWhile_length_le _ s

theorem ASSERT_NOT_EMPTY_ok_iff (s : CStr) : ASSERT_NOT_EMPTY s = .ok () ↔ s ≠ [] := by
  unfold ASSERT_NOT_EMPTY
  split <;> simp [*]

/-- One turn of the prolog loop: the loop is left with the pointer where it was, or a
check ends the run, or the loop goes on with a shorter rest of the text. -/
theorem metaLoop_turn (ptr : CStr) (xml : Xml) :
    (∀ fuel, metaLoop (fuel + 1) ptr xml = .ok (ptr, xml)) ∨
      (∃ e, e ≠ Fatal.outOfFuel ∧ ∀ fuel, metaLoop (fuel + 1) ptr xml = .error e) ∨
      ∃ ptr1 xml1, ptr1.length < ptr.length ∧
        ∀ fuel, metaLoop (fuel + 1) ptr xml = metaLoop fuel ptr1 xml1 := by
  by_cases h63 : peek ptr ≠ 63
  · exact Or.inl fun fuel => by simp only [metaLoop, if_pos h63]
  · right
    rcases unit_cases _ (ASSERT_NOT_EMPTY_noFuel (ptr.dropWhile (· ≠ 62))) with h1 | ⟨e, he, h1⟩
    swap
    · exact Or.inl ⟨e, he, fun fuel => by simp only [metaLoop, if_neg h63, h1, error_bind]⟩
    rcases unit_cases _ (ASSERT_NOT_TOO_LONG_noFuel
      (60 :: ptr.takeWhile (· ≠ 62) ++ [peek (ptr.dropWhile (· ≠ 62))]) XML_META_MAX_SIZE)
      with h2 | ⟨e, he, h2⟩
    swap
    · exact Or.inl ⟨e, he, fun fuel => by simp only [metaLoop, if_neg h63, h1, h2, ok_bind, error_bind]⟩
    rcases unit_cases _ (ASSERT_NOT_EMPTY_noFuel ((ptr.dropWhile (· ≠ 62)).drop 1))
      with h3 | ⟨e, he, h3⟩
    swap
    · exact Or.inl ⟨e, he, fun fuel => by
        simp only [metaLoop, if_neg h63, h1, h2, h3, ok_bind, error_bind]⟩
    rcases unit_cases _ (ASSERT_NOT_EMPTY_noFuel (skipSpaces ((ptr.dropWhile (· ≠ 62)).drop 1)))
      with h4 | ⟨e, he, h4⟩
    swap
    · exact Or.inl ⟨e, he, fun fuel => by
        simp only [metaLoop, if_neg h63, h1, h2, h3, h4, ok_bind, error_bind]⟩
    rcases unit_cases _ (errorUnless_noFuel
      (peek (skipSpaces ((ptr.dropWhile (· ≠ 62)).drop 1)) = 60) "Expected 'XML_NODE_BEGIN'")
      with h5 | ⟨e, he, h5⟩
    swap
    · exact Or.inl ⟨e, he, fun fuel => by
        simp only [metaLoop, if_neg h63, h1, h2, h3, h4, h5, ok_bind, error_bind]⟩
    rcases unit_cases _ (ASSERT_NOT_EMPTY_noFuel
      ((skipSpaces ((ptr.dropWhile (· ≠ 62)).drop 1)).drop 1)) with h6 | ⟨e, he, h6⟩
    swap
    · exact Or.inl ⟨e, he, fun fuel => by
        simp only [metaLoop, if_neg h63, h1, h2, h3, h4, h5, h6, ok_bind, error_bind]⟩
    refine Or.inr ⟨(skipSpaces ((ptr.dropWhile (· ≠ 62)).drop 1)).drop 1,
      { xml with meta := 60 :: ptr.takeWhile (· ≠ 62) ++ [peek (ptr.dropWhile (· ≠ 62))] }, ?_,
      fun fuel => by simp only [metaLoop, if_neg h63, h1, h2, h3, h4, h5, h6, ok_bind]⟩
    have a1 := dropWhile_length_le (fun c => decide (c ≠ 62)) ptr
    have a2 := drop_one_length_lt _ ((ASSERT_NOT_EMPTY_ok_iff _).mp h1)
    have a3 := skipSpaces_length_le ((ptr.dropWhile (· ≠ 62)).drop 1)
    have a4 := drop_one_length_lt _ ((ASSERT_NOT_EMPTY_ok_iff _).mp h4)
    omega

/-- One turn of the attribute loop. -/
theorem attributeLoop_turn (ptr : CStr) (attrs : List XmlAttribute) :
    (∀ fuel, attributeLoop (fuel + 1) ptr attrs = .ok (ptr, attrs)) ∨
      (∃ e, e ≠ Fatal.outOfFuel ∧ ∀ fuel, attributeLoop (fuel + 1) ptr attrs = .error e) ∨
      ∃ ptr1 attrs1, ptr1.length < ptr.length ∧
        ∀ fuel, attributeLoop (fuel + 1) ptr attrs = attributeLoop fuel ptr1 attrs1 := by
  by_cases hend : peek ptr = 47 ∨ peek ptr = 62
  · exact Or.inl fun fuel => by simp only [attributeLoop, if_pos hend]
  · right
    rcases unit_cases _ (ASSERT_FITS_IN_BOUND_noFuel attrs.length XML_MAX_ATTRIBUTES)
      with h1 | ⟨e, he, h1⟩
    swap
    · exact Or.inl ⟨e, he, fun fuel => by simp only [attributeLoop, if_neg hend, h1, error_bind]⟩
    rcases unit_cases _ (ASSERT_FITS_IN_BOUND_noFuel (attrs.length + 1) XML_MAX_ATTRIBUTES)
      with h2 | ⟨e, he, h2⟩
    swap
    · exact Or.inl ⟨e, he, fun fuel => by
        simp only [attributeLoop, if_neg hend, h1, h2, ok_bind, error_bind]⟩
    rcases unit_cases _ (ASSERT_FITS_IN_BOUND_noFuel (ptr.takeWhile (· ≠ 61)).length
      XML_MAX_ATTRIBUTE_NAME_SIZE) with h3 | ⟨e, he, h3⟩
    swap
    · exact Or.inl ⟨e, he, fun fuel => by
        simp only [attributeLoop, if_neg hend, h1, h2, h3, ok_bind, error_bind]⟩
    rcases unit_cases _ (ASSERT_NOT_EMPTY_noFuel (ptr.dropWhile (· ≠ 61))) with h4 | ⟨e, he, h4⟩
    swap
    · exact Or.inl ⟨e, he, fun fuel => by
        simp only [attributeLoop, if_neg hend, h1, h2, h3, h4, ok_bind, error_bind]⟩
    rcases unit_cases _ (ASSERT_NOT_EMPTY_noFuel ((ptr.dropWhile (· ≠ 61)).drop 1))
      with h5 | ⟨e, he, h5⟩
    swap
    · exact Or.inl ⟨e, he, fun fuel => by
        simp only [attributeLoop, if_neg hend, h1, h2, h3, h4, h5, ok_bind, error_bind]⟩
    generalize hq : peek ((ptr.dropWhile (· ≠ 61)).drop 1) = q at *
    rcases unit_cases _ (errorUnless_noFuel (q = 34 ∨ q = 39) "Expected 'QUOTE'")
      with h6 | ⟨e, he, h6⟩
    swap
    · exact Or.inl ⟨e, he, fun fuel => by
        simp only [attributeLoop, if_neg hend, h1, h2, h3, h4, h5, hq, h6, ok_bind, error_bind]⟩
    rcases unit_cases _ (ASSERT_NOT_EMPTY_noFuel (((ptr.dropWhile (· ≠ 61)).drop 1).drop 1))
      with h7 | ⟨e, he, h7⟩
    swap
    · exact Or.inl ⟨e, he, fun fuel => by
        simp only [attributeLoop, if_neg hend, h1, h2, h3, h4, h5, hq, h6, h7, ok_bind,
          error_bind]⟩
    rcases unit_cases _ (ASSERT_NOT_EMPTY_noFuel
      ((((ptr.dropWhile (· ≠ 61)).drop 1).drop 1).dropWhile (· ≠ q))) with h8 | ⟨e, he, h8⟩
    swap
    · exact Or.inl ⟨e, he, fun fuel => by
        simp only [attributeLoop, if_neg hend, h1, h2, h3, h4, h5, hq, h6, h7, h8, ok_bind,
          error_bind]⟩
    rcases result_cases _ (private_fromXmlString_noFuel
      ((((ptr.dropWhile (· ≠ 61)).drop 1).drop 1).takeWhile (· ≠ q)))
      with ⟨value, h9⟩ | ⟨e, he, h9⟩
    swap
    · exact Or.inl ⟨e, he, fun fuel => by
        simp only [attributeLoop, if_neg hend, h1, h2, h3, h4, h5, hq, h6, h7, h8, h9, ok_bind,
          error_bind]⟩
    rcases unit_cases _ (ASSERT_XMLATTRIBUTE_noFuel
      { name := ptr.takeWhile (· ≠ 61), value := value }) with h10 | ⟨e, he, h10⟩
    swap
    · exact Or.inl ⟨e, he, fun fuel => by
        simp only [attributeLoop, if_neg hend, h1, h2, h3, h4, h5, hq, h6, h7, h8, h9, h10,
          ok_bind, error_bind]⟩
    rcases unit_cases _ (ASSERT_NOT_EMPTY_noFuel
      (((((ptr.dropWhile (· ≠ 61)).drop 1).drop 1).dropWhile (· ≠ q)).drop 1))
      with h11 | ⟨e, he, h11⟩
    swap
    · exact Or.inl ⟨e, he, fun fuel => by
        simp only [attributeLoop, if_neg hend, h1, h2, h3, h4, h5, hq, h6, h7, h8, h9, h10, h11,
          ok_bind, error_bind]⟩
    rcases unit_cases _ (ASSERT_NOT_EMPTY_noFuel
      (skipSpaces (((((ptr.dropWhile (· ≠ 61)).drop 1).drop 1).dropWhile (· ≠ q)).drop 1)))
      with h12 | ⟨e, he, h12⟩
    swap
    · exact Or.inl ⟨e, he, fun fuel => by
        simp only [attributeLoop, if_neg hend, h1, h2, h3, h4, h5, hq, h6, h7, h8, h9, h10, h11,
          h12, ok_bind, error_bind]⟩
    refine Or.inr
      ⟨skipSpaces (((((ptr.dropWhile (· ≠ 61)).drop 1).drop 1).dropWhile (· ≠ q)).drop 1),
        attrs ++ [{ name := ptr.takeWhile (· ≠ 61), value := value }], ?_,
        fun fuel => by
          simp only [attributeLoop, if_neg hend, h1, h2, h3, h4, h5, hq, h6, h7, h8, h9, h10,
            h11, h12, ok_bind]⟩
    have a1 := dropWhile_length_le (fun c => decide (c ≠ 61)) ptr
    have a2 := drop_one_length_lt _ ((ASSERT_NOT_EMPTY_ok_iff _).mp h4)
    have a3 := dropWhile_length_le (fun c => decide (c ≠ q))
      (((ptr.dropWhile (· ≠ 61)).drop 1).drop 1)
    have a4 := skipSpaces_length_le
      (((((ptr.dropWhile (· ≠ 61)).drop 1).drop 1).dropWhile (· ≠ q)).drop 1)
    simp only [List.length_drop] at a2 a3 a4 ⊢
    omega

/-- One turn of the loop over text fragments and closing tags: it stops behind a `<`
that opens an element or behind the `>` of the root's closing tag, or a check ends the
run, or it goes on behind the `>` of a closing tag; the rest of the text is shorter each
time. -/
theorem contentLoop_turn (ptr : CStr) (xml : Xml) (n : Nat) (parent : Option Nat) :
    (∃ st : ParseState, st.ptr.length < ptr.length ∧
        ∀ fuel, contentLoop (fuel + 1) ptr xml n parent = .ok st) ∨
      (∃ e, e ≠ Fatal.outOfFuel ∧ ∀ fuel, contentLoop (fuel + 1) ptr xml n parent = .error e) ∨
      ∃ ptr1 xml1 p parent1, ptr1.length < ptr.length ∧
        ∀ fuel, contentLoop (fuel + 1) ptr xml n parent = contentLoop fuel ptr1 xml1 p parent1 := by
  rcases unit_cases _ (ASSERT_NOT_EMPTY_noFuel (ptr.dropWhile (· ≠ 60))) with h1 | ⟨e, he, h1⟩
  swap
  · exact Or.inr (Or.inl ⟨e, he, fun fuel => by simp only [contentLoop, h1, error_bind]⟩)
  rcases result_cases _ (getNode_noFuel xml n) with ⟨node, h2⟩ | ⟨e, he, h2⟩
  swap
  · exact Or.inr (Or.inl ⟨e, he, fun fuel => by
      simp only [contentLoop, h1, h2, ok_bind, error_bind]⟩)
  rcases result_cases _ (private_fromXmlString_noFuel (ptr.takeWhile (· ≠ 60)))
    with ⟨text, h3⟩ | ⟨e, he, h3⟩
  swap
  · exact Or.inr (Or.inl ⟨e, he, fun fuel => by
      simp only [contentLoop, h1, h2, h3, ok_bind, error_bind]⟩)
  rcases unit_cases _ (ASSERT_NOT_EMPTY_noFuel ((ptr.dropWhile (· ≠ 60)).drop 1))
    with h4 | ⟨e, he, h4⟩
  swap
  · exact Or.inr (Or.inl ⟨e, he, fun fuel => by
      simp only [contentLoop, h1, h2, h3, h4, ok_bind, error_bind]⟩)
  have a1 := dropWhile_length_le (fun c => decide (c ≠ 60)) ptr
  have a2 := drop_one_length_lt _ ((ASSERT_NOT_EMPTY_ok_iff _).mp h1)
  generalize hxml1 : updateNode xml n
    (fun nd => { nd with content := nd.content.set nd.children.length text }) = xml1
  by_cases h47 : peek ((ptr.dropWhile (· ≠ 60)).drop 1) ≠ 47
  · refine Or.inl ⟨ParseState.mk ((ptr.dropWhile (· ≠ 60)).drop 1) xml1 (some n) parent,
      a2.trans_le a1, fun fuel => ?_⟩
    simp only [contentLoop, h1, h2, h3, h4, ok_bind, if_pos h47, hxml1]
    rfl
  rcases unit_cases _ (ASSERT_NOT_EMPTY_noFuel (((ptr.dropWhile (· ≠ 60)).drop 1).drop 1))
    with h5 | ⟨e, he, h5⟩
  swap
  · exact Or.inr (Or.inl ⟨e, he, fun fuel => by
      simp only [contentLoop, h1, h2, h3, h4, if_neg h47, h5, ok_bind, error_bind]⟩)
  rcases unit_cases _ (errorUnless_noFuel
    ((((ptr.dropWhile (· ≠ 60)).drop 1).drop 1).take node.tag.length = node.tag) "Tag Mismatch")
    with h6 | ⟨e, he, h6⟩
  swap
  · exact Or.inr (Or.inl ⟨e, he, fun fuel => by
      simp only [contentLoop, h1, h2, h3, h4, if_neg h47, h5, h6, ok_bind, error_bind]⟩)
  rcases unit_cases _ (ASSERT_NOT_EMPTY_noFuel
    ((((ptr.dropWhile (· ≠ 60)).drop 1).drop 1).drop node.tag.length)) with h7 | ⟨e, he, h7⟩
  swap
  · exact Or.inr (Or.inl ⟨e, he, fun fuel => by
      simp only [contentLoop, h1, h2, h3, h4, if_neg h47, h5, h6, h7, ok_bind, error_bind]⟩)
  rcases unit_cases _ (ASSERT_NOT_EMPTY_noFuel
    (skipSpaces ((((ptr.dropWhile (· ≠ 60)).drop 1).drop 1).drop node.tag.length)))
    with h8 | ⟨e, he, h8⟩
  swap
  · exact Or.inr (Or.inl ⟨e, he, fun fuel => by
      simp only [contentLoop, h1, h2, h3, h4, if_neg h47, h5, h6, h7, h8, ok_bind, error_bind]⟩)
  rcases unit_cases _ (errorUnless_noFuel
    (peek (skipSpaces ((((ptr.dropWhile (· ≠ 60)).drop 1).drop 1).drop node.tag.length)) = 62)
    "Expected 'XML_NODE_END'") with h9 | ⟨e, he, h9⟩
  swap
  · exact Or.inr (Or.inl ⟨e, he, fun fuel => by
      simp only [contentLoop, h1, h2, h3, h4, if_neg h47, h5, h6, h7, h8, h9, ok_bind,
        error_bind]⟩)
  have a3 := skipSpaces_length_le
    ((((ptr.dropWhile (· ≠ 60)).drop 1).drop 1).drop node.tag.length)
  have a4 := drop_one_length_lt _ ((ASSERT_NOT_EMPTY_ok_iff _).mp h8)
  have hlt : ((skipSpaces
      ((((ptr.dropWhile (· ≠ 60)).drop 1).drop 1).drop node.tag.length)).drop 1).length <
        ptr.length := by
    simp only [List.length_drop] at a2 a3 a4 ⊢
    omega
  cases parent with
  | none =>
    refine Or.inl ⟨ParseState.mk ((skipSpaces
      ((((ptr.dropWhile (· ≠ 60)).drop 1).drop 1).drop node.tag.length)).drop 1) xml1 none none,
      hlt, fun fuel => ?_⟩
    simp only [contentLoop, h1, h2, h3, h4, if_neg h47, h5, h6, h7, h8, h9, ok_bind, hxml1]
    rfl
  | some p =>
    rcases result_cases _ (getNode_noFuel xml1 p) with ⟨pnode, h10⟩ | ⟨e, he, h10⟩
    swap
    · exact Or.inr (Or.inl ⟨e, he, fun fuel => by
        simp only [contentLoop, h1, h2, h3, h4, if_neg h47, h5, h6, h7, h8, h9, hxml1, h10,
          ok_bind, error_bind]⟩)
    rcases unit_cases _ (ASSERT_NOT_EMPTY_noFuel ((skipSpaces
      ((((ptr.dropWhile (· ≠ 60)).drop 1).drop 1).drop node.tag.length)).drop 1))
      with h11 | ⟨e, he, h11⟩
    swap
    · exact Or.inr (Or.inl ⟨e, he, fun fuel => by
        simp only [contentLoop, h1, h2, h3, h4, if_neg h47, h5, h6, h7, h8, h9, hxml1, h10, h11,
          ok_bind, error_bind]⟩)
    exact Or.inr (Or.inr ⟨(skipSpaces
      ((((ptr.dropWhile (· ≠ 60)).drop 1).drop 1).drop node.tag.length)).drop 1, xml1, p,
      pnode.parent, hlt, fun fuel => by
        simp only [contentLoop, h1, h2, h3, h4, if_neg h47, h5, h6, h7, h8, h9, hxml1, h10, h11,
          ok_bind]⟩)

/-- With more fuel than bytes the prolog loop ends without running out of fuel, its
result does not depend on the fuel, and the pointer it returns is inside the text. -/
theorem metaLoop_total (fuel : Nat) : ∀ (ptr : CStr) (xml : Xml), ptr.length < fuel →
    metaLoop fuel ptr xml ≠ .error .outOfFuel ∧
      (∀ r, metaLoop fuel ptr xml = .ok r → r.1.length ≤ ptr.length) ∧
      ∀ fuel1, ptr.length < fuel1 → metaLoop fuel1 ptr xml = metaLoop fuel ptr xml := by
  induction fuel with
  | zero => intro ptr xml h; omega
  | succ f ih =>
    intro ptr xml hlen
    rcases metaLoop_turn ptr xml with h | ⟨e, he, h⟩ | ⟨ptr1, xml1, hlt, h⟩
    · refine ⟨by rw [h]; simp, fun r hr => ?_, fun fuel1 h1 => ?_⟩
      · rw [h] at hr
        simp only [Except.ok.injEq] at hr
        rw [← hr]
      · obtain ⟨g, rfl⟩ : ∃ g, fuel1 = g + 1 := ⟨fuel1 - 1, by omega⟩
        rw [h, h]
    · refine ⟨by rw [h]; simpa using he, fun r hr => ?_, fun fuel1 h1 => ?_⟩
      · rw [h] at hr
        cases hr
      · obtain ⟨g, rfl⟩ : ∃ g, fuel1 = g + 1 := ⟨fuel1 - 1, by omega⟩
        rw [h, h]
    · obtain ⟨i1, i2, i3⟩ := ih ptr1 xml1 (by omega)
      refine ⟨by rw [h]; exact i1, fun r hr => ?_, fun fuel1 h1 => ?_⟩
      · rw [h] at hr
        exact (i2 r hr).trans hlt.le
      · obtain ⟨g, rfl⟩ : ∃ g, fuel1 = g + 1 := ⟨fuel1 - 1, by omega⟩
        rw [h, h]
        exact i3 g (by omega)

theorem attributeLoop_total (fuel : Nat) :
    ∀ (ptr : CStr) (attrs : List XmlAttribute), ptr.length < fuel →
    attributeLoop fuel ptr attrs ≠ .error .outOfFuel ∧
      (∀ r, attributeLoop fuel ptr attrs = .ok r → r.1.length ≤ ptr.length) ∧
      ∀ fuel1, ptr.length < fuel1 → attributeLoop fuel1 ptr attrs = attributeLoop fuel ptr attrs := by
  induction fuel with
  | zero => intro ptr xml h; omega
  | succ f ih =>
    intro ptr xml hlen
    rcases attributeLoop_turn ptr xml with h | ⟨e, he, h⟩ | ⟨ptr1, xml1, hlt, h⟩
    · refine ⟨by rw [h]; simp, fun r hr => ?_, fun fuel1 h1 => ?_⟩
      · rw [h] at hr
        simp only [Except.ok.injEq] at hr
        rw [← hr]
      · obtain ⟨g, rfl⟩ : ∃ g, fuel1 = g + 1 := ⟨fuel1 - 1, by omega⟩
        rw [h, h]
    · refine ⟨by rw [h]; simpa using he, fun r hr => ?_, fun fuel1 h1 => ?_⟩
      · rw [h] at hr
        cases hr
      · obtain ⟨g, rfl⟩ : ∃ g, fuel1 = g + 1 := ⟨fuel1 - 1, by omega⟩
        rw [h, h]
    · obtain ⟨i1, i2, i3⟩ := ih ptr1 xml1 (by omega)
      refine ⟨by rw [h]; exact i1, fun r hr => ?_, fun fuel1 h1 => ?_⟩
      · rw [h] at hr
        exact (i2 r hr).trans hlt.le
      · obtain ⟨g, rfl⟩ : ∃ g, fuel1 = g + 1 := ⟨fuel1 - 1, by omega⟩
        rw [h, h]
        exact i3 g (by omega)

theorem contentLoop_total (fuel : Nat) :
    ∀ (ptr : CStr) (xml : Xml) (n : Nat) (parent : Option Nat), ptr.length < fuel →
    contentLoop fuel ptr xml n parent ≠ .error .outOfFuel ∧
      (∀ st, contentLoop fuel ptr xml n parent = .ok st → st.ptr.length < ptr.length) ∧
      ∀ fuel1, ptr.length < fuel1 →
        contentLoop fuel1 ptr xml n parent = contentLoop fuel ptr xml n parent := by
  induction fuel with
  | zero => intro ptr xml n parent h; omega
  | succ f ih =>
    intro ptr xml n parent hlen
    rcases contentLoop_turn ptr xml n parent with ⟨st, hst, h⟩ | ⟨e, he, h⟩ |
      ⟨ptr1, xml1, p, parent1, hlt, h⟩
    · refine ⟨by rw [h]; simp, fun r hr => ?_, fun fuel1 h1 => ?_⟩
      · rw [h] at hr
        simp only [Except.ok.injEq] at hr
        rw [← hr]
        exact hst
      · obtain ⟨g, rfl⟩ : ∃ g, fuel1 = g + 1 := ⟨fuel1 - 1, by omega⟩
        rw [h, h]
    · refine ⟨by rw [h]; simpa using he, fun r hr => ?_, fun fuel1 h1 => ?_⟩
      · rw [h] at hr
        cases hr
      · obtain ⟨g, rfl⟩ : ∃ g, fuel1 = g + 1 := ⟨fuel1 - 1, by omega⟩
        rw [h, h]
    · obtain ⟨i1, i2, i3⟩ := ih ptr1 xml1 p parent1 (by omega)
      refine ⟨by rw [h]; exact i1, fun r hr => ?_, fun fuel1 h1 => ?_⟩
      · rw [h] at hr
        exact (i2 r hr).trans hlt
      · obtain ⟨g, rfl⟩ : ∃ g, fuel1 = g + 1 := ⟨fuel1 - 1, by omega⟩
        rw [h, h]
        exact i3 g (by omega)

/-- The end of a turn of the element loop: the inner loop, then the loop is left or goes
on with a shorter rest of the text. -/
theorem continueParse_turn (G : Nat) (ptr : CStr) (xml : Xml) (n : Nat) (par : Option Nat)
    (hG : ptr.length < G) :
    (∃ r : CStr × Xml, r.1.length < ptr.length ∧
        ∀ F, continueParse F G ptr xml n par = .ok r) ∨
      (∃ e, e ≠ Fatal.outOfFuel ∧ ∀ F, continueParse F G ptr xml n par = .error e) ∨
      ∃ ptr1 xml1 m, ptr1.length < ptr.length ∧
        ∀ F, continueParse F G ptr xml n par = elementLoop F ptr1 xml1 (some m) := by
  obtain ⟨c1, c2, _⟩ := contentLoop_total G ptr xml n par hG
  rcases result_cases _ c1 with ⟨st, hst⟩ | ⟨e, he, hst⟩
  · have hlt := c2 st hst
    cases hn : st.node with
    | none =>
      exact Or.inl ⟨(st.ptr, st.xml), hlt, fun F => by
        simp only [continueParse, hst, ok_bind, hn]
        rfl⟩
    | some m =>
      exact Or.inr (Or.inr ⟨st.ptr, st.xml, m, hlt, fun F => by
        simp only [continueParse, hst, ok_bind, hn]⟩)
  · exact Or.inr (Or.inl ⟨e, he, fun F => by simp only [continueParse, hst, error_bind]⟩)

/-- The checks between the attributes of a tag and the text behind its `>`. -/
theorem afterTag_turn (ptr5 : CStr) (xml3 : Xml) (node : Nat) (parent1 : Option Nat) :
    (∃ r : CStr × Xml, r.1.length < ptr5.length ∧
        ∀ F, (ASSERT_NOT_EMPTY ptr5 >>= fun _ =>
          errorUnless (peek ptr5 = 62) (Fatal.syntaxError "Expected 'XML_NODE_END'") >>= fun _ =>
          ASSERT_NOT_EMPTY (ptr5.drop 1) >>= fun _ =>
          continueParse F ((ptr5.drop 1).length + 1) (ptr5.drop 1) xml3 node parent1) = .ok r) ∨
      (∃ e, e ≠ Fatal.outOfFuel ∧
        ∀ F, (ASSERT_NOT_EMPTY ptr5 >>= fun _ =>
          errorUnless (peek ptr5 = 62) (Fatal.syntaxError "Expected 'XML_NODE_END'") >>= fun _ =>
          ASSERT_NOT_EMPTY (ptr5.drop 1) >>= fun _ =>
          continueParse F ((ptr5.drop 1).length + 1) (ptr5.drop 1) xml3 node parent1) =
            .error e) ∨
      ∃ ptr1 xml1 m, ptr1.length < ptr5.length ∧
        ∀ F, (ASSERT_NOT_EMPTY ptr5 >>= fun _ =>
          errorUnless (peek ptr5 = 62) (Fatal.syntaxError "Expected 'XML_NODE_END'") >>= fun _ =>
          ASSERT_NOT_EMPTY (ptr5.drop 1) >>= fun _ =>
          continueParse F ((ptr5.drop 1).length + 1) (ptr5.drop 1) xml3 node parent1) =
            elementLoop F ptr1 xml1 (some m) := by
  rcases unit_cases _ (ASSERT_NOT_EMPTY_noFuel ptr5) with h1 | ⟨e, he, h1⟩
  swap
  · exact Or.inr (Or.inl ⟨e, he, fun F => by simp only [h1, error_bind]⟩)
  rcases unit_cases _ (errorUnless_noFuel (peek ptr5 = 62) "Expected 'XML_NODE_END'")
    with h2 | ⟨e, he, h2⟩
  swap
  · exact Or.inr (Or.inl ⟨e, he, fun F => by simp only [h1, h2, ok_bind, error_bind]⟩)
  rcases unit_cases _ (ASSERT_NOT_EMPTY_noFuel (ptr5.drop 1)) with h3 | ⟨e, he, h3⟩
  swap
  · exact Or.inr (Or.inl ⟨e, he, fun F => by simp only [h1, h2, h3, ok_bind, error_bind]⟩)
  have a := drop_one_length_lt _ ((ASSERT_NOT_EMPTY_ok_iff _).mp h1)
  rcases continueParse_turn ((ptr5.drop 1).length + 1) (ptr5.drop 1) xml3 node parent1
    (Nat.lt_succ_self _) with ⟨r, hr, h⟩ | ⟨e, he, h⟩ | ⟨ptr1, xml1, m, hlt, h⟩
  · exact Or.inl ⟨r, hr.trans a, fun F => by simp only [h1, h2, h3, ok_bind, h F]⟩
  · exact Or.inr (Or.inl ⟨e, he, fun F => by simp only [h1, h2, h3, ok_bind, h F]⟩)
  · exact Or.inr (Or.inr ⟨ptr1, xml1, m, hlt.trans a, fun F => by
      simp only [h1, h2, h3, ok_bind, h F]⟩)

theorem peek_ne_nil (ptr : CStr) (c : Nat) (h : peek ptr = c) (hc : c ≠ 0) : ptr ≠ [] := by
  intro h0
  rw [h0] at h
  exact hc h.symm

/-- One turn of the element loop: the loop is left behind the `>` that ends the root, or
a check ends the run, or the loop goes on behind a `<`; the rest of the text is shorter
each time. -/
theorem elementLoop_turn (ptr : CStr) (xml : Xml) (parent : Option Nat) :
    (∃ r : CStr × Xml, r.1.length < ptr.length ∧
        ∀ fuel, elementLoop (fuel + 1) ptr xml parent = .ok r) ∨
      (∃ e, e ≠ Fatal.outOfFuel ∧ ∀ fuel, elementLoop (fuel + 1) ptr xml parent = .error e) ∨
      ∃ ptr1 xml1 m, ptr1.length < ptr.length ∧
        ∀ fuel, elementLoop (fuel + 1) ptr xml parent = elementLoop fuel ptr1 xml1 (some m) := by
  rcases result_cases _ (newNode_noFuel xml parent) with ⟨⟨xml1, n⟩, h1⟩ | ⟨e, he, h1⟩
  swap
  · exact Or.inr (Or.inl ⟨e, he, fun fuel => by simp only [elementLoop, h1, error_bind]⟩)
  rcases unit_cases _ (ASSERT_FITS_IN_BOUND_noFuel xml1.nodes.length XML_MAX_NODES)
    with h2 | ⟨e, he, h2⟩
  swap
  · exact Or.inr (Or.inl ⟨e, he, fun fuel => by
      simp only [elementLoop, h1, h2, ok_bind, error_bind]⟩)
  rcases unit_cases _ (ASSERT_FITS_IN_BOUND_noFuel (ptr.takeWhile isTagByte).length
    XML_MAX_TAG_SIZE) with h3 | ⟨e, he, h3⟩
  swap
  · exact Or.inr (Or.inl ⟨e, he, fun fuel => by
      simp only [elementLoop, h1, h2, h3, ok_bind, error_bind]⟩)
  rcases unit_cases _ (ASSERT_NOT_EMPTY_noFuel (ptr.dropWhile isTagByte)) with h4 | ⟨e, he, h4⟩
  swap
  · exact Or.inr (Or.inl ⟨e, he, fun fuel => by
      simp only [elementLoop, h1, h2, h3, h4, ok_bind, error_bind]⟩)
  rcases unit_cases _ (ASSERT_NOT_EMPTY_noFuel (skipSpaces (ptr.dropWhile isTagByte)))
    with h5 | ⟨e, he, h5⟩
  swap
  · exact Or.inr (Or.inl ⟨e, he, fun fuel => by
      simp only [elementLoop, h1, h2, h3, h4, h5, ok_bind, error_bind]⟩)
  obtain ⟨b1, b2, _⟩ := attributeLoop_total ((skipSpaces (ptr.dropWhile isTagByte)).length + 1)
    (skipSpaces (ptr.dropWhile isTagByte)) [] (Nat.lt_succ_self _)
  rcases result_cases _ b1 with ⟨⟨ptr3, attrs⟩, h6⟩ | ⟨e, he, h6⟩
  swap
  · exact Or.inr (Or.inl ⟨e, he, fun fuel => by
      simp only [elementLoop, h1, h2, h3, h4, h5, h6, ok_bind, error_bind]⟩)
  have a1 := dropWhile_length_le isTagByte ptr
  have a2 := skipSpaces_length_le (ptr.dropWhile isTagByte)
  have a3 : ptr3.length ≤ (skipSpaces (ptr.dropWhile isTagByte)).length := b2 _ h6
  generalize hxml3 : updateNode (updateNode xml1 n (fun nd => { nd with tag := ptr.takeWhile isTagByte }))
    n (fun nd => { nd with attributes := attrs }) = xml3
  by_cases h47 : peek ptr3 = 47
  · have hne : ptr3 ≠ [] := peek_ne_nil ptr3 47 h47 (by decide)
    have a4 := drop_one_length_lt ptr3 hne
    rcases unit_cases _ (ASSERT_NOT_EMPTY_noFuel (ptr3.drop 1)) with h7 | ⟨e, he, h7⟩
    swap
    · exact Or.inr (Or.inl ⟨e, he, fun fuel => by
        simp only [elementLoop, h1, h2, h3, h4, h5, h6, ok_bind, if_pos h47, h7, error_bind]⟩)
    cases parent with
    | none =>
      refine Or.inl ⟨(ptr3.drop 1, xml3), by simp only; omega, fun fuel => ?_⟩
      simp only [elementLoop, h1, h2, h3, h4, h5, h6, ok_bind, if_pos h47, h7, hxml3, pure_bind]
      rfl
    | some p =>
      rcases result_cases _ (getNode_noFuel xml3 p) with ⟨pnode, h8⟩ | ⟨e, he, h8⟩
      swap
      · exact Or.inr (Or.inl ⟨e, he, fun fuel => by
          simp only [elementLoop, h1, h2, h3, h4, h5, h6, ok_bind, if_pos h47, h7, hxml3, h8,
            error_bind]⟩)
      have key : ∀ fuel, elementLoop (fuel + 1) ptr xml (some p) =
          (ASSERT_NOT_EMPTY (ptr3.drop 1) >>= fun _ =>
          errorUnless (peek (ptr3.drop 1) = 62) (Fatal.syntaxError "Expected 'XML_NODE_END'")
            >>= fun _ =>
          ASSERT_NOT_EMPTY ((ptr3.drop 1).drop 1) >>= fun _ =>
          continueParse fuel (((ptr3.drop 1).drop 1).length + 1) ((ptr3.drop 1).drop 1) xml3 p
            pnode.parent) := by
        intro fuel
        simp only [elementLoop, h1, h2, h3, h4, h5, h6, ok_bind, if_pos h47, h7, hxml3, h8,
          pure_bind, continueParse]
      rcases afterTag_turn (ptr3.drop 1) xml3 p pnode.parent with ⟨r, hr, h⟩ | ⟨e, he, h⟩ |
        ⟨q1, x1, m, hlt, h⟩
      · exact Or.inl ⟨r, by omega, fun fuel => by rw [key, h]⟩
      · exact Or.inr (Or.inl ⟨e, he, fun fuel => by rw [key, h]⟩)
      · exact Or.inr (Or.inr ⟨q1, x1, m, by omega, fun fuel => by rw [key, h]⟩)
  · have key : ∀ fuel, elementLoop (fuel + 1) ptr xml parent =
        (ASSERT_NOT_EMPTY ptr3 >>= fun _ =>
        errorUnless (peek ptr3 = 62) (Fatal.syntaxError "Expected 'XML_NODE_END'") >>= fun _ =>
        ASSERT_NOT_EMPTY (ptr3.drop 1) >>= fun _ =>
        continueParse fuel ((ptr3.drop 1).length + 1) (ptr3.drop 1) xml3 n parent) := by
      intro fuel
      simp only [elementLoop, h1, h2, h3, h4, h5, h6, ok_bind, if_neg h47, hxml3, pure_bind,
        continueParse]
    rcases afterTag_turn ptr3 xml3 n parent with ⟨r, hr, h⟩ | ⟨e, he, h⟩ | ⟨q1, x1, m, hlt, h⟩
    · exact Or.inl ⟨r, by omega, fun fuel => by rw [key, h]⟩
    · exact Or.inr (Or.inl ⟨e, he, fun fuel => by rw [key, h]⟩)
    · exact Or.inr (Or.inr ⟨q1, x1, m, by omega, fun fuel => by rw [key, h]⟩)

theorem elementLoop_total (fuel : Nat) :
    ∀ (ptr : CStr) (xml : Xml) (parent : Option Nat), ptr.length < fuel →
    elementLoop fuel ptr xml parent ≠ .error .outOfFuel ∧
      (∀ r, elementLoop fuel ptr xml parent = .ok r → r.1.length < ptr.length) ∧
      ∀ fuel1, ptr.length < fuel1 →
        elementLoop fuel1 ptr xml parent = elementLoop fuel ptr xml parent := by
  induction fuel with
  | zero => intro ptr xml parent h; omega
  | succ f ih =>
    intro ptr xml parent hlen
    rcases elementLoop_turn ptr xml parent with ⟨st, hst, h⟩ | ⟨e, he, h⟩ |
      ⟨ptr1, xml1, m, hlt, h⟩
    · refine ⟨by rw [h]; simp, fun r hr => ?_, fun fuel1 h1 => ?_⟩
      · rw [h] at hr
        simp only [Except.ok.injEq] at hr
        rw [← hr]
        exact hst
      · obtain ⟨g, rfl⟩ : ∃ g, fuel1 = g + 1 := ⟨fuel1 - 1, by omega⟩
        rw [h, h]
    · refine ⟨by rw [h]; simpa using he, fun r hr => ?_, fun fuel1 h1 => ?_⟩
      · rw [h] at hr
        cases hr
      · obtain ⟨g, rfl⟩ : ∃ g, fuel1 = g + 1 := ⟨fuel1 - 1, by omega⟩
        rw [h, h]
    · obtain ⟨i1, i2, i3⟩ := ih ptr1 xml1 (some m) (by omega)
      refine ⟨by rw [h]; exact i1, fun r hr => ?_, fun fuel1 h1 => ?_⟩
      · rw [h] at hr
        exact (i2 r hr).trans hlt
      · obtain ⟨g, rfl⟩ : ∃ g, fuel1 = g + 1 := ⟨fuel1 - 1, by omega⟩
        rw [h, h]
        exact i3 g (by omega)

/-- The parser never stops for want of fuel: the counters it is run with suffice. -/
theorem fromString_xml_noFuel (s : CStr) : fromString_xml s ≠ .error .outOfFuel := by
  unfold fromString_xml
  refine bind_noFuel _ _ (ASSERT_NOT_EMPTY_noFuel _) fun _ _ => ?_
  refine bind_noFuel _ _ (ASSERT_NOT_TOO_LONG_noFuel _ _) fun _ _ => ?_
  refine bind_noFuel _ _ initialize_xml_noFuel fun xml _ => ?_
  refine bind_noFuel _ _ (ASSERT_XML_noFuel _) fun _ _ => ?_
  refine bind_noFuel _ _ (ASSERT_NOT_EMPTY_noFuel _) fun _ _ => ?_
  refine bind_noFuel _ _ (errorUnless_noFuel _ _) fun _ _ => ?_
  refine bind_noFuel _ _ (ASSERT_NOT_EMPTY_noFuel _) fun _ _ => ?_
  refine bind_noFuel _ _ (metaLoop_total _ _ _ (Nat.lt_succ_self _)).1 fun r1 _ => ?_
  refine bind_noFuel _ _ (elementLoop_total _ _ _ _ (Nat.lt_succ_self _)).1 fun r2 _ => ?_
  refine bind_noFuel _ _ (ASSERT_EMPTY_noFuel _) fun _ _ => ?_
  simp [pure, Except.pure]

/-! ## The counts of the name table -/

theorem replaceInRow_keys (k : CStr) (v : Nat) (row row' : List Mapping)
    (h : replaceInRow k v row = some row') :
    row'.map (·.key) = row.map (·.key) ∧ k ∈ row.map (·.key) := by
  induction row generalizing row' with
  | nil => simp [replaceInRow] at h
  | cons m ms ih =>
    unfold replaceInRow at h
    split at h
    · rename_i hm
      simp only [Option.some.injEq] at h
      subst h
      exact ⟨rfl, by simp [hm]⟩
    · cases hr : replaceInRow k v ms with
      | none => simp [hr] at h
      | some r =>
        simp only [hr, Option.map_some', Option.some.injEq] at h
        subst h
        obtain ⟨h1, h2⟩ := ih r hr
        exact ⟨by simp only [List.map_cons, h1], List.mem_cons_of_mem _ h2⟩

theorem replaceInRow_none_keys (k : CStr) (v : Nat) (row : List Mapping)
    (h : replaceInRow k v row = none) : k ∉ row.map (·.key) := by
  induction row with
  | nil => simp
  | cons m ms ih =>
    unfold replaceInRow at h
    split at h
    · simp at h
    · rename_i hm
      simp only [Option.map_eq_none'] at h
      have := ih h
      simp only [List.map_cons, List.mem_cons, not_or]
      exact ⟨fun e => hm e.symm, this⟩

theorem replaceInRow_some_of_mem (k : CStr) (v : Nat) (row : List Mapping)
    (h : k ∈ row.map (·.key)) : ∃ row', replaceInRow k v row = some row' := by
  cases hr : replaceInRow k v row with
  | some r => exact ⟨r, rfl⟩
  | none => exact absurd h (replaceInRow_none_keys k v row hr)

theorem sum_rows_update (f : Nat → List Mapping) (i : Nat) (row : List Mapping)
    (hi : i < HT_ROW_COUNT) :
    Finset.sum (Finset.range HT_ROW_COUNT) (fun r => (Function.update f i row r).length) +
        (f i).length =
      Finset.sum (Finset.range HT_ROW_COUNT) (fun r => (f r).length) + row.length := by
  have hmem : i ∈ Finset.range HT_ROW_COUNT := Finset.mem_range.mpr hi
  have e : (fun r => (Function.update f i row r).length) =
      Function.update (fun r => (f r).length) i row.length := by
    funext r
    by_cases hr : r = i
    · subst hr
      simp
    · simp [Function.update_noteq hr]
  rw [e, Finset.sum_update_of_mem hmem,
    Finset.sum_eq_add_sum_diff_singleton hmem (fun r => (f r).length)]
  omega

/-- One successful `insert_ht` keeps the counts of the table in step with the keys that
were inserted (`ks`, then `ks` and `k`). -/
theorem insert_ht_counts (ht ht' : HashTable) (k : CStr) (v : Nat) (ks : List CStr)
    (h : insert_ht ht k v = .ok ht')
    (h1 : ht.nKeys = Finset.sum (Finset.range HT_ROW_COUNT) (fun r => (ht.map r).length))
    (h2 : ht.nKeys = ks.toFinset.card)
    (h3 : ∀ r, ((ht.map r).map (·.key)).Nodup)
    (h4 : ∀ r, ∀ m ∈ ht.map r, hash m.key % HT_ROW_COUNT = r ∧ m.key ∈ ks)
    (h5 : ∀ k' ∈ ks, k' ∈ (ht.map (hash k' % HT_ROW_COUNT)).map (·.key))
    (h6 : ∀ k' ∈ ks, k'.length < HT_MAX_KEY_SIZE) :
    ht'.nKeys = Finset.sum (Finset.range HT_ROW_COUNT) (fun r => (ht'.map r).length) ∧
      ht'.nKeys = (ks ++ [k]).toFinset.card ∧
      (∀ r, ((ht'.map r).map (·.key)).Nodup) ∧
      (∀ r, ∀ m ∈ ht'.map r, hash m.key % HT_ROW_COUNT = r ∧ m.key ∈ ks ++ [k]) ∧
      (∀ k' ∈ ks ++ [k], k' ∈ (ht'.map (hash k' % HT_ROW_COUNT)).map (·.key)) ∧
      (∀ k' ∈ ks ++ [k], k'.length < HT_MAX_KEY_SIZE) ∧
      (k ∈ ks → ht'.nKeys = ht.nKeys ∧ ∀ r, (ht'.map r).length = (ht.map r).length) := by
  have hrow : hash k % HT_ROW_COUNT < HT_ROW_COUNT := Nat.mod_lt _ (by decide)
  unfold insert_ht at h
  simp only [bind_eq_ok, ASSERT_NOT_TOO_LONG_ok] at h
  obtain ⟨_, _, _, hklen, h⟩ := h
  have hlen : ∀ k' ∈ ks ++ [k], k'.length < HT_MAX_KEY_SIZE := by
    intro k' hk'
    rcases List.mem_append.mp hk' with hk' | hk'
    · exact h6 k' hk'
    · rw [List.mem_singleton.mp hk']
      exact hklen
  split at h
  · rename_i row hrep
    simp only [pure_eq_ok] at h
    subst h
    obtain ⟨hkeys, hmem⟩ := replaceInRow_keys k v _ row hrep
    have hlenrow := replaceInRow_length k v _ row hrep
    have hin : k ∈ ks := by
      obtain ⟨m, hm, hmk⟩ := List.mem_map.mp hmem
      rw [← hmk]
      exact (h4 _ m hm).2
    have hsame : ∀ r, ((Function.update ht.map (hash k % HT_ROW_COUNT) row r).map (·.key)) =
        (ht.map r).map (·.key) := by
      intro r
      by_cases hr : r = hash k % HT_ROW_COUNT
      · subst hr
        simp only [Function.update_same, hkeys]
      · simp only [Function.update_noteq hr]
    have hsamelen : ∀ r, (Function.update ht.map (hash k % HT_ROW_COUNT) row r).length =
        (ht.map r).length := by
      intro r
      have := congrArg List.length (hsame r)
      simpa using this
    have hfin : (ks ++ [k]).toFinset = ks.toFinset := by
      ext x
      simp only [List.mem_toFinset, List.mem_append, List.mem_singleton]
      constructor
      · rintro (hx | hx)
        · exact hx
        · rw [hx]; exact hin
      · exact Or.inl
    refine ⟨?_, ?_, ?_, ?_, ?_, hlen, fun _ => ⟨rfl, hsamelen⟩⟩
    · simp only [hsamelen]
      exact h1
    · simp only [hfin]
      exact h2
    · intro r
      simp only [hsame r]
      exact h3 r
    · intro r m hm
      have hmk : m.key ∈ (ht.map r).map (·.key) := by
        rw [← hsame r]
        exact List.mem_map_of_mem _ hm
      obtain ⟨m', hm', hmk'⟩ := List.mem_map.mp hmk
      have := h4 r m' hm'
      simp only [hmk'] at this
      exact ⟨this.1, List.mem_append_left _ this.2⟩
    · intro k' hk'
      simp only [hsame]
      rcases List.mem_append.mp hk' with hk' | hk'
      · exact h5 k' hk'
      · rw [List.mem_singleton.mp hk']
        exact h5 k hin
  · rename_i hrep
    simp only [bind_eq_ok, ASSERT_FITS_IN_BOUND_ok, fromPattern_ok, pure_eq_ok] at h
    obtain ⟨_, _, kk, ⟨_, hkk⟩, _, _, h⟩ := h
    subst h hkk
    have hnot := replaceInRow_none_keys k v _ hrep
    have hnin : k ∉ ks := fun hin => hnot (h5 k hin)
    refine ⟨?_, ?_, ?_, ?_, ?_, hlen, fun hin => absurd hin hnin⟩
    · have := sum_rows_update ht.map (hash k % HT_ROW_COUNT)
        (ht.map (hash k % HT_ROW_COUNT) ++ [⟨k, v⟩]) hrow
      simp only [List.length_append, List.length_singleton] at this
      simp only
      omega
    · have : (ks ++ [k]).toFinset = insert k ks.toFinset := by
        ext x
        simp only [List.mem_toFinset, List.mem_append, List.mem_singleton, Finset.mem_insert]
        tauto
      rw [this, Finset.card_insert_of_not_mem (by simpa using hnin)]
      simp only
      omega
    · intro r
      by_cases hr : r = hash k % HT_ROW_COUNT
      · subst hr
        simp only [Function.update_same, List.map_append, List.map_cons, List.map_nil]
        rw [List.nodup_append]
        refine ⟨h3 _, List.nodup_singleton _, ?_⟩
        intro x hx hx'
        rw [List.mem_singleton.mp hx'] at hx
        exact hnot hx
      · simp only [Function.update_noteq hr]
        exact h3 r
    · intro r m hm
      by_cases hr : r = hash k % HT_ROW_COUNT
      · subst hr
        simp only [Function.update_same, List.mem_append, List.mem_singleton] at hm
        rcases hm with hm | hm
        · exact ⟨(h4 _ m hm).1, List.mem_append_left _ (h4 _ m hm).2⟩
        · subst hm
          exact ⟨rfl, by simp⟩
      · simp only [Function.update_noteq hr] at hm
        exact ⟨(h4 _ m hm).1, List.mem_append_left _ (h4 _ m hm).2⟩
    · intro k' hk'
      by_cases hr : hash k' % HT_ROW_COUNT = hash k % HT_ROW_COUNT
      · rw [hr]
        simp only [Function.update_same, List.map_append, List.map_cons, List.map_nil,
          List.mem_append, List.mem_singleton]
        rcases List.mem_append.mp hk' with hk' | hk'
        · left
          have := h5 k' hk'
          rw [hr] at this
          exact this
        · right
          exact List.mem_singleton.mp hk'
      · simp only [Function.update_noteq hr]
        rcases List.mem_append.mp hk' with hk' | hk'
        · exact h5 k' hk'
        · rw [List.mem_singleton.mp hk'] at hr
          exact absurd rfl hr

/-- A run of successful `insert_ht` calls keeps the counts of the table in step with
the keys inserted so far. -/
theorem insertAll_counts (ops : List (CStr × Nat)) (start ht : HashTable) (ks : List CStr)
    (h : insertAll ops start = .ok ht)
    (h1 : start.nKeys =
      Finset.sum (Finset.range HT_ROW_COUNT) (fun r => (start.map r).length))
    (h2 : start.nKeys = ks.toFinset.card)
    (h3 : ∀ r, ((start.map r).map (·.key)).Nodup)
    (h4 : ∀ r, ∀ m ∈ start.map r, hash m.key % HT_ROW_COUNT = r ∧ m.key ∈ ks)
    (h5 : ∀ k' ∈ ks, k' ∈ (start.map (hash k' % HT_ROW_COUNT)).map (·.key))
    (h6 : ∀ k' ∈ ks, k'.length < HT_MAX_KEY_SIZE) :
    ht.nKeys = Finset.sum (Finset.range HT_ROW_COUNT) (fun r => (ht.map r).length) ∧
      ht.nKeys = (ks ++ ops.map (·.1)).toFinset.card ∧
      (∀ r, ((ht.map r).map (·.key)).Nodup) ∧
      (∀ r, ∀ m ∈ ht.map r, hash m.key % HT_ROW_COUNT = r ∧ m.key ∈ ks ++ ops.map (·.1)) ∧
      (∀ k' ∈ ks ++ ops.map (·.1), k' ∈ (ht.map (hash k' % HT_ROW_COUNT)).map (·.key)) ∧
      (∀ k' ∈ ks ++ ops.map (·.1), k'.length < HT_MAX_KEY_SIZE) := by
  induction ops generalizing start ks with
  | nil =>
    simp only [insertAll, Except.ok.injEq] at h
    subst h
    simp only [List.map_nil, List.append_nil]
    exact ⟨h1, h2, h3, h4, h5, h6⟩
  | cons op rest ih =>
    simp only [insertAll, bind_eq_ok] at h
    obtain ⟨ht1, hstep, hrest⟩ := h
    obtain ⟨g1, g2, g3, g4, g5, g6, _⟩ :=
      insert_ht_counts start ht1 op.1 op.2 ks hstep h1 h2 h3 h4 h5 h6
    have := ih ht1 (ks ++ [op.1]) hrest g1 g2 g3 g4 g5 g6
    simpa only [List.map_cons, List.append_assoc, List.singleton_append] using this

/-- Inserting a key that the table holds changes neither `nKeys` nor the length of a
row. -/
theorem insert_ht_present (ht : HashTable) (k : CStr) (v : Nat)
    (hv : ASSERT_HASHTABLE ht = .ok ()) (hlen : k.length < HT_MAX_KEY_SIZE)
    (hk : k ∈ (ht.map (hash k % HT_ROW_COUNT)).map (·.key)) :
    ∃ ht', insert_ht ht k v = .ok ht' ∧ ht'.nKeys = ht.nKeys ∧
      ∀ r, (ht'.map r).length = (ht.map r).length := by
  obtain ⟨row, hrow⟩ := replaceInRow_some_of_mem k v _ hk
  have hl := replaceInRow_length k v _ row hrow
  have hv' : ASSERT_HASHTABLE
      { nKeys := ht.nKeys, map := Function.update ht.map (hash k % HT_ROW_COUNT) row } =
        .ok () := by
    have := hv
    simp only [ASSERT_HASHTABLE_ok] at this ⊢
    exact this
  refine ⟨{ nKeys := ht.nKeys, map := Function.update ht.map (hash k % HT_ROW_COUNT) row },
    ?_, rfl, ?_⟩
  · unfold insert_ht
    have hl2 : ASSERT_NOT_TOO_LONG k HT_MAX_KEY_SIZE = .ok () := ASSERT_NOT_TOO_LONG_ok.mpr hlen
    simp only [hv, ok_bind, hl2, hrow, hv']
    rfl
  · intro r
    by_cases hr : r = hash k % HT_ROW_COUNT
    · subst hr
      simp only [Function.update_same, hl]
    · simp only [Function.update_noteq hr]

/-! ## What follows the root element -/

theorem skipSpaces_spaces_append (sp rest : CStr) (h : spaceOk sp = true) :
    skipSpaces (sp ++ rest) = skipSpaces rest := by
  induction sp with
  | nil => rfl
  | cons x xs ih =>
    simp only [spaceOk, List.all_cons, Bool.and_eq_true] at h
    simp only [skipSpaces, List.cons_append, List.dropWhile, h.1]
    exact ih h.2

/-- The parser on a document that is written as the grammar says, followed by any text:
the work of `buildDoc`, then `ASSERT_EMPTY` on what the text has behind its whitespace. -/
theorem parse_eq_junk (D : Doc) (hlex : D.lexOk = true) (junk : CStr) :
    fromString_xml (docText D ++ junk) =
      (ASSERT_NOT_TOO_LONG (docText D ++ junk) BUFFER_LARGE_SIZE >>= fun _ =>
        buildDoc D >>= fun xml => ASSERT_EMPTY (skipSpaces junk) >>= fun _ => pure xml) := by
  simp only [Doc.lexOk, Bool.and_eq_true, bne_iff_ne, ne_eq] at hlex
  obtain ⟨⟨⟨⟨⟨⟨hlead, hprolog⟩, hhead⟩, h63⟩, hinner⟩, hclose⟩, htrail⟩ := hlex
  have htagOk : D.tag.all isTagByte = true := by
    simp only [headOk, tagOk, Bool.and_eq_true] at hhead
    exact hhead.1.1.1.2
  obtain ⟨hbne, _, hb63⟩ := head_peek D.tag D.space D.attrs
    (62 :: (itemsText D.inner ++ 47 :: (D.closeName ++ D.closeSpace ++ 62 :: (D.trail ++ junk)))) hhead
  have hb63 := hb63.resolve_left h63
  have e : docText D ++ junk = D.lead ++ 60 :: (prologText D.prolog ++
      (D.tag ++ D.space ++ attrsText D.attrs ++
        62 :: (itemsText D.inner ++ 47 :: (D.closeName ++ D.closeSpace ++ 62 :: (D.trail ++ junk))))) := by
    simp only [docText, List.append_assoc, List.cons_append]
  have hne : docText D ++ junk ≠ [] := by rw [e]; simp
  have hsk := skipSpaces_append_cons D.lead 60 (prologText D.prolog ++
      (D.tag ++ D.space ++ attrsText D.attrs ++
        62 :: (itemsText D.inner ++ 47 :: (D.closeName ++ D.closeSpace ++ 62 :: (D.trail ++ junk)))))
      hlead (by decide)
  have hr : prologText D.prolog ++
      (D.tag ++ D.space ++ attrsText D.attrs ++
        62 :: (itemsText D.inner ++ 47 :: (D.closeName ++ D.closeSpace ++ 62 :: (D.trail ++ junk)))) ≠ [] := by
    intro h
    exact hbne (List.append_eq_nil.mp h).2
  have hml := metaLoop_prolog D.prolog hprolog
    ((prologText D.prolog ++
      (D.tag ++ D.space ++ attrsText D.attrs ++
        62 :: (itemsText D.inner ++ 47 :: (D.closeName ++ D.closeSpace ++ 62 :: (D.trail ++ junk))))).length + 1)
    (D.tag ++ D.space ++ attrsText D.attrs ++
        62 :: (itemsText D.inner ++ 47 :: (D.closeName ++ D.closeSpace ++ 62 :: (D.trail ++ junk))))
  have hxml0 : ASSERT_XML
      (Xml.mk (bytes "<?xml version='1.0' encoding='UTF-8' standalone='yes'?>") []) = .ok () := by
    decide!
  unfold fromString_xml buildDoc
  simp only [ASSERT_NOT_EMPTY, if_neg hne, ok_bind, initialize_xml_eq, hxml0, bind_assoc]
  cases hlen : ASSERT_NOT_TOO_LONG (docText D ++ junk) BUFFER_LARGE_SIZE with
  | error err => simp only [error_bind]
  | ok u =>
    simp only [ok_bind]
    rw [e, hsk]
    simp only [peek, List.headD_cons, errorUnless, if_true, ok_bind, List.drop_succ_cons,
      List.drop_zero, if_neg hr, reduceCtorEq, if_false]
    rw [hml _ (by have := prologText_length D.prolog; simp only [List.length_append]; omega)
      hbne hb63]
    simp only [bind_assoc, pure_bind]
    cases hpr : buildProlog D.prolog
        (Xml.mk (bytes "<?xml version='1.0' encoding='UTF-8' standalone='yes'?>") []) with
    | error err => simp only [error_bind]
    | ok xml1 =>
      simp only [ok_bind]
      rw [elementLoop_open _ D.tag D.space D.attrs _ xml1 none hhead]
      cases hop : openElement D.tag D.attrs xml1 none with
      | error err => simp only [error_bind]
      | ok r =>
        obtain ⟨xml2, n⟩ := r
        obtain ⟨ndm, hm, hmtag, hmpar⟩ := openElement_root_node D.tag D.attrs xml1 xml2 n hop
        have hk1 : itemsText D.inner ++ 47 :: (D.closeName ++ D.closeSpace ++ 62 :: (D.trail ++ junk)) ≠ [] := by
          simp
        obtain ⟨F', G', _, _, hsim⟩ := items_sim D.inner hinner D.closeName D.closeSpace (D.trail ++ junk)
          hclose (D.tag ++ D.space ++ attrsText D.attrs ++
            62 :: (itemsText D.inner ++ 47 :: (D.closeName ++ D.closeSpace ++ 62 :: (D.trail ++ junk)))).length
          ((itemsText D.inner ++ 47 :: (D.closeName ++ D.closeSpace ++ 62 :: (D.trail ++ junk))).length + 1)
          (by simp only [List.length_append, List.length_cons]; omega) (by omega)
        simp only [ok_bind, ASSERT_NOT_EMPTY, if_neg hk1]
        rw [hsim xml2 n none ndm hm (by rw [hmtag]; exact htagOk) hmpar]
        simp only [bind_assoc, pure_bind, skipSpaces_spaces_append D.trail junk htrail]

theorem skipSpaces_eq_nil_iff (s : CStr) : skipSpaces s = [] ↔ s.all isspace = true := by
  induction s with
  | nil => simp [skipSpaces]
  | cons c t ih =>
    by_cases hc : isspace c = true
    · simp only [skipSpaces, List.dropWhile, hc, List.all_cons, Bool.true_and] at ih ⊢
      exact ih
    · simp only [Bool.not_eq_true] at hc
      simp [skipSpaces, List.dropWhile, hc]

/-- A text that the parser accepts has whitespace only behind the place where the
element loop is left, which is behind the `>` that ends the root element. -/
theorem fromString_xml_rest (s : CStr) (xml : Xml) (h : fromString_xml s = .ok xml) :
    ∃ ptr3 xml1 ptr4, ptr3.length < s.length ∧ ptr4.length < ptr3.length ∧
      elementLoop (ptr3.length + 1) ptr3 xml1 none = .ok (ptr4, xml) ∧
      ptr4.all isspace = true := by
  unfold fromString_xml at h
  simp only [bind_eq_ok] at h
  obtain ⟨_, _, _, _, xml0, _, _, _, _, hne, _, _, _, _, ⟨ptr3, xml1⟩, hmeta,
    ⟨ptr4, xml2⟩, helem, _, hempty, h⟩ := h
  simp only [pure_eq_ok] at h
  subst h
  have hsk : skipSpaces ptr4 = [] := by
    unfold ASSERT_EMPTY at hempty
    split at hempty
    · assumption
    · cases hempty
  have hne1 : skipSpaces s ≠ [] := by
    unfold ASSERT_NOT_EMPTY at hne
    split at hne
    · cases hne
    · assumption
  have a1 := (List.dropWhile_sublist isspace : (skipSpaces s).Sublist s).length_le
  have a2 : ((skipSpaces s).drop 1).length < (skipSpaces s).length := by
    cases hs : skipSpaces s with
    | nil => exact absurd hs hne1
    | cons c t => simp
  have a3 : ptr3.length ≤ ((skipSpaces s).drop 1).length :=
    (metaLoop_total _ _ _ (Nat.lt_succ_self _)).2.1 _ hmeta
  have a4 : ptr4.length < ptr3.length :=
    (elementLoop_total _ _ _ _ (Nat.lt_succ_self _)).2.1 _ helem
  have a5 : (skipSpaces s).length ≤ s.length := a1
  exact ⟨ptr3, xml1, ptr4, by omega, a4, helem, (skipSpaces_eq_nil_iff ptr4).mp hsk⟩

theorem docText_ne_nil (D : Doc) : docText D ≠ [] := by
  simp [docText]

theorem bigDoc_textLen : bigDoc.textLen = 131017 := by decide!

theorem bigDoc_printLen : bigDoc.printLen = 131072 := by decide!

theorem bigDoc_lexOk : bigDoc.lexOk = true := by decide!

theorem bigDoc_bounded : bigDoc.bounded = true := by decide!

theorem bigDoc_fits : bigDoc.fits = true := by decide!

theorem bigDoc_built :
    buildDoc bigDoc = .ok { meta := bigDoc.meta, nodes := bigDoc.nodes } := by
  decide!

theorem printDoc_text :
    docText printDoc =
      bytes "\n<?xml version=\"1.0\"?>\n<r  k='a\"b&lt;' > x>y <e />&amp;<f>it's</f ></r\n>\n" := by
  decide!

theorem printDoc_print :
    printDoc.print =
      bytes "<?xml version=\"1.0\"?><r k=\"a&quot;b&lt;\"> x&gt;y <e></e>&amp;<f>it&apos;s</f></r>" := by
  decide!

/-! ## The printer on the tree of a document -/

theorem encodeByte_symbols (c x : Nat) (hx : x ∈ encodeByte c) :
    x ≠ 60 ∧ x ≠ 62 ∧ x ≠ 34 ∧ x ≠ 39 := by
  have e1 : bytes "&lt;" = [38, 108, 116, 59] := by decide
  have e2 : bytes "&gt;" = [38, 103, 116, 59] := by decide
  have e3 : bytes "&quot;" = [38, 113, 117, 111, 116, 59] := by decide
  have e4 : bytes "&apos;" = [38, 97, 112, 111, 115, 59] := by decide
  have e5 : bytes "&amp;" = [38, 97, 109, 112, 59] := by decide
  unfold encodeByte at hx
  split_ifs at hx with h1 h2 h3 h4 h5
  · rw [e1] at hx
    simp only [List.mem_cons, List.mem_singleton, List.not_mem_nil, or_false] at hx
    omega
  · rw [e2] at hx
    simp only [List.mem_cons, List.mem_singleton, List.not_mem_nil, or_false] at hx
    omega
  · rw [e3] at hx
    simp only [List.mem_cons, List.mem_singleton, List.not_mem_nil, or_false] at hx
    omega
  · rw [e4] at hx
    simp only [List.mem_cons, List.mem_singleton, List.not_mem_nil, or_false] at hx
    omega
  · rw [e5] at hx
    simp only [List.mem_cons, List.mem_singleton, List.not_mem_nil, or_false] at hx
    omega
  · simp only [List.mem_singleton] at hx
    subst hx
    exact ⟨h1, h2, h3, h4⟩

theorem reencoded_symbols (t : CStr) (x : Nat) (hx : x ∈ reencoded t) :
    x ≠ 60 ∧ x ≠ 62 ∧ x ≠ 34 ∧ x ≠ 39 := by
  simp only [reencoded, List.mem_flatMap] at hx
  obtain ⟨c, _, hc⟩ := hx
  exact encodeByte_symbols c x hc

theorem reencoded_decode (t : CStr) : decodeReferences (reencoded t) = decodeReferences t :=
  decodeReferences_flatMap_encodeByte _

theorem reencoded_nil : reencoded [] = [] := by decide

theorem reencoded_length (t : CStr) (h : (decodeReferences t).length < XML_MAX_CONTENT_SIZE) :
    (reencoded t).length < 1536 := by
  have := flatMap_encodeByte_length (decodeReferences t)
  have h1 : XML_MAX_CONTENT_SIZE = 256 := rfl
  simp only [reencoded]
  omega

theorem private_toXmlString_decoded (t : CStr)
    (h : (decodeReferences t).length < XML_MAX_CONTENT_SIZE) :
    private_toXmlString (decodeReferences t) = .ok (reencoded t) := by
  have hl := reencoded_length t h
  have hb : ((decodeReferences t).flatMap encodeByte).length < BUFFER_SIZE := by
    have h2 : BUFFER_SIZE = 8192 := rfl
    simp only [reencoded] at hl
    omega
  rw [private_toXmlString_eq, if_pos hb]
  rfl

theorem private_fromXmlString_reencoded (t : CStr)
    (h : (decodeReferences t).length < XML_MAX_CONTENT_SIZE) :
    private_fromXmlString (reencoded t) = .ok (decodeReferences t) :=
  (decode_encode (decodeReferences t) h).2

theorem attrBounded_spec (a : AttrText) (h : attrBounded a = true) :
    a.name ≠ [] ∧ a.name.length < XML_MAX_ATTRIBUTE_NAME_SIZE ∧
      (decodeReferences a.raw).length < XML_MAX_ATTRIBUTE_VAL_SIZE := by
  simp only [attrBounded, Bool.and_eq_true, bne_iff_ne, ne_eq, decide_eq_true_eq] at h
  exact ⟨h.1.1, h.1.2, h.2⟩

theorem toString_xattr_decoded (a : AttrText) (h : attrBounded a = true) :
    toString_xattr { name := a.name, value := decodeReferences a.raw } =
      .ok (a.name ++ 61 :: 34 :: reencoded a.raw ++ [34]) := by
  obtain ⟨hn, hl, hv⟩ := attrBounded_spec a h
  have hv1 : (decodeReferences a.raw).length < XML_MAX_CONTENT_SIZE := hv
  have henc := private_toXmlString_decoded a.raw hv1
  have hlen := reencoded_length a.raw hv1
  have hp : fromPattern BUFFER_SIZE (a.name ++ [61, 34] ++ reencoded a.raw ++ [34]) =
      .ok (a.name ++ [61, 34] ++ reencoded a.raw ++ [34]) := by
    rw [fromPattern_ok]
    refine ⟨⟨by decide, by decide, ?_⟩, rfl⟩
    have h1 : XML_MAX_ATTRIBUTE_NAME_SIZE = 32 := rfl
    have h2 : BUFFER_SIZE = 8192 := rfl
    simp only [List.length_append, List.length_cons, List.length_nil]
    omega
  have hne : a.name ++ [61, 34] ++ reencoded a.raw ++ [34] ≠ [] := by simp
  unfold toString_xattr ASSERT_XMLATTRIBUTE
  simp only [henc, hp, ok_bind, ASSERT_NOT_EMPTY, ASSERT_NOT_TOO_LONG, if_neg hn, if_pos hl,
    if_pos hv, if_neg hne, pure, Except.pure]
  simp

theorem ASSERT_XMLATTRIBUTE_decoded (a : AttrText) (h : attrBounded a = true) :
    ASSERT_XMLATTRIBUTE { name := a.name, value := decodeReferences a.raw } = .ok () := by
  obtain ⟨hn, hl, hv⟩ := attrBounded_spec a h
  unfold ASSERT_XMLATTRIBUTE
  simp only [ok_bind, ASSERT_NOT_EMPTY, ASSERT_NOT_TOO_LONG, if_neg hn, if_pos hl, if_pos hv]

theorem toString_attributeLoop_decoded (attrs : List AttrText)
    (h : attrs.all attrBounded = true) :
    ∀ out, toString_attributeLoop (attrsOf attrs) out = .ok (out ++ printAttrs attrs) := by
  induction attrs with
  | nil =>
    intro out
    simp [toString_attributeLoop, attrsOf, printAttrs]
  | cons a rest ih =>
    intro out
    simp only [List.all_cons, Bool.and_eq_true] at h
    have e : attrsOf (a :: rest) =
        { name := a.name, value := decodeReferences a.raw } :: attrsOf rest := rfl
    have hne : a.name ++ 61 :: 34 :: reencoded a.raw ++ [34] ≠ [] := by simp
    rw [e, toString_attributeLoop]
    simp only [ASSERT_XMLATTRIBUTE_decoded a h.1, toString_xattr_decoded a h.1, ok_bind,
      ASSERT_NOT_EMPTY, if_neg hne]
    rw [ih h.2]
    simp [printAttrs]

theorem printAttrs_length (attrs : List AttrText) :
    (printAttrs attrs).length = printAttrsLen attrs := by
  induction attrs with
  | nil => rfl
  | cons a rest ih =>
    simp only [printAttrs, List.flatMap_cons, printAttrsLen, List.map_cons, List.sum_cons,
      List.length_append, List.length_cons, List.length_nil] at ih ⊢
    omega

theorem printElement_length (tag : CStr) (attrs : List AttrText) (body : CStr) :
    (printElement tag attrs body).length = 2 * tag.length + printAttrsLen attrs + 5 + body.length := by
  simp only [printElement, List.length_append, List.length_cons, List.length_nil,
    printAttrs_length]
  omega

theorem items_print_length (its : Items) : its.print.length = its.printLen := by
  induction its with
  | last t => rfl
  | self t tag sp attrs rest ih =>
    simp only [Items.print, Items.printLen, List.length_append, printElement_length, ih,
      List.length_nil]
  | elem t tag sp attrs inner cn cs rest ihin ihrest =>
    simp only [Items.print, Items.printLen, List.length_append, printElement_length, ihin,
      ihrest]

theorem doc_print_length (D : Doc) : D.print.length = D.printLen := by
  simp only [Doc.print, Doc.printLen, List.length_append, printElement_length,
    items_print_length]

theorem fragments_getD (texts : List CStr) (j : Nat) (t : CStr) (h : texts[j]? = some t)
    (hlen : texts.length ≤ XML_MAX_CHILDREN + 1) :
    (fragments texts).getD j [] = decodeReferences t := by
  rw [List.getD_eq_getElem?_getD, fragments_getElem? texts j t h hlen]
  rfl

/-- The printer on a node whose tag and attributes keep the limits: the checks and the
opening tag succeed, and what is left is the loop over the content, the final check and
the closing tag. -/
theorem toString_xmln_node (f : Nat) (xml : Xml) (n : Nat) (node : XmlNode)
    (attrs : List AttrText) (hn : xml.nodes[n]? = some node) (htag : node.tag ≠ [])
    (htl : node.tag.length < XML_MAX_TAG_SIZE) (hch : node.children.length < XML_MAX_CHILDREN)
    (hattrs : node.attributes = attrsOf attrs) (hal : attrs.length < XML_MAX_ATTRIBUTES)
    (hab : attrs.all attrBounded = true) :
    toString_xmln (f + 1) xml n =
      (toString_contentLoop xml (fun c => toString_xmln f xml c) node.content node.children 0
          (60 :: node.tag ++ printAttrs attrs ++ [62]) >>= fun body =>
        ASSERT_FITS_IN_BOUND body.length BUFFER_LARGE_SIZE >>= fun _ =>
        pure (body ++ (60 :: 47 :: node.tag ++ [62]))) := by
  have h32 : XML_MAX_TAG_SIZE = 32 := rfl
  have hB : BUFFER_SIZE = 8192 := rfl
  have hL : BUFFER_LARGE_SIZE = 131072 := rfl
  have hnode : ASSERT_XMLNODE node = .ok () := by
    rw [ASSERT_XMLNODE_ok]
    refine ⟨htag, htl, hch, ?_⟩
    rw [hattrs]
    simpa [attrsOf] using hal
  have hstart : fromPattern BUFFER_LARGE_SIZE (60 :: node.tag) = .ok (60 :: node.tag) := by
    rw [fromPattern_ok]
    refine ⟨⟨by decide, by decide, ?_⟩, rfl⟩
    simp only [List.length_cons]
    omega
  have hstop : fromPattern BUFFER_SIZE [62] = .ok [62] := by decide
  have hfinal : fromPattern BUFFER_SIZE (60 :: 47 :: node.tag ++ [62]) =
      .ok (60 :: 47 :: node.tag ++ [62]) := by
    rw [fromPattern_ok]
    refine ⟨⟨by decide, by decide, ?_⟩, rfl⟩
    simp only [List.length_cons, List.length_append, List.length_nil]
    omega
  have hne1 : (60 :: node.tag : CStr) ≠ [] := by simp
  have hne2 : ([62] : CStr) ≠ [] := by simp
  have hne3 : (60 :: 47 :: node.tag ++ [62] : CStr) ≠ [] := by simp
  rw [toString_xmln]
  simp only [getNode_ok.mpr hn, ok_bind, hnode, hstart, hstop, hfinal, ASSERT_NOT_EMPTY,
    if_neg hne1, if_neg hne2, if_neg hne3, hattrs, toString_attributeLoop_decoded attrs hab]

theorem headOk_ne_nil (tag space : CStr) (attrs : List AttrText)
    (h : headOk tag space attrs = true) : tag ≠ [] := by
  simp only [headOk, tagOk, Bool.and_eq_true, bne_iff_ne, ne_eq] at h
  exact h.1.1.1.1

theorem headBounded_spec (tag : CStr) (attrs : List AttrText) (h : headBounded tag attrs = true) :
    tag.length < XML_MAX_TAG_SIZE ∧ attrs.length < XML_MAX_ATTRIBUTES ∧
      attrs.all attrBounded = true := by
  simp only [headBounded, Bool.and_eq_true, decide_eq_true_eq] at h
  exact ⟨h.1.1, h.1.2, h.2⟩

/-- The printer on an element of a document, given what the loop over its content
gives. -/
theorem toString_xmln_element (f : Nat) (xml : Xml) (n : Nat) (par : Option Nat)
    (tag space : CStr) (attrs : List AttrText) (content : List CStr) (children : List Nat)
    (hn : xml.nodes[n]? = some
      { parent := par, tag := tag, content := content, children := children,
        attributes := attrsOf attrs })
    (hhead : headOk tag space attrs = true) (hb : headBounded tag attrs = true)
    (hch : children.length < XML_MAX_CHILDREN) :
    toString_xmln (f + 1) xml n =
      (toString_contentLoop xml (fun c => toString_xmln f xml c) content children 0
          (60 :: tag ++ printAttrs attrs ++ [62]) >>= fun body =>
        ASSERT_FITS_IN_BOUND body.length BUFFER_LARGE_SIZE >>= fun _ =>
        pure (body ++ (60 :: 47 :: tag ++ [62]))) := by
  obtain ⟨h1, h2, h3⟩ := headBounded_spec tag attrs hb
  exact toString_xmln_node f xml n _ attrs hn (headOk_ne_nil tag space attrs hhead) h1 hch rfl
    h2 h3

theorem ASSERT_XMLNODE_element (par : Option Nat) (tag space : CStr) (attrs : List AttrText)
    (content : List CStr) (children : List Nat) (hhead : headOk tag space attrs = true)
    (hb : headBounded tag attrs = true) (hch : children.length < XML_MAX_CHILDREN) :
    ASSERT_XMLNODE
      { parent := par, tag := tag, content := content, children := children,
        attributes := attrsOf attrs } = .ok () := by
  obtain ⟨h1, h2, h3⟩ := headBounded_spec tag attrs hb
  rw [ASSERT_XMLNODE_ok]
  refine ⟨headOk_ne_nil tag space attrs hhead, h1, hch, ?_⟩
  simpa [attrsOf] using h2

theorem printElement_ne_nil (tag : CStr) (attrs : List AttrText) (body : CStr) :
    printElement tag attrs body ≠ [] := by
  simp [printElement]

/-- The loop of the printer over a content whose nodes stand in the tree from the index
`base` on: the text of the content, unless the final check of `toString_xmln` fails for
one of its elements. -/
theorem toString_contentLoop_items (its : Items) :
    ∀ (xml : Xml) (base : Nat) (par : Option Nat) (fuel : Nat) (cont : List CStr) (i : Nat)
      (out : CStr),
      its.lexOk = true → its.bounded = true → its.size ≤ fuel →
      (∀ (j : Nat) (nd : XmlNode), (its.nodes base par)[j]? = some nd →
        xml.nodes[base + j]? = some nd) →
      (∀ (j : Nat) (t : CStr), its.texts[j]? = some t →
        cont.getD (i + j) [] = decodeReferences t) →
      toString_contentLoop xml (fun c => toString_xmln fuel xml c) cont
          (its.childIndices base) i out =
        if its.fits = true then .ok (out ++ its.print) else .error .outOfBounds := by
  induction its with
  | last t =>
    intro xml base par fuel cont i out hlex hb hsz hnodes htexts
    have h0 := htexts 0 t rfl
    simp only [Items.bounded, decide_eq_true_eq] at hb
    simp only [Items.childIndices, toString_contentLoop, Nat.add_zero] at h0 ⊢
    rw [h0, private_toXmlString_decoded t hb]
    simp only [ok_bind, Items.fits, Items.print, if_true]
    rfl
  | self t tag sp attrs rest ih =>
    intro xml base par fuel cont i out hlex hb hsz hnodes htexts
    simp only [Items.lexOk, Bool.and_eq_true] at hlex
    simp only [Items.bounded, Bool.and_eq_true, decide_eq_true_eq] at hb
    obtain ⟨⟨hbt, hbh⟩, hbr⟩ := hb
    obtain ⟨⟨_, hhead⟩, hlr⟩ := hlex
    simp only [Items.size] at hsz
    obtain ⟨f, rfl⟩ : ∃ f, fuel = f + 1 := ⟨fuel - 1, by omega⟩
    have hnode0 := hnodes 0
      { parent := par, tag := tag, content := fragments [], children := [],
        attributes := attrsOf attrs }
      (by simp only [Items.nodes, List.getElem?_cons_zero])
    have e0 := htexts 0 t (by simp only [Items.texts, List.getElem?_cons_zero])
    simp only [Nat.add_zero] at hnode0 e0
    have hch : ([] : List Nat).length < XML_MAX_CHILDREN := by decide
    have hA := ASSERT_XMLNODE_element par tag sp attrs (fragments []) [] hhead hbh hch
    have hE := toString_xmln_element f xml base par tag sp attrs (fragments []) [] hnode0 hhead
      hbh hch
    have hrest := ih xml (base + 1) par (f + 1) cont (i + 1)
      (out ++ reencoded t ++ printElement tag attrs []) hlr hbr (by omega)
      (fun j nd hj => by
        have := hnodes (j + 1) nd (by simpa only [Items.nodes, List.getElem?_cons_succ] using hj)
        rw [← this]
        congr 1
        omega)
      (fun j t1 hj => by
        have := htexts (j + 1) t1 (by simpa only [Items.texts, List.getElem?_cons_succ] using hj)
        rw [← this]
        congr 1
        omega)
    have hempty : private_toXmlString ((fragments []).getD 0 []) = .ok [] := by decide
    simp only [Items.childIndices, toString_contentLoop, e0, private_toXmlString_decoded t hbt,
      ok_bind, getNode_ok.mpr hnode0, hA, hE, hempty, pure, Except.pure]
    by_cases hfit : tag.length + printAttrsLen attrs + 2 < BUFFER_LARGE_SIZE
    · have hlen : (60 :: tag ++ printAttrs attrs ++ [62] ++ []).length < BUFFER_LARGE_SIZE := by
        simp only [List.length_append, List.length_cons, List.length_nil, printAttrs_length]
        omega
      have hne : 60 :: tag ++ printAttrs attrs ++ [62] ++ [] ++ (60 :: 47 :: tag ++ [62]) ≠ [] := by
        simp
      have hpe : 60 :: tag ++ printAttrs attrs ++ [62] ++ [] ++ (60 :: 47 :: tag ++ [62]) =
          printElement tag attrs [] := by
        simp [printElement]
      simp only [ASSERT_FITS_IN_BOUND, if_pos hlen, ok_bind, ASSERT_NOT_EMPTY, if_neg hne, hpe,
        hrest, Items.fits, hfit, decide_True, Bool.true_and, Items.print]
      simp only [List.append_assoc, if_neg (printElement_ne_nil tag attrs []), ok_bind]
    · have hlen : ¬ (60 :: tag ++ printAttrs attrs ++ [62] ++ []).length < BUFFER_LARGE_SIZE := by
        simp only [List.length_append, List.length_cons, List.length_nil, printAttrs_length]
        omega
      simp only [ASSERT_FITS_IN_BOUND, if_neg hlen, error_bind, Items.fits, hfit, decide_False,
        Bool.false_and, Bool.false_eq_true, if_false]
  | elem t tag sp attrs inner cn cs rest ihin ihrest =>
    intro xml base par fuel cont i out hlex hb hsz hnodes htexts
    simp only [Items.lexOk, Bool.and_eq_true] at hlex
    simp only [Items.bounded, Bool.and_eq_true, decide_eq_true_eq] at hb
    obtain ⟨⟨⟨⟨hbt, hbh⟩, hbi⟩, hbc⟩, hbr⟩ := hb
    obtain ⟨⟨⟨⟨_, hhead⟩, hli⟩, _⟩, hlr⟩ := hlex
    simp only [Items.size] at hsz
    obtain ⟨f, rfl⟩ : ∃ f, fuel = f + 1 := ⟨fuel - 1, by omega⟩
    have hnode0 := hnodes 0
      { parent := par, tag := tag, content := fragments inner.texts,
        children := inner.childIndices (base + 1), attributes := attrsOf attrs }
      (by simp only [Items.nodes, List.getElem?_cons_zero])
    have e0 := htexts 0 t (by simp only [Items.texts, List.getElem?_cons_zero])
    simp only [Nat.add_zero] at hnode0 e0
    have hcl := Items.childIndices_length inner (base + 1)
    have hch : (inner.childIndices (base + 1)).length < XML_MAX_CHILDREN := by omega
    have hA := ASSERT_XMLNODE_element par tag sp attrs (fragments inner.texts)
      (inner.childIndices (base + 1)) hhead hbh hch
    have hE := toString_xmln_element f xml base par tag sp attrs (fragments inner.texts)
      (inner.childIndices (base + 1)) hnode0 hhead hbh hch
    have hsize := Items.nodes_length inner (base + 1) (some base)
    have hin := ihin xml (base + 1) (some base) f (fragments inner.texts) 0
      (60 :: tag ++ printAttrs attrs ++ [62]) hli hbi (by omega)
      (fun j nd hj => by
        have hjlt : j < inner.size := by
          rw [← hsize]
          exact getElem?_lt_length hj
        have := hnodes (j + 1) nd (by
          simp only [Items.nodes, List.getElem?_cons_succ]
          rw [List.getElem?_append_left (by rw [hsize]; exact hjlt)]
          exact hj)
        rw [← this]
        congr 1
        omega)
      (fun j t1 hj => by
        rw [Nat.zero_add]
        exact fragments_getD inner.texts j t1 hj (by omega))
    have hrest := ihrest xml (base + 1 + inner.size) par (f + 1) cont (i + 1)
      (out ++ reencoded t ++ printElement tag attrs inner.print) hlr hbr (by omega)
      (fun j nd hj => by
        have := hnodes (inner.size + j + 1) nd (by
          simp only [Items.nodes, List.getElem?_cons_succ]
          rw [List.getElem?_append_right (by rw [hsize]; omega), hsize,
            Nat.add_sub_cancel_left]
          exact hj)
        rw [← this]
        congr 1
        omega)
      (fun j t1 hj => by
        have := htexts (j + 1) t1 (by simpa only [Items.texts, List.getElem?_cons_succ] using hj)
        rw [← this]
        congr 1
        omega)
    simp only [Items.childIndices, toString_contentLoop, e0, private_toXmlString_decoded t hbt,
      ok_bind, getNode_ok.mpr hnode0, hA, hE, hin, pure, Except.pure]
    cases hfi : inner.fits with
    | false =>
      simp only [Bool.false_eq_true, if_false, error_bind, Items.fits, hfi, Bool.false_and]
    | true =>
      simp only [if_true, ok_bind]
      by_cases hfit : tag.length + printAttrsLen attrs + 2 + inner.printLen < BUFFER_LARGE_SIZE
      · have hlen : (60 :: tag ++ printAttrs attrs ++ [62] ++ inner.print).length <
            BUFFER_LARGE_SIZE := by
          simp only [List.length_append, List.length_cons, List.length_nil, printAttrs_length,
            items_print_length]
          omega
        have hne : 60 :: tag ++ printAttrs attrs ++ [62] ++ inner.print ++
            (60 :: 47 :: tag ++ [62]) ≠ [] := by
          simp
        have hpe : 60 :: tag ++ printAttrs attrs ++ [62] ++ inner.print ++
            (60 :: 47 :: tag ++ [62]) = printElement tag attrs inner.print := by
          simp [printElement]
        simp only [ASSERT_FITS_IN_BOUND, if_pos hlen, ok_bind, ASSERT_NOT_EMPTY, if_neg hne, hpe,
          hrest, Items.fits, hfi, hfit, decide_True, Bool.true_and, Items.print]
        simp only [List.append_assoc, if_neg (printElement_ne_nil tag attrs inner.print),
          ok_bind]
      · have hlen : ¬ (60 :: tag ++ printAttrs attrs ++ [62] ++ inner.print).length <
            BUFFER_LARGE_SIZE := by
          simp only [List.length_append, List.length_cons, List.length_nil, printAttrs_length,
            items_print_length]
          omega
        simp only [ASSERT_FITS_IN_BOUND, if_neg hlen, error_bind, Items.fits, hfi, hfit,
          decide_False, Bool.false_and, Bool.and_false, Bool.false_eq_true, if_false]

/-! ## The parser on the text that the printer writes -/

theorem private_fromXmlString_ok_reencoded (t x : CStr) (h : private_fromXmlString t = .ok x) :
    private_fromXmlString (reencoded t) = .ok x := by
  rw [private_fromXmlString_eq] at h
  by_cases h1 : t.length < BUFFER_SIZE
  · rw [if_pos h1] at h
    by_cases h2 : (decodeReferences t).length < XML_MAX_CONTENT_SIZE
    · rw [if_pos h2] at h
      rw [private_fromXmlString_reencoded t h2, ← h]
    · rw [if_neg h2] at h
      cases h
  · rw [if_neg h1] at h
    cases h

theorem storeText_reencoded (xml xml' : Xml) (n : Nat) (t : CStr)
    (h : storeText xml n t = .ok xml') : storeText xml n (reencoded t) = .ok xml' := by
  rw [storeText_eq] at h ⊢
  simp only [bind_eq_ok] at h
  obtain ⟨nd, h1, text, h2, h3⟩ := h
  simp only [h1, ok_bind, private_fromXmlString_ok_reencoded t text h2]
  exact h3

theorem buildAttrs_printed (attrs : List AttrText) :
    ∀ acc parsed, buildAttrs attrs acc = .ok parsed →
      buildAttrs (printedAttrs attrs) acc = .ok parsed := by
  induction attrs with
  | nil => intro acc parsed h; exact h
  | cons a rest ih =>
    intro acc parsed h
    simp only [buildAttrs, bind_eq_ok] at h
    obtain ⟨u1, h1, u2, h2, u3, h3, value, h4, u5, h5, h6⟩ := h
    simp only [printedAttrs, buildAttrs, AttrText.printed, h1, h2, h3, ok_bind,
      private_fromXmlString_ok_reencoded a.raw value h4, h5]
    exact ih _ _ h6

theorem openElement_printed (tag : CStr) (attrs : List AttrText) (xml : Xml)
    (parent : Option Nat) (r : Xml × Nat) (h : openElement tag attrs xml parent = .ok r) :
    openElement tag (printedAttrs attrs) xml parent = .ok r := by
  unfold openElement at h ⊢
  simp only [bind_eq_ok, Prod.exists] at h
  obtain ⟨xml1, n, h1, u2, h2, u3, h3, parsed, h4, h5⟩ := h
  simp only [h1, h2, h3, ok_bind, buildAttrs_printed attrs [] parsed h4]
  exact h5

theorem buildItems_printed (its : Items) :
    ∀ (xml xml' : Xml) (n : Nat), its.matched = true → buildItems its xml n = .ok xml' →
      buildItems its.printed xml n = .ok xml' := by
  induction its with
  | last t =>
    intro xml xml' n _ h
    exact storeText_reencoded xml xml' n t h
  | self t tag sp attrs rest ih =>
    intro xml xml' n hm h
    simp only [Items.matched] at hm
    simp only [buildItems, bind_eq_ok, Prod.exists] at h
    obtain ⟨xml1, h1, xml2, m, h2, h3⟩ := h
    obtain ⟨hmm, _, par, hpar, _, hx⟩ := openElement_child tag attrs xml1 xml2 n m h2
    have hnode : xml2.nodes[m]? =
        some { freshNode (some n) with tag := tag, attributes := attrsOf attrs } := by
      rw [hx]
      simp only
      rw [hmm, List.getElem?_append_right (by simp)]
      simp
    have hcl := closeTag_self xml2 m _ hnode
    simp only at hcl
    simp only [Items.printed, buildItems, storeText_reencoded xml xml1 n t h1, ok_bind,
      openElement_printed tag attrs xml1 (some n) (xml2, m) h2,
      storeText_fresh_node xml2 m _ hnode rfl rfl, hcl]
    exact ih xml2 xml' n hm h3
  | elem t tag sp attrs inner cn cs rest ihin ihrest =>
    intro xml xml' n hm h
    simp only [Items.matched, Bool.and_eq_true, beq_iff_eq] at hm
    obtain ⟨⟨hcn, hmin⟩, hmrest⟩ := hm
    subst hcn
    simp only [buildItems, bind_eq_ok, Prod.exists] at h
    obtain ⟨xml1, h1, xml2, m, h2, xml3, h3, u, h4, h5⟩ := h
    simp only [Items.printed, buildItems, storeText_reencoded xml xml1 n t h1, ok_bind,
      openElement_printed cn attrs xml1 (some n) (xml2, m) h2,
      ihin xml2 xml3 m hmin h3, h4]
    exact ihrest xml3 xml' n hmrest h5

theorem meta_eq_metaBody (D : Doc) : D.meta = 60 :: 63 :: D.metaBody ++ [62] := by
  unfold Doc.meta Doc.metaBody
  cases D.prolog.getLast? with
  | some d => rfl
  | none => decide

theorem buildProlog_meta_length (decls : List (CStr × CStr)) :
    ∀ (xml xml' : Xml), buildProlog decls xml = .ok xml' →
      xml.meta.length < XML_META_MAX_SIZE → xml'.meta.length < XML_META_MAX_SIZE := by
  induction decls with
  | nil =>
    intro xml xml' h hlen
    simp only [buildProlog, Except.ok.injEq] at h
    rw [← h]
    exact hlen
  | cons d rest ih =>
    intro xml xml' h _
    simp only [buildProlog, bind_eq_ok] at h
    obtain ⟨u, h1, h2⟩ := h
    exact ih _ xml' h2 (ASSERT_NOT_TOO_LONG_ok.mp h1)

theorem buildDoc_prolog (D : Doc) (xml0 xml1 : Xml) (h0 : initialize_xml = .ok xml0)
    (h1 : buildProlog D.prolog xml0 = .ok xml1) :
    xml1 = { meta := D.meta, nodes := [] } ∧ D.meta.length < XML_META_MAX_SIZE := by
  rw [initialize_xml_eq] at h0
  simp only [Except.ok.injEq] at h0
  subst h0
  obtain ⟨hn, hm⟩ := buildProlog_ok D.prolog _ xml1 h1
  have hlen := buildProlog_meta_length D.prolog _ xml1 h1 (by decide)
  have hmeta : xml1.meta = D.meta := by
    rw [hm]
    unfold Doc.meta
    cases D.prolog.getLast? with
    | some d => rfl
    | none => rfl
  refine ⟨?_, by rw [← hmeta]; exact hlen⟩
  cases xml1 with
  | mk m ns =>
    simp only at hn hmeta
    rw [hn, hmeta]

theorem buildDoc_printed (D : Doc) (X : Xml) (h : buildDoc D = .ok X) :
    buildDoc D.printed = .ok X := by
  have hmatched := (buildDoc_ok D X h).2.2
  simp only [Doc.matched, Bool.and_eq_true, beq_iff_eq] at hmatched
  unfold buildDoc at h ⊢
  simp only [bind_eq_ok, Prod.exists, pure_eq_ok] at h
  obtain ⟨xml0, h0, xml1, h1, xml2, n, h2, xml3, h3, u, h4, h5⟩ := h
  obtain ⟨hx1, hlen⟩ := buildDoc_prolog D xml0 xml1 h0 h1
  have h0' := h0
  rw [initialize_xml_eq] at h0'
  simp only [Except.ok.injEq] at h0'
  have hp : buildProlog D.printed.prolog xml0 = .ok xml1 := by
    simp only [Doc.printed, buildProlog]
    rw [hx1, ← h0']
    simp only [← meta_eq_metaBody D, ASSERT_NOT_TOO_LONG, if_pos hlen, ok_bind]
  rw [hmatched.1] at h4
  simp only [h0, hp, ok_bind]
  simp only [Doc.printed, openElement_printed D.tag D.attrs xml1 none (xml2, n) h2, ok_bind,
    buildItems_printed D.inner xml2 xml3 n hmatched.2 h3, h4]
  rw [← h5]
  rfl

/-! ## The text of the printed document -/

theorem printedAttrs_text (attrs : List AttrText) :
    printedSpace attrs ++ attrsText (printedAttrs attrs) = printAttrs attrs := by
  induction attrs with
  | nil => rfl
  | cons a rest ih =>
    cases rest with
    | nil =>
      simp [printedSpace, printedAttrs, attrsText, printAttrs, AttrText.printed, AttrText.text]
    | cons b rest' =>
      have ih' : [32] ++ attrsText (printedAttrs (b :: rest')) = printAttrs (b :: rest') := by
        simpa [printedSpace] using ih
      have e1 : printAttrs (a :: b :: rest') =
          (32 :: a.name ++ 61 :: 34 :: reencoded a.raw ++ [34]) ++ printAttrs (b :: rest') := by
        simp [printAttrs]
      have e2 : attrsText (printedAttrs (a :: b :: rest')) =
          (a.name ++ 61 :: 34 :: reencoded a.raw ++ [34]) ++
            ([32] ++ attrsText (printedAttrs (b :: rest'))) := by
        simp [printedAttrs, attrsText, AttrText.printed, AttrText.text]
      rw [e1, e2, ih']
      simp [printedSpace]

theorem printed_head_text (tag : CStr) (attrs : List AttrText) (rest : CStr) :
    tag ++ printedSpace attrs ++ attrsText (printedAttrs attrs) ++ rest =
      tag ++ printAttrs attrs ++ rest := by
  rw [List.append_assoc tag, printedAttrs_text]

theorem itemsText_printed (its : Items) : itemsText its.printed = its.print ++ [60] := by
  induction its with
  | last t => rfl
  | self t tag sp attrs rest ih =>
    simp only [Items.printed, Items.print, itemsText, printElement, ih]
    have := printed_head_text tag attrs (62 :: (([] : CStr) ++ [60]) ++ 47 :: tag ++ [] ++
      62 :: (rest.print ++ [60]))
    simp only [List.append_assoc, List.cons_append, List.nil_append, List.append_nil] at this ⊢
    rw [this]
  | elem t tag sp attrs inner cn cs rest ihin ihrest =>
    simp only [Items.printed, Items.print, itemsText, printElement, ihin, ihrest]
    have := printed_head_text tag attrs (62 :: (inner.print ++ [60]) ++ 47 :: tag ++ [] ++
      62 :: (rest.print ++ [60]))
    simp only [List.append_assoc, List.cons_append, List.nil_append, List.append_nil] at this ⊢
    rw [this]

theorem docText_printed (D : Doc) : docText D.printed = D.print := by
  simp only [docText, Doc.printed, Doc.print, printElement, prologText, itemsText_printed,
    meta_eq_metaBody D]
  have := printed_head_text D.tag D.attrs (62 :: (D.inner.print ++ [60]) ++ 47 :: D.tag ++ [] ++
    62 :: [])
  simp only [List.append_assoc, List.cons_append, List.nil_append, List.append_nil,
    List.flatMap_cons, List.flatMap_nil] at this ⊢
  rw [this]

/-! ## The printed document is written as the grammar says -/

theorem reencoded_all_ne (t : CStr) (c : Nat) (hc : c = 60 ∨ c = 34) :
    (reencoded t).all (· != c) = true := by
  rw [List.all_eq_true]
  intro x hx
  obtain ⟨h60, _, h34, _⟩ := reencoded_symbols t x hx
  rcases hc with rfl | rfl
  · simpa using h60
  · simpa using h34

theorem printedAttrs_ok (attrs : List AttrText) (h : attrs.all attrOk = true) :
    (printedAttrs attrs).all attrOk = true := by
  induction attrs with
  | nil => rfl
  | cons a rest ih =>
    simp only [List.all_cons, Bool.and_eq_true] at h
    obtain ⟨ha, hrest⟩ := h
    simp only [printedAttrs, List.all_cons, Bool.and_eq_true]
    refine ⟨?_, ih hrest⟩
    simp only [attrOk, Bool.and_eq_true] at ha
    obtain ⟨⟨⟨⟨⟨⟨h1, h2⟩, h3⟩, h4⟩, _⟩, _⟩, _⟩ := ha
    simp only [attrOk, AttrText.printed, Bool.and_eq_true]
    refine ⟨⟨⟨⟨⟨⟨h1, h2⟩, h3⟩, h4⟩, by decide⟩, reencoded_all_ne a.raw 34 (Or.inr rfl)⟩, ?_⟩
    cases rest with
    | nil => rfl
    | cons b r => rfl

theorem printed_headOk (tag space : CStr) (attrs : List AttrText)
    (h : headOk tag space attrs = true) :
    headOk tag (printedSpace attrs) (printedAttrs attrs) = true := by
  simp only [headOk, Bool.and_eq_true] at h ⊢
  obtain ⟨⟨⟨h1, _⟩, h3⟩, _⟩ := h
  refine ⟨⟨⟨h1, ?_⟩, printedAttrs_ok attrs h3⟩, ?_⟩
  · cases attrs with
    | nil => rfl
    | cons a r => rfl
  · cases attrs with
    | nil => rfl
    | cons a r => rfl

theorem printed_closeOk (tag space : CStr) (attrs : List AttrText)
    (h : headOk tag space attrs = true) : closeOk tag [] = true := by
  simp only [closeOk, Bool.and_eq_true]
  exact ⟨all_isNameByte_of_isTagByte tag (headOk_tag tag space attrs h), rfl⟩

theorem items_lexOk_printed (its : Items) (h : its.lexOk = true) : its.printed.lexOk = true := by
  induction its with
  | last t => exact reencoded_all_ne t 60 (Or.inl rfl)
  | self t tag sp attrs rest ih =>
    simp only [Items.lexOk, Bool.and_eq_true] at h
    simp only [Items.printed, Items.lexOk, Bool.and_eq_true]
    exact ⟨⟨⟨⟨reencoded_all_ne t 60 (Or.inl rfl), printed_headOk tag sp attrs h.1.2⟩, rfl⟩,
      printed_closeOk tag sp attrs h.1.2⟩, ih h.2⟩
  | elem t tag sp attrs inner cn cs rest ihin ihrest =>
    simp only [Items.lexOk, Bool.and_eq_true] at h
    simp only [Items.printed, Items.lexOk, Bool.and_eq_true]
    exact ⟨⟨⟨⟨reencoded_all_ne t 60 (Or.inl rfl), printed_headOk tag sp attrs h.1.1.1.2⟩,
      ihin h.1.1.2⟩, printed_closeOk tag sp attrs h.1.1.1.2⟩, ihrest h.2⟩

theorem metaBody_ok (D : Doc)
    (h : D.prolog.all (fun d => d.1.all (· != 62) && spaceOk d.2) = true) :
    D.metaBody.all (· != 62) = true := by
  unfold Doc.metaBody
  cases hl : D.prolog.getLast? with
  | none => decide
  | some d =>
    have hmem : d ∈ D.prolog := List.mem_of_getLast?_eq_some hl
    have := (List.all_eq_true.mp h) d hmem
    simp only [Bool.and_eq_true] at this
    exact this.1

theorem doc_lexOk_printed (D : Doc) (h : D.lexOk = true) : D.printed.lexOk = true := by
  simp only [Doc.lexOk, Bool.and_eq_true] at h
  obtain ⟨⟨⟨⟨⟨⟨_, hp⟩, hh⟩, h63⟩, hi⟩, _⟩, _⟩ := h
  simp only [Doc.lexOk, Doc.printed, Bool.and_eq_true, List.all_cons, List.all_nil]
  exact ⟨⟨⟨⟨⟨⟨rfl, ⟨⟨metaBody_ok D hp, rfl⟩, trivial⟩⟩, printed_headOk D.tag D.space D.attrs hh⟩, h63⟩,
    items_lexOk_printed D.inner hi⟩, printed_closeOk D.tag D.space D.attrs hh⟩, rfl⟩

/-! ## The limits that an accepted document keeps -/

theorem buildAttrs_bounded (attrs : List AttrText) :
    ∀ acc parsed, buildAttrs attrs acc = .ok parsed →
      attrs.all attrBounded = true ∧ (attrs ≠ [] → acc.length + attrs.length < XML_MAX_ATTRIBUTES) := by
  induction attrs with
  | nil => intro acc parsed _; exact ⟨rfl, fun h => absurd rfl h⟩
  | cons a rest ih =>
    intro acc parsed h
    simp only [buildAttrs, bind_eq_ok, ASSERT_FITS_IN_BOUND_ok] at h
    obtain ⟨_, _, _, h2, _, h3, value, h4, u5, h5, h6⟩ := h
    obtain ⟨ihb, ihl⟩ := ih _ _ h6
    have hv := private_fromXmlString_value a.raw value h4
    subst hv
    unfold ASSERT_XMLATTRIBUTE at h5
    simp only [bind_eq_ok, ASSERT_NOT_EMPTY_ok, ASSERT_NOT_TOO_LONG_ok] at h5
    obtain ⟨_, hne, _, hnl, hvl⟩ := h5
    refine ⟨?_, fun _ => ?_⟩
    · simp only [List.all_cons, Bool.and_eq_true, ihb, and_true, attrBounded, decide_eq_true_eq,
        bne_iff_ne, ne_eq]
      exact ⟨⟨hne, h3⟩, hvl⟩
    · by_cases hr : rest = []
      · subst hr
        simpa using h2
      · have := ihl hr
        simp only [List.length_append, List.length_cons, List.length_nil] at this ⊢
        omega

theorem openElement_bounded (tag : CStr) (attrs : List AttrText) (xml : Xml)
    (parent : Option Nat) (r : Xml × Nat) (h : openElement tag attrs xml parent = .ok r) :
    headBounded tag attrs = true := by
  unfold openElement at h
  simp only [bind_eq_ok, ASSERT_FITS_IN_BOUND_ok, Prod.exists] at h
  obtain ⟨xml1, n, _, _, _, _, htag, parsed, hparsed, _⟩ := h
  obtain ⟨hb, hl⟩ := buildAttrs_bounded attrs [] parsed hparsed
  simp only [headBounded, Bool.and_eq_true, decide_eq_true_eq]
  refine ⟨⟨htag, ?_⟩, hb⟩
  by_cases ha : attrs = []
  · subst ha
    decide
  · simpa using hl ha

theorem storeText_bounded (xml xml' : Xml) (n : Nat) (t : CStr)
    (h : storeText xml n t = .ok xml') :
    (decodeReferences t).length < XML_MAX_CONTENT_SIZE := by
  rw [storeText_eq] at h
  simp only [bind_eq_ok] at h
  obtain ⟨_, _, text, h2, _⟩ := h
  rw [private_fromXmlString_eq] at h2
  by_cases h1 : t.length < BUFFER_SIZE
  · rw [if_pos h1] at h2
    by_cases h3 : (decodeReferences t).length < XML_MAX_CONTENT_SIZE
    · exact h3
    · rw [if_neg h3] at h2
      cases h2
  · rw [if_neg h1] at h2
    cases h2

theorem buildItems_bounded (its : Items) :
    ∀ (xml xml' : Xml) (n : Nat), buildItems its xml n = .ok xml' →
      (∀ c ∈ its.contents, c.texts.length ≤ XML_MAX_CHILDREN) → its.bounded = true := by
  induction its with
  | last t =>
    intro xml xml' n h _
    simp only [Items.bounded, decide_eq_true_eq]
    exact storeText_bounded xml xml' n t h
  | self t tag sp attrs rest ih =>
    intro xml xml' n h hc
    simp only [buildItems, bind_eq_ok, Prod.exists] at h
    obtain ⟨xml1, h1, xml2, m, h2, h3⟩ := h
    simp only [Items.bounded, Bool.and_eq_true, decide_eq_true_eq]
    refine ⟨⟨storeText_bounded xml xml1 n t h1,
      openElement_bounded tag attrs xml1 (some n) (xml2, m) h2⟩, ih xml2 xml' n h3 ?_⟩
    intro c hcm
    exact hc c (by simp only [Items.contents, List.mem_cons]; exact Or.inr hcm)
  | elem t tag sp attrs inner cn cs rest ihin ihrest =>
    intro xml xml' n h hc
    simp only [buildItems, bind_eq_ok, Prod.exists] at h
    obtain ⟨xml1, h1, xml2, m, h2, xml3, h3, u, h4, h5⟩ := h
    simp only [Items.bounded, Bool.and_eq_true, decide_eq_true_eq]
    refine ⟨⟨⟨⟨storeText_bounded xml xml1 n t h1,
      openElement_bounded tag attrs xml1 (some n) (xml2, m) h2⟩, ihin xml2 xml3 m h3 ?_⟩, ?_⟩,
      ihrest xml3 xml' n h5 ?_⟩
    · intro c hcm
      exact hc c (by
        simp only [Items.contents, List.mem_cons, List.mem_append]
        exact Or.inr (Or.inl hcm))
    · exact hc inner (by simp only [Items.contents, List.mem_cons, true_or])
    · intro c hcm
      exact hc c (by
        simp only [Items.contents, List.mem_cons, List.mem_append]
        exact Or.inr (Or.inr hcm))

theorem buildDoc_bounded (D : Doc) (X : Xml) (h : buildDoc D = .ok X) :
    D.bounded = true ∧ D.meta.length < XML_META_MAX_SIZE := by
  have hfits := buildDoc_fits D X h
  unfold buildDoc at h
  simp only [bind_eq_ok, Prod.exists, pure_eq_ok] at h
  obtain ⟨xml0, h0, xml1, h1, xml2, n, h2, xml3, h3, u, h4, h5⟩ := h
  obtain ⟨_, hlen⟩ := buildDoc_prolog D xml0 xml1 h0 h1
  refine ⟨?_, hlen⟩
  simp only [Doc.bounded, Bool.and_eq_true, decide_eq_true_eq]
  refine ⟨⟨openElement_bounded D.tag D.attrs xml1 none (xml2, n) h2,
    buildItems_bounded D.inner xml2 xml3 n h3 ?_⟩, ?_⟩
  · intro c hcm
    exact hfits c (by simp only [Doc.contents, List.mem_cons]; exact Or.inr hcm)
  · exact hfits D.inner (by simp only [Doc.contents, List.mem_cons, true_or])

/-! ## The number of nodes of an accepted document -/

theorem updateNode_length (xml : Xml) (p : Nat) (f : XmlNode → XmlNode) :
    (updateNode xml p f).nodes.length = xml.nodes.length := by
  unfold updateNode
  cases xml.nodes[p]? with
  | none => rfl
  | some nd => simp only [List.length_set]

theorem openElement_length (tag : CStr) (attrs : List AttrText) (xml : Xml)
    (parent : Option Nat) (r : Xml × Nat) (h : openElement tag attrs xml parent = .ok r) :
    r.1.nodes.length < XML_MAX_NODES := by
  unfold openElement at h
  simp only [bind_eq_ok, ASSERT_FITS_IN_BOUND_ok, pure_eq_ok, Prod.exists] at h
  obtain ⟨xml1, n, _, _, hb, _, _, parsed, _, hx⟩ := h
  rw [← hx]
  simp only [updateNode_length]
  exact hb

theorem storeText_length (xml xml' : Xml) (n : Nat) (t : CStr)
    (h : storeText xml n t = .ok xml') : xml'.nodes.length = xml.nodes.length := by
  obtain ⟨node, _, hx⟩ := storeText_ok xml xml' n t h
  rw [hx]
  simp only [List.length_set]

theorem buildItems_length (its : Items) :
    ∀ (xml xml' : Xml) (n : Nat), buildItems its xml n = .ok xml' →
      xml.nodes.length < XML_MAX_NODES → xml'.nodes.length < XML_MAX_NODES := by
  induction its with
  | last t =>
    intro xml xml' n h hl
    rw [storeText_length xml xml' n t h]
    exact hl
  | self t tag sp attrs rest ih =>
    intro xml xml' n h _
    simp only [buildItems, bind_eq_ok, Prod.exists] at h
    obtain ⟨xml1, h1, xml2, m, h2, h3⟩ := h
    exact ih xml2 xml' n h3 (openElement_length tag attrs xml1 (some n) (xml2, m) h2)
  | elem t tag sp attrs inner cn cs rest ihin ihrest =>
    intro xml xml' n h _
    simp only [buildItems, bind_eq_ok, Prod.exists] at h
    obtain ⟨xml1, h1, xml2, m, h2, xml3, h3, u, h4, h5⟩ := h
    exact ihrest xml3 xml' n h5
      (ihin xml2 xml3 m h3 (openElement_length tag attrs xml1 (some n) (xml2, m) h2))

theorem buildDoc_length (D : Doc) (X : Xml) (h : buildDoc D = .ok X) :
    X.nodes.length < XML_MAX_NODES := by
  unfold buildDoc at h
  simp only [bind_eq_ok, Prod.exists, pure_eq_ok] at h
  obtain ⟨xml0, h0, xml1, h1, xml2, n, h2, xml3, h3, u, h4, h5⟩ := h
  rw [← h5]
  exact buildItems_length D.inner xml2 xml3 n h3
    (openElement_length D.tag D.attrs xml1 none (xml2, n) h2)

/-! ## The printer on the tree of an accepted document -/

theorem toString_xml_doc (D : Doc) (X : Xml) (hlex : D.lexOk = true)
    (hbuild : buildDoc D = .ok X) :
    toString_xml X = if D.fits = true then .ok D.print else .error .outOfBounds := by
  obtain ⟨hnodes, hmeta, _⟩ := buildDoc_ok D X hbuild
  obtain ⟨hb, hml⟩ := buildDoc_bounded D X hbuild
  have hnl := buildDoc_length D X hbuild
  simp only [Doc.lexOk, Bool.and_eq_true] at hlex
  obtain ⟨⟨⟨⟨⟨_, hhead⟩, _⟩, hli⟩, _⟩, _⟩ := hlex
  simp only [Doc.bounded, Bool.and_eq_true, decide_eq_true_eq] at hb
  obtain ⟨⟨hbh, hbi⟩, hbc⟩ := hb
  have hL : BUFFER_LARGE_SIZE = 131072 := rfl
  have hM : XML_META_MAX_SIZE = 250 := rfl
  have hassert : ASSERT_XML X = .ok () := by
    unfold ASSERT_XML
    rw [hmeta]
    simp only [ASSERT_NOT_TOO_LONG, if_pos hml, ok_bind, ASSERT_FITS_IN_BOUND, if_pos hnl]
  have hpat : fromPattern BUFFER_LARGE_SIZE X.meta = .ok D.meta := by
    rw [fromPattern_ok, hmeta]
    refine ⟨⟨by decide, by decide, ?_⟩, rfl⟩
    omega
  have hsize := Items.nodes_length D.inner 1 (some 0)
  have hlen : X.nodes.length = D.inner.size + 1 := by
    rw [hnodes]
    simp only [Doc.nodes, List.length_cons, hsize]
  have hne : X.nodes.length ≠ 0 := by omega
  have hroot : X.nodes[0]? = some
      { parent := none, tag := D.tag, content := fragments D.inner.texts,
        children := D.inner.childIndices 1, attributes := attrsOf D.attrs } := by
    rw [hnodes]
    simp only [Doc.nodes, List.getElem?_cons_zero]
  have hcl := Items.childIndices_length D.inner 1
  have hch : (D.inner.childIndices 1).length < XML_MAX_CHILDREN := by omega
  have hE := toString_xmln_element D.inner.size X 0 none D.tag D.space D.attrs
    (fragments D.inner.texts) (D.inner.childIndices 1) hroot hhead hbh hch
  have hin := toString_contentLoop_items D.inner X 1 (some 0) D.inner.size
    (fragments D.inner.texts) 0 (60 :: D.tag ++ printAttrs D.attrs ++ [62]) hli hbi (le_refl _)
    (fun j nd hj => by
      rw [hnodes]
      simp only [Doc.nodes]
      rw [Nat.add_comm, List.getElem?_cons_succ]
      exact hj)
    (fun j t1 hj => by
      rw [Nat.zero_add]
      exact fragments_getD D.inner.texts j t1 hj (by omega))
  have hne2 : D.inner.size + 1 ≠ 0 := Nat.succ_ne_zero _
  unfold toString_xml
  simp only [hassert, hpat, ok_bind, hlen, if_pos hne2, hE, hin]
  cases hfi : D.inner.fits with
  | false =>
    simp only [Bool.false_eq_true, if_false, error_bind, Doc.fits, hfi, Bool.false_and]
  | true =>
    simp only [if_true, ok_bind]
    by_cases hfit : D.tag.length + printAttrsLen D.attrs + 2 + D.inner.printLen < BUFFER_LARGE_SIZE
    · have hlen2 : (60 :: D.tag ++ printAttrs D.attrs ++ [62] ++ D.inner.print).length <
          BUFFER_LARGE_SIZE := by
        simp only [List.length_append, List.length_cons, List.length_nil, printAttrs_length,
          items_print_length]
        omega
      have hpe : 60 :: D.tag ++ printAttrs D.attrs ++ [62] ++ D.inner.print ++
          (60 :: 47 :: D.tag ++ [62]) = printElement D.tag D.attrs D.inner.print := by
        simp [printElement]
      simp only [ASSERT_FITS_IN_BOUND, if_pos hlen2, ok_bind, hpe, Doc.fits, hfi, hfit,
        decide_True, Bool.true_and, if_true, pure, Except.pure, Doc.print]
    · have hlen2 : ¬ (60 :: D.tag ++ printAttrs D.attrs ++ [62] ++ D.inner.print).length <
          BUFFER_LARGE_SIZE := by
        simp only [List.length_append, List.length_cons, List.length_nil, printAttrs_length,
          items_print_length]
        omega
      simp only [ASSERT_FITS_IN_BOUND, if_neg hlen2, error_bind, Doc.fits, hfi, hfit,
        decide_False, Bool.and_false, Bool.false_eq_true, if_false]

/-! ## Printing and parsing again -/

theorem parse_build (D : Doc) (X : Xml) (hlex : D.lexOk = true)
    (h : fromString_xml (docText D) = .ok X) :
    (docText D).length < BUFFER_LARGE_SIZE ∧ buildDoc D = .ok X := by
  rw [parse_eq D hlex] at h
  simp only [bind_eq_ok, ASSERT_NOT_TOO_LONG_ok] at h
  obtain ⟨_, h1, h2⟩ := h
  exact ⟨h1, h2⟩

theorem print_of_parsed (D : Doc) (X : Xml) (t : CStr) (hlex : D.lexOk = true)
    (hparse : fromString_xml (docText D) = .ok X) (hprint : toString_xml X = .ok t) :
    t = D.print ∧ D.fits = true := by
  obtain ⟨_, hbuild⟩ := parse_build D X hlex hparse
  rw [toString_xml_doc D X hlex hbuild] at hprint
  cases hf : D.fits with
  | false =>
    rw [hf] at hprint
    simp only [Bool.false_eq_true, if_false] at hprint
    cases hprint
  | true =>
    rw [hf] at hprint
    simp only [if_true, Except.ok.injEq] at hprint
    exact ⟨hprint.symm, rfl⟩

theorem parse_of_printed (D : Doc) (X : Xml) (hlex : D.lexOk = true)
    (hparse : fromString_xml (docText D) = .ok X) :
    fromString_xml D.print =
      if D.print.length < BUFFER_LARGE_SIZE then .ok X else .error .tooLong := by
  obtain ⟨_, hbuild⟩ := parse_build D X hlex hparse
  rw [← docText_printed D, parse_eq D.printed (doc_lexOk_printed D hlex),
    buildDoc_printed D X hbuild]
  by_cases hl : (docText D.printed).length < BUFFER_LARGE_SIZE
  · simp only [ASSERT_NOT_TOO_LONG, if_pos hl, ok_bind]
  · simp only [ASSERT_NOT_TOO_LONG, if_neg hl, error_bind]

/-! ## The length of the text of a document -/

theorem attrsText_textLen (attrs : List AttrText) :
    (attrsText attrs).length = (attrs.map fun a => a.text.length).sum := by
  induction attrs with
  | nil => rfl
  | cons a rest ih =>
    have : attrsText (a :: rest) = a.text ++ attrsText rest := by simp [attrsText]
    rw [this, List.length_append, ih]
    simp

theorem itemsText_textLen (its : Items) : (itemsText its).length = its.textLen := by
  induction its with
  | last t => simp [itemsText, Items.textLen]
  | self t tag sp attrs rest ih =>
    simp only [itemsText, Items.textLen, List.length_append, List.length_cons, ih,
      attrsText_textLen]
    omega
  | elem t tag sp attrs inner cn cs rest ihin ihrest =>
    simp only [itemsText, Items.textLen, List.length_append, List.length_cons, ihin, ihrest,
      attrsText_textLen]
    omega

theorem prologText_textLen (decls : List (CStr × CStr)) :
    (prologText decls).length = (decls.map fun d => d.1.length + d.2.length + 3).sum := by
  induction decls with
  | nil => rfl
  | cons d rest ih =>
    have : prologText (d :: rest) = (63 :: d.1 ++ 62 :: d.2 ++ [60]) ++ prologText rest := by
      simp [prologText]
    rw [this, List.length_append, ih]
    simp
    omega

theorem docText_textLen (D : Doc) : (docText D).length = D.textLen := by
  simp only [docText, Doc.textLen, List.length_append, List.length_cons, itemsText_textLen,
    attrsText_textLen, prologText_textLen]
  omega

/-! ## Sample documents for the printer -/

theorem bigDoc_parsed :
    fromString_xml (docText bigDoc) = .ok { meta := bigDoc.meta, nodes := bigDoc.nodes } := by
  have hlen : (docText bigDoc).length < BUFFER_LARGE_SIZE := by
    rw [docText_textLen, bigDoc_textLen]
    decide
  rw [parse_eq bigDoc bigDoc_lexOk, bigDoc_built]
  simp only [ASSERT_NOT_TOO_LONG, if_pos hlen, ok_bind]

theorem bigDoc_printed :
    toString_xml { meta := bigDoc.meta, nodes := bigDoc.nodes } = .ok bigDoc.print := by
  rw [toString_xml_doc bigDoc _ bigDoc_lexOk bigDoc_built, bigDoc_fits]
  rfl

theorem printDoc_parsed :
    fromString_xml (docText printDoc) = .ok { meta := printDoc.meta, nodes := printDoc.nodes } := by
  have hlen : (docText printDoc).length < BUFFER_LARGE_SIZE := by
    rw [docText_textLen]
    decide
  have hb : buildDoc printDoc = .ok { meta := printDoc.meta, nodes := printDoc.nodes } := by
    decide!
  rw [parse_eq printDoc (by decide!), hb]
  simp only [ASSERT_NOT_TOO_LONG, if_pos hlen, ok_bind]

theorem printDoc_printed :
    toString_xml { meta := printDoc.meta, nodes := printDoc.nodes } =
      .ok (bytes "<?xml version=\"1.0\"?><r k=\"a&quot;b&lt;\"> x&gt;y <e></e>&amp;<f>it&apos;s</f></r>") := by
  decide!

/-! ## Claims C1 to C10 -/

/-- C1. Scenario A: `fromString_xml` and `fromXml_dfa` succeed; `toC_dfa` returns the
text `anyA_text` whatever the cells that the builder did not write hold; that text is the
rendering of the label-and-jump program `anyA`, which is the program of the automaton
and has pairwise distinct labels; and `anyA` returns 1 on "a", "aa", "aaa" and 0 on "",
"b", "ab". -/
theorem C1_scenarioA_matcher :
    ∃ xml dfa, fromString_xml scenarioA = .ok xml ∧ fromXml_dfa xml = .ok dfa ∧
      (∀ mem, toC_dfa mem dfa = .ok anyA_text) ∧
      (∀ mem, programOf mem dfa = anyA) ∧ anyA_text = render anyA ∧
      (anyA.blocks.map (·.label)).Nodup ∧
      run anyA (bytes "a") = some 1 ∧ run anyA (bytes "aa") = some 1 ∧
      run anyA (bytes "aaa") = some 1 ∧ run anyA (bytes "") = some 0 ∧
      run anyA (bytes "b") = some 0 ∧ run anyA (bytes "ab") = some 0 := by
  have hc : closedOn anyA_dfa = true := by decide!
  refine ⟨scenarioA_xml, anyA_dfa, scenarioA_parsed, scenarioA_built, ?_, ?_, by decide!,
    by decide!, by decide!, by decide!, by decide!, by decide!, by decide!, by decide!⟩
  · intro mem
    rw [toC_dfa_mem mem zeroMemory anyA_dfa hc]
    decide!
  · intro mem
    rw [programOf_mem mem zeroMemory anyA_dfa hc]
    decide!

/-- C3, for an alphabet of bytes below 128. After a successful build, for a state id `i`
and a byte `c` for which some declared transition has a source tag standing for `i` and
the symbol `c`: the cell `transitions[i][c]` holds the id that the sink tag of the LAST
such declaration, in document order, stands for. Earlier declarations for the same cell
are overwritten, and they do not make the build fail: a document whose root element,
states and initial state are accepted, whose source and sink elements resolve and whose
symbols occur in the alphabet is built, however often it declares a cell. The bound on
the alphabet is the domain in which the index `(int)with` of `dfa.c:97` is the byte
itself: a byte above 127 is a negative `char`, and the write of a transition from state 0
on it lands before the table, in `initialStateId`, in `nStates` or in the state array. -/
theorem C3_last_declaration_wins (xml : Xml) (dfa : DFA) (i c : Nat)
    (h : fromXml_dfa xml = .ok dfa)
    (hex : ∃ d ∈ declaredTransitions xml, stateId dfa.states d.source = some i ∧ d.symbol = c)
    (_h7 : ∀ b ∈ dfa.alphabet, b < 128) :
    (∃ d k, lastDeclared dfa.states (declaredTransitions xml) i c = some d ∧
      stateId dfa.states d.sink = some k ∧ dfa.transitions i c = some k ∧
      ∀ mem, cellAt mem dfa i c = k) ∧
      ∀ (doc : Xml) (st : BuildState), fromXml_dfa_header doc = .ok st →
        (∀ b ∈ st.dfa.alphabet, b < 128) →
        transitionsResolve doc = true →
        (∀ d ∈ declaredTransitions doc, d.symbol ∈ st.dfa.alphabet) →
        ∃ built, fromXml_dfa doc = .ok built := by
  refine ⟨?_, fun doc st hst _ hres hall => fromXml_dfa_accepts doc st hst hres hall⟩
  obtain ⟨_, _, _, _, _, _, _, _, _, _, _, _, _, _, _, _, _, _, _, _, htr, hwd⟩ :=
    fromXml_dfa_ok xml dfa h
  have hall : ∀ d ∈ declaredTransitions xml, ∃ w, resolve dfa.states d = some w := by
    intro d hd
    obtain ⟨s, k, hr, _⟩ := resolve_of_WellDeclared dfa d (hwd d hd)
    exact ⟨_, hr⟩
  obtain ⟨d0, hd0, hs0, hc0⟩ := hex
  have hsome : ∃ d, lastDeclared dfa.states (declaredTransitions xml) i c = some d := by
    cases hl : lastDeclared dfa.states (declaredTransitions xml) i c with
    | some d => exact ⟨d, rfl⟩
    | none =>
      unfold lastDeclared at hl
      rw [List.find?_eq_none] at hl
      have := hl d0 (List.mem_reverse.mpr hd0)
      simp [hs0, hc0] at this
  obtain ⟨d, hd⟩ := hsome
  obtain ⟨hmem, hsrc, hsym⟩ := lastDeclared_mem _ _ _ _ _ hd
  obtain ⟨s, k, hr, hs, hk, _, _, _⟩ := resolve_of_WellDeclared dfa d (hwd d hmem)
  have hcell : dfa.transitions i c = some k := by
    rw [htr, applyWrites_apply, lastWrite_writesOf _ _ _ _ hall, hd]
    simp [hr]
  exact ⟨d, k, hd, hk, hcell, fun mem => by simp [cellAt, hcell]⟩

theorem C3_last_declaration_wins_witness :
    fromXml_dfa over_xml = .ok over_dfa ∧
      (∃ d ∈ declaredTransitions over_xml,
        stateId over_dfa.states d.source = some 1 ∧ d.symbol = 97) ∧
      (∀ b ∈ over_dfa.alphabet, b < 128) ∧
      ∃ d k, lastDeclared over_dfa.states (declaredTransitions over_xml) 1 97 = some d ∧
        stateId over_dfa.states d.sink = some k ∧ over_dfa.transitions 1 97 = some k ∧
        ∀ mem, cellAt mem over_dfa 1 97 = k :=
  ⟨overDoc_built, by decide!, by decide!,
    (C3_last_declaration_wins over_xml over_dfa 1 97 overDoc_built (by decide!)
      (by decide!)).1⟩

/-- C4 (the code at the failing input). Scenario B, the document of Scenario A without
the `alphabet` attribute, is parsed but the build ends the process: the alphabet is
still empty when the first state is inserted and `insertState_dfa` asserts `ASSERT_DFA`,
which requires a non-empty alphabet. -/
theorem C4_scenarioB_build_is_fatal :
    (∃ xml, fromString_xml scenarioB = .ok xml) ∧
      fromString_xml scenarioB >>= fromXml_dfa = .error Fatal.empty := by
  constructor
  · have h : (fromString_xml scenarioB).toBool = true := by decide!
    cases hx : fromString_xml scenarioB with
    | ok xml => exact ⟨xml, rfl⟩
    | error e => rw [hx] at h; simp [Except.toBool] at h
  · exact scenarioB_fails

/-- C5. When the root element has an `alphabet` attribute and the build succeeds, the
final alphabet is the value of that attribute (of the last one, should the root carry
several), byte for byte in the same order; in predeclared mode the symbol loop never
changes the alphabet. -/
theorem C5_predeclared_alphabet_kept (xml : Xml) (dfa : DFA) (root : XmlNode) (v : CStr)
    (h : fromXml_dfa xml = .ok dfa) (hroot : rootElem xml = some root)
    (hattr : lastAttribute root.attributes (bytes "alphabet") = some v) :
    dfa.alphabet = v ∧
      ∀ (sid kid : Nat) (ws : CStr) (d d' : DFA) (e e' : Nat),
        symbolLoop true sid kid ws d e = .ok (d', e') → d'.alphabet = d.alphabet := by
  obtain ⟨root', _, _, _, _, alphabet, hr, _, _, _, _, _, hal, ha, _⟩ := fromXml_dfa_ok xml dfa h
  rw [hroot] at hr
  simp only [Option.some.injEq] at hr
  subst hr
  rw [hattr] at hal
  simp only [Option.some.injEq] at hal
  subst hal
  exact ⟨ha, fun sid kid ws d d' e e' hs => (symbolLoop_ok sid kid ws d d' e e' hs).2.2.1⟩

theorem C5_predeclared_alphabet_kept_witness :
    fromXml_dfa scenarioA_xml = .ok anyA_dfa ∧
      rootElem scenarioA_xml = some scenarioA_root ∧
      lastAttribute scenarioA_root.attributes (bytes "alphabet") = some (bytes "a") ∧
      (anyA_dfa.alphabet = bytes "a" ∧
        ∀ (sid kid : Nat) (ws : CStr) (d d' : DFA) (e e' : Nat),
          symbolLoop true sid kid ws d e = .ok (d', e') → d'.alphabet = d.alphabet) :=
  ⟨scenarioA_built, by decide!, by decide!,
    C5_predeclared_alphabet_kept scenarioA_xml anyA_dfa scenarioA_root (bytes "a") scenarioA_built
      (by decide!) (by decide!)⟩

/-- C6. When the root element has an `alphabet` attribute and some declared transition
has a symbol that does not occur in the attribute's value, `fromXml_dfa` returns no
automaton: it ends the process. For an alphabet of bytes below 128 the diagnostic is the
syntax error `Encountered symbol outside the alphabet!` whenever the build reaches the
transitions and can resolve them, that is, whenever the root element, the states and the
initial state are accepted (`fromXml_dfa_header` returns) and every source and sink
element under `transitions` is a valid element named after a declared state. (A byte
above 127 in the alphabet is a negative index at `dfa.c:97`: a transition from state 0 on
the byte 254 overwrites `nStates`, and the next symbol of the list, foreign or not, ends
the build in `ASSERT_FITS_IN_BOUND`.) -/
theorem C6_foreign_symbol_is_fatal (xml : Xml) (root : XmlNode) (v : CStr) (d : Declared)
    (hroot : rootElem xml = some root)
    (hattr : lastAttribute root.attributes (bytes "alphabet") = some v)
    (hd : d ∈ declaredTransitions xml) (hsym : d.symbol ∉ v) :
    (∃ e, fromXml_dfa xml = .error e) ∧
      ((∀ b ∈ v, b < 128) → (∃ st, fromXml_dfa_header xml = .ok st) →
        transitionsResolve xml = true →
        fromXml_dfa xml =
          .error (Fatal.syntaxError "Encountered symbol outside the alphabet!")) := by
  refine ⟨?_, fun _ ⟨st, hst⟩ hres =>
    foreign_symbol_diagnostic xml root v d hroot hattr hd hsym st hst hres⟩
  cases hres : fromXml_dfa xml with
  | error e => exact ⟨e, rfl⟩
  | ok dfa =>
    exfalso
    obtain ⟨root', _, _, _, _, alphabet, hr, _, _, _, _, _, hal, ha, _, _, _, _, _, _, _, hwd⟩ :=
      fromXml_dfa_ok xml dfa hres
    rw [hroot] at hr
    simp only [Option.some.injEq] at hr
    subst hr
    rw [hattr] at hal
    simp only [Option.some.injEq] at hal
    subst hal
    obtain ⟨_, _, _, _, _, _, hin⟩ := hwd d hd
    rw [ha] at hin
    exact hsym hin

theorem C6_foreign_symbol_is_fatal_witness :
    rootElem scenarioF_xml = some scenarioF_root ∧
      lastAttribute scenarioF_root.attributes (bytes "alphabet") = some (bytes "ab") ∧
      (⟨bytes "q0", bytes "q1", 99⟩ : Declared) ∈ declaredTransitions scenarioF_xml ∧
      99 ∉ bytes "ab" ∧ (∀ b ∈ bytes "ab", b < 128) ∧
      (∃ st, fromXml_dfa_header scenarioF_xml = .ok st) ∧
      transitionsResolve scenarioF_xml = true ∧
      fromXml_dfa scenarioF_xml =
        .error (Fatal.syntaxError "Encountered symbol outside the alphabet!") :=
  ⟨by decide!, by decide!, by decide!, by decide!, by decide!, scenarioF_header,
    scenarioF_resolves,
    (C6_foreign_symbol_is_fatal scenarioF_xml scenarioF_root (bytes "ab")
      ⟨bytes "q0", bytes "q1", 99⟩
      (by decide!) (by decide!) (by decide!) (by decide!)).2 (by decide!) scenarioF_header
      scenarioF_resolves⟩

/-- C7, for an alphabet of bytes below 128. After a successful build the state array is
the list, in document order, of the child elements of the `accept` and `reject` groups
under `states` (a group with another tag contributes nothing): the k-th of them is the
state in cell k, its id is k, its name is the element's tag, its flag is 1 for an
`accept` group and 0 for a `reject` group; the number of states is the number of these
elements. `insertState_dfa` leaves every state that already exists as it is. The bound
on the alphabet is the domain in which the index `(int)with` of `dfa.c:97` is the byte
itself: a transition from state 0 on the byte 254 is written to `nStates`. -/
theorem C7_state_array_is_declared_states (xml : Xml) (dfa : DFA)
    (h : fromXml_dfa xml = .ok dfa) (_h7 : ∀ b ∈ dfa.alphabet, b < 128) :
    dfa.states = statesFrom 0 (declaredStates xml) ∧
      dfa.nStates = (declaredStates xml).length ∧
      (∀ (k : Nat) (hk : k < dfa.states.length), (dfa.states[k]).id = k) ∧
      ∀ (d0 d1 : DFA) (s : Nat), insertState_dfa d0 = .ok (d1, s) →
        d1.states.length = d0.states.length + 1 ∧
          ∀ i, i < d0.states.length → d1.states[i]? = d0.states[i]? := by
  obtain ⟨_, _, _, _, _, _, _, _, _, _, _, _, _, _, _, hst, _⟩ := fromXml_dfa_ok xml dfa h
  refine ⟨hst, ?_, ?_, ?_⟩
  · simp [DeterministicFiniteAutomaton.nStates, hst, statesFrom_length]
  · intro k hk
    have hk' : k < (statesFrom 0 (declaredStates xml)).length := by rw [← hst]; exact hk
    have := statesFrom_getElem (declaredStates xml) 0 k hk'
    simp only [Nat.zero_add] at this
    simp only [hst]
    exact this
  · intro d0 d1 s hins
    obtain ⟨_, _, _, st, _, hd1⟩ := insertState_dfa_ok d0 d1 s hins
    subst hd1
    refine ⟨by simp, fun i hi => ?_⟩
    simp [List.getElem?_append_left hi]

theorem C7_state_array_is_declared_states_witness :
    fromXml_dfa scenarioA_xml = .ok anyA_dfa ∧ (∀ b ∈ anyA_dfa.alphabet, b < 128) ∧
      (anyA_dfa.states = statesFrom 0 (declaredStates scenarioA_xml) ∧
        anyA_dfa.nStates = (declaredStates scenarioA_xml).length ∧
        (∀ (k : Nat) (hk : k < anyA_dfa.states.length), (anyA_dfa.states[k]).id = k) ∧
        ∀ (d0 d1 : DFA) (s : Nat), insertState_dfa d0 = .ok (d1, s) →
          d1.states.length = d0.states.length + 1 ∧
            ∀ i, i < d0.states.length → d1.states[i]? = d0.states[i]?) :=
  ⟨scenarioA_built, by decide!,
    C7_state_array_is_declared_states scenarioA_xml anyA_dfa scenarioA_built (by decide!)⟩

/-- C8, for an alphabet of bytes below 128. After a successful build: `initialStateId`
is smaller than the number of states; for every declared transition the source tag and
the sink tag stand for ids smaller than the number of states and the symbol occurs in the
final alphabet; and every cell that was written lies in the row of a state, in the column
of an alphabet symbol, and holds the id of a state. The bound on the alphabet is the
domain in which the index `(int)with` of `dfa.c:97` is the byte itself: a transition from
state 0 on the byte 254 is written to `nStates`, one on the byte 255 to
`initialStateId`. -/
theorem C8_ids_and_symbols_are_valid (xml : Xml) (dfa : DFA)
    (h : fromXml_dfa xml = .ok dfa) (_h7 : ∀ b ∈ dfa.alphabet, b < 128) :
    dfa.initialStateId < dfa.nStates ∧
      (∀ d ∈ declaredTransitions xml, ∃ s k,
        stateId dfa.states d.source = some s ∧ s < dfa.nStates ∧
        stateId dfa.states d.sink = some k ∧ k < dfa.nStates ∧ d.symbol ∈ dfa.alphabet) ∧
      ∀ i c k, dfa.transitions i c = some k →
        i < dfa.nStates ∧ k < dfa.nStates ∧ c ∈ dfa.alphabet := by
  obtain ⟨_, _, _, _, _, _, _, _, _, _, _, _, _, _, _, _, _, _, _, hlt, _, hwd⟩ :=
    fromXml_dfa_ok xml dfa h
  exact ⟨hlt, fun d hd => hwd d hd, fun i c k hc => written_cell_valid xml dfa h i c k hc⟩

theorem C8_ids_and_symbols_are_valid_witness :
    fromXml_dfa scenarioA_xml = .ok anyA_dfa ∧ (∀ b ∈ anyA_dfa.alphabet, b < 128) ∧
      (anyA_dfa.initialStateId < anyA_dfa.nStates ∧
        (∀ d ∈ declaredTransitions scenarioA_xml, ∃ s k,
          stateId anyA_dfa.states d.source = some s ∧ s < anyA_dfa.nStates ∧
          stateId anyA_dfa.states d.sink = some k ∧ k < anyA_dfa.nStates ∧
          d.symbol ∈ anyA_dfa.alphabet) ∧
        ∀ i c k, anyA_dfa.transitions i c = some k →
          i < anyA_dfa.nStates ∧ k < anyA_dfa.nStates ∧ c ∈ anyA_dfa.alphabet) :=
  ⟨scenarioA_built, by decide!,
    C8_ids_and_symbols_are_valid scenarioA_xml anyA_dfa scenarioA_built (by decide!)⟩

/-- C10 (counterexample). The document `aaDoc` has the root attribute `alphabet="aa"`;
`fromString_xml` and `fromXml_dfa` succeed on it and the byte `a` occurs twice in the
alphabet of the automaton. -/
theorem C10_counterexample :
    ∃ xml root dfa, fromString_xml aaDoc = .ok xml ∧ rootElem xml = some root ∧
      lastAttribute root.attributes (bytes "alphabet") = some (bytes "aa") ∧
      fromXml_dfa xml = .ok dfa ∧ dfa.alphabet.count 97 = 2 ∧ ¬ dfa.alphabet.Nodup :=
  ⟨aa_xml, aa_root, aa_dfa, aaDoc_parsed, by decide!, by decide!, aaDoc_built, by decide!,
    by decide!⟩

/-- C10 (amended). For an automaton built from a document whose root has an `alphabet`
attribute, every byte occurs in the alphabet as often as in the value of the attribute;
so no byte occurs twice in the alphabet exactly when none occurs twice in the
attribute. -/
theorem C10_alphabet_repeats_as_declared (xml : Xml) (dfa : DFA) (root : XmlNode) (v : CStr)
    (h : fromXml_dfa xml = .ok dfa) (hroot : rootElem xml = some root)
    (hattr : lastAttribute root.attributes (bytes "alphabet") = some v) :
    (∀ b, dfa.alphabet.count b = v.count b) ∧ (dfa.alphabet.Nodup ↔ v.Nodup) := by
  obtain ⟨root', _, _, _, _, alphabet, hr, _, _, _, _, _, hal, ha, _⟩ := fromXml_dfa_ok xml dfa h
  rw [hroot] at hr
  simp only [Option.some.injEq] at hr
  subst hr
  rw [hattr] at hal
  simp only [Option.some.injEq] at hal
  subst hal
  rw [ha]
  exact ⟨fun _ => rfl, Iff.rfl⟩

theorem C10_alphabet_repeats_as_declared_witness :
    fromXml_dfa aa_xml = .ok aa_dfa ∧ rootElem aa_xml = some aa_root ∧
      lastAttribute aa_root.attributes (bytes "alphabet") = some (bytes "aa") ∧
      ((∀ b, aa_dfa.alphabet.count b = (bytes "aa").count b) ∧
        (aa_dfa.alphabet.Nodup ↔ (bytes "aa").Nodup)) :=
  ⟨aaDoc_built, by decide!, by decide!,
    C10_alphabet_repeats_as_declared aa_xml aa_dfa aa_root (bytes "aa") aaDoc_built
      (by decide!) (by decide!)⟩

/-! ## Claims C11 to C20 -/

/-- C11. A successful build has read a root element tagged `dfa` with exactly three
children whose tags are `states`, `initialState` and `transitions` in some order; the
document `<dfa><states/></dfa>` is parsed and then rejected with the diagnostic
`DFA must have exactly 3 children, <states>, <initialState>, <transitions>`. -/
theorem C11_root_has_three_children (xml : Xml) (dfa : DFA) (h : fromXml_dfa xml = .ok dfa) :
    (∃ root, rootElem xml = some root ∧ root.tag = bytes "dfa" ∧ root.children.length = 3 ∧
      ((childrenOf xml root).map (·.tag)).Perm
        [bytes "states", bytes "initialState", bytes "transitions"]) ∧
      (∃ tree, fromString_xml scenarioE = .ok tree) ∧
      fromString_xml scenarioE >>= fromXml_dfa = .error (Fatal.syntaxError
        "DFA must have exactly 3 children, <states>, <initialState>, <transitions>") :=
  ⟨root_children_tags xml dfa h, toBool_ok _ scenarioE_parses, scenarioE_fails⟩

theorem C11_root_has_three_children_witness :
    fromXml_dfa scenarioA_xml = .ok anyA_dfa ∧
      ∃ root, rootElem scenarioA_xml = some root ∧ root.tag = bytes "dfa" ∧
        root.children.length = 3 ∧
        ((childrenOf scenarioA_xml root).map (·.tag)).Perm
          [bytes "states", bytes "initialState", bytes "transitions"] :=
  ⟨scenarioA_built, (C11_root_has_three_children scenarioA_xml anyA_dfa scenarioA_built).1⟩

/-- C13. For a document with the `initialState` element `initial`: when `initial` does
not have exactly one child, or its single child bears a tag that is not the name of a
declared state, the build ends the process; and after a successful build with an
alphabet of bytes below 128 `initial` has exactly one child, `initialStateId` is the id
registered for that child's tag (the id of the last state declared with that name), and
the state in that cell bears the tag as its name. The three sample documents (no child,
two children, an undeclared name) end with `There has to be EXACTLY one initial state!`,
the same, and the null diagnostic. The bound on the alphabet is the domain in which the
index `(int)with` of `dfa.c:97` is the byte itself: a transition from state 0 on the byte
255 is written to `initialStateId`. -/
theorem C13_initial_state_is_resolved (xml : Xml) (initial : XmlNode)
    (hinit : initialStateElem xml = some initial) :
    ((initial.children.length ≠ 1 ∨
        ∀ node, childrenOf xml initial = [node] → node.tag ∉ (declaredStates xml).map (·.1)) →
      ∃ e, fromXml_dfa xml = .error e) ∧
    (∀ dfa, fromXml_dfa xml = .ok dfa → (∀ b ∈ dfa.alphabet, b < 128) →
      ∃ node st, initial.children.length = 1 ∧ childrenOf xml initial = [node] ∧
        stateId dfa.states node.tag = some dfa.initialStateId ∧
        dfa.states[dfa.initialStateId]? = some st ∧ st.name = node.tag) ∧
    fromString_xml noInitDoc >>= fromXml_dfa =
      .error (Fatal.syntaxError "There has to be EXACTLY one initial state!") ∧
    fromString_xml twoInitDoc >>= fromXml_dfa =
      .error (Fatal.syntaxError "There has to be EXACTLY one initial state!") ∧
    fromString_xml badInitDoc >>= fromXml_dfa = .error Fatal.null := by
  refine ⟨fun hbad => ?_, fun dfa h _ => ?_, noInitDoc_fails, twoInitDoc_fails,
    badInitDoc_fails⟩
  · cases hres : fromXml_dfa xml with
    | error e => exact ⟨e, rfl⟩
    | ok dfa =>
      exfalso
      obtain ⟨initial', node, st, h1, h2, h3, h4, h5, _⟩ := initial_state_resolved xml dfa hres
      rw [hinit] at h1
      simp only [Option.some.injEq] at h1
      subst h1
      rcases hbad with hb | hb
      · exact hb h2
      · exact hb node h3 h5
  · obtain ⟨initial', node, st, h1, h2, h3, h4, h5, h6, h7⟩ := initial_state_resolved xml dfa h
    rw [hinit] at h1
    simp only [Option.some.injEq] at h1
    subst h1
    exact ⟨node, st, h2, h3, h4, h6, h7⟩

theorem C13_initial_state_is_resolved_witness :
    initialStateElem scenarioA_xml = some scenarioA_initial ∧
      (∀ b ∈ anyA_dfa.alphabet, b < 128) ∧
      ∃ node st, scenarioA_initial.children.length = 1 ∧
        childrenOf scenarioA_xml scenarioA_initial = [node] ∧
        stateId anyA_dfa.states node.tag = some anyA_dfa.initialStateId ∧
        anyA_dfa.states[anyA_dfa.initialStateId]? = some st ∧ st.name = node.tag :=
  ⟨by decide!, by decide!, (C13_initial_state_is_resolved scenarioA_xml scenarioA_initial
    (by decide!)).2.1 anyA_dfa scenarioA_built (by decide!)⟩

/-- C15, for a symbol below 128. For an automaton that passes `ASSERT_DFA`, state ids
`sid` and `kid` of valid states and a symbol `c` other than 0 and below 128: when `c`
occurs in the alphabet, `insertTransition_dfa` returns 1 and the automaton in which the
cell `(sid, c)` holds `kid` while every other cell and every other field is as before;
when `c` does not occur in the alphabet, it returns 0 and the automaton as it was. The
bound on `c` is the domain in which the index `(int)with` of `dfa.c:97` is the byte
itself: a symbol above 127 is a negative `char`, and the cell that is written lies before
the row `sid`. -/
theorem C15_insertTransition_sentinel (dfa : DFA) (sid kid c : Nat) (src snk : DFAState)
    (hdfa : ASSERT_DFA dfa = .ok ()) (hs : dfa.states[sid]? = some src)
    (hk : dfa.states[kid]? = some snk) (hsv : ASSERT_DFASTATE src = .ok ())
    (hkv : ASSERT_DFASTATE snk = .ok ()) (hc : c ≠ 0) (_h7 : c < 128) :
    (c ∈ dfa.alphabet →
      ∃ dfa', insertTransition_dfa dfa sid kid c = .ok (dfa', 1) ∧
        dfa'.transitions sid c = some kid ∧
        (∀ s' c', (s' ≠ sid ∨ c' ≠ c) → dfa'.transitions s' c' = dfa.transitions s' c') ∧
        dfa'.name = dfa.name ∧ dfa'.alphabet = dfa.alphabet ∧ dfa'.states = dfa.states ∧
        dfa'.initialStateId = dfa.initialStateId) ∧
      (c ∉ dfa.alphabet → insertTransition_dfa dfa sid kid c = .ok (dfa, 0)) := by
  have h := insertTransition_dfa_spec dfa sid kid c src snk hdfa hs hk hsv hkv hc
  constructor
  · intro hin
    rw [if_pos hin] at h
    refine ⟨_, h, ?_, ?_, rfl, rfl, rfl, rfl⟩
    · simp [writeCell_apply]
    · intro s' c' hne
      simp only [writeCell_apply]
      rw [if_neg]
      rintro ⟨rfl, rfl⟩
      rcases hne with hne | hne <;> exact hne rfl
  · intro hout
    rw [if_neg hout] at h
    exact h

theorem C15_insertTransition_sentinel_witness :
    ASSERT_DFA anyA_dfa = .ok () ∧
      anyA_dfa.states[1]? = some ⟨1, bytes "q0", 0⟩ ∧
      anyA_dfa.states[0]? = some ⟨0, bytes "q1", 1⟩ ∧
      ASSERT_DFASTATE ⟨1, bytes "q0", 0⟩ = .ok () ∧ ASSERT_DFASTATE ⟨0, bytes "q1", 1⟩ = .ok () ∧
      (98 : Nat) ≠ 0 ∧ (98 : Nat) < 128 ∧ 98 ∉ anyA_dfa.alphabet ∧
      insertTransition_dfa anyA_dfa 1 0 98 = .ok (anyA_dfa, 0) :=
  ⟨by decide!, by decide!, by decide!, by decide!, by decide!, by decide!, by decide!,
    by decide!,
    (C15_insertTransition_sentinel anyA_dfa 1 0 98 ⟨1, bytes "q0", 0⟩ ⟨0, bytes "q1", 1⟩
      (by decide!) (by decide!) (by decide!) (by decide!) (by decide!) (by decide!)
      (by decide!)).2 (by decide!)⟩

/-- C14. For a document with the `transitions` element `transitions`: when one of its
source elements, or a sink element under one of its source elements, bears a tag that is
not the name of a state declared under `states`, the build ends the process. The two
sample documents (an undeclared source `zz`, an undeclared sink `zz`) end with the null
diagnostic that follows the failed lookup. -/
theorem C14_unknown_state_reference_is_fatal (xml : Xml) (transitions src : XmlNode)
    (ht : transitionsElem xml = some transitions) (hsrc : src ∈ childrenOf xml transitions)
    (hbad : src.tag ∉ (declaredStates xml).map (·.1) ∨
      ∃ sink ∈ childrenOf xml src, sink.tag ∉ (declaredStates xml).map (·.1)) :
    (∃ e, fromXml_dfa xml = .error e) ∧
      fromString_xml unknownSourceDoc >>= fromXml_dfa = .error Fatal.null ∧
      fromString_xml unknownSinkDoc >>= fromXml_dfa = .error Fatal.null := by
  refine ⟨?_, unknownSourceDoc_fails, unknownSinkDoc_fails⟩
  cases hres : fromXml_dfa xml with
  | error e => exact ⟨e, rfl⟩
  | ok dfa =>
    exfalso
    have hr := fromXml_dfa_resolves xml dfa hres
    unfold transitionsResolve at hr
    rw [ht] at hr
    simp only [List.all_eq_true] at hr
    obtain ⟨i, hi, hnode⟩ := mem_childrenOf _ _ _ hsrc
    have hi' := hr i hi
    unfold sourceResolves at hi'
    rw [hnode] at hi'
    simp only [Bool.and_eq_true, decide_eq_true_eq, List.all_eq_true,
      Option.isSome_iff_exists] at hi'
    obtain ⟨⟨_, sid, hsid⟩, hsinks⟩ := hi'
    rcases hbad with hb | ⟨sink, hsink, hb⟩
    · exact hb (stateId_declared xml _ _ hsid).1
    · obtain ⟨j, hj, hjn⟩ := mem_childrenOf _ _ _ hsink
      have hj' := hsinks j hj
      unfold sinkResolves at hj'
      rw [hjn] at hj'
      simp only [Bool.and_eq_true, decide_eq_true_eq, Option.isSome_iff_exists] at hj'
      obtain ⟨⟨_, kid, hkid⟩, _⟩ := hj'
      exact hb (stateId_declared xml _ _ hkid).1

theorem C14_unknown_state_reference_is_fatal_witness :
    fromString_xml unknownSourceDoc = .ok unknownSource_xml ∧
      transitionsElem unknownSource_xml = some unknownSource_transitions ∧
      unknownSource_zz ∈ childrenOf unknownSource_xml unknownSource_transitions ∧
      unknownSource_zz.tag ∉ (declaredStates unknownSource_xml).map (·.1) ∧
      ∃ e, fromXml_dfa unknownSource_xml = .error e :=
  ⟨unknownSourceDoc_parsed, by decide!, by decide!, by decide!,
    (C14_unknown_state_reference_is_fatal unknownSource_xml unknownSource_transitions
      unknownSource_zz (by decide!) (by decide!) (Or.inl (by decide!))).1⟩

/-- C20. `private_fromXmlString` returns `decodeReferences` of its argument (when the
argument is shorter than `BUFFER_SIZE` and the decoded text shorter than
`XML_MAX_CONTENT_SIZE`; it ends the process otherwise). `decodeReferences` is the single
pass from left to right: a text that starts with one of the five named references
decodes to the byte of the reference followed by the decoding of what stands behind the
reference, so the byte that replaces a reference is not read again; a text that starts
with no named reference, also one that starts with `&`, decodes to its first byte
followed by the decoding of the rest. `&amp;lt;` decodes to `&lt;`. -/
theorem C20_decoder_is_single_pass (s : CStr) :
    private_fromXmlString s =
        (if s.length < BUFFER_SIZE then
          if (decodeReferences s).length < XML_MAX_CONTENT_SIZE then .ok (decodeReferences s)
          else .error Fatal.outOfBounds
        else .error Fatal.tooLong) ∧
      decodeReferences [] = [] ∧
      (∀ r ∈ namedReferences, ∀ t, decodeReferences (r.1 ++ t) = r.2 :: decodeReferences t) ∧
      (∀ c t, (∀ r ∈ namedReferences, ¬ r.1 <+: c :: t) →
        decodeReferences (c :: t) = c :: decodeReferences t) ∧
      private_fromXmlString (bytes "&amp;lt;") = .ok (bytes "&lt;") ∧
      private_fromXmlString (bytes "&lt;&gt;&quot;&apos;&amp;") = .ok (bytes "<>\"'&") ∧
      private_fromXmlString (bytes "a & b &copy; &lt") = .ok (bytes "a & b &copy; &lt") :=
  ⟨private_fromXmlString_eq s, decodeReferences_nil, decodeReferences_reference,
    decodeReferences_other, by decide!, by decide!, by decide!⟩

/-- C19 (counterexample). The document `partialDoc` declares the alphabet `ab` and no
transition on `b`; it is parsed and built, and the cell of the state `q0` (id 1) in the
column `b` is not written. When the unwritten cells of the automaton hold zero, `toC_dfa`
returns the text of `partialProgram`, in which the block `q0` has the branch
`else if (c == 'b') goto q1;`, and the matcher returns 1 on the string `b`. -/
theorem C19_counterexample :
    ∃ xml dfa, fromString_xml partialDoc = .ok xml ∧ fromXml_dfa xml = .ok dfa ∧
      (∀ d ∈ declaredTransitions xml, ¬ (d.source = bytes "q0" ∧ d.symbol = 98)) ∧
      stateId dfa.states (bytes "q0") = some 1 ∧ 98 ∈ dfa.alphabet ∧
      dfa.transitions 1 98 = none ∧
      toC_dfa zeroMemory dfa = .ok (render partialProgram) ∧
      (∃ b, findBlock partialProgram (bytes "q0") = some b ∧
        (98, bytes "q1") ∈ b.branches) ∧
      run partialProgram (bytes "b") = some 1 :=
  ⟨partial_xml, partial_dfa, partialDoc_parsed, partialDoc_built, by decide!, by decide!,
    by decide!, by decide!, partial_emitted,
    ⟨{ label := bytes "q0", onEnd := 0, branches := [(97, bytes "q1"), (98, bytes "q1")] },
      by decide!, by decide!⟩, by decide!⟩

/-- C19 (amended). For every automaton, built by `fromXml_dfa` or not, and a text that
`toC_dfa` returns for it: the text is the rendering of `programOf`, and every block has one branch
for every alphabet symbol, in alphabet order, whether or not the document declares a
transition from the state on that symbol; a block returns 0 on reading a byte outside the
alphabet, and on an alphabet symbol it jumps to the target of a branch. -/
theorem C19_every_symbol_has_a_branch (dfa : DFA) (mem : Memory) (txt : CStr)
    (ht : toC_dfa mem dfa = .ok txt) :
    txt = render (programOf mem dfa) ∧
      (∀ b ∈ (programOf mem dfa).blocks, b.branches.map (·.1) = dfa.alphabet) ∧
      (∀ label b c rest, findBlock (programOf mem dfa) label = some b →
        (c ∉ dfa.alphabet → runFrom (programOf mem dfa) label (c :: rest) = some 0) ∧
        (c ∈ dfa.alphabet → ∃ target, (c, target) ∈ b.branches ∧
          runFrom (programOf mem dfa) label (c :: rest) =
            runFrom (programOf mem dfa) target rest)) := by
  refine ⟨toC_dfa_eq_render mem dfa txt ht, fun b hb => programOf_branches mem dfa b hb,
    fun label b c rest hb => ?_⟩
  · have hbm : b ∈ (programOf mem dfa).blocks := List.mem_of_find?_eq_some hb
    have := runFrom_cons (programOf mem dfa) label b c rest hb
    rw [programOf_branches mem dfa b hbm] at this
    exact this

theorem C19_every_symbol_has_a_branch_witness :
    fromXml_dfa partial_xml = .ok partial_dfa ∧
      toC_dfa zeroMemory partial_dfa = .ok (render partialProgram) ∧
      render partialProgram = render (programOf zeroMemory partial_dfa) ∧
      ∀ b ∈ (programOf zeroMemory partial_dfa).blocks, b.branches.map (·.1) = bytes "ab" :=
  ⟨partialDoc_built, partial_emitted,
    (C19_every_symbol_has_a_branch partial_dfa zeroMemory (render partialProgram)
      partial_emitted).1,
    (C19_every_symbol_has_a_branch partial_dfa zeroMemory (render partialProgram)
      partial_emitted).2.1⟩

/-- C12. For a document tree (a tree in which the root is the child of no node, as in
every tree that `fromString_xml` returns) and any arrangement `cs` of the children of the
root: the build of the tree in which the root lists its children as `cs` returns an
automaton exactly when the build of the given tree returns it, and ends the process
exactly when the build of the given tree does. -/
theorem C12_root_children_order (xml : Xml) (root : XmlNode) (cs : List Nat)
    (hroot : rootElem xml = some root) (hperm : cs.Perm root.children)
    (htree : ∀ n ∈ xml.nodes, 0 ∉ n.children) :
    (∀ dfa, fromXml_dfa (permuteRoot xml cs) = .ok dfa ↔ fromXml_dfa xml = .ok dfa) ∧
      ((∃ e, fromXml_dfa (permuteRoot xml cs) = .error e) ↔
        ∃ e, fromXml_dfa xml = .error e) ∧
      ∀ (s : CStr) (tree : Xml), fromString_xml s = .ok tree →
        ∀ n ∈ tree.nodes, 0 ∉ n.children := by
  have hiff : ∀ dfa, fromXml_dfa (permuteRoot xml cs) = .ok dfa ↔ fromXml_dfa xml = .ok dfa := by
    intro dfa
    constructor
    · intro h
      have := fromXml_dfa_permuteRoot (permuteRoot xml cs) { root with children := cs }
        root.children dfa (permuteRoot_root xml cs root hroot) hperm.symm
        (permuteRoot_tree xml root cs hroot hperm htree) h
      rw [permuteRoot_permuteRoot xml root cs hroot] at this
      exact this
    · exact fromXml_dfa_permuteRoot xml root cs dfa hroot hperm htree
  refine ⟨hiff, ⟨?_, ?_⟩, fun s tree hs => fromString_xml_tree s tree hs⟩
  · rintro ⟨e, he⟩
    cases hx : fromXml_dfa xml with
    | error e' => exact ⟨e', rfl⟩
    | ok d => rw [(hiff d).mpr hx] at he; cases he
  · rintro ⟨e, he⟩
    cases hx : fromXml_dfa (permuteRoot xml cs) with
    | error e' => exact ⟨e', rfl⟩
    | ok d => rw [(hiff d).mp hx] at he; cases he

theorem C12_root_children_order_witness :
    rootElem scenarioA_xml = some scenarioA_root ∧
      [8, 1, 6].Perm scenarioA_root.children ∧
      (∀ n ∈ scenarioA_xml.nodes, 0 ∉ n.children) ∧
      fromXml_dfa (permuteRoot scenarioA_xml [8, 1, 6]) = .ok anyA_dfa :=
  ⟨by decide!, by decide!, by decide!,
    ((C12_root_children_order scenarioA_xml scenarioA_root [8, 1, 6] (by decide!) (by decide!)
      (by decide!)).1 anyA_dfa).mpr scenarioA_built⟩

/-- C17. Whenever `toDot_dfa` returns a graph, the graph has the name of the automaton,
and for every state `i` the node at the index `i` has the name of the state, the shape
`circle`, an empty label, and two peripheries when the state is an accept state
(`isAccept` is not zero) and one, the default of a new node, when it is a reject
state. -/
theorem C17_state_nodes (h : DotHeader) (gmem : GraphMemory) (mem : Memory) (dfa : DFA)
    (G : Graph) (hG : toDot_dfa h gmem mem dfa = .ok G) :
    G.name = dfa.name ∧
      ∀ (i : Nat) (st : DFAState), dfa.states[i]? = some st →
        ∃ node : Node, G.nodes[i]? = some node ∧ node.name = st.name ∧
          node.shape = bytes "circle" ∧ node.label = [] ∧
          node.peripheries = if st.isAccept ≠ 0 then 2 else 1 := by
  have hGe := toDot_dfa_eq h gmem mem dfa G hG
  subst hGe
  exact ⟨rfl, fun i st hst =>
    ⟨_, graphOf_state_node h gmem mem dfa i st hst, rfl, rfl, rfl, rfl⟩⟩

theorem C17_state_nodes_witness :
    toDot_dfa sampleHeader zeroGraphMemory zeroMemory scenarioC_dfa = .ok scenarioC_graph ∧
      scenarioC_graph.nodes.map (·.peripheries) = [2, 1, 1] ∧
      (scenarioC_graph.name = scenarioC_dfa.name ∧
        ∀ (i : Nat) (st : DFAState), scenarioC_dfa.states[i]? = some st →
          ∃ node : Node, scenarioC_graph.nodes[i]? = some node ∧ node.name = st.name ∧
            node.shape = bytes "circle" ∧ node.label = [] ∧
            node.peripheries = if st.isAccept ≠ 0 then 2 else 1) :=
  ⟨scenarioC_drawn, by decide!,
    C17_state_nodes sampleHeader zeroGraphMemory zeroMemory scenarioC_dfa scenarioC_graph
      scenarioC_drawn⟩

/-- C18, for an alphabet of bytes below 128. Whenever `toDot_dfa` returns a graph for an
automaton built from a document that declares a transition for every pair of a state and
an alphabet symbol, the graph has exactly one node besides the nodes of the states; that
node has the style `invis` and the shape `point` and exactly one edge, which leads to the
node of the initial state; no edge of the graph leads to that node; and every edge of
another node that leads to the node of the initial state is an edge of a state node whose
label holds the symbol of a declared transition from that state to the initial state.
The bound on the alphabet is the domain in which the index `(int)with` of `dfa.c:97` and
the index `(int)*with` of `dfa.c:357` are the byte itself: for the byte 254 the cell of
state 0 is `nStates`. -/
theorem C18_initial_state_marker (h : DotHeader) (gmem : GraphMemory) (mem : Memory)
    (xml : Xml) (dfa : DFA) (G : Graph) (hb : fromXml_dfa xml = .ok dfa)
    (hfull : ∀ s < dfa.nStates, ∀ c ∈ dfa.alphabet, ∃ d ∈ declaredTransitions xml,
      stateId dfa.states d.source = some s ∧ d.symbol = c)
    (hG : toDot_dfa h gmem mem dfa = .ok G) (_h7 : ∀ b ∈ dfa.alphabet, b < 128) :
    G.nodes.length = dfa.nStates + 1 ∧
      (∃ r e, G.nodes[dfa.nStates]? = some r ∧ r.style = bytes "invis" ∧
        r.shape = bytes "point" ∧ r.edges = [e] ∧ e.target = dfa.initialStateId ∧
        dfa.initialStateId < dfa.nStates) ∧
      (∀ node ∈ G.nodes, ∀ e ∈ node.edges, e.target ≠ dfa.nStates) ∧
      ∀ s node e, G.nodes[s]? = some node → s ≠ dfa.nStates → e ∈ node.edges →
        e.target = dfa.initialStateId →
        s < dfa.nStates ∧ ∃ d ∈ declaredTransitions xml,
          stateId dfa.states d.source = some s ∧
          stateId dfa.states d.sink = some dfa.initialStateId ∧
          d.symbol ∈ dfa.alphabet ∧ d.symbol ∈ e.label := by
  have hGe := toDot_dfa_eq h gmem mem dfa G hG
  subst hGe
  obtain ⟨_, _, _, _, _, _, _, _, _, _, _, _, _, _, _, _, _, _, _, hlt, _, _⟩ :=
    fromXml_dfa_ok xml dfa hb
  obtain ⟨hlen, hreset⟩ := graphOf_reset_node h gmem mem dfa
  have hstate : ∀ s node, (graphOf h gmem mem dfa).nodes[s]? = some node → s ≠ dfa.nStates →
      s < dfa.nStates ∧ node.edges = rowEdges mem dfa s := by
    intro s node hn hne
    have hs : s < dfa.nStates := by
      have := getElem?_lt hn
      omega
    rw [graphOf_state_node h gmem mem dfa s _ (List.getElem?_eq_getElem hs)] at hn
    simp only [Option.some.injEq] at hn
    exact ⟨hs, by rw [← hn]⟩
  have hrow : ∀ s < dfa.nStates, ∀ e ∈ rowEdges mem dfa s,
      e.target < dfa.nStates ∧ ∃ d ∈ declaredTransitions xml,
        stateId dfa.states d.source = some s ∧ stateId dfa.states d.sink = some e.target ∧
        d.symbol ∈ dfa.alphabet ∧ d.symbol ∈ e.label := by
    intro s hs e he
    obtain ⟨_, hex, hlab⟩ := rowEdges_spec mem dfa s
    obtain ⟨c, hc, hcell⟩ := (hex e.target).mp ⟨e, he, rfl⟩
    obtain ⟨k, hk, hklt, d, hd, hds, hdc, hdk⟩ :=
      declared_cell xml dfa hb s c (hfull s hs c hc)
    have hkt : k = e.target := by
      rw [← hcell]
      simp [cellAt, hk]
    subst hkt
    subst hdc
    refine ⟨hklt, d, hd, hds, hdk, hc, ?_⟩
    rw [hlab e he]
    exact mem_symbolList _ _ (List.mem_filter.mpr ⟨hc, by simpa using hcell⟩)
  refine ⟨hlen, ⟨resetNode h gmem dfa, _, hreset, rfl, rfl, rfl, rfl, hlt⟩, ?_, ?_⟩
  · intro node hnode e he
    obtain ⟨s, hs⟩ := List.mem_iff_getElem?.mp hnode
    by_cases hsn : s = dfa.nStates
    · subst hsn
      rw [hreset] at hs
      simp only [Option.some.injEq] at hs
      subst hs
      simp only [resetNode, List.mem_singleton] at he
      subst he
      exact Nat.ne_of_lt hlt
    · obtain ⟨hs', hedges⟩ := hstate s node hs hsn
      rw [hedges] at he
      exact Nat.ne_of_lt (hrow s hs' e he).1
  · intro s node e hn hne he het
    obtain ⟨hs', hedges⟩ := hstate s node hn hne
    rw [hedges] at he
    obtain ⟨_, d, hd, hds, hdk, hsym, hlabel⟩ := hrow s hs' e he
    exact ⟨hs', d, hd, hds, by rw [← het]; exact hdk, hsym, hlabel⟩

theorem C18_initial_state_marker_witness :
    fromXml_dfa scenarioC_xml = .ok scenarioC_dfa ∧
      toDot_dfa sampleHeader zeroGraphMemory zeroMemory scenarioC_dfa = .ok scenarioC_graph ∧
      (∀ b ∈ scenarioC_dfa.alphabet, b < 128) ∧
      (scenarioC_graph.nodes.length = scenarioC_dfa.nStates + 1 ∧
        (∃ r e, scenarioC_graph.nodes[scenarioC_dfa.nStates]? = some r ∧
          r.style = bytes "invis" ∧ r.shape = bytes "point" ∧ r.edges = [e] ∧
          e.target = scenarioC_dfa.initialStateId ∧
          scenarioC_dfa.initialStateId < scenarioC_dfa.nStates) ∧
        (∀ node ∈ scenarioC_graph.nodes, ∀ e ∈ node.edges, e.target ≠ scenarioC_dfa.nStates) ∧
        ∀ s node e, scenarioC_graph.nodes[s]? = some node → s ≠ scenarioC_dfa.nStates →
          e ∈ node.edges → e.target = scenarioC_dfa.initialStateId →
          s < scenarioC_dfa.nStates ∧ ∃ d ∈ declaredTransitions scenarioC_xml,
            stateId scenarioC_dfa.states d.source = some s ∧
            stateId scenarioC_dfa.states d.sink = some scenarioC_dfa.initialStateId ∧
            d.symbol ∈ scenarioC_dfa.alphabet ∧ d.symbol ∈ e.label) :=
  ⟨scenarioC_built, scenarioC_drawn, by decide!,
    C18_initial_state_marker sampleHeader zeroGraphMemory zeroMemory scenarioC_xml
      scenarioC_dfa scenarioC_graph scenarioC_built scenarioC_total scenarioC_drawn
      (by decide!)⟩
/-! ## Claims C21 to C30 -/

/-- C21. For every string `s` of fewer than 256 bytes (`XML_MAX_CONTENT_SIZE`),
`private_toXmlString` returns a text and `private_fromXmlString` returns `s` for that
text, whatever bytes `s` holds. -/
theorem C21_decoding_undoes_encoding (s : CStr) (h : s.length < 256) :
    ∃ x, private_toXmlString s = .ok x ∧ private_fromXmlString x = .ok s :=
  ⟨_, (decode_encode s h).1, (decode_encode s h).2⟩

theorem C21_decoding_undoes_encoding_witness :
    mixedText.length < 256 ∧
      private_toXmlString mixedText =
        .ok (bytes "&lt;a href=&quot;x&quot;&gt;&amp;lt;&apos;&amp;amp;amp;&apos;&amp;&lt;/a&gt;") ∧
      ∃ x, private_toXmlString mixedText = .ok x ∧ private_fromXmlString x = .ok mixedText :=
  ⟨by decide!, by decide!, C21_decoding_undoes_encoding mixedText (by decide!)⟩

/-- C22 (counterexample). The document `aposDoc` is accepted; the value text of its
attribute `a` is the single byte `'`, which `private_fromXmlString` decodes to `'`, and
`toString_xattr` writes the parsed attribute as `a="&apos;"`: the value text that is
written back is `&apos;`, not `'`. -/
theorem C22_counterexample :
    ∃ xml root, fromString_xml aposDoc = .ok xml ∧ rootElem xml = some root ∧
      root.attributes = [{ name := bytes "a", value := bytes "'" }] ∧
      private_fromXmlString (bytes "'") = .ok (bytes "'") ∧
      private_toXmlString (bytes "'") = .ok (bytes "&apos;") ∧
      toString_xattr { name := bytes "a", value := bytes "'" } = .ok (bytes "a=\"&apos;\"") ∧
      bytes "&apos;" ≠ bytes "'" :=
  ⟨apos_xml, mkNode none "t" [] [] [("a", "'")], aposDoc_parsed, by decide!, by decide!,
    by decide!, by decide!, by decide!, by decide!⟩

/-- C22 (amended). For every value text `x` that `private_fromXmlString` decodes to a
value `s`: `private_toXmlString` returns a text `y` for `s`, `toString_xattr` writes an
attribute with the value `s` and a valid name as the name, `="`, `y` and `"`; `y` decodes
to `s` again; and `y` is `x` exactly when `x` is in the form that the encoder writes
(none of the bytes `<`, `>`, `"`, `'` and every `&` the start of one of the five
references). -/
theorem C22_reencoding_of_a_value (x s : CStr) (h : private_fromXmlString x = .ok s) :
    ∃ y, private_toXmlString s = .ok y ∧ private_fromXmlString y = .ok s ∧
      (y = x ↔ isEncoded x = true) ∧
      ∀ name : CStr, name ≠ [] → name.length < XML_MAX_ATTRIBUTE_NAME_SIZE →
        toString_xattr { name := name, value := s } = .ok (name ++ [61, 34] ++ y ++ [34]) := by
  rw [private_fromXmlString_eq] at h
  split at h
  · split at h
    · rename_i hx hs
      simp only [Except.ok.injEq] at h
      subst h
      obtain ⟨h1, h2⟩ := decode_encode (decodeReferences x) hs
      refine ⟨_, h1, h2, encode_decode_iff x, fun name hn hl => ?_⟩
      have hlen := flatMap_encodeByte_length (decodeReferences x)
      have hc : XML_MAX_CONTENT_SIZE = 256 := rfl
      have hv : XML_MAX_ATTRIBUTE_VAL_SIZE = 256 := rfl
      have hnm : XML_MAX_ATTRIBUTE_NAME_SIZE = 32 := rfl
      have hb : BUFFER_SIZE = 8192 := rfl
      have hbl : BUFFER_LARGE_SIZE = 131072 := rfl
      have hp : fromPattern BUFFER_SIZE
          (name ++ [61, 34] ++ (decodeReferences x).flatMap encodeByte ++ [34]) =
          .ok (name ++ [61, 34] ++ (decodeReferences x).flatMap encodeByte ++ [34]) := by
        rw [fromPattern_ok]
        refine ⟨⟨by decide, by decide, ?_⟩, rfl⟩
        simp only [List.length_append, List.length_cons, List.length_nil]
        omega
      unfold toString_xattr ASSERT_XMLATTRIBUTE
      simp only [h1, hp, bind, Except.bind, ASSERT_NOT_EMPTY, ASSERT_NOT_TOO_LONG, if_neg hn,
        if_pos hl, if_pos (show (decodeReferences x).length < XML_MAX_ATTRIBUTE_VAL_SIZE by omega),
        pure, Except.pure]
      rw [if_neg (by simp)]
    · cases h
  · cases h

theorem C22_reencoding_of_a_value_witness :
    private_fromXmlString (bytes "a&amp;b") = .ok (bytes "a&b") ∧
      isEncoded (bytes "a&amp;b") = true ∧ isEncoded (bytes "'") = false ∧
      ∃ y, private_toXmlString (bytes "a&b") = .ok y ∧
        private_fromXmlString y = .ok (bytes "a&b") ∧
        (y = bytes "a&amp;b" ↔ isEncoded (bytes "a&amp;b") = true) ∧
        ∀ name : CStr, name ≠ [] → name.length < XML_MAX_ATTRIBUTE_NAME_SIZE →
          toString_xattr { name := name, value := bytes "a&b" } =
            .ok (name ++ [61, 34] ++ y ++ [34]) :=
  ⟨by decide!, by decide!, by decide!,
    C22_reencoding_of_a_value (bytes "a&amp;b") (bytes "a&b") (by decide!)⟩

/-- C23. A document that is written as the grammar says (`lexOk`) and in which the name
of some closing tag is not the tag of the element that it closes (`matched` is false) is
rejected by `fromString_xml`. When the text is shorter than `BUFFER_LARGE_SIZE` and the
document is accepted once every closing name is replaced by the tag of its element, the
fatal error is a syntax error: the mismatch is then the only defect of the document. -/
theorem C23_mismatched_closing_name_is_rejected (D : Doc) (hlex : D.lexOk = true)
    (hmis : D.matched = false) :
    (∃ e, fromString_xml (docText D) = .error e) ∧
    ((docText D).length < BUFFER_LARGE_SIZE →
      (∃ xml, fromString_xml (docText D.closedByTag) = .ok xml) →
      ∃ msg, fromString_xml (docText D) = .error (.syntaxError msg)) := by
  obtain ⟨e, he⟩ := buildDoc_unmatched D hmis
  constructor
  · rw [parse_eq D hlex]
    cases h1 : ASSERT_NOT_TOO_LONG (docText D) BUFFER_LARGE_SIZE with
    | error e1 => exact ⟨e1, rfl⟩
    | ok u => exact ⟨e, he⟩
  · rintro hlen ⟨xml, hxml⟩
    rw [parse_eq D.closedByTag (doc_lexOk_closedByTag D hlex)] at hxml
    simp only [bind_eq_ok] at hxml
    obtain ⟨_, _, hb⟩ := hxml
    rw [parse_eq D hlex]
    simp only [ASSERT_NOT_TOO_LONG, if_pos hlen, ok_bind]
    rcases buildDoc_closedByTag D xml hb with h | h
    · rw [he] at h
      cases h
    · exact h

theorem C23_mismatched_closing_name_is_rejected_witness :
    ((∃ e, fromString_xml (docText shortCloseDoc) = .error e) ∧
      ((docText shortCloseDoc).length < BUFFER_LARGE_SIZE →
        (∃ xml, fromString_xml (docText shortCloseDoc.closedByTag) = .ok xml) →
        ∃ msg, fromString_xml (docText shortCloseDoc) = .error (.syntaxError msg))) ∧
    fromString_xml (bytes "<tx></t>") = .error (.syntaxError "Tag Mismatch") ∧
    fromString_xml (bytes "<t></tx>") = .error (.syntaxError "Expected 'XML_NODE_END'") ∧
    fromString_xml (bytes "<a><b></a></b>") = .error (.syntaxError "Tag Mismatch") :=
  ⟨C23_mismatched_closing_name_is_rejected shortCloseDoc (by decide!) (by decide!),
    by decide!, by decide!, by decide!⟩

/-- C24. For every accepted document that is written as the grammar says, the nodes of
the tree are the elements in document order (`Doc.nodes`), and for every node `i` with
`n` children: the children are nodes behind `i`, in ascending order, so in document
order; the parent of each child is `i`; the content of the element `i` has `n + 1`
texts, the text before each child element and the text before the closing tag; and
fragment `j` of the node is the decoded `j`-th text. The decoder keeps the bytes before
the first `&` of a text, so whitespace, as they are. -/
theorem C24_children_and_text_fragments (D : Doc) (xml : Xml) (hlex : D.lexOk = true)
    (h : fromString_xml (docText D) = .ok xml) :
    xml.nodes = D.nodes ∧
      (∀ (i : Nat) (node : XmlNode), xml.nodes[i]? = some node →
        node.children.Pairwise (· < ·) ∧
        (∀ c ∈ node.children,
          i < c ∧ ∃ child, xml.nodes[c]? = some child ∧ child.parent = some i) ∧
        ∃ its, D.contents[i]? = some its ∧ its.texts.length = node.children.length + 1 ∧
          ∀ (j : Nat) (t : CStr), its.texts[j]? = some t →
            node.content[j]? = some (decodeReferences t)) ∧
      ∀ a b : CStr, a.all (· != 38) = true →
        decodeReferences (a ++ b) = a ++ decodeReferences b := by
  rw [parse_eq D hlex] at h
  simp only [bind_eq_ok] at h
  obtain ⟨_, _, hb⟩ := h
  have hnodes := (buildDoc_ok D xml hb).1
  refine ⟨hnodes, fun i node hi => ?_, decodeReferences_plain⟩
  rw [hnodes] at hi ⊢
  obtain ⟨h1, h2, cont, h3, h4, h5⟩ := doc_nodes_spec D i node hi
  refine ⟨h2, h1, cont, h3, h4.symm, fun j t ht => ?_⟩
  rw [h5]
  have hfit := buildDoc_fits D xml hb cont (List.mem_iff_getElem?.mpr ⟨i, h3⟩)
  exact fragments_getElem? cont.texts j t ht (Nat.le_succ_of_le hfit)

theorem C24_children_and_text_fragments_witness :
    ∃ xml, fromString_xml (bytes "<a> x <b>1 &lt; 2</b> y <c/><d k=\"v\"> <e></e></d>z</a>") =
        .ok xml ∧
      xml.nodes = [mkNode none "a" [" x ", " y ", "", "z"] [1, 2, 3] [],
                   mkNode (some 0) "b" ["1 < 2"] [] [],
                   mkNode (some 0) "c" [] [] [],
                   mkNode (some 0) "d" [" ", ""] [4] [("k", "v")],
                   mkNode (some 3) "e" [] [] []] ∧
      treeDoc.contents =
        [.elem (bytes " x ") (bytes "b") [] [] (.last (bytes "1 &lt; 2")) (bytes "b") []
          (.self (bytes " y ") (bytes "c") [] []
            (.elem [] (bytes "d") (bytes " ")
              [{ name := bytes "k", quote := 34, raw := bytes "v", space := [] }]
              (.elem (bytes " ") (bytes "e") [] [] (.last []) (bytes "e") [] (.last []))
              (bytes "d") [] (.last (bytes "z")))),
         .last (bytes "1 &lt; 2"), .last [],
         .elem (bytes " ") (bytes "e") [] [] (.last []) (bytes "e") [] (.last []), .last []] ∧
      xml.nodes = treeDoc.nodes ∧
      (∀ (i : Nat) (node : XmlNode), xml.nodes[i]? = some node →
        node.children.Pairwise (· < ·) ∧
        (∀ c ∈ node.children,
          i < c ∧ ∃ child, xml.nodes[c]? = some child ∧ child.parent = some i) ∧
        ∃ its, treeDoc.contents[i]? = some its ∧
          its.texts.length = node.children.length + 1 ∧
          ∀ (j : Nat) (t : CStr), its.texts[j]? = some t →
            node.content[j]? = some (decodeReferences t)) ∧
      ∀ a b : CStr, a.all (· != 38) = true →
        decodeReferences (a ++ b) = a ++ decodeReferences b :=
  ⟨_, treeDoc_text ▸ treeDoc_parsed, rfl, by decide!,
    C24_children_and_text_fragments treeDoc _ (by decide!) treeDoc_parsed⟩

/-- C25 (counterexample). The prolog of `twoDeclarations` holds the declarations
`<?xml version="1.0"?>` and `<?style sheet?>`; the document is accepted and `meta` is the
second declaration, not the first. -/
theorem C25_counterexample :
    ∃ xml, fromString_xml (bytes "<?xml version=\"1.0\"?><?style sheet?><t></t>") = .ok xml ∧
      xml.meta = bytes "<?style sheet?>" ∧ xml.meta ≠ bytes "<?xml version=\"1.0\"?>" :=
  ⟨_, twoDeclarations_text ▸ twoDeclarations_parsed, by decide!, by decide!⟩

/-- C25 (amended). For every accepted document that is written as the grammar says and
whose prolog holds one or more declarations, `meta` is the LAST declaration of the
prolog, from its `<?` to its `>`: every declaration overwrites `meta`. It is the first
declaration exactly when the first and the last declaration have the same text. -/
theorem C25_meta_is_the_last_declaration (D : Doc) (xml : Xml) (last : CStr × CStr)
    (hlex : D.lexOk = true) (h : fromString_xml (docText D) = .ok xml)
    (hlast : D.prolog.getLast? = some last) :
    xml.meta = 60 :: 63 :: last.1 ++ [62] ∧
      ∀ first, D.prolog.head? = some first →
        (xml.meta = 60 :: 63 :: first.1 ++ [62] ↔ first.1 = last.1) := by
  rw [parse_eq D hlex] at h
  simp only [bind_eq_ok] at h
  obtain ⟨_, _, hb⟩ := h
  have hm := (buildDoc_ok D xml hb).2.1
  simp only [Doc.meta, hlast] at hm
  refine ⟨hm, fun first _ => ?_⟩
  rw [hm]
  constructor
  · intro heq
    simp only [List.cons_append, List.cons.injEq, true_and] at heq
    exact (List.append_cancel_right heq).symm
  · intro heq
    rw [heq]

theorem C25_meta_is_the_last_declaration_witness :
    ∃ xml, fromString_xml (docText twoDeclarations) = .ok xml ∧
      xml.meta = 60 :: 63 :: bytes "style sheet?" ++ [62] ∧
      ∀ first, twoDeclarations.prolog.head? = some first →
        (xml.meta = 60 :: 63 :: first.1 ++ [62] ↔ first.1 = bytes "style sheet?") :=
  ⟨_, twoDeclarations_parsed,
    C25_meta_is_the_last_declaration twoDeclarations _ (bytes "style sheet?", [])
      (by decide!) twoDeclarations_parsed (by decide!)⟩

/-- C26. One iteration of the attribute loop of `fromString_xml` on an attribute with a
valid name, behind any attributes `acc` and before any text `rest`: when the value text
`raw` is opened by `"` or by `'` and does not hold that character, the value ends at the
next occurrence of it, whether `raw` holds the other quote or not, and the attribute
with the decoded value is appended; for a value text with neither quote both delimiters
give the same result; and a value that is opened by another byte is a fatal syntax
error. -/
theorem C26_attribute_value_delimiters (fuel : Nat) (name raw rest : CStr)
    (acc : List XmlAttribute) (value : CStr) (hname : name.all (· != 61) = true)
    (hne : name ≠ []) (h47 : peek name ≠ 47) (h62 : peek name ≠ 62)
    (hlen : name.length < XML_MAX_ATTRIBUTE_NAME_SIZE)
    (hacc : acc.length + 1 < XML_MAX_ATTRIBUTES)
    (hval : private_fromXmlString raw = .ok value) (hrest : skipSpaces rest ≠ []) :
    (∀ q, (q = 34 ∨ q = 39) → raw.all (· != q) = true →
      attributeLoop (fuel + 1) (name ++ 61 :: q :: raw ++ q :: rest) acc =
        attributeLoop fuel (skipSpaces rest) (acc ++ [{ name := name, value := value }])) ∧
    (raw.all (· != 34) = true → raw.all (· != 39) = true →
      attributeLoop (fuel + 1) (name ++ 61 :: 34 :: raw ++ 34 :: rest) acc =
        attributeLoop (fuel + 1) (name ++ 61 :: 39 :: raw ++ 39 :: rest) acc) ∧
    (∀ q tail, q ≠ 34 → q ≠ 39 →
      attributeLoop (fuel + 1) (name ++ 61 :: q :: tail) acc =
        .error (.syntaxError "Expected 'QUOTE'")) := by
  refine ⟨fun q hq hraw => ?_, fun h34 h39 => ?_, fun q tail h34 h39 => ?_⟩
  · exact attributeLoop_quoted fuel name raw rest acc value q hname hne h47 h62 hlen hacc hval
      hrest hq hraw
  · rw [attributeLoop_quoted fuel name raw rest acc value 34 hname hne h47 h62 hlen hacc hval
        hrest (Or.inl rfl) h34,
      attributeLoop_quoted fuel name raw rest acc value 39 hname hne h47 h62 hlen hacc hval
        hrest (Or.inr rfl) h39]
  · exact attributeLoop_unquoted fuel name tail acc q hname hne h47 h62 hlen hacc h34 h39

theorem C26_attribute_value_delimiters_witness :
    attributeLoop 3 (bytes "a=\"it's\" b='say \"hi\"'>") [] =
        .ok (bytes ">", [{ name := bytes "a", value := bytes "it's" },
                         { name := bytes "b", value := bytes "say \"hi\"" }]) ∧
      fromString_xml (bytes "<t a=\"it's\" b='say \"hi\"'></t>") =
        .ok { meta := bytes "<?xml version='1.0' encoding='UTF-8' standalone='yes'?>"
              nodes := [mkNode none "t" [] [] [("a", "it's"), ("b", "say \"hi\"")]] } ∧
      fromString_xml (bytes "<t a=x></t>") = .error (.syntaxError "Expected 'QUOTE'") ∧
      ((∀ q, (q = 34 ∨ q = 39) → (bytes "it's").all (· != q) = true →
        attributeLoop (2 + 1) (bytes "a" ++ 61 :: q :: bytes "it's" ++ q :: bytes " b='1'>") [] =
          attributeLoop 2 (skipSpaces (bytes " b='1'>"))
            ([] ++ [{ name := bytes "a", value := bytes "it's" }])) ∧
      ((bytes "it's").all (· != 34) = true → (bytes "it's").all (· != 39) = true →
        attributeLoop (2 + 1) (bytes "a" ++ 61 :: 34 :: bytes "it's" ++ 34 :: bytes " b='1'>") [] =
          attributeLoop (2 + 1)
            (bytes "a" ++ 61 :: 39 :: bytes "it's" ++ 39 :: bytes " b='1'>") []) ∧
      (∀ q tail, q ≠ 34 → q ≠ 39 →
        attributeLoop (2 + 1) (bytes "a" ++ 61 :: q :: tail) [] =
          .error (.syntaxError "Expected 'QUOTE'"))) :=
  ⟨by decide!, quotesDoc_text ▸ quotesDoc_parsed, by decide!,
    C26_attribute_value_delimiters 2 (bytes "a") (bytes "it's") (bytes " b='1'>") []
      (bytes "it's") (by decide!) (by decide!) (by decide!) (by decide!) (by decide!)
      (by decide!) (by decide!) (by decide!)⟩

/-- C27 (counterexample). `paddedDoc BUFFER_LARGE_SIZE` is `plainDoc` (`<t></t>`) with
`BUFFER_LARGE_SIZE` spaces between the closing name of the root and its `>`: `plainDoc`
is accepted and the padded document is rejected, because its text is not shorter than
`BUFFER_LARGE_SIZE`. -/
theorem C27_counterexample :
    docText (paddedDoc BUFFER_LARGE_SIZE) =
        bytes "<t></t" ++ List.replicate BUFFER_LARGE_SIZE 32 ++ bytes ">" ∧
      docText plainDoc = bytes "<t></t>" ∧
      (paddedDoc BUFFER_LARGE_SIZE).lexOk = true ∧
      (paddedDoc BUFFER_LARGE_SIZE).strip = plainDoc.strip ∧
      (∃ xml, fromString_xml (docText plainDoc) = .ok xml) ∧
      fromString_xml (docText (paddedDoc BUFFER_LARGE_SIZE)) = .error .tooLong :=
  ⟨paddedDoc_text BUFFER_LARGE_SIZE, by decide!, paddedDoc_lexOk BUFFER_LARGE_SIZE, rfl,
    ⟨_, plainDoc_parsed⟩, paddedDoc_tooLong BUFFER_LARGE_SIZE (Nat.le_refl _)⟩

/-- C27 (amended). Two documents that are written as the grammar says and that differ
only in the whitespace outside their text fragments (between the prolog and the root
element, between two attributes of an opening tag, between a closing name and its `>`,
and the other whitespace that `strip` removes) have the same result of `fromString_xml`:
the same tree, attributes, text fragments and `meta`, or the same fatal error, as long
as both texts are shorter than `BUFFER_LARGE_SIZE`. -/
theorem C27_whitespace_between_tokens (D D' : Doc) (hlex : D.lexOk = true)
    (hlex' : D'.lexOk = true) (hsame : D'.strip = D.strip)
    (hlen : (docText D).length < BUFFER_LARGE_SIZE)
    (hlen' : (docText D').length < BUFFER_LARGE_SIZE) :
    fromString_xml (docText D') = fromString_xml (docText D) :=
  parse_strip D D' hlex hlex' hsame hlen hlen'

theorem C27_whitespace_between_tokens_witness :
    fromString_xml (bytes "<?xml version=\"1.0\"?>\n  <t a=\"1\" \n\t b=\"2\"><u></u  ></t \n>") =
      fromString_xml (bytes "<?xml version=\"1.0\"?><t a=\"1\" b=\"2\"><u></u></t>") :=
  spacedDoc_text ▸ compactDoc_text ▸
    C27_whitespace_between_tokens compactDoc spacedDoc (by decide!) (by decide!) (by decide!)
      (by decide!) (by decide!)

/-- C28. A document whose root element is written self-closing (`<t .../>`, behind a
prolog that is written as the grammar says) is rejected by `fromString_xml`: the outer
loop is left with `ptr` at the `>` of the tag, and `ASSERT_EMPTY` fails. -/
theorem C28_self_closing_root_is_rejected (D : Doc) (hlead : spaceOk D.lead = true)
    (hprolog : D.prolog.all (fun d => d.1.all (· != 62) && spaceOk d.2) = true)
    (hhead : headOk D.tag D.space D.attrs = true) (h63 : peek D.tag ≠ 63) :
    ∃ e, fromString_xml (selfClosedText D) = .error e :=
  parse_selfClosed_error D hlead hprolog hhead h63

theorem C28_self_closing_root_is_rejected_witness :
    selfClosedText plainDoc = bytes "<t/>" ∧
      fromString_xml (bytes "<t/>") = .error .notEmpty ∧
      ∃ e, fromString_xml (selfClosedText plainDoc) = .error e :=
  ⟨by decide!, by decide!,
    C28_self_closing_root_is_rejected plainDoc (by decide!) (by decide!) (by decide!)
      (by decide!)⟩

/-- C29. After a sequence of `insert_ht` calls that all succeed, on a table that
`initialize_ht` or `empty_ht` has just cleared, `get_ht` of a key `k` shorter than
`HT_MAX_KEY_SIZE` returns the value of the most recent call whose key is `k`, and NULL
when no call has the key `k`. -/
theorem C29_table_is_a_finite_map (start ht : HashTable) (ops : List (CStr × Nat)) (k : CStr)
    (hstart : start = initialize_ht ∨ ∃ old, empty_ht old = .ok start)
    (h : insertAll ops start = .ok ht) (hk : k.length < HT_MAX_KEY_SIZE) :
    get_ht ht k = .ok (lastInserted ops k) := by
  have hs : start = initialize_ht := by
    rcases hstart with hs | ⟨old, ho⟩
    · exact hs
    · exact empty_ht_ok old start ho
  subst hs
  obtain ⟨hv, _⟩ := insertAll_valid ops initialize_ht ht h rfl
    (fun r => by simp [initialize_ht, HT_MAX_SAME_HASHES])
  rw [get_ht_run ht k hv hk, insertAll_lookup ops initialize_ht ht h k]
  cases lastInserted ops k <;> rfl

theorem C29_table_is_a_finite_map_witness :
    hash (bytes "q7") % HT_ROW_COUNT = hash (bytes "q1985") % HT_ROW_COUNT ∧
      hash (bytes "q7") % HT_ROW_COUNT = hash (bytes "q7286") % HT_ROW_COUNT ∧
      get_ht sampleTable (bytes "q7") = .ok (some 5) ∧
      get_ht sampleTable (bytes "q1985") = .ok (some 1) ∧
      get_ht sampleTable (bytes "q7286") = .ok none ∧
      get_ht sampleTable (bytes "q7") = .ok (lastInserted sampleCalls (bytes "q7")) :=
  ⟨by decide!, by decide!, by decide!, by decide!, by decide!,
    C29_table_is_a_finite_map initialize_ht sampleTable sampleCalls (bytes "q7") (Or.inl rfl)
      sampleCalls_run (by decide!)⟩

/-- C30 (counterexample). The fifteen keys of `sameRowKeys` fall into one row. The first
fourteen calls succeed and leave 14 pairs in that row and 14 keys in the table; the
fifteenth key is not in the table, the row holds fewer than `HT_MAX_SAME_HASHES` pairs and
the table fewer than `HT_MAX_KEYS` keys, and `insert_ht` of the fifteenth key ends the
process. -/
theorem C30_counterexample :
    (insertAll (sameRowKeys.take 14) initialize_ht).map
        (fun ht => (ht.nKeys, (ht.map 7693).length, lookup_ht ht (bytes "q184370"))) =
      .ok (14, 14, none) ∧
      hash (bytes "q184370") % HT_ROW_COUNT = 7693 ∧ 14 < HT_MAX_SAME_HASHES ∧
      14 < HT_MAX_KEYS ∧
      (insertAll (sameRowKeys.take 14) initialize_ht >>= fun ht =>
        insert_ht ht (bytes "q184370") 14) = .error Fatal.outOfBounds := by
  refine ⟨by decide!, by decide!, by decide!, by decide!, by decide!⟩

/-- C30 (amended). `insert_ht` of a key shorter than `HT_MAX_KEY_SIZE` that is not yet in
the table, on a table that passes the check at the entry of `insert_ht`, ends the process
exactly when the row of the key already holds `HT_MAX_SAME_HASHES - 1` (14) pairs or more,
or the table already holds `HT_MAX_KEYS - 1` (1999) keys or more, and succeeds in every
other case; a table that is built by calls of `insert_ht` never holds more than 1999 keys
nor more than 14 pairs in a row. -/
theorem C30_insert_of_a_new_key (ht : HashTable) (k : CStr) (v : Nat)
    (hv : ASSERT_HASHTABLE ht = .ok ()) (hk : k.length < HT_MAX_KEY_SIZE)
    (hnew : lookup_ht ht k = none) :
    ((∃ e, insert_ht ht k v = .error e) ↔
        14 ≤ (ht.map (hash k % HT_ROW_COUNT)).length ∨ 1999 ≤ ht.nKeys) ∧
      ((∃ ht', insert_ht ht k v = .ok ht') ↔
        (ht.map (hash k % HT_ROW_COUNT)).length < 14 ∧ ht.nKeys < 1999) ∧
      ∀ ops t, insertAll ops initialize_ht = .ok t →
        t.nKeys ≤ 1999 ∧ ∀ r, (t.map r).length ≤ 14 := by
  have h := insert_ht_new ht k v hv hk hnew
  have h15 : HT_MAX_SAME_HASHES = 15 := rfl
  have h2000 : HT_MAX_KEYS = 2000 := rfl
  refine ⟨?_, ?_, fun ops t ht => ?_⟩
  · rw [h]
    split
    · rename_i hc
      simp only [reduceCtorEq, exists_false, false_iff]
      omega
    · rename_i hc
      simp only [Except.error.injEq, exists_eq', true_iff]
      omega
  · rw [h]
    split
    · rename_i hc
      simp only [Except.ok.injEq, exists_eq', true_iff]
      omega
    · rename_i hc
      simp only [reduceCtorEq, exists_false, false_iff]
      omega
  · obtain ⟨hkeys, hrows⟩ := insertAll_valid ops initialize_ht t ht rfl
      (fun r => by simp [initialize_ht, HT_MAX_SAME_HASHES])
    rw [ASSERT_HASHTABLE_ok] at hkeys
    refine ⟨by omega, fun r => ?_⟩
    have := hrows r
    omega

theorem C30_insert_of_a_new_key_witness :
    ASSERT_HASHTABLE sampleTable = .ok () ∧ lookup_ht sampleTable (bytes "q7286") = none ∧
      (((∃ e, insert_ht sampleTable (bytes "q7286") 2 = .error e) ↔
          14 ≤ (sampleTable.map (hash (bytes "q7286") % HT_ROW_COUNT)).length ∨
            1999 ≤ sampleTable.nKeys) ∧
        ((∃ ht', insert_ht sampleTable (bytes "q7286") 2 = .ok ht') ↔
          (sampleTable.map (hash (bytes "q7286") % HT_ROW_COUNT)).length < 14 ∧
            sampleTable.nKeys < 1999) ∧
        ∀ ops t, insertAll ops initialize_ht = .ok t →
          t.nKeys ≤ 1999 ∧ ∀ r, (t.map r).length ≤ 14) :=
  ⟨by decide!, by decide!,
    C30_insert_of_a_new_key sampleTable (bytes "q7286") 2 (by decide!) (by decide!) (by decide!)⟩
/-! ## Claims C31 to C40 -/

/-- C31. With a quote character that is neither a tab nor a newline, the text that
`toLabel_dot` returns is the raw label with every byte replaced by its escaped form, in
order; and with a label size of the header between 3 and `BUFFER_LARGE_SIZE` the function
returns that text whenever it is shorter than the label size, and ends the process
otherwise. -/
theorem C31_toLabel_is_bytewise_escape (h : DotHeader) (quote : Nat) (raw : CStr)
    (h9 : quote ≠ 9) (h10 : quote ≠ 10) :
    (∀ label, toLabel_dot h quote raw = .ok label →
      label = raw.flatMap fun c =>
        if c = 92 then [92, 92] else if c = quote then [92, quote]
        else if c = 10 then [92, 108] else if c = 9 then [] else [c]) ∧
    (2 < h.DOT_MAX_LABEL_SIZE → h.DOT_MAX_LABEL_SIZE ≤ BUFFER_LARGE_SIZE →
      toLabel_dot h quote raw =
        if (escapeLabel quote raw).length < h.DOT_MAX_LABEL_SIZE
        then .ok (escapeLabel quote raw) else .error .tooLong) := by
  constructor
  · intro label hl
    unfold toLabel_dot at hl
    simp only [bind_eq_ok, pure_eq_ok] at hl
    obtain ⟨l, hloop, _, _, rfl⟩ := hl
    have := toLabel_dot_loop_ok h quote h9 h10 raw [] l hloop
    simpa [escapeLabel, escapeLabelByte] using this
  · intro hcap hcap'
    unfold toLabel_dot
    rw [toLabel_dot_loop_run h quote h9 h10 hcap hcap' raw []]
    simp only [List.nil_append, ok_bind, ASSERT_NOT_TOO_LONG]
    split <;> rfl

theorem C31_toLabel_is_bytewise_escape_witness :
    toLabel_dot sampleHeader 34 (bytes "a\\b\"c\nd\te") = .ok (bytes "a\\\\b\\\"c\\lde") ∧
      ((∀ label, toLabel_dot sampleHeader 34 (bytes "a\\b\"c\nd\te") = .ok label →
        label = (bytes "a\\b\"c\nd\te").flatMap fun c =>
          if c = 92 then [92, 92] else if c = 34 then [92, 34]
          else if c = 10 then [92, 108] else if c = 9 then [] else [c]) ∧
      (2 < sampleHeader.DOT_MAX_LABEL_SIZE → sampleHeader.DOT_MAX_LABEL_SIZE ≤ BUFFER_LARGE_SIZE →
        toLabel_dot sampleHeader 34 (bytes "a\\b\"c\nd\te") =
          if (escapeLabel 34 (bytes "a\\b\"c\nd\te")).length < sampleHeader.DOT_MAX_LABEL_SIZE
          then .ok (escapeLabel 34 (bytes "a\\b\"c\nd\te")) else .error .tooLong)) :=
  ⟨by decide!,
    C31_toLabel_is_bytewise_escape sampleHeader 34 (bytes "a\\b\"c\nd\te") (by decide)
      (by decide)⟩

/-- C32 (the code on every automaton). Whenever `toDot_dfa` returns a graph, the edge of
the node of a state `s` that belongs to an alphabet symbol `w` has as its label the
symbols that lead to its target, each as the one byte that the alphabet holds, with
commas between them: a symbol takes one byte of the label whatever it is, a backslash or
a quote is not preceded by a backslash. -/
theorem C32_edge_labels_are_raw (h : DotHeader) (gmem : GraphMemory) (mem : Memory) (dfa : DFA)
    (G : Graph) (hG : toDot_dfa h gmem mem dfa = .ok G) (s w : Nat) (hs : s < dfa.nStates)
    (hw : w ∈ dfa.alphabet) :
    ∃ node e, G.nodes[s]? = some node ∧ e ∈ node.edges ∧ e.target = cellAt mem dfa s w ∧
      e.label = symbolList (dfa.alphabet.filter fun c =>
        decide (cellAt mem dfa s c = cellAt mem dfa s w)) ∧
      e.label.length + 1 = 2 * (dfa.alphabet.filter fun c =>
        decide (cellAt mem dfa s c = cellAt mem dfa s w)).length ∧
      ((dfa.alphabet.filter fun c => decide (cellAt mem dfa s c = cellAt mem dfa s w)) = [w] →
        e.label = [w]) := by
  have hGe := toDot_dfa_eq h gmem mem dfa G hG
  subst hGe
  have hs' : s < dfa.states.length := hs
  obtain ⟨_, hex, hlab⟩ := rowEdges_spec mem dfa s
  obtain ⟨e, he, het⟩ := (hex (cellAt mem dfa s w)).mpr ⟨w, hw, rfl⟩
  have hl := hlab e he
  rw [het] at hl
  have hne : (dfa.alphabet.filter fun c =>
      decide (cellAt mem dfa s c = cellAt mem dfa s w)) ≠ [] := by
    intro h0
    have : w ∈ dfa.alphabet.filter fun c =>
        decide (cellAt mem dfa s c = cellAt mem dfa s w) := by
      simp [List.mem_filter, hw]
    rw [h0] at this
    cases this
  refine ⟨_, e, graphOf_state_node h gmem mem dfa s _ (List.getElem?_eq_getElem hs'), he, het,
    hl, ?_, fun h1 => ?_⟩
  · rw [hl]
    exact symbolList_length _ hne
  · rw [hl, h1]
    rfl

theorem C32_edge_labels_are_raw_witness :
    fromString_xml escDoc >>= fromXml_dfa = .ok esc_dfa ∧
      toDot_dfa sampleHeader zeroGraphMemory zeroMemory esc_dfa = .ok esc_graph ∧
      esc_graph.nodes.map (·.edges) =
        [[{ label := bytes "\\", target := 0 }, { label := bytes "\"", target := 1 }],
         [{ label := bytes "\\,\"", target := 1 }], [{ label := [], target := 0 }]] ∧
      toLabel_dot sampleHeader 34 (bytes "\\") = .ok (bytes "\\\\") ∧
      toLabel_dot sampleHeader 34 (bytes "\"") = .ok (bytes "\\\"") ∧
      ∃ node e, esc_graph.nodes[0]? = some node ∧ e ∈ node.edges ∧
        e.target = cellAt zeroMemory esc_dfa 0 92 ∧
        e.label = symbolList (esc_dfa.alphabet.filter fun c =>
          decide (cellAt zeroMemory esc_dfa 0 c = cellAt zeroMemory esc_dfa 0 92)) ∧
        e.label.length + 1 = 2 * (esc_dfa.alphabet.filter fun c =>
          decide (cellAt zeroMemory esc_dfa 0 c = cellAt zeroMemory esc_dfa 0 92)).length ∧
        ((esc_dfa.alphabet.filter fun c =>
          decide (cellAt zeroMemory esc_dfa 0 c = cellAt zeroMemory esc_dfa 0 92)) = [92] →
          e.label = [92]) :=
  ⟨escDoc_built, escDoc_drawn, by decide!, by decide!, by decide!,
    C32_edge_labels_are_raw sampleHeader zeroGraphMemory zeroMemory esc_dfa esc_graph
      escDoc_drawn 0 92 (by decide!) (by decide!)⟩

/-- C33. Two automata with the same name, alphabet, number of states, state array and
`initialStateId` that agree on every cell `transitions[s][c]` with `s` below the number
of states and `c` in the alphabet get the same result from `toC_dfa` and the same result
from `toDot_dfa`, whatever the other cells of the table hold. -/
theorem C33_emitters_read_alphabet_cells_only (mem1 mem2 : Memory) (dfa1 dfa2 : DFA)
    (hname : dfa1.name = dfa2.name) (halpha : dfa1.alphabet = dfa2.alphabet)
    (hn : dfa1.nStates = dfa2.nStates)
    (hstates : ∀ i, i < DFA_MAX_STATES → stateAt mem1 dfa1 i = stateAt mem2 dfa2 i)
    (hinit : dfa1.initialStateId = dfa2.initialStateId)
    (hcells : ∀ s, s < dfa1.nStates → ∀ c ∈ dfa1.alphabet,
      cellAt mem1 dfa1 s c = cellAt mem2 dfa2 s c) :
    toC_dfa mem1 dfa1 = toC_dfa mem2 dfa2 ∧
      ∀ (h : DotHeader) (gmem : GraphMemory),
        toDot_dfa h gmem mem1 dfa1 = toDot_dfa h gmem mem2 dfa2 :=
  ⟨toC_dfa_congr mem1 mem2 dfa1 dfa2 hname halpha hn hstates hinit hcells,
    fun h gmem => toDot_dfa_congr h gmem mem1 mem2 dfa1 dfa2 hname halpha hn hstates hinit
      hcells⟩

theorem C33_emitters_read_alphabet_cells_only_witness :
    cellAt zeroMemory scenarioC_dfa 0 99 = 0 ∧ cellAt sevenMemory scenarioC_dfa 0 99 = 7 ∧
      (∃ txt, toC_dfa zeroMemory scenarioC_dfa = .ok txt) ∧
      toDot_dfa sampleHeader zeroGraphMemory sevenMemory scenarioC_dfa = .ok scenarioC_graph ∧
      (toC_dfa zeroMemory scenarioC_dfa = toC_dfa sevenMemory scenarioC_dfa ∧
        ∀ (h : DotHeader) (gmem : GraphMemory),
          toDot_dfa h gmem zeroMemory scenarioC_dfa =
            toDot_dfa h gmem sevenMemory scenarioC_dfa) :=
  ⟨by decide!, by decide!,
    by
      have h : (toC_dfa zeroMemory scenarioC_dfa).toBool = true := by decide!
      cases hx : toC_dfa zeroMemory scenarioC_dfa with
      | ok txt => exact ⟨txt, rfl⟩
      | error e => rw [hx] at h; simp [Except.toBool] at h,
    by decide!,
    C33_emitters_read_alphabet_cells_only zeroMemory sevenMemory scenarioC_dfa scenarioC_dfa
      rfl rfl rfl (fun _ _ => rfl) rfl (by decide!)⟩

/-- C34. `hash` of the empty string is 5381; for every string `s` and every byte `c` in
1..127, `hash` of `s` followed by `c` is `(33 * hash s + c) mod 2 ^ w`, for `w = 64` and
for every other width `w` of `unsigned long`; and the row of a key `k` in the name table
is `hash k mod HT_ROW_COUNT`, a valid row index: it is the only row that `insert_ht`
changes and the row that `get_ht` reads. A byte `c` in 128..255 is not added as such:
`hash` reads it through a signed `char`, so it adds `c - 256`, and the hash of the one
byte 200 is 177517. -/
theorem C34_hash_is_djb2 :
    hash [] = 5381 ∧ hash (bytes "a") = 33 * 5381 + 97 ∧
      (∀ (s : CStr) (c : Nat), 1 ≤ c → c ≤ 127 →
        hash (s ++ [c]) = (33 * hash s + c) % 2 ^ 64) ∧
      (∀ (w : Nat) (s : CStr) (c : Nat), 1 ≤ c → c ≤ 127 →
        hashAt w (s ++ [c]) = (33 * hashAt w s + c) % 2 ^ w) ∧
      (∀ w, 13 ≤ w → hashAt w [] = 5381) ∧ (∀ s, hash s = hashAt 64 s) ∧
      (∀ k : CStr, hash k % HT_ROW_COUNT < HT_ROW_COUNT) ∧
      (∀ (ht ht' : HashTable) (k : CStr) (v : Nat), insert_ht ht k v = .ok ht' →
        ∀ r, r ≠ hash k % HT_ROW_COUNT → ht'.map r = ht.map r) ∧
      (∀ (ht : HashTable) (k : CStr) (v : Option Nat), get_ht ht k = .ok v →
        v = findInRow k (ht.map (hash k % HT_ROW_COUNT))) ∧
      (∀ (s : CStr) (c : Nat), 128 ≤ c → c ≤ 255 →
        hash (s ++ [c]) = (33 * hash s + c + (2 ^ 64 - 256)) % 2 ^ 64) ∧
      hash [200] = 177517 ∧ hash [97, 200, 98] = 193480880 := by
  refine ⟨rfl, by decide!, fun s c _ hc => ?_,
    fun w s c _ hc => hashAt_snoc w s c (Nat.lt_succ_of_le hc), fun w hw => ?_,
    hash_eq_hashAt, fun k => Nat.mod_lt _ (by decide), insert_ht_other_rows,
    fun ht k v h => ?_, fun s c hc hc2 => ?_, by decide!, by decide!⟩
  · rw [hash_eq_hashAt, hash_eq_hashAt, hashAt_snoc 64 s c (Nat.lt_succ_of_le hc)]
  · unfold hashAt
    simp only [List.foldl_nil]
    apply Nat.mod_eq_of_lt
    calc 5381 < 2 ^ 13 := by decide
      _ ≤ 2 ^ w := Nat.pow_le_pow_right (by decide) hw
  · unfold get_ht at h
    simp only [bind_eq_ok, pure_eq_ok] at h
    obtain ⟨_, _, _, _, h⟩ := h
    exact h.symm
  · rw [hash_eq_hashAt, hash_eq_hashAt, hashAt_snoc_high 64 s c hc]
    omega

/-- C35 (as the code has it): a document that is written as the grammar says is accepted
only if every element has fewer than `XML_MAX_CHILDREN` children, that is 31 at most; a
document in which an element has `XML_MAX_CHILDREN` children or more is refused. The
check is that of `ASSERT_XMLNODE(parent)` in `initialize_xmln`, which runs after the new
child was counted. -/
theorem C35_child_limit_is_strict (D : Doc) (hlex : D.lexOk = true) :
    (∀ xml, fromString_xml (docText D) = .ok xml →
        ∀ c ∈ D.contents, (c.childIndices 0).length < XML_MAX_CHILDREN) ∧
      ((∃ c ∈ D.contents, XML_MAX_CHILDREN ≤ (c.childIndices 0).length) →
        ∃ e, fromString_xml (docText D) = .error e) ∧
      ∀ xml p xml1 k, newNode xml (some p) = .ok (xml1, k) →
        ∃ par, xml.nodes[p]? = some par ∧ par.children.length + 1 < XML_MAX_CHILDREN := by
  have key : ∀ xml, fromString_xml (docText D) = .ok xml →
      ∀ c ∈ D.contents, (c.childIndices 0).length < XML_MAX_CHILDREN := by
    intro xml h c hc
    rw [parse_eq D hlex] at h
    simp only [bind_eq_ok] at h
    obtain ⟨_, _, h⟩ := h
    have := buildDoc_fits D xml h c hc
    rw [texts_length c 0] at this
    omega
  refine ⟨key, ?_, ?_⟩
  · rintro ⟨c, hc, hlen⟩
    cases h : fromString_xml (docText D) with
    | error e => exact ⟨e, rfl⟩
    | ok xml =>
      have := key xml h c hc
      omega
  · intro xml p xml1 k h
    obtain ⟨_, par, hpar, hlt, _⟩ := newNode_child xml xml1 p k h
    exact ⟨par, hpar, hlt⟩

/-- A root with 31 children is accepted. -/
theorem C35_child_limit_is_strict_witness :
    (wideDoc 31).lexOk = true ∧
      fromString_xml (docText (wideDoc 31)) =
        .ok { meta := (wideDoc 31).meta, nodes := (wideDoc 31).nodes } ∧
      ∀ c ∈ (wideDoc 31).contents, (c.childIndices 0).length < XML_MAX_CHILDREN :=
  ⟨by decide!, wideDoc_31_parsed,
    (C35_child_limit_is_strict (wideDoc 31) (by decide!)).1 _ wideDoc_31_parsed⟩

/-- C35 (counterexample). The root of `wideDoc 32` has exactly `XML_MAX_CHILDREN` (32)
children, its tags, texts and node count are far below their limits, and the parser
refuses it with the diagnostic of `ASSERT_FITS_IN_BOUND`. -/
theorem C35_counterexample :
    (wideDoc 32).lexOk = true ∧
      ((wideDoc 32).inner.childIndices 0).length = XML_MAX_CHILDREN ∧
      (docText (wideDoc 32)).length = 135 ∧
      fromString_xml (docText (wideDoc 32)) = .error .outOfBounds :=
  ⟨by decide!, by decide!, by decide!, wideDoc_32_refused⟩

/-- C36. `fromXml_dfa` returns an automaton only for a tree whose root carries an
`alphabet` attribute with a non-empty value (the last such attribute gives the alphabet
of the automaton); so for every tree whose root has no `alphabet` attribute the build
ends the process. -/
theorem C36_alphabet_attribute_is_required (xml : Xml) :
    (∀ dfa, fromXml_dfa xml = .ok dfa →
      ∃ root attr, rootElem xml = some root ∧ attr ∈ root.attributes ∧
        attr.name = bytes "alphabet" ∧ attr.value ≠ [] ∧ dfa.alphabet = attr.value) ∧
    ((∀ root, rootElem xml = some root →
        ∀ attr ∈ root.attributes, attr.name ≠ bytes "alphabet") →
      ∃ e, fromXml_dfa xml = .error e) := by
  have key : ∀ dfa, fromXml_dfa xml = .ok dfa →
      ∃ root attr, rootElem xml = some root ∧ attr ∈ root.attributes ∧
        attr.name = bytes "alphabet" ∧ attr.value ≠ [] ∧ dfa.alphabet = attr.value := by
    intro dfa h
    obtain ⟨root, _, _, _, _, alphabet, hroot, _, _, _, _, _, hlast, halpha, _⟩ :=
      fromXml_dfa_ok xml dfa h
    obtain ⟨attr, hmem, hname, hval⟩ := lastAttribute_mem _ _ _ hlast
    rw [fromXml_dfa_eq] at h
    simp only [bind_eq_ok] at h
    obtain ⟨st, hst, ⟨dfa5, e5⟩, hsrc, h⟩ := h
    obtain ⟨_, _, _, _, alphabet', hroot', _, _, _, _, _, hlast', halpha', _, _, _, _, _, _, _, _,
      _, hdfa, _⟩ := fromXml_dfa_header_ok xml st hst
    rw [hroot] at hroot'
    simp only [Option.some.injEq] at hroot'
    subst hroot'
    rw [hlast] at hlast'
    simp only [Option.some.injEq] at hlast'
    subst hlast'
    have hne := (ASSERT_DFA_ok.mp hdfa).2.2.1
    rw [halpha'] at hne
    exact ⟨root, attr, hroot, hmem, hname, by rw [hval]; exact hne, by rw [halpha, hval]⟩
  refine ⟨key, fun hno => ?_⟩
  cases hb : fromXml_dfa xml with
  | error e => exact ⟨e, rfl⟩
  | ok dfa =>
    obtain ⟨root, attr, hroot, hmem, hname, _⟩ := key dfa hb
    exact absurd hname (hno root hroot attr hmem)

theorem C36_alphabet_attribute_is_required_witness :
    fromXml_dfa scenarioA_xml = .ok anyA_dfa ∧
      (fromString_xml scenarioB >>= fromXml_dfa) = .error Fatal.empty ∧
      ∃ root attr, rootElem scenarioA_xml = some root ∧ attr ∈ root.attributes ∧
        attr.name = bytes "alphabet" ∧ attr.value ≠ [] ∧ anyA_dfa.alphabet = attr.value :=
  ⟨scenarioA_built, scenarioB_fails,
    (C36_alphabet_attribute_is_required scenarioA_xml).1 anyA_dfa scenarioA_built⟩

/-- C38, for texts whose copied runs fit their arrays. A turn of the prolog loop, of the
attribute loop and of the loop over text fragments and closing tags, started where the
bytes that the turn copies fit the arrays they are copied to (`metaFits`,
`attributeFits`, `contentFits`), and a turn of the element loop started with fewer than
`XML_MAX_TAG_SIZE` bytes to go, either leaves the loop, or ends the run with a diagnostic
of the program, or goes on with a rest of the text that is strictly shorter; and
`fromString_xml` on a text of fewer than `XML_MAX_TAG_SIZE` bytes returns a tree or ends
with a diagnostic. The bounds are needed: `fromString_xml` copies a run of bytes to its
array first and looks at the length afterwards, so on a longer run it writes past the
array. The last five parts are about the fuel of the definitions: no loop and no run ends
for want of it, and a loop that is run with more fuel than bytes gives a result that does
not depend on the fuel. -/
theorem C38_parser_terminates :
    (∀ s : CStr, s.length < XML_MAX_TAG_SIZE →
        (∃ xml, fromString_xml s = .ok xml) ∨
          ∃ e, e ≠ Fatal.outOfFuel ∧ fromString_xml s = .error e) ∧
      (∀ ptr xml, metaFits ptr = true →
        (∀ fuel, metaLoop (fuel + 1) ptr xml = .ok (ptr, xml)) ∨
        (∃ e, e ≠ Fatal.outOfFuel ∧ ∀ fuel, metaLoop (fuel + 1) ptr xml = .error e) ∨
        ∃ ptr1 xml1, ptr1.length < ptr.length ∧
          ∀ fuel, metaLoop (fuel + 1) ptr xml = metaLoop fuel ptr1 xml1) ∧
      (∀ ptr attrs, attributeFits ptr = true →
        (∀ fuel, attributeLoop (fuel + 1) ptr attrs = .ok (ptr, attrs)) ∨
        (∃ e, e ≠ Fatal.outOfFuel ∧ ∀ fuel, attributeLoop (fuel + 1) ptr attrs = .error e) ∨
        ∃ ptr1 attrs1, ptr1.length < ptr.length ∧
          ∀ fuel, attributeLoop (fuel + 1) ptr attrs = attributeLoop fuel ptr1 attrs1) ∧
      (∀ ptr xml n parent, contentFits ptr = true →
        (∃ st : ParseState, st.ptr.length < ptr.length ∧
          ∀ fuel, contentLoop (fuel + 1) ptr xml n parent = .ok st) ∨
        (∃ e, e ≠ Fatal.outOfFuel ∧
          ∀ fuel, contentLoop (fuel + 1) ptr xml n parent = .error e) ∨
        ∃ ptr1 xml1 p parent1, ptr1.length < ptr.length ∧
          ∀ fuel, contentLoop (fuel + 1) ptr xml n parent =
            contentLoop fuel ptr1 xml1 p parent1) ∧
      (∀ ptr xml parent, ptr.length < XML_MAX_TAG_SIZE →
        (∃ r : CStr × Xml, r.1.length < ptr.length ∧
          ∀ fuel, elementLoop (fuel + 1) ptr xml parent = .ok r) ∨
        (∃ e, e ≠ Fatal.outOfFuel ∧ ∀ fuel, elementLoop (fuel + 1) ptr xml parent = .error e) ∨
        ∃ ptr1 xml1 m, ptr1.length < ptr.length ∧
          ∀ fuel, elementLoop (fuel + 1) ptr xml parent = elementLoop fuel ptr1 xml1 (some m)) ∧
      (∀ s, fromString_xml s ≠ .error .outOfFuel) ∧
      (∀ fuel ptr xml, ptr.length < fuel →
        metaLoop fuel ptr xml ≠ .error .outOfFuel ∧
          metaLoop fuel ptr xml = metaLoop (ptr.length + 1) ptr xml) ∧
      (∀ fuel ptr attrs, ptr.length < fuel →
        attributeLoop fuel ptr attrs ≠ .error .outOfFuel ∧
          attributeLoop fuel ptr attrs = attributeLoop (ptr.length + 1) ptr attrs) ∧
      (∀ fuel ptr xml n parent, ptr.length < fuel →
        contentLoop fuel ptr xml n parent ≠ .error .outOfFuel ∧
          contentLoop fuel ptr xml n parent = contentLoop (ptr.length + 1) ptr xml n parent) ∧
      ∀ fuel ptr xml parent, ptr.length < fuel →
        elementLoop fuel ptr xml parent ≠ .error .outOfFuel ∧
          elementLoop fuel ptr xml parent = elementLoop (ptr.length + 1) ptr xml parent :=
  ⟨fun s _ => by
      cases h : fromString_xml s with
      | ok xml => exact Or.inl ⟨xml, rfl⟩
      | error e => exact Or.inr ⟨e, fun he => fromString_xml_noFuel s (by rw [h, he]), rfl⟩,
    fun ptr xml _ => metaLoop_turn ptr xml, fun ptr attrs _ => attributeLoop_turn ptr attrs,
    fun ptr xml n parent _ => contentLoop_turn ptr xml n parent,
    fun ptr xml parent _ => elementLoop_turn ptr xml parent, fromString_xml_noFuel,
    fun fuel ptr xml h => ⟨(metaLoop_total fuel ptr xml h).1,
      (metaLoop_total _ ptr xml (Nat.lt_succ_self _)).2.2 fuel h⟩,
    fun fuel ptr attrs h => ⟨(attributeLoop_total fuel ptr attrs h).1,
      (attributeLoop_total _ ptr attrs (Nat.lt_succ_self _)).2.2 fuel h⟩,
    fun fuel ptr xml n parent h => ⟨(contentLoop_total fuel ptr xml n parent h).1,
      (contentLoop_total _ ptr xml n parent (Nat.lt_succ_self _)).2.2 fuel h⟩,
    fun fuel ptr xml parent h => ⟨(elementLoop_total fuel ptr xml parent h).1,
      (elementLoop_total _ ptr xml parent (Nat.lt_succ_self _)).2.2 fuel h⟩⟩

/-- The text `<a><b/>t</a>` has fewer than `XML_MAX_TAG_SIZE` bytes, so the parser returns
a tree for it or ends with a diagnostic; and a turn of the loop over text fragments at
`t</a>`, whose copied run `t` fits, leaves the loop, ends the run or goes on with a
shorter rest. -/
theorem C38_parser_terminates_witness :
    (bytes "<a><b/>t</a>").length < XML_MAX_TAG_SIZE ∧
      ((∃ xml, fromString_xml (bytes "<a><b/>t</a>") = .ok xml) ∨
        ∃ e, e ≠ Fatal.outOfFuel ∧ fromString_xml (bytes "<a><b/>t</a>") = .error e) ∧
      contentFits (bytes "t</a>") = true ∧ metaFits (bytes "?xml?><a/>") = true ∧
      attributeFits (bytes "k='v'/>") = true :=
  ⟨by decide, C38_parser_terminates.1 _ (by decide), by decide, by decide, by decide⟩

/-- C39: in every table reached from `initialize_ht` by successful `insert_ht` calls,
`nKeys` is the sum of the row counts and the number of distinct keys inserted; the keys
of one row are pairwise distinct and each hashes to that row (so the rows from
`HT_ROW_COUNT` on are empty); and an `insert_ht` of a key that was inserted before
succeeds and changes neither `nKeys` nor the count of any row. -/
theorem C39_table_counts_agree (ops : List (CStr × Nat)) (t : HashTable)
    (h : insertAll ops initialize_ht = .ok t) :
    t.nKeys = Finset.sum (Finset.range HT_ROW_COUNT) (fun r => (t.map r).length) ∧
      t.nKeys = (ops.map (·.1)).toFinset.card ∧
      (∀ r, ((t.map r).map (·.key)).Nodup) ∧
      (∀ r, ∀ m ∈ t.map r, hash m.key % HT_ROW_COUNT = r) ∧
      (∀ r, HT_ROW_COUNT ≤ r → t.map r = []) ∧
      (∀ k, (k ∈ ops.map (·.1) ↔ ∃ m ∈ t.map (hash k % HT_ROW_COUNT), m.key = k)) ∧
      ∀ k v, k ∈ ops.map (·.1) →
        ∃ t', insert_ht t k v = .ok t' ∧ t'.nKeys = t.nKeys ∧
          ∀ r, (t'.map r).length = (t.map r).length := by
  obtain ⟨g1, g2, g3, g4, g5, g6⟩ := insertAll_counts ops initialize_ht t [] h
    (by simp [initialize_ht]) (by simp [initialize_ht]) (by simp [initialize_ht])
    (by simp [initialize_ht]) (by simp) (by simp)
  simp only [List.nil_append] at g2 g4 g5 g6
  have hvalid := (insertAll_valid ops initialize_ht t h (by decide)
    (by intro r; simp [initialize_ht, HT_MAX_SAME_HASHES])).1
  refine ⟨g1, g2, g3, fun r m hm => (g4 r m hm).1, ?_, ?_, ?_⟩
  · intro r hr
    cases hrow : t.map r with
    | nil => rfl
    | cons m ms =>
      have := (g4 r m (by rw [hrow]; exact List.mem_cons_self _ _)).1
      have hlt : hash m.key % HT_ROW_COUNT < HT_ROW_COUNT := Nat.mod_lt _ (by decide)
      omega
  · intro k
    constructor
    · intro hk
      obtain ⟨m, hm, hmk⟩ := List.mem_map.mp (g5 k hk)
      exact ⟨m, hm, hmk⟩
    · rintro ⟨m, hm, hmk⟩
      rw [← hmk]
      exact (g4 _ m hm).2
  · intro k v hk
    exact insert_ht_present t k v hvalid (g6 k hk) (g5 k hk)

/-- The three calls of `sampleCalls` insert two distinct keys, and `nKeys` is 2. -/
theorem C39_table_counts_agree_witness :
    insertAll sampleCalls initialize_ht = .ok sampleTable ∧ sampleTable.nKeys = 2 ∧
      (sampleCalls.map (·.1)).toFinset.card = 2 ∧
      sampleTable.nKeys =
        Finset.sum (Finset.range HT_ROW_COUNT) (fun r => (sampleTable.map r).length) :=
  ⟨sampleCalls_run, by decide, (C39_table_counts_agree sampleCalls sampleTable sampleCalls_run).2.1 ▸ by decide,
    (C39_table_counts_agree sampleCalls sampleTable sampleCalls_run).1⟩

/-- C40: `fromString_xml` accepts one root element. On a document that is written as the
grammar says, followed by any text: when the text is whitespace the parser does what it
does on the document alone (the limit on the length applies to the whole text); when the
text has a byte that is not whitespace (a second element, stray text) the run ends with
a diagnostic, which is that of `ASSERT_EMPTY` whenever the document alone is accepted and
the whole text is short enough. And every text that the parser accepts has whitespace
only behind the place where the element loop is left. -/
theorem C40_one_root_element (D : Doc) (hlex : D.lexOk = true) (junk : CStr) :
    (junk.all isspace = true →
        fromString_xml (docText D ++ junk) =
          (ASSERT_NOT_TOO_LONG (docText D ++ junk) BUFFER_LARGE_SIZE >>= fun _ => buildDoc D)) ∧
      ((∃ c ∈ junk, isspace c = false) →
        (∃ e, fromString_xml (docText D ++ junk) = .error e) ∧
          ∀ xml, fromString_xml (docText D) = .ok xml →
            (docText D ++ junk).length < BUFFER_LARGE_SIZE →
            fromString_xml (docText D ++ junk) = .error .notEmpty) ∧
      ∀ s xml, fromString_xml s = .ok xml →
        ∃ ptr3 xml1 ptr4, ptr3.length < s.length ∧ ptr4.length < ptr3.length ∧
          elementLoop (ptr3.length + 1) ptr3 xml1 none = .ok (ptr4, xml) ∧
          ptr4.all isspace = true := by
  have key := parse_eq_junk D hlex junk
  refine ⟨fun hsp => ?_, fun hjunk => ?_, fromString_xml_rest⟩
  · rw [key, (skipSpaces_eq_nil_iff junk).mpr hsp]
    cases ASSERT_NOT_TOO_LONG (docText D ++ junk) BUFFER_LARGE_SIZE with
    | error e => rfl
    | ok u =>
      simp only [ok_bind]
      cases buildDoc D with
      | error e => rfl
      | ok xml => rfl
  · have hns : skipSpaces junk ≠ [] := by
      intro h0
      obtain ⟨c, hc, hcs⟩ := hjunk
      have := List.all_eq_true.mp ((skipSpaces_eq_nil_iff junk).mp h0) c hc
      rw [hcs] at this
      cases this
    have hempty : ASSERT_EMPTY (skipSpaces junk) = .error .notEmpty := by
      simp only [ASSERT_EMPTY, if_neg hns]
    constructor
    · rw [key, hempty]
      cases ASSERT_NOT_TOO_LONG (docText D ++ junk) BUFFER_LARGE_SIZE with
      | error e => exact ⟨e, rfl⟩
      | ok u =>
        simp only [ok_bind]
        cases buildDoc D with
        | error e => exact ⟨e, rfl⟩
        | ok xml => exact ⟨_, rfl⟩
    · intro xml hok hlen
      have hD := parse_eq D hlex
      rw [hok] at hD
      have hl1 : ASSERT_NOT_TOO_LONG (docText D ++ junk) BUFFER_LARGE_SIZE = .ok () :=
        ASSERT_NOT_TOO_LONG_ok.mpr hlen
      have hl2 : ASSERT_NOT_TOO_LONG (docText D) BUFFER_LARGE_SIZE = .ok () :=
        ASSERT_NOT_TOO_LONG_ok.mpr (by
          simp only [List.length_append] at hlen
          omega)
      rw [hl2, ok_bind] at hD
      rw [key, hl1, ok_bind, ← hD, ok_bind, hempty]
      rfl

/-- The document `<t></t>` is accepted, also when a line end follows it; a second element
or stray text behind it is refused with the diagnostic of `ASSERT_EMPTY`. -/
theorem C40_one_root_element_witness :
    plainDoc.lexOk = true ∧ (∃ c ∈ bytes "<u/>", isspace c = false) ∧
      (∃ xml, fromString_xml (docText plainDoc) = .ok xml) ∧
      fromString_xml (bytes "<t></t>\n") = fromString_xml (bytes "<t></t>") ∧
      fromString_xml (bytes "<t></t><u/>") = .error .notEmpty ∧
      fromString_xml (bytes "<t></t> x") = .error .notEmpty :=
  ⟨by decide!, ⟨60, by decide!, by decide!⟩, ⟨_, plainDoc_parsed⟩, by decide!,
    ((C40_one_root_element plainDoc (by decide!) (bytes "<u/>")).2.1
      ⟨60, by decide!, by decide!⟩).2 _ plainDoc_parsed (by decide!),
    by decide!⟩
/-- C37 (amended). For a document `D` written as the grammar says that `fromString_xml`
accepts with the tree `X`: when `toString_xml` returns for `X` a text `t` of at most
`BUFFER_LARGE_SIZE` bytes, that text is the `meta` string followed by the elements, each
with its attributes in double quotes and its texts encoded anew (`D.print`); when `t` is
shorter than `BUFFER_LARGE_SIZE`, `fromString_xml` accepts `t` and returns the same tree
`X`: the same `meta` string, tags, attribute names and values, children and text
fragments; and when `t` has exactly `BUFFER_LARGE_SIZE` bytes, `fromString_xml` refuses it
with the diagnostic of `ASSERT_NOT_TOO_LONG`. -/
theorem C37_print_then_parse (D : Doc) (X : Xml) (t : CStr) (hlex : D.lexOk = true)
    (hparse : fromString_xml (docText D) = .ok X) (hprint : toString_xml X = .ok t)
    (_hlen : t.length ≤ BUFFER_LARGE_SIZE) :
    t = D.print ∧ (t.length < BUFFER_LARGE_SIZE → fromString_xml t = .ok X) ∧
      (t.length = BUFFER_LARGE_SIZE → fromString_xml t = .error .tooLong) := by
  obtain ⟨ht, _⟩ := print_of_parsed D X t hlex hparse hprint
  subst ht
  refine ⟨rfl, fun hl => ?_, fun hl => fromString_xml_tooLong _ (le_of_eq hl.symm)⟩
  rw [parse_of_printed D X hlex hparse, if_pos hl]

/-- The document `printDoc`, with a declaration, whitespace in its tags, an attribute in
apostrophes, a self-closing element and references, is parsed, its tree is printed as a
text of 81 bytes, and that text is parsed to the same tree. -/
theorem C37_print_then_parse_witness :
    printDoc.lexOk = true ∧
      fromString_xml (docText printDoc) =
        .ok { meta := printDoc.meta, nodes := printDoc.nodes } ∧
      toString_xml { meta := printDoc.meta, nodes := printDoc.nodes } =
        .ok (bytes "<?xml version=\"1.0\"?><r k=\"a&quot;b&lt;\"> x&gt;y <e></e>&amp;<f>it&apos;s</f></r>") ∧
      (bytes "<?xml version=\"1.0\"?><r k=\"a&quot;b&lt;\"> x&gt;y <e></e>&amp;<f>it&apos;s</f></r>").length = 81 ∧
      fromString_xml
          (bytes "<?xml version=\"1.0\"?><r k=\"a&quot;b&lt;\"> x&gt;y <e></e>&amp;<f>it&apos;s</f></r>") =
        .ok { meta := printDoc.meta, nodes := printDoc.nodes } :=
  ⟨by decide!, printDoc_parsed, printDoc_printed, by decide!,
    (C37_print_then_parse printDoc _ _ (by decide!) printDoc_parsed printDoc_printed
      (by decide!)).2.1 (by decide!)⟩

/-- C37 (counterexample). The document `bigDoc` has 131017 bytes and no declaration;
`fromString_xml` accepts it, `toString_xml` returns a text for its tree, which begins with
the default `meta` string of 55 bytes and has exactly `BUFFER_LARGE_SIZE` bytes, and
`fromString_xml` refuses that text. -/
theorem C37_counterexample :
    ∃ X t, bigDoc.lexOk = true ∧ (docText bigDoc).length = 131017 ∧
      fromString_xml (docText bigDoc) = .ok X ∧ toString_xml X = .ok t ∧
      t.length = BUFFER_LARGE_SIZE ∧ fromString_xml t = .error .tooLong :=
  ⟨{ meta := bigDoc.meta, nodes := bigDoc.nodes }, bigDoc.print, bigDoc_lexOk,
    by rw [docText_textLen, bigDoc_textLen], bigDoc_parsed, bigDoc_printed,
    by rw [doc_print_length, bigDoc_printLen]; rfl,
    fromString_xml_tooLong _ (by rw [doc_print_length, bigDoc_printLen]; decide)⟩

end CompileDFA
